import Mathlib

/-! # Step-trace generators of the algorithm visualizer

A shallow embedding of the step generators in `src/algorithms/` (`sorting.js`,
`searching.js`, `recursion.js`, `hashing.js`) and proofs of their contracts.

Conventions of the embedding.

* A JavaScript array of integers is a `List Int`; a number that is an integer is an `Int`
  or a `Nat` (exact arithmetic, i.e. the values stay inside the safe-integer range of a
  JavaScript number).  An index variable that the source never lets go below zero is a `Nat`;
  where the source lets a variable reach `-1` the definition says how it is carried.
* The products of `factorialSteps` and the sums of `fibonacciSteps` leave the safe-integer
  range (from `19!` and from `F(79)` on).  They are doubles, a `JsNum`: each product or sum
  is rounded to the nearest double and overflows to `Infinity`.
* `steps.push(s)` is `steps ++ [s]`; a trace is the list of steps in emission order.
* A step record keeps the fields that carry state (`type`, snapshots, index sets,
  counters).  The narrative strings `message`, `highlight`, `description` are not part of
  the embedding.  A field that a step does not carry is `[]` or `none`.
* A `for` loop whose bounds are loop invariant is a left fold over the list of the values of
  its counter; a `while` loop and a recursive function are recursive definitions.  Where the
  recursion is not structural it is driven by a `fuel` argument and returns `none` when the
  fuel runs out; the theorems show that the fuel the generators pass is enough.
* A generator that can throw returns an `Option`: `none` is the exception.  Limits of the
  machine (stack depth, memory) are not part of the embedding.
-/

namespace AlgoViz

/-! ## JavaScript arrays -/

/-- The read `a[i]` of an array of integers; every read of the generators is in range. -/
def jsGet (a : List Int) (i : Nat) : Int := a.getD i 0

/-- The destructuring exchange `[a[i], a[j]] = [a[j], a[i]]`: the right-hand side is
evaluated first, then `a[i]` and `a[j]` are assigned in that order. -/
def jsSwap (a : List Int) (i j : Nat) : List Int :=
  (a.set i (jsGet a j)).set j (jsGet a i)

/-- The array `Array.from({length: n}, (_, idx) => f(idx))`. -/
def arrayFrom (n : Nat) (f : Nat → Nat) : List Nat := (List.range n).map f

/-- The loop `for (let k = lo; k < hi; k++) s = body(s, k)` with loop-invariant bounds. -/
def forLoop {σ : Type} (lo hi : Nat) (body : σ → Nat → σ) (s : σ) : σ :=
  (List.range' lo (hi - lo)).foldl body s

/-- The loop `while (cond(s)) s = body(s)`, run for at most `fuel` iterations: `none` when
the fuel is used up while the test still holds. -/
def whileLoop {σ : Type} (cond : σ → Bool) (body : σ → σ) : Nat → σ → Option σ
  | 0, s => if cond s then none else some s
  | fuel + 1, s => if cond s then whileLoop cond body fuel (body s) else some s

/-- The copy `a.slice(lo, hi)` for `0 ≤ lo` and `0 ≤ hi`. -/
def jsSlice (a : List Int) (lo hi : Nat) : List Int := (a.drop lo).take (hi - lo)

/-! ## Sorting: step records -/

/-- The `type` tags of the sorting traces; `init` is the tag `'initialize'`. -/
inductive SortKind
  | init | passStart | compare | swap | markSorted | complete
  | newMinimum | noSwap
  | select | shift | foundPosition | insertBeginning | insert
  | divide | merge
  | selectPivot | placePivot
  deriving DecidableEq, Repr

/-- A step of a sorting trace. -/
structure SortStep where
  type : SortKind
  array : List Int
  comparing : List Nat := []
  swapping : List Nat := []
  sorted : List Nat := []
  shifting : List Nat := []
  merged : List Nat := []
  range : List Nat := []
  pivot : Option Nat := none
  stepNumber : Option Nat := none
  deriving DecidableEq, Repr

/-- The mutable variables of a sorting generator: the working copy `result`, the trace
`steps` and the counter `stepCounter`. -/
structure SortState where
  result : List Int
  steps : List SortStep
  stepCounter : Nat
  deriving DecidableEq, Repr

/-- The statement `steps.push({..., stepNumber: stepCounter++})`. -/
def SortState.emit (st : SortState) (s : SortStep) : SortState :=
  { st with
    steps := st.steps ++ [{ s with stepNumber := some st.stepCounter }]
    stepCounter := st.stepCounter + 1 }

/-- The statement `steps.push({...})` of the generators that do not number their steps. -/
def SortState.push (st : SortState) (s : SortStep) : SortState :=
  { st with steps := st.steps ++ [s] }

/-! ## Bubble sort (`bubbleSortSteps`) -/

/-- The index set `Array.from({length: i}, (_, idx) => result.length - 1 - idx)`. -/
def bubbleSortedSet (n i : Nat) : List Nat := arrayFrom i (fun idx => n - 1 - idx)

/-- One iteration of the inner loop `for (let j = 0; j < result.length - i - 1; j++)`. -/
def bubbleInner (i : Nat) (st : SortState) (j : Nat) : SortState :=
  let st1 := st.emit
    { type := .compare, array := st.result, comparing := [j, j + 1],
      sorted := bubbleSortedSet st.result.length i }
  if jsGet st1.result j > jsGet st1.result (j + 1) then
    let r := jsSwap st1.result j (j + 1)
    ({ st1 with result := r }).emit
      { type := .swap, array := r, swapping := [j, j + 1],
        sorted := bubbleSortedSet r.length i }
  else st1

/-- One iteration of the outer loop `for (let i = 0; i < result.length - 1; i++)`. -/
def bubbleOuter (st : SortState) (i : Nat) : SortState :=
  let st1 := st.emit
    { type := .passStart, array := st.result,
      sorted := bubbleSortedSet st.result.length i }
  let st2 := forLoop 0 (st1.result.length - i - 1) (bubbleInner i) st1
  st2.emit
    { type := .markSorted, array := st2.result,
      sorted := bubbleSortedSet st2.result.length (i + 1) }

/-- The final state of `bubbleSortSteps`, before `return steps`. -/
def bubbleSortRun (arr : List Int) : SortState :=
  let st0 : SortState := { result := arr, steps := [], stepCounter := 1 }
  let st1 := st0.emit { type := .init, array := st0.result }
  let st2 := forLoop 0 (st1.result.length - 1) bubbleOuter st1
  st2.emit
    { type := .complete, array := st2.result,
      sorted := arrayFrom st2.result.length (fun idx => idx) }

/-- The generator `bubbleSortSteps(arr)`. -/
def bubbleSortSteps (arr : List Int) : List SortStep := (bubbleSortRun arr).steps

/-! ## Selection sort (`selectionSortSteps`) -/

/-- One iteration of the inner loop `for (let j = i + 1; j < result.length; j++)`; the
second component is the variable `minIndex`. -/
def selectionInner (i : Nat) (sm : SortState × Nat) (j : Nat) : SortState × Nat :=
  let st := sm.1
  let minIndex := sm.2
  let st1 := st.emit
    { type := .compare, array := st.result, comparing := [minIndex, j],
      sorted := arrayFrom i (fun idx => idx) }
  if jsGet st1.result j < jsGet st1.result minIndex then
    (st1.emit
      { type := .newMinimum, array := st1.result, comparing := [j, j],
        sorted := arrayFrom i (fun idx => idx) }, j)
  else (st1, minIndex)

/-- One iteration of the outer loop `for (let i = 0; i < result.length - 1; i++)`. -/
def selectionOuter (st : SortState) (i : Nat) : SortState :=
  let st1 := st.emit
    { type := .passStart, array := st.result, sorted := arrayFrom i (fun idx => idx) }
  let sm := forLoop (i + 1) st1.result.length (selectionInner i) (st1, i)
  let st2 := sm.1
  let minIndex := sm.2
  let st3 :=
    if minIndex ≠ i then
      let r := jsSwap st2.result i minIndex
      ({ st2 with result := r }).emit
        { type := .swap, array := r, swapping := [i, minIndex],
          sorted := arrayFrom i (fun idx => idx) }
    else
      st2.emit { type := .noSwap, array := st2.result, sorted := arrayFrom i (fun idx => idx) }
  st3.emit
    { type := .markSorted, array := st3.result, sorted := arrayFrom (i + 1) (fun idx => idx) }

/-- The final state of `selectionSortSteps`, before `return steps`. -/
def selectionSortRun (arr : List Int) : SortState :=
  let st0 : SortState := { result := arr, steps := [], stepCounter := 1 }
  let st1 := st0.emit { type := .init, array := st0.result }
  let st2 := forLoop 0 (st1.result.length - 1) selectionOuter st1
  st2.emit
    { type := .complete, array := st2.result,
      sorted := arrayFrom st2.result.length (fun idx => idx) }

/-- The generator `selectionSortSteps(arr)`. -/
def selectionSortSteps (arr : List Int) : List SortStep := (selectionSortRun arr).steps

/-! ## Insertion sort (`insertionSortSteps`) -/

/-- The loop `while (j >= 0 && result[j] > key)`.  The source variable `j` runs from `i - 1`
down to `-1`; the definition carries `k = j + 1`, so the loop test `j >= 0` is `k ≠ 0` and the
returned number is `j + 1`, the insert position.  Both snapshots of an iteration are taken
before the assignment `result[j + 1] = result[j]`. -/
def insertionWhile (key : Int) (i : Nat) : Nat → SortState → Nat × SortState
  | 0, st => (0, st)
  | k + 1, st =>
    if jsGet st.result k > key then
      let st1 := st.emit
        { type := .compare, array := st.result, comparing := [k, i],
          sorted := arrayFrom i (fun idx => idx) }
      let st2 := st1.emit
        { type := .shift, array := st1.result, shifting := [k, k + 1],
          sorted := arrayFrom i (fun idx => idx) }
      insertionWhile key i k { st2 with result := st2.result.set (k + 1) (jsGet st2.result k) }
    else (k + 1, st)

/-- One iteration of the outer loop `for (let i = 1; i < result.length; i++)`. -/
def insertionOuter (st : SortState) (i : Nat) : SortState :=
  let key := jsGet st.result i
  let st1 := st.emit
    { type := .select, array := st.result, sorted := arrayFrom i (fun idx => idx) }
  let ks := insertionWhile key i i st1
  let k := ks.1
  let st2 := ks.2
  let st3 :=
    if k ≠ 0 then
      st2.emit
        { type := .foundPosition, array := st2.result, comparing := [k - 1, i],
          sorted := arrayFrom i (fun idx => idx) }
    else
      st2.emit
        { type := .insertBeginning, array := st2.result,
          sorted := arrayFrom i (fun idx => idx) }
  let r := st3.result.set k key
  ({ st3 with result := r }).emit
    { type := .insert, array := r, sorted := arrayFrom (i + 1) (fun idx => idx) }

/-- The final state of `insertionSortSteps`, before `return steps`. -/
def insertionSortRun (arr : List Int) : SortState :=
  let st0 : SortState := { result := arr, steps := [], stepCounter := 1 }
  let st1 := st0.emit { type := .init, array := st0.result, sorted := [0] }
  let st2 := forLoop 1 st1.result.length insertionOuter st1
  st2.emit
    { type := .complete, array := st2.result,
      sorted := arrayFrom st2.result.length (fun idx => idx) }

/-- The generator `insertionSortSteps(arr)`. -/
def insertionSortSteps (arr : List Int) : List SortStep := (insertionSortRun arr).steps

/-! ## Merge sort (`mergeSortSteps`)

`mergeSortSteps` and `quickSortSteps` have no variable `stepCounter`: the component of
`SortState` is carried along untouched and their steps have `stepNumber = none`. -/

/-- The variables `i`, `j`, `k` of `merge` together with the generator state. -/
structure MergeVars where
  i : Nat
  j : Nat
  k : Nat
  st : SortState
  deriving DecidableEq, Repr

/-- Body of `while (i < leftArr.length && j < rightArr.length)`. -/
def mergeSortSteps.mergeBody (left mid : Nat) (leftArr rightArr : List Int) (v : MergeVars) :
    MergeVars :=
  let st1 := v.st.push
    { type := .compare, array := v.st.result, comparing := [left + v.i, mid + 1 + v.j] }
  if jsGet leftArr v.i ≤ jsGet rightArr v.j then
    { i := v.i + 1, j := v.j, k := v.k + 1,
      st := { st1 with result := st1.result.set v.k (jsGet leftArr v.i) } }
  else
    { i := v.i, j := v.j + 1, k := v.k + 1,
      st := { st1 with result := st1.result.set v.k (jsGet rightArr v.j) } }

/-- Body of `while (i < leftArr.length)`. -/
def mergeSortSteps.copyLeft (leftArr : List Int) (v : MergeVars) : MergeVars :=
  { i := v.i + 1, j := v.j, k := v.k + 1,
    st := { v.st with result := v.st.result.set v.k (jsGet leftArr v.i) } }

/-- Body of `while (j < rightArr.length)`. -/
def mergeSortSteps.copyRight (rightArr : List Int) (v : MergeVars) : MergeVars :=
  { i := v.i, j := v.j + 1, k := v.k + 1,
    st := { v.st with result := v.st.result.set v.k (jsGet rightArr v.j) } }

/-- The inner function `merge(left, mid, right)`.  Each loop advances `i` or `j`, so
`leftArr.length + rightArr.length` iterations are enough for each of them. -/
def mergeSortSteps.merge (left mid right : Nat) (st : SortState) : Option SortState :=
  let leftArr := jsSlice st.result left (mid + 1)
  let rightArr := jsSlice st.result (mid + 1) (right + 1)
  let fuel := leftArr.length + rightArr.length
  (whileLoop (fun v => decide (v.i < leftArr.length ∧ v.j < rightArr.length))
      (mergeSortSteps.mergeBody left mid leftArr rightArr) fuel
      { i := 0, j := 0, k := left, st := st }).bind fun v1 =>
  (whileLoop (fun v => decide (v.i < leftArr.length))
      (mergeSortSteps.copyLeft leftArr) fuel v1).bind fun v2 =>
  (whileLoop (fun v => decide (v.j < rightArr.length))
      (mergeSortSteps.copyRight rightArr) fuel v2).bind fun v3 =>
  some v3.st

/-- The inner recursive function `mergeSort(left, right)`; `fuel` bounds the depth of the
recursion and `none` is returned when it is used up. -/
def mergeSortSteps.mergeSort : Nat → Int → Int → SortState → Option SortState
  | 0, _, _, _ => none
  | fuel + 1, left, right, st =>
    if left < right then
      let mid := (left + right) / 2
      let st1 := st.push
        { type := .divide, array := st.result, range := [left.toNat, right.toNat] }
      (mergeSortSteps.mergeSort fuel left mid st1).bind fun st2 =>
      (mergeSortSteps.mergeSort fuel (mid + 1) right st2).bind fun st3 =>
      (mergeSortSteps.merge left.toNat mid.toNat right.toNat st3).bind fun st4 =>
      some (st4.push
        { type := .merge, array := st4.result,
          merged := arrayFrom (right - left + 1).toNat (fun i => left.toNat + i) })
    else some st

/-- The final state of `mergeSortSteps`, before `return steps`: the call
`mergeSort(0, result.length - 1)`, whose recursion is at most `result.length` deep. -/
def mergeSortRun (arr : List Int) : Option SortState :=
  mergeSortSteps.mergeSort (arr.length + 1) 0 ((arr.length : Int) - 1)
    { result := arr, steps := [], stepCounter := 1 }

/-- The generator `mergeSortSteps(arr)`. -/
def mergeSortSteps (arr : List Int) : Option (List SortStep) :=
  (mergeSortRun arr).map (fun st => st.steps)

/-! ## Quick sort (`quickSortSteps`) -/

/-- One iteration of `for (let j = low; j < high; j++)` in `partition`.  The source variable
`i` starts at `low - 1`; the second component carries `i + 1`, so that `i++` followed by the
exchange of `result[i]` and `result[j]` is the exchange at the carried value followed by its
increment. -/
def quickSortSteps.partitionBody (high : Nat) (pivot : Int) (si : SortState × Nat) (j : Nat) :
    SortState × Nat :=
  let st := si.1
  let i1 := si.2
  let st1 := st.push { type := .compare, array := st.result, comparing := [j, high] }
  if jsGet st1.result j < pivot then
    let r := jsSwap st1.result i1 j
    (({ st1 with result := r }).push { type := .swap, array := r, swapping := [i1, j] },
      i1 + 1)
  else (st1, i1)

/-- The inner function `partition(low, high)`; the first component is its return value
`i + 1`. -/
def quickSortSteps.partition (low high : Nat) (st : SortState) : Nat × SortState :=
  let pivot := jsGet st.result high
  let st1 := st.push { type := .selectPivot, array := st.result, pivot := some high }
  let si := forLoop low high (quickSortSteps.partitionBody high pivot) (st1, low)
  let st2 := si.1
  let i1 := si.2
  let r := jsSwap st2.result i1 high
  (i1, ({ st2 with result := r }).push { type := .placePivot, array := r, pivot := some i1 })

/-- The inner recursive function `quickSort(low, high)`; `fuel` bounds the depth of the
recursion and `none` is returned when it is used up. -/
def quickSortSteps.quickSort : Nat → Int → Int → SortState → Option SortState
  | 0, _, _, _ => none
  | fuel + 1, low, high, st =>
    if low < high then
      let ps := quickSortSteps.partition low.toNat high.toNat st
      let pi : Int := (ps.1 : Int)
      (quickSortSteps.quickSort fuel low (pi - 1) ps.2).bind fun st2 =>
      quickSortSteps.quickSort fuel (pi + 1) high st2
    else some st

/-- The final state of `quickSortSteps`, before `return steps`: the call
`quickSort(0, result.length - 1)`, whose recursion is at most `result.length` deep. -/
def quickSortRun (arr : List Int) : Option SortState :=
  quickSortSteps.quickSort (arr.length + 1) 0 ((arr.length : Int) - 1)
    { result := arr, steps := [], stepCounter := 1 }

/-- The generator `quickSortSteps(arr)`. -/
def quickSortSteps (arr : List Int) : Option (List SortStep) :=
  (quickSortRun arr).map (fun st => st.steps)

/-! ## Searching: step records -/

/-- The `type` tags of the search traces; `init` is the tag `'initialize'`. -/
inductive SearchKind
  | init | examine | compare | found | notFound
  | calculateMid | examineMid | searchRight | searchLeft
  deriving DecidableEq, Repr

/-- A step of a search trace.  `searchRange` holds `{start, end}` for the linear search and
`{left, right}` for the binary search. -/
structure SearchStep where
  type : SearchKind
  array : List Int
  target : Int
  searchRange : Int × Int
  currentIndex : Option Nat := none
  mid : Option Int := none
  value : Option Int := none
  isMatch : Option Bool := none
  foundIndex : Option Int := none
  comparisons : Option Int := none
  stepNumber : Option Nat := none
  deriving DecidableEq, Repr

/-- The trace `steps` and the counter `stepCounter` of a search generator. -/
structure SearchState where
  steps : List SearchStep
  stepCounter : Nat
  deriving DecidableEq, Repr

/-- The statement `steps.push({..., stepNumber: stepCounter++})`. -/
def SearchState.emit (st : SearchState) (s : SearchStep) : SearchState :=
  { steps := st.steps ++ [{ s with stepNumber := some st.stepCounter }]
    stepCounter := st.stepCounter + 1 }

/-! ## Linear search (`linearSearchSteps`) -/

/-- The loop `for (let i = startIndex; i < array.length; i++)` together with the statements
after it.  The first argument is the number `array.length - i` of iterations that are left
when the test `i < array.length` is evaluated; the `found` branch is the early
`return steps`, the case `0` is the exit of the loop followed by the `not-found` step. -/
def linearSearchSteps.scan (array : List Int) (target : Int) (startIndex : Nat) :
    Nat → Nat → SearchState → SearchState
  | 0, _, st =>
    st.emit
      { type := .notFound, array := array, target := target,
        searchRange := (startIndex, (array.length : Int) - 1),
        comparisons := some ((array.length : Int) - startIndex) }
  | n + 1, i, st =>
    let st1 := st.emit
      { type := .examine, array := array, target := target, currentIndex := some i,
        searchRange := (startIndex, (array.length : Int) - 1), value := some (jsGet array i) }
    let st2 := st1.emit
      { type := .compare, array := array, target := target, currentIndex := some i,
        searchRange := (startIndex, (array.length : Int) - 1), value := some (jsGet array i),
        isMatch := some (decide (jsGet array i = target)) }
    if jsGet array i = target then
      st2.emit
        { type := .found, array := array, target := target, foundIndex := some (i : Int),
          searchRange := (startIndex, (array.length : Int) - 1),
          comparisons := some ((i : Int) - startIndex + 1) }
    else linearSearchSteps.scan array target startIndex n (i + 1) st2

/-- The generator `linearSearchSteps(array, target, startIndex)` for an integer
`startIndex ≥ 0`. -/
def linearSearchSteps (array : List Int) (target : Int) (startIndex : Nat) : List SearchStep :=
  let st0 : SearchState := { steps := [], stepCounter := 1 }
  let st1 := st0.emit
    { type := .init, array := array, target := target,
      searchRange := (startIndex, (array.length : Int) - 1) }
  (linearSearchSteps.scan array target startIndex (array.length - startIndex) startIndex
    st1).steps

/-! ## Binary search (`binarySearchSteps`) -/

/-- The loop `while (left <= right)` together with the `not-found` step after it; the
`found` branch is the early `return steps`.  The variables `left` and `right` are integers
(`right` starts at `array.length - 1`, which is `-1` for the empty array); `fuel` bounds the
number of iterations and `none` is returned when it is used up. -/
def binarySearchSteps.loop (array : List Int) (target : Int) :
    Nat → Int → Int → Int → SearchState → Option SearchState
  | fuel, left, right, comparisons, st =>
    if left ≤ right then
      match fuel with
      | 0 => none
      | fuel + 1 =>
        let mid := (left + right) / 2
        let st1 := st.emit
          { type := .calculateMid, array := array, target := target,
            searchRange := (left, right), mid := some mid }
        let st2 := st1.emit
          { type := .examineMid, array := array, target := target,
            searchRange := (left, right), mid := some mid,
            value := some (jsGet array mid.toNat) }
        let comparisons := comparisons + 1
        let st3 := st2.emit
          { type := .compare, array := array, target := target,
            searchRange := (left, right), mid := some mid,
            value := some (jsGet array mid.toNat),
            isMatch := some (decide (jsGet array mid.toNat = target)) }
        if jsGet array mid.toNat = target then
          some (st3.emit
            { type := .found, array := array, target := target, foundIndex := some mid,
              searchRange := (left, right), comparisons := some comparisons })
        else if jsGet array mid.toNat < target then
          let left := mid + 1
          binarySearchSteps.loop array target fuel left right comparisons (st3.emit
            { type := .searchRight, array := array, target := target,
              searchRange := (left, right) })
        else
          let right := mid - 1
          binarySearchSteps.loop array target fuel left right comparisons (st3.emit
            { type := .searchLeft, array := array, target := target,
              searchRange := (left, right) })
    else
      some (st.emit
        { type := .notFound, array := array, target := target,
          searchRange := (left, right), comparisons := some comparisons })

/-- The generator `binarySearchSteps(array, target)`.  Every iteration removes at least the
cell `mid` from the range, so `array.length` iterations are enough. -/
def binarySearchSteps (array : List Int) (target : Int) : Option (List SearchStep) :=
  let st0 : SearchState := { steps := [], stepCounter := 1 }
  let st1 := st0.emit
    { type := .init, array := array, target := target,
      searchRange := (0, (array.length : Int) - 1) }
  (binarySearchSteps.loop array target array.length 0 ((array.length : Int) - 1) 0 st1).map
    (fun st => st.steps)

/-! ## The numbers computed by the recursion traces

`factorial` and `fibonacci` compute with JavaScript numbers, which are IEEE 754 doubles.  The
operands that occur are non-negative integers and `Infinity`.  The product or sum of two
finite operands is the exact result rounded to the nearest double, a tie going to the even
significand, and a rounded result of `2^1024` or more is `Infinity`.  The argument `n` of a
generator is an integer below `2^53`, so that `n` and every `num - 1` are exact. -/

/-- A JavaScript number as the products and sums of the recursion traces produce it: a finite
double whose value is the non-negative integer `v`, or `Infinity`, or `NaN`. -/
inductive JsNum
  | fin (v : Nat)
  | inf
  | nan
  deriving DecidableEq, Repr

/-- The spacing of the doubles around `x`: the least power of two `u`, not below the given
one, with `x < 2^53 * u`.  The doubles in the binade of `x` are the multiples of that `u`.
The search is cut off after `fuel` doublings. -/
def ulpFrom : Nat → Nat → Nat → Nat
  | 0, _, u => u
  | fuel + 1, x, u => if x < 2 ^ 53 * u then u else ulpFrom fuel x (2 * u)

/-- The number `2^1024`, written as `(2^256)^4`: every finite double is below it. -/
def doubleLimit : Nat := (2 ^ 256) ^ 4

/-- The double nearest to the exact non-negative integer `x` (round to nearest, ties to
even): `x` itself below `2^53`, else the nearest multiple of the spacing `u`, and `Infinity`
when that is `2^1024` or more.  With `1024` doublings the spacing is found for every
`x < 2^1077`, and a larger `x` rounds to `2^1024` or more whatever the spacing. -/
def roundDouble (x : Nat) : JsNum :=
  let u := ulpFrom 1024 x 1
  let q := x / u
  let r := x % u
  let q1 := if 2 * r < u ∨ (2 * r = u ∧ q % 2 = 0) then q else q + 1
  if q1 * u < doubleLimit then .fin (q1 * u) else .inf

/-- The product `a * b` of two JavaScript numbers; `0 * Infinity` is `NaN`. -/
def JsNum.mul : JsNum → JsNum → JsNum
  | .fin a, .fin b => roundDouble (a * b)
  | .fin a, .inf => if a = 0 then .nan else .inf
  | .inf, .fin b => if b = 0 then .nan else .inf
  | .inf, .inf => .inf
  | .nan, _ => .nan
  | _, .nan => .nan

/-- The sum `a + b` of two JavaScript numbers. -/
def JsNum.add : JsNum → JsNum → JsNum
  | .fin a, .fin b => roundDouble (a + b)
  | .fin _, .inf => .inf
  | .inf, .fin _ => .inf
  | .inf, .inf => .inf
  | .nan, _ => .nan
  | _, .nan => .nan

/-! ## Recursion traces: step records -/

/-- A frame `{ value, depth }` of the call stack. -/
structure Frame where
  value : Nat
  depth : Nat
  deriving DecidableEq, Repr

/-- The `type` tags of the factorial and Fibonacci traces; `ret` is the tag `'return'`. -/
inductive RecKind
  | call | baseCase | ret | memoized | complete
  deriving DecidableEq, Repr

/-- The object `memo` of `fibonacciSteps`: its entries `(argument, value)`, listed as a
JavaScript object lists integer keys, in ascending order. -/
abbrev Memo := List (Nat × JsNum)

/-- The read `memo[k]`; `none` is `undefined`. -/
def Memo.get (m : Memo) (k : Nat) : Option JsNum := List.lookup k m

/-- The assignment `memo[k] = v`. -/
def Memo.set : Memo → Nat → JsNum → Memo
  | [], k, v => [(k, v)]
  | (k1, v1) :: m, k, v =>
    if k < k1 then (k, v) :: (k1, v1) :: m
    else if k = k1 then (k, v) :: m
    else (k1, v1) :: Memo.set m k v

/-- A step of a factorial or Fibonacci trace.  The factorial steps carry no `memoSnapshot`
and only the `complete` step of `fibonacciSteps` carries `fibTree`. -/
structure RecStep where
  type : RecKind
  callStack : List Frame
  value : Option Nat := none
  result : Option JsNum := none
  finalResult : Option JsNum := none
  fibTree : Option Bool := none
  memoSnapshot : Option Memo := none
  deriving DecidableEq, Repr

/-- The variables `steps`, `callStack` and (for Fibonacci) `memo` of a generator. -/
structure RecState where
  steps : List RecStep
  callStack : List Frame
  memo : Memo := []
  deriving DecidableEq, Repr

/-! ## Factorial (`factorialSteps`) -/

/-- The statements `callStack.push({ value: num, depth })` and the push of the `call`
step. -/
def factorialSteps.enter (num depth : Nat) (st : RecState) : RecState :=
  let callStack := st.callStack ++ [{ value := num, depth := depth }]
  { st with
    callStack := callStack
    steps := st.steps ++ [{ type := .call, callStack := callStack }] }

/-- The branch `if (num <= 1)`: the `base-case` step, `callStack.pop()` and `return 1`. -/
def factorialSteps.baseCase (st : RecState) : JsNum × RecState :=
  (.fin 1, { st with
             steps := st.steps ++
               [{ type := .baseCase, callStack := st.callStack, result := some (.fin 1) }]
             callStack := st.callStack.dropLast })

/-- The statements after the recursive call: the `return` step, `callStack.pop()` and
`return result`. -/
def factorialSteps.leave (result : JsNum) (st : RecState) : JsNum × RecState :=
  (result, { st with
             steps := st.steps ++
               [{ type := .ret, callStack := st.callStack, result := some result }]
             callStack := st.callStack.dropLast })

/-- The inner recursive function `factorial(num, depth)`; the product
`num * factorial(num - 1, depth + 1)` is a product of doubles. -/
def factorialSteps.factorial : Nat → Nat → RecState → JsNum × RecState
  | 0, depth, st => factorialSteps.baseCase (factorialSteps.enter 0 depth st)
  | num + 1, depth, st =>
    let st1 := factorialSteps.enter (num + 1) depth st
    if num + 1 ≤ 1 then factorialSteps.baseCase st1
    else
      let rs := factorialSteps.factorial num (depth + 1) st1
      factorialSteps.leave (JsNum.mul (.fin (num + 1)) rs.1) rs.2

/-- The generator `factorialSteps(n)`. -/
def factorialSteps (n : Nat) : List RecStep :=
  let rs := factorialSteps.factorial n 0 { steps := [], callStack := [] }
  rs.2.steps ++ [{ type := .complete, callStack := [], finalResult := some rs.1 }]

/-! ## Fibonacci with memoization (`fibonacciSteps`) -/

/-- The branch `if (memo[num] !== undefined)`: the `memoized` step and `return memo[num]`. -/
def fibonacciSteps.hit (num : Nat) (v : JsNum) (st : RecState) : JsNum × RecState :=
  (v, { st with
        steps := st.steps ++
          [{ type := .memoized, callStack := st.callStack, value := some num,
             result := some v, memoSnapshot := some st.memo }] })

/-- The statements `callStack.push({ value: num, depth })` and the push of the `call`
step. -/
def fibonacciSteps.enter (num depth : Nat) (st : RecState) : RecState :=
  let callStack := st.callStack ++ [{ value := num, depth := depth }]
  { st with
    callStack := callStack
    steps := st.steps ++
      [{ type := .call, callStack := callStack, memoSnapshot := some st.memo }] }

/-- The branch `if (num <= 1)`: the `base-case` step, `callStack.pop()`, `memo[num] = num`
and `return num`. -/
def fibonacciSteps.baseCase (num : Nat) (st : RecState) : JsNum × RecState :=
  (.fin num, { steps := st.steps ++
                 [{ type := .baseCase, callStack := st.callStack, result := some (.fin num),
                    memoSnapshot := some st.memo }]
               callStack := st.callStack.dropLast
               memo := st.memo.set num (.fin num) })

/-- The statements after the two recursive calls: the `return` step, `callStack.pop()`,
`memo[num] = result` and `return result`. -/
def fibonacciSteps.leave (num : Nat) (result : JsNum) (st : RecState) :
    JsNum × RecState :=
  (result, { steps := st.steps ++
               [{ type := .ret, callStack := st.callStack, result := some result,
                  memoSnapshot := some st.memo }]
             callStack := st.callStack.dropLast
             memo := st.memo.set num result })

/-- The inner recursive function `fibonacci(num, depth)`: the memo is consulted first; for
`num <= 1` the base case; otherwise `fibonacci(num - 1)` is evaluated before
`fibonacci(num - 2)` and the two results are added as doubles. -/
def fibonacciSteps.fibonacci : Nat → Nat → RecState → JsNum × RecState
  | 0, depth, st =>
    match st.memo.get 0 with
    | some v => fibonacciSteps.hit 0 v st
    | none => fibonacciSteps.baseCase 0 (fibonacciSteps.enter 0 depth st)
  | 1, depth, st =>
    match st.memo.get 1 with
    | some v => fibonacciSteps.hit 1 v st
    | none => fibonacciSteps.baseCase 1 (fibonacciSteps.enter 1 depth st)
  | num + 2, depth, st =>
    match st.memo.get (num + 2) with
    | some v => fibonacciSteps.hit (num + 2) v st
    | none =>
      let st1 := fibonacciSteps.enter (num + 2) depth st
      let r1 := fibonacciSteps.fibonacci (num + 1) (depth + 1) st1
      let r2 := fibonacciSteps.fibonacci num (depth + 1) r1.2
      fibonacciSteps.leave (num + 2) (JsNum.add r1.1 r2.1) r2.2

/-- The generator `fibonacciSteps(n)`. -/
def fibonacciSteps (n : Nat) : List RecStep :=
  let rs := fibonacciSteps.fibonacci n 0 { steps := [], callStack := [] }
  rs.2.steps ++
    [{ type := .complete, callStack := [], finalResult := some rs.1, fibTree := some true,
       memoSnapshot := some rs.2.memo }]

/-! ## Tower of Hanoi (`towerOfHanoiSteps`) -/

/-- The keys `'A'`, `'B'`, `'C'` of the object `towers`. -/
inductive Peg
  | A | B | C
  deriving DecidableEq, Repr

/-- The object `towers = { A: [...], B: [...], C: [...] }`; each peg lists its disks from
the bottom to the top. -/
structure Towers where
  A : List Nat
  B : List Nat
  C : List Nat
  deriving DecidableEq, Repr

/-- The read `towers[p]`. -/
def Towers.get (t : Towers) : Peg → List Nat
  | .A => t.A
  | .B => t.B
  | .C => t.C

/-- The object `towers` after the array of peg `p` has become `l`. -/
def Towers.set (t : Towers) (p : Peg) (l : List Nat) : Towers :=
  match p with
  | .A => { t with A := l }
  | .B => { t with B := l }
  | .C => { t with C := l }

/-- The `type` tags of the Hanoi trace. -/
inductive HanoiKind
  | initial | move | recursiveCall | complete
  deriving DecidableEq, Repr

/-- The field `move: { disk, from, to }`. -/
structure HanoiMove where
  disk : Nat
  fromPeg : Peg
  toPeg : Peg
  deriving DecidableEq, Repr

/-- A step of the Hanoi trace; `towers` is the snapshot `[[...A], [...B], [...C]]`. -/
structure HanoiStep where
  type : HanoiKind
  towers : List (List Nat)
  moveCount : Nat
  move : Option HanoiMove := none
  depth : Option Nat := none
  deriving DecidableEq, Repr

/-- The variables `towers`, `moveCount` and `steps` of `towerOfHanoiSteps`. -/
structure HanoiState where
  towers : Towers
  moveCount : Nat
  steps : List HanoiStep
  deriving DecidableEq, Repr

/-- The inner function `cloneTowersArray()`. -/
def towerOfHanoiSteps.cloneTowersArray (t : Towers) : List (List Nat) := [t.A, t.B, t.C]

/-- The statements `const disk = towers[src].pop(); towers[dest].push(disk); moveCount++;`
followed by the push of the `move` step.  On an empty peg `pop()` yields `undefined`; the
embedding has no such disk and stops with `none` there. -/
def towerOfHanoiSteps.moveDisk (src dest : Peg) (depth : Nat) (st : HanoiState) :
    Option HanoiState :=
  match (st.towers.get src).getLast? with
  | none => none
  | some disk =>
    let t1 := st.towers.set src (st.towers.get src).dropLast
    let t2 := t1.set dest (t1.get dest ++ [disk])
    let moveCount := st.moveCount + 1
    some
      { towers := t2, moveCount := moveCount,
        steps := st.steps ++
          [{ type := .move, towers := towerOfHanoiSteps.cloneTowersArray t2,
             moveCount := moveCount,
             move := some { disk := disk, fromPeg := src, toPeg := dest },
             depth := some depth }] }

/-- The push of a `recursive-call` step. -/
def towerOfHanoiSteps.announce (depth : Nat) (st : HanoiState) : HanoiState :=
  { st with
    steps := st.steps ++
      [{ type := .recursiveCall, towers := towerOfHanoiSteps.cloneTowersArray st.towers,
         moveCount := st.moveCount, depth := some depth }] }

/-- The inner recursive function `hanoi(disks, src, dest, aux, depth)`.  For `disks = 0`
the test `disks === 1` never succeeds and the source recurses without end: `none`. -/
def towerOfHanoiSteps.hanoi : Nat → Peg → Peg → Peg → Nat → HanoiState → Option HanoiState
  | 0, _, _, _, _, _ => none
  | 1, src, dest, _, depth, st => towerOfHanoiSteps.moveDisk src dest depth st
  | disks + 2, src, dest, aux, depth, st =>
    (towerOfHanoiSteps.hanoi (disks + 1) src aux dest (depth + 1)
      (towerOfHanoiSteps.announce depth st)).bind fun st1 =>
    (towerOfHanoiSteps.moveDisk src dest depth st1).bind fun st2 =>
    towerOfHanoiSteps.hanoi (disks + 1) aux dest src (depth + 1)
      (towerOfHanoiSteps.announce depth st2)

/-- The disks pushed by `for (let i = n; i >= 1; i--) towers[source].push(i)`:
`[n, n-1, ..., 1]`. -/
def countdown : Nat → List Nat
  | 0 => []
  | n + 1 => (n + 1) :: countdown n

/-- The generator `towerOfHanoiSteps(n, source, destination, auxiliary)`. -/
def towerOfHanoiSteps (n : Nat) (source destination auxiliary : Peg) :
    Option (List HanoiStep) :=
  let t0 : Towers := { A := [], B := [], C := [] }
  let towers := t0.set source (t0.get source ++ countdown n)
  let st0 : HanoiState :=
    { towers := towers, moveCount := 0,
      steps := [{ type := .initial, towers := towerOfHanoiSteps.cloneTowersArray towers,
                  moveCount := 0 }] }
  (towerOfHanoiSteps.hanoi n source destination auxiliary 0 st0).map fun st =>
    st.steps ++
      [{ type := .complete, towers := towerOfHanoiSteps.cloneTowersArray st.towers,
         moveCount := st.moveCount }]

/-! ## Hashing: keys and hash functions

A key is a string or an integer; everything the generators do with a key goes through its
string form.  A JavaScript string without lone surrogates is a `String`; `charCodeAt` reads
UTF-16 code units.  The index computed by a hash function is an `Option Int`: `none` stands
for a value that is not a number usable as an index (`NaN`, `undefined`). -/

/-- A key of the input sequence. -/
inductive Key
  | str (s : String)
  | num (n : Int)
  deriving DecidableEq, Repr

/-- The string form `key.toString()`, also what a template literal makes of the key.  A
numeric key is an integer of absolute value below `10^21`, which is printed in decimal. -/
def Key.toString : Key → String
  | .str s => s
  | .num n => ToString.toString n

/-- The UTF-16 code units of a character. -/
def utf16Units (c : Char) : List Nat :=
  if c.toNat < 65536 then [c.toNat]
  else [55296 + (c.toNat - 65536) / 1024, 56320 + (c.toNat - 65536) % 1024]

/-- The list `keyStr.split('').map(char => char.charCodeAt(0))`, which is also the list of
the `keyStr.charCodeAt(i)` for `i < keyStr.length`. -/
def charCodes (keyStr : String) : List Nat :=
  keyStr.toList.foldr (fun c acc => utf16Units c ++ acc) []

/-- The remainder `a % b` of JavaScript on integers: `NaN` for `b = 0`, otherwise the
remainder of the division truncated toward zero. -/
def jsRem (a b : Int) : Option Int := if b = 0 then none else some (Int.tmod a b)

/-- The text `${x}` of a number. -/
def showNum : Option Int → String
  | none => "NaN"
  | some n => ToString.toString n

/-- The conversion `ToInt32` of the shift operators. -/
def toInt32 (x : Int) : Int :=
  let m := x % 4294967296
  if m ≥ 2147483648 then m - 4294967296 else m

/-- The expression `x << 5` on an integer `x`. -/
def shl5 (x : Int) : Int := toInt32 (toInt32 x * 32)

/-- What a hash function returns: `{ result, steps }`. -/
structure HashOutput where
  result : Option Int
  steps : List String
  deriving DecidableEq, Repr

/-- A hash function `(key, size) => { result, steps }`. -/
abbrev HashFn := Key → Int → HashOutput

/-- The function `hashFunctions.modulo`. -/
def hashFunctions.modulo : HashFn := fun key size =>
  let keyStr := key.toString
  let codes := charCodes keyStr
  let sum : Int := ((codes.foldl (fun acc code => acc + code) 0 : Nat) : Int)
  let hash := jsRem sum size
  { result := hash
    steps :=
      [ "Key: \"" ++ keyStr ++ "\"",
        "Character codes: [" ++ ", ".intercalate (codes.map ToString.toString) ++ "]",
        "Sum: " ++ " + ".intercalate (codes.map ToString.toString) ++ " = " ++
          ToString.toString sum,
        "Hash: " ++ ToString.toString sum ++ " mod " ++ ToString.toString size ++ " = " ++
          showNum hash ] }

/-- The text of the one-unit string `keyStr[i]`, exact for a unit that is not a surrogate. -/
def codeUnitText (code : Nat) : String := String.singleton (Char.ofNat code)

/-- One iteration of the loop of `hashFunctions.djb2`: `hash << 5` is a 32-bit result, the
two additions are additions of numbers. -/
def hashFunctions.djb2Step (hs : Int × List String) (charCode : Nat) : Int × List String :=
  let oldHash := hs.1
  let hash := (shl5 oldHash + oldHash) + (charCode : Int)
  (hash, hs.2 ++
    [ "'" ++ codeUnitText charCode ++ "' (" ++ ToString.toString charCode ++ "): " ++
      ToString.toString oldHash ++ " << 5 + " ++ ToString.toString oldHash ++ " + " ++
      ToString.toString charCode ++ " = " ++ ToString.toString hash ])

/-- The function `hashFunctions.djb2`. -/
def hashFunctions.djb2 : HashFn := fun key size =>
  let keyStr := key.toString
  let hs := (charCodes keyStr).foldl hashFunctions.djb2Step (5381, ["Initial hash: 5381"])
  let hash := hs.1
  let finalHash := jsRem (Int.natAbs hash : Int) size
  { result := finalHash
    steps := hs.2 ++
      [ "Final: |" ++ ToString.toString hash ++ "| mod " ++ ToString.toString size ++ " = " ++
        showNum finalHash ] }

/-- A value found under a name that `hashFunctions` only inherits from `Object.prototype`:
it is truthy, so it is used, but it is not a hash function: calling it fails or gives a
value without `result`. -/
def hashFunctions.inherited : HashFn := fun _ _ => { result := none, steps := [] }

/-- The property names every object inherits from `Object.prototype`. -/
def objectPrototypeNames : List String :=
  [ "constructor", "hasOwnProperty", "isPrototypeOf", "propertyIsEnumerable",
    "toLocaleString", "toString", "valueOf", "__proto__", "__defineGetter__",
    "__defineSetter__", "__lookupGetter__", "__lookupSetter__" ]

/-- The expression `hashFunctions[hashFunction] || hashFunctions.modulo`.  The body of
`hashFunctions.multiplication` is floating-point arithmetic and is a parameter here. -/
def hashFunctions.resolve (multiplication : HashFn) (hashFunction : String) : HashFn :=
  if hashFunction = "modulo" then hashFunctions.modulo
  else if hashFunction = "multiplication" then multiplication
  else if hashFunction = "djb2" then hashFunctions.djb2
  else if hashFunction ∈ objectPrototypeNames then hashFunctions.inherited
  else hashFunctions.modulo

/-! ## Hashing: step records -/

/-- The `type` tags of the hashing traces; `init` is the tag `'initialize'`. -/
inductive HashKind
  | init | hashComputation | hashResult | collisionDetected | insertChaining
  | collisionProbe | tableFull | insertProbing | complete
  deriving DecidableEq, Repr

/-- A record `{ key, value }` stored in a table. -/
structure Entry where
  key : String
  value : String
  deriving DecidableEq, Repr

/-- The field `currentHashStep` of a step. -/
structure HashInfo where
  key : String
  hash : Int
  function : Option String := none
  computationSteps : Option (List String) := none
  index : Option Int := none
  collision : Option Bool := none
  initialIndex : Option Int := none
  currentProbe : Option Int := none
  probeCount : Option Nat := none
  finalIndex : Option Int := none
  occupied : Option Entry := none
  deriving DecidableEq, Repr

/-- A step of the chaining trace; `hashTable` is the deep copy of the list of buckets. -/
structure ChainStep where
  type : HashKind
  hashTable : List (List Entry)
  currentHashStep : Option HashInfo := none
  inserted : Option Int := none
  key : Option String := none
  value : Option String := none
  stepNumber : Option Nat := none
  deriving DecidableEq, Repr

/-- The variables `hashTable`, `steps` and `stepCounter` of `hashWithChainingSteps`. -/
structure ChainState where
  hashTable : List (List Entry)
  steps : List ChainStep
  stepCounter : Nat
  deriving DecidableEq, Repr

/-- The statement `steps.push({..., stepNumber: stepCounter++})`. -/
def ChainState.emit (st : ChainState) (s : ChainStep) : ChainState :=
  { st with
    steps := st.steps ++ [{ s with stepNumber := some st.stepCounter }]
    stepCounter := st.stepCounter + 1 }

/-- The call `xs.forEach(x => ...)` with a callback that may throw: the first `none` ends
the run. -/
def forEachM {σ α : Type} (f : σ → α → Option σ) : List α → σ → Option σ
  | [], s => some s
  | a :: as, s => (f s a).bind (forEachM f as)

/-! ## Hashing with chaining (`hashWithChainingSteps`) -/

/-- The callback of `keys.forEach` in `hashWithChainingSteps`.  The property
`hashResult.hash` does not exist, so `hashValue` is `0`, and `hashResult.steps` does not
exist, so `computationSteps` is the one line built from the index.  Reading
`hashTable[index].length` throws when `index` is not the index of a bucket: `none`. -/
def hashWithChainingSteps.insertKey (hashFunc : HashFn) (tableSize : Int)
    (hashFunction : String) (st : ChainState) (key : Key) : Option ChainState :=
  let keyStr := key.toString
  let index := (hashFunc key tableSize).result
  let hashValue : Int := 0
  let value := "value_" ++ keyStr
  let st1 := st.emit
    { type := .hashComputation, hashTable := st.hashTable,
      currentHashStep := some
        { key := keyStr, hash := hashValue, function := some hashFunction,
          computationSteps := some ["Hash result: " ++ showNum index] } }
  let st2 := st1.emit
    { type := .hashResult, hashTable := st1.hashTable,
      currentHashStep := some
        { key := keyStr, hash := hashValue, index := index,
          function := some hashFunction } }
  match index with
  | none => none
  | some idx =>
    if 0 ≤ idx ∧ idx < (st2.hashTable.length : Int) then
      let bucket := st2.hashTable.getD idx.toNat []
      let isCollision := decide (bucket.length > 0)
      let st3 :=
        if isCollision then
          st2.emit
            { type := .collisionDetected, hashTable := st2.hashTable,
              currentHashStep := some
                { key := keyStr, hash := hashValue, index := index, collision := some true } }
        else st2
      let hashTable := st3.hashTable.set idx.toNat (bucket ++ [{ key := keyStr, value := value }])
      some (({ st3 with hashTable := hashTable }).emit
        { type := .insertChaining, hashTable := hashTable,
          currentHashStep := some { key := keyStr, hash := hashValue, index := index },
          inserted := index, key := some keyStr, value := some value })
    else none

/-- The generator `hashWithChainingSteps(keys, tableSize, hashFunction)` for an integer
`tableSize`; `Array(tableSize)` throws for a negative size: `none`. -/
def hashWithChainingSteps (multiplication : HashFn) (keys : List Key) (tableSize : Int)
    (hashFunction : String) : Option (List ChainStep) :=
  if tableSize < 0 then none
  else
    let hashTable : List (List Entry) := List.replicate tableSize.toNat []
    let hashFunc := hashFunctions.resolve multiplication hashFunction
    let st0 : ChainState := { hashTable := hashTable, steps := [], stepCounter := 1 }
    let st1 := st0.emit { type := .init, hashTable := st0.hashTable }
    (forEachM (hashWithChainingSteps.insertKey hashFunc tableSize hashFunction) keys st1).map
      fun st2 => (st2.emit { type := .complete, hashTable := st2.hashTable }).steps

/-! ## Hashing with linear probing (`hashWithLinearProbingSteps`) -/

/-- A step of the probing trace; `hashTable` is the copy `[...hashTable]` of the list of
slots, `none` being the empty slot `null`. -/
structure ProbeStep where
  type : HashKind
  hashTable : List (Option Entry)
  currentHashStep : Option HashInfo := none
  inserted : Option Int := none
  key : Option String := none
  value : Option String := none
  stepNumber : Option Nat := none
  deriving DecidableEq, Repr

/-- The variables `hashTable`, `steps` and `stepCounter` of `hashWithLinearProbingSteps`. -/
structure ProbeState where
  hashTable : List (Option Entry)
  steps : List ProbeStep
  stepCounter : Nat
  deriving DecidableEq, Repr

/-- The statement `steps.push({..., stepNumber: stepCounter++})`. -/
def ProbeState.emit (st : ProbeState) (s : ProbeStep) : ProbeState :=
  { st with
    steps := st.steps ++ [{ s with stepNumber := some st.stepCounter }]
    stepCounter := st.stepCounter + 1 }

/-- The test `hashTable[currentIndex] !== null && hashTable[currentIndex].key !== keyStr` on
a slot that exists. -/
def heldByOther (slot : Option Entry) (keyStr : String) : Bool :=
  match slot with
  | none => false
  | some occupant => decide (occupant.key ≠ keyStr)

/-- The loop `while (hashTable[currentIndex] !== null && hashTable[currentIndex].key !==
keyStr)` of the callback together with the statements after it.  The first argument is
`tableSize - probeCount`, the number of probes that are left when the loop test is
evaluated: after `probeCount++` the test `probeCount >= tableSize` holds exactly when at
most one was left, and then the `table-full` step is pushed and the callback returns.
Reading `.key` of `hashTable[currentIndex]` throws when `currentIndex` is not the index of a
slot: `none`. -/
def hashWithLinearProbingSteps.probe (tableSize : Int) (keyStr value : String)
    (initialIndex : Option Int) :
    Nat → Option Int → Nat → ProbeState → Option ProbeState
  | left, currentIndex, probeCount, st =>
    match currentIndex with
    | none => none
    | some ci =>
      if 0 ≤ ci ∧ ci < (st.hashTable.length : Int) then
        let slot := st.hashTable.getD ci.toNat none
        if heldByOther slot keyStr then
          let st1 := st.emit
            { type := .collisionProbe, hashTable := st.hashTable,
              currentHashStep := some
                { key := keyStr, hash := 0, initialIndex := initialIndex,
                  currentProbe := some ci, probeCount := some (probeCount + 1),
                  occupied := slot } }
          let currentIndex := jsRem (ci + 1) tableSize
          let probeCount := probeCount + 1
          match left with
          | 0 | 1 =>
            some (st1.emit
              { type := .tableFull, hashTable := st1.hashTable,
                currentHashStep := some
                  { key := keyStr, hash := 0, initialIndex := initialIndex } })
          | left + 2 =>
            hashWithLinearProbingSteps.probe tableSize keyStr value initialIndex (left + 1)
              currentIndex probeCount st1
        else
          let hashTable := st.hashTable.set ci.toNat (some { key := keyStr, value := value })
          some (({ st with hashTable := hashTable }).emit
            { type := .insertProbing, hashTable := hashTable,
              currentHashStep := some
                { key := keyStr, hash := 0, initialIndex := initialIndex,
                  finalIndex := some ci, probeCount := some probeCount },
              inserted := some ci, key := some keyStr, value := some value })
      else none

/-- The callback of `keys.forEach` in `hashWithLinearProbingSteps`; as in the chaining
generator `hashValue` is `0` and `computationSteps` is the one line built from the index. -/
def hashWithLinearProbingSteps.insertKey (hashFunc : HashFn) (tableSize : Int)
    (hashFunction : String) (st : ProbeState) (key : Key) : Option ProbeState :=
  let keyStr := key.toString
  let initialIndex := (hashFunc key tableSize).result
  let value := "value_" ++ keyStr
  let st1 := st.emit
    { type := .hashComputation, hashTable := st.hashTable,
      currentHashStep := some
        { key := keyStr, hash := 0, function := some hashFunction,
          computationSteps := some ["Hash result: " ++ showNum initialIndex] } }
  let st2 := st1.emit
    { type := .hashResult, hashTable := st1.hashTable,
      currentHashStep := some
        { key := keyStr, hash := 0, index := initialIndex, function := some hashFunction } }
  hashWithLinearProbingSteps.probe tableSize keyStr value initialIndex tableSize.toNat
    initialIndex 0 st2

/-- The final state of `hashWithLinearProbingSteps`, before `return steps`;
`Array(tableSize)` throws for a negative size: `none`. -/
def hashWithLinearProbingRun (multiplication : HashFn) (keys : List Key) (tableSize : Int)
    (hashFunction : String) : Option ProbeState :=
  if tableSize < 0 then none
  else
    let hashTable : List (Option Entry) := List.replicate tableSize.toNat none
    let hashFunc := hashFunctions.resolve multiplication hashFunction
    let st0 : ProbeState := { hashTable := hashTable, steps := [], stepCounter := 1 }
    let st1 := st0.emit { type := .init, hashTable := st0.hashTable }
    (forEachM (hashWithLinearProbingSteps.insertKey hashFunc tableSize hashFunction) keys
      st1).map
      fun st2 => st2.emit { type := .complete, hashTable := st2.hashTable }

/-- The generator `hashWithLinearProbingSteps(keys, tableSize, hashFunction)` for an
integer `tableSize`. -/
def hashWithLinearProbingSteps (multiplication : HashFn) (keys : List Key) (tableSize : Int)
    (hashFunction : String) : Option (List ProbeStep) :=
  (hashWithLinearProbingRun multiplication keys tableSize hashFunction).map
    fun st => st.steps

/-! ## Predicates used in the statements and invariants -/

/-- The `memoized` step of `fibonacciSteps(3)`: the second operand `fibonacci(1)` of the
call `fibonacci(3)` is answered from the memo table. -/
def memoizedStepOfFib3 : RecStep :=
  { type := .memoized, callStack := [{ value := 3, depth := 0 }], value := some 1,
    result := some (.fin 1),
    memoSnapshot := some [(0, .fin 0), (1, .fin 1), (2, .fin 1)] }

/-- The record stored for a key: `{ key: keyStr, value: 'value_' + key }`. -/
def entryOf (key : Key) : Entry := { key := key.toString, value := "value_" ++ key.toString }

/-- A hash function sends every key to an index of the table. -/
def IndexInRange (hashFunc : HashFn) (tableSize : Int) : Prop :=
  ∀ key, ∃ idx, (hashFunc key tableSize).result = some idx ∧ 0 ≤ idx ∧ idx < tableSize

/-- The invariant of the chaining build after the keys `done`: the table has `tableSize`
buckets, they hold `done.length` records in all, and the record of every key of `done` is
in the bucket at the key's hash index. -/
def ChainInv (hashFunc : HashFn) (tableSize : Int) (done : List Key) (st : ChainState) :
    Prop :=
  (st.hashTable.length : Int) = tableSize ∧
  (st.hashTable.map List.length).sum = done.length ∧
  ∀ key ∈ done, ∃ idx bucket, (hashFunc key tableSize).result = some idx ∧
    st.hashTable[idx.toNat]? = some bucket ∧ entryOf key ∈ bucket

/-- The Fibonacci numbers of the contract: `F(0) = 0`, `F(1) = 1`,
`F(k) = F(k-1) + F(k-2)`. -/
def fibNumber : Nat → Nat
  | 0 => 0
  | 1 => 1
  | k + 2 => fibNumber (k + 1) + fibNumber k

/-- Every entry `k -> v` of a memo table is the `k`-th Fibonacci number. -/
def MemoOK (m : Memo) : Prop := ∀ e ∈ m, e.2 = .fin (fibNumber e.1)

/-- A Fibonacci step is consistent: the entries of its `memoSnapshot` are Fibonacci numbers,
the `result` of a `memoized` step is the Fibonacci number of its `value`, and the `result`
of a `base-case` or `return` step is the Fibonacci number of the argument of the frame on
top of its `callStack`. -/
def FibStepOK (s : RecStep) : Prop :=
  (∀ snap, s.memoSnapshot = some snap → MemoOK snap) ∧
  (s.type = RecKind.memoized →
    ∃ k, s.value = some k ∧ s.result = some (.fin (fibNumber k))) ∧
  (s.type = RecKind.baseCase ∨ s.type = RecKind.ret →
    ∃ fr, s.callStack.getLast? = some fr ∧ s.result = some (.fin (fibNumber fr.value)))

/-- The index `i` is the first one at or after `startIndex` that holds `target`. -/
def IsFirstMatch (array : List Int) (target : Int) (startIndex i : Nat) : Prop :=
  startIndex ≤ i ∧ i < array.length ∧ jsGet array i = target ∧
    ∀ k, startIndex ≤ k → k < i → jsGet array k ≠ target

/-- The last step of the trace shows the working array as it is now. -/
def LastShows (st : SortState) : Prop :=
  ∃ s, st.steps.getLast? = some s ∧ s.array = st.result

/-- The invariant of the scan of `partition` over `P ++ A0 ++ [pivot] ++ S`: before the
scan position come the elements below the pivot, then those not below it. -/
def PartitionInv (P A0 S : List Int) (pivot : Int) (j : Nat) (si : SortState × Nat) : Prop :=
  ∃ Ls Gs U, si.1.result = P ++ (Ls ++ (Gs ++ (U ++ pivot :: S))) ∧
    si.2 = P.length + Ls.length ∧ j = P.length + Ls.length + Gs.length ∧
    (∀ x ∈ Ls, x < pivot) ∧ (∀ x ∈ Gs, pivot ≤ x) ∧ (Ls ++ (Gs ++ U)).Perm A0 ∧
    LastShows si.1

/-- A trace ends in a `complete` step whose snapshot is the input in ascending order. -/
def EndsSorted (steps : List SortStep) (arr : List Int) : Prop :=
  ∃ s, steps.getLast? = some s ∧ s.type = SortKind.complete ∧
    s.array.Sorted (· ≤ ·) ∧ s.array.Perm arr

/-- The last `i` positions hold their final values: each is at least every earlier value. -/
def TailDone (n i : Nat) (r : List Int) : Prop :=
  ∀ p q, p < q → n - i ≤ q → q < n → jsGet r p ≤ jsGet r q

/-- The first `i` positions hold their final values: each is at most every later value. -/
def HeadDone (n i : Nat) (r : List Int) : Prop :=
  ∀ p q, p < q → p < i → q < n → jsGet r p ≤ jsGet r q

/-- The invariant of the three loops of `merge`: the cells `left .. k-1` hold the first
`i + j` elements of the merge of the two runs. -/
def MergeInv (P la ra S : List Int) (v : MergeVars) : Prop :=
  v.k = P.length + v.i + v.j ∧ v.i ≤ la.length ∧ v.j ≤ ra.length ∧
    ∃ M T, v.st.result = P ++ (M ++ (T ++ S)) ∧ M.length = v.i + v.j ∧
      M.length + T.length = la.length + ra.length ∧
      M ++ List.merge (la.drop v.i) (ra.drop v.j) (fun a b => decide (a ≤ b)) =
        List.merge la ra (fun a b => decide (a ≤ b))

/-- The classic djb2 hash with signed 32-bit wraparound, in the words of the contract: `h`
starts at `5381` and for each character code `c`, in order, becomes `h * 33 + c` reduced to
a signed 32-bit integer. -/
def classicDjb2 (codes : List Nat) : Int :=
  codes.foldl (fun h c => toInt32 (h * 33 + (c : Int))) 5381

/-- The steps that one key contributes to the probing trace: every step names the key, at
most `tableSize` of them are `collision-probe` steps and exactly one of them is an
`insert-probing` or a `table-full` step. -/
def KeySegment (tableSize : Int) (key : Key) (seg : List ProbeStep) : Prop :=
  (∀ s ∈ seg, ∃ info, s.currentHashStep = some info ∧ info.key = key.toString) ∧
  (seg.map ProbeStep.type).count HashKind.collisionProbe ≤ tableSize.toNat ∧
  (seg.map ProbeStep.type).count HashKind.insertProbing +
    (seg.map ProbeStep.type).count HashKind.tableFull = 1

/-- The bookends of a sorting trace: the first step is the `initialize` step showing the
input array, the last step is the `complete` step. -/
def SortBookends (arr : List Int) (steps : List SortStep) : Prop :=
  ∃ first last, steps.head? = some first ∧ first.type = SortKind.init ∧ first.array = arr ∧
    steps.getLast? = some last ∧ last.type = SortKind.complete

/-- The bookends of a search trace: the first step is the `initialize` step showing the
input array, the last step is a `found` or a `not-found` step. -/
def SearchBookends (array : List Int) (steps : List SearchStep) : Prop :=
  ∃ first last, steps.head? = some first ∧ first.type = SearchKind.init ∧
    first.array = array ∧ steps.getLast? = some last ∧
    (last.type = SearchKind.found ∨ last.type = SearchKind.notFound)

/-- Every occupied slot of the table `t` holds the same record in the table `t'`. -/
def SlotsKept (t t' : List (Option Entry)) : Prop :=
  ∀ (slot : Nat) (e : Entry), t[slot]? = some (some e) → t'[slot]? = some (some e)

/-- Every record of the table is the record `{ key, value: 'value_' + key }` of its key. -/
def CanonicalTable (t : List (Option Entry)) : Prop :=
  ∀ e, some e ∈ t → e.value = "value_" ++ e.key

/-- The invariant of the probing build: consecutive steps keep the occupied slots, the last
step shows the current table, and the table holds the records of keys. -/
def ProbeInv (st : ProbeState) : Prop :=
  List.Chain' (fun s s' => SlotsKept s.hashTable s'.hashTable) st.steps ∧
  (∀ s, st.steps.getLast? = some s → s.hashTable = st.hashTable) ∧
  CanonicalTable st.hashTable

/-- The trace of `hashWithLinearProbingSteps(['ab', 'ba'], 2, 'modulo')`; both keys hash to
slot `1`. -/
def probingTraceOfAbBa : List ProbeStep :=
  (hashWithLinearProbingSteps hashFunctions.inherited [Key.str "ab", Key.str "ba"] 2
    "modulo").getD []

/-- The step at index `3` of `probingTraceOfAbBa`: the key `"ab"` is placed in slot `1`. -/
def insertStepOfAb : ProbeStep :=
  { type := .insertProbing,
    hashTable := [none, some { key := "ab", value := "value_ab" }],
    currentHashStep := some
      { key := "ab", hash := 0, initialIndex := some 1, finalIndex := some 1,
        probeCount := some 0 },
    inserted := some 1, key := some "ab", value := some "value_ab", stepNumber := some 4 }

/-- The step at index `4` of `probingTraceOfAbBa`: the hash of the key `"ba"` is computed. -/
def hashStepOfBa : ProbeStep :=
  { type := .hashComputation,
    hashTable := [none, some { key := "ab", value := "value_ab" }],
    currentHashStep := some
      { key := "ba", hash := 0, function := some "modulo",
        computationSteps := some ["Hash result: 1"] },
    stepNumber := some 5 }

/-- A hash function looks at a key only through its string form. -/
def ByStringForm (hashFunc : HashFn) (tableSize : Int) : Prop :=
  ∀ k k' : Key, k.toString = k'.toString →
    (hashFunc k tableSize).result = (hashFunc k' tableSize).result

/-- On the probe path of `keyStr` that starts at the slot `ci` and goes on for `n` more
slots, no empty slot comes before a slot that holds `keyStr` or before the end of the
path. -/
def NoGapFrom (t : List (Option Entry)) (m : Int) (keyStr : String) : Nat → Int → Prop
  | 0, ci => ∃ occ, t[ci.toNat]? = some (some occ)
  | n + 1, ci => ∃ occ, t[ci.toNat]? = some (some occ) ∧
      (occ.key ≠ keyStr → NoGapFrom t m keyStr n (Int.tmod (ci + 1) m))

/-- Every slot of the probe path of `keyStr` that starts at the slot `ci` and goes on for `n`
more slots is held by another key. -/
def AllHeld (t : List (Option Entry)) (m : Int) (keyStr : String) : Nat → Int → Prop
  | 0, ci => heldByOther (t.getD ci.toNat none) keyStr = true
  | n + 1, ci => heldByOther (t.getD ci.toNat none) keyStr = true ∧
      AllHeld t m keyStr n (Int.tmod (ci + 1) m)

/-- The steps of a trace are numbered `1, 2, 3, …` in order: the step at position `k`
(from `0`) has `stepNumber = k + 1`. -/
def Numbered {α : Type} (num : α → Option Nat) (steps : List α) : Prop :=
  ∀ (k : Nat) (s : α), steps[k]? = some s → num s = some (k + 1)

/-- Every bucket of the table `t` is an initial segment of the bucket with the same index
in the table `t'`. -/
def BucketsGrow (t t' : List (List Entry)) : Prop :=
  ∀ (b : Nat) (bucket : List Entry), t[b]? = some bucket →
    ∃ ext, t'[b]? = some (bucket ++ ext)

/-- The invariant of the chaining build on the trace: consecutive steps only extend the
buckets, and the last step shows the current table. -/
def ChainTraceInv (st : ChainState) : Prop :=
  List.Chain' (fun s s' => BucketsGrow s.hashTable s'.hashTable) st.steps ∧
  (∀ s, st.steps.getLast? = some s → s.hashTable = st.hashTable)

/-! ## The animation reducer (`context/AnimationContext.jsx`)

The reducer copies values of any shape out of a step object, so its embedding works on a
type of JavaScript values.  The narrative strings of a step are left out as before. -/

/-- A JavaScript value: a primitive, an array or an object given by its own properties. -/
inductive JsVal
  | undefined
  | null
  | num (n : Int)
  | infinity
  | nan
  | str (s : String)
  | bool (b : Bool)
  | arr (items : List JsVal)
  | obj (fields : List (String × JsVal))

/-- The conversion `ToBoolean`: `undefined`, `null`, `0`, `NaN`, `''` and `false` are
falsy. -/
def JsVal.truthy : JsVal → Bool
  | .undefined => false
  | .null => false
  | .num n => decide (n ≠ 0)
  | .infinity => true
  | .nan => false
  | .str s => decide (s ≠ "")
  | .bool b => b
  | .arr _ => true
  | .obj _ => true

/-- The expression `a || b`. -/
def jsOr (a b : JsVal) : JsVal := if a.truthy then a else b

/-- The property read `o.name` on a value that is not `undefined` or `null`. -/
def JsVal.get (o : JsVal) (name : String) : JsVal :=
  match o with
  | .obj fields => (fields.lookup name).getD .undefined
  | _ => .undefined

/-- The state of the reducer. -/
structure AnimState where
  isRunning : JsVal
  currentStep : JsVal
  currentStepData : JsVal
  steps : JsVal
  speed : JsVal
  comparing : JsVal
  swapping : JsVal
  sorted : JsVal
  pivot : JsVal
  searching : JsVal
  found : JsVal
  callStack : JsVal
  highlight : JsVal
  hashTable : JsVal
  currentHashStep : JsVal
  towers : JsVal
  moveCount : JsVal
  finalResult : JsVal
  fibTree : JsVal

/-- The constant `initialState`. -/
def initialState : AnimState where
  isRunning := .bool false
  currentStep := .num 0
  currentStepData := .null
  steps := .arr []
  speed := .num 1000
  comparing := .arr []
  swapping := .arr []
  sorted := .arr []
  pivot := .num (-1)
  searching := .num (-1)
  found := .num (-1)
  callStack := .arr []
  highlight := .str ""
  hashTable := .arr (List.replicate 10 (.arr []))
  currentHashStep := .null
  towers := .arr [.arr [], .arr [], .arr []]
  moveCount := .num 0
  finalResult := .null
  fibTree := .null

/-- The actions of the reducer; `other` is an action of any other type. -/
inductive AnimAction
  | startAnimation (steps : JsVal)
  | stopAnimation
  | setCurrentStep (step stepData : JsVal)
  | setSpeed (speed : JsVal)
  | resetAnimation
  | updateState (payload : List (String × JsVal))
  | other

/-- The spread `{ ...state, ...payload }` read at one field of the state. -/
def spreadField (payload : List (String × JsVal)) (name : String) (old : JsVal) : JsVal :=
  (payload.lookup name).getD old

/-- The function `animationReducer(state, action)`.  In the case `SET_CURRENT_STEP` a
property of `action.payload.stepData` is read first, which throws when the step data is
`undefined` or `null`: `none`. -/
def animationReducer (state : AnimState) : AnimAction → Option AnimState
  | .startAnimation steps =>
    some { state with isRunning := .bool true, steps := steps, currentStep := .num 0 }
  | .stopAnimation => some { state with isRunning := .bool false }
  | .setCurrentStep step stepData =>
    match stepData with
    | .undefined => none
    | .null => none
    | stepData =>
      some { state with
        currentStep := step
        currentStepData := stepData
        comparing := jsOr (stepData.get "comparing") (.arr [])
        swapping := jsOr (stepData.get "swapping") (.arr [])
        sorted := jsOr (stepData.get "sorted") (.arr [])
        searching := jsOr (stepData.get "searching") (.num (-1))
        found := jsOr (stepData.get "found") (.num (-1))
        highlight := jsOr (stepData.get "highlight") (.str "")
        hashTable := jsOr (stepData.get "hashTable") state.hashTable
        currentHashStep := jsOr (stepData.get "currentHashStep") .null
        callStack := jsOr (stepData.get "callStack") (.arr [])
        towers := jsOr (stepData.get "towers") state.towers
        moveCount := jsOr (stepData.get "moveCount") state.moveCount
        finalResult := jsOr (stepData.get "finalResult") state.finalResult
        fibTree := jsOr (stepData.get "fibTree") state.fibTree }
  | .setSpeed speed => some { state with speed := speed }
  | .resetAnimation =>
    some { initialState with
      speed := state.speed
      hashTable := .arr (List.replicate 10 (.arr []))
      towers := .arr [.arr [], .arr [], .arr []] }
  | .updateState payload =>
    some
      { isRunning := spreadField payload "isRunning" state.isRunning
        currentStep := spreadField payload "currentStep" state.currentStep
        currentStepData := spreadField payload "currentStepData" state.currentStepData
        steps := spreadField payload "steps" state.steps
        speed := spreadField payload "speed" state.speed
        comparing := spreadField payload "comparing" state.comparing
        swapping := spreadField payload "swapping" state.swapping
        sorted := spreadField payload "sorted" state.sorted
        pivot := spreadField payload "pivot" state.pivot
        searching := spreadField payload "searching" state.searching
        found := spreadField payload "found" state.found
        callStack := spreadField payload "callStack" state.callStack
        highlight := spreadField payload "highlight" state.highlight
        hashTable := spreadField payload "hashTable" state.hashTable
        currentHashStep := spreadField payload "currentHashStep" state.currentHashStep
        towers := spreadField payload "towers" state.towers
        moveCount := spreadField payload "moveCount" state.moveCount
        finalResult := spreadField payload "finalResult" state.finalResult
        fibTree := spreadField payload "fibTree" state.fibTree }
  | .other => some state

/-- The effect of `executeStep(stepIndex, steps)` of `hooks/useAlgorithmRunner.js` on the
animation state: nothing for an index out of range or a falsy step, else the dispatch of
`SET_CURRENT_STEP` with the index and the step.  The calls `setData`, `addLog` and
`setCurrentStepIndex` act on other stores. -/
def executeStep (steps : List JsVal) (stepIndex : Int) (state : AnimState) :
    Option AnimState :=
  if stepIndex < 0 ∨ stepIndex ≥ (steps.length : Int) then some state
  else
    match steps[stepIndex.toNat]? with
    | none => some state
    | some step =>
      if step.truthy then animationReducer state (.setCurrentStep (.num stepIndex) step)
      else some state

/-- The text of a `type` tag of the recursion traces. -/
def RecKind.text : RecKind → String
  | .call => "call"
  | .baseCase => "base-case"
  | .ret => "return"
  | .memoized => "memoized"
  | .complete => "complete"

/-- A property that a step carries only when its value is present. -/
def optField (name : String) (v : Option JsVal) : List (String × JsVal) :=
  match v with
  | some x => [(name, x)]
  | none => []

/-- A number of a recursion trace as a JavaScript value. -/
def JsNum.toJs : JsNum → JsVal
  | .fin v => .num v
  | .inf => .infinity
  | .nan => .nan

/-- A step of a factorial or Fibonacci trace as a JavaScript object, with the properties
that carry state; the narrative strings `message`, `highlight` and `description` are left
out. -/
def RecStep.toJs (s : RecStep) : JsVal :=
  .obj
    ([("type", .str s.type.text),
      ("callStack", .arr (s.callStack.map fun fr =>
        .obj [("value", .num fr.value), ("depth", .num fr.depth)]))] ++
      optField "value" (s.value.map fun v => .num v) ++
      optField "result" (s.result.map JsNum.toJs) ++
      optField "finalResult" (s.finalResult.map JsNum.toJs) ++
      optField "fibTree" (s.fibTree.map fun b => .bool b) ++
      optField "memoSnapshot" (s.memoSnapshot.map fun m =>
        .obj (m.map fun kv => (ToString.toString kv.1, kv.2.toJs))))

/-- The step at index `0` of the trace of `factorialSteps(0)`, the `call` step. -/
def callStepOfFactorial0 : JsVal :=
  RecStep.toJs { type := .call, callStack := [{ value := 0, depth := 0 }] }

/-- The step at index `2` of the trace of `factorialSteps(0)`, the `complete` step. -/
def completeStepOfFactorial0 : JsVal :=
  RecStep.toJs { type := .complete, callStack := [], finalResult := some (.fin 1) }

/-! ## Object identity in the probing trace

The snapshots of `hashWithLinearProbingSteps` are taken with `[...hashTable]`, which copies
the array of slots but not the records `{ key, value }` in them.  To speak about which
records two snapshots share, the generator is embedded a second time with the records kept
in a store: a record is created at the next free address of the store by the object literal
`{ key: keyStr, value }`, and a slot or a snapshot holds the address. -/

/-- A step of the probing trace with the records of its snapshot given by their addresses;
`occupied` is the property `currentHashStep.occupied`, the very record found in the slot. -/
structure RefProbeStep where
  type : HashKind
  hashTable : List (Option Nat)
  occupied : Option Nat := none
  stepNumber : Option Nat := none
  deriving DecidableEq, Repr

/-- The variables of `hashWithLinearProbingSteps` together with the store of records. -/
structure RefProbeState where
  store : List Entry
  hashTable : List (Option Nat)
  steps : List RefProbeStep
  stepCounter : Nat
  deriving DecidableEq, Repr

/-- The statement `steps.push({..., stepNumber: stepCounter++})`. -/
def RefProbeState.emit (st : RefProbeState) (s : RefProbeStep) : RefProbeState :=
  { st with
    steps := st.steps ++ [{ s with stepNumber := some st.stepCounter }]
    stepCounter := st.stepCounter + 1 }

/-- The record at an address of the store. -/
def derefSlot (store : List Entry) (slot : Option Nat) : Option Entry :=
  slot.bind fun address => store[address]?

/-- What a snapshot shows: the records its slots hold. -/
def showTable (store : List Entry) (table : List (Option Nat)) : List (Option Entry) :=
  table.map (derefSlot store)

/-- The loop of the callback, as `hashWithLinearProbingSteps.probe`, on addresses. -/
def hashWithLinearProbingRefs.probe (tableSize : Int) (keyStr value : String) :
    Nat → Option Int → Nat → RefProbeState → Option RefProbeState
  | left, currentIndex, probeCount, st =>
    match currentIndex with
    | none => none
    | some ci =>
      if 0 ≤ ci ∧ ci < (st.hashTable.length : Int) then
        let slot := st.hashTable.getD ci.toNat none
        if heldByOther (derefSlot st.store slot) keyStr then
          let st1 := st.emit
            { type := .collisionProbe, hashTable := st.hashTable, occupied := slot }
          let currentIndex := jsRem (ci + 1) tableSize
          let probeCount := probeCount + 1
          match left with
          | 0 | 1 => some (st1.emit { type := .tableFull, hashTable := st1.hashTable })
          | left + 2 =>
            hashWithLinearProbingRefs.probe tableSize keyStr value (left + 1) currentIndex
              probeCount st1
        else
          let address := st.store.length
          let store := st.store ++ [{ key := keyStr, value := value }]
          let hashTable := st.hashTable.set ci.toNat (some address)
          some (({ st with store := store, hashTable := hashTable }).emit
            { type := .insertProbing, hashTable := hashTable })
      else none

/-- The callback of `keys.forEach`, as `hashWithLinearProbingSteps.insertKey`. -/
def hashWithLinearProbingRefs.insertKey (hashFunc : HashFn) (tableSize : Int)
    (st : RefProbeState) (key : Key) : Option RefProbeState :=
  let keyStr := key.toString
  let initialIndex := (hashFunc key tableSize).result
  let value := "value_" ++ keyStr
  let st1 := st.emit { type := .hashComputation, hashTable := st.hashTable }
  let st2 := st1.emit { type := .hashResult, hashTable := st1.hashTable }
  hashWithLinearProbingRefs.probe tableSize keyStr value tableSize.toNat initialIndex 0 st2

/-- The generator `hashWithLinearProbingSteps` on addresses: its final state, with the store
of all records it created. -/
def hashWithLinearProbingRefs (multiplication : HashFn) (keys : List Key) (tableSize : Int)
    (hashFunction : String) : Option RefProbeState :=
  if tableSize < 0 then none
  else
    let hashTable : List (Option Nat) := List.replicate tableSize.toNat none
    let hashFunc := hashFunctions.resolve multiplication hashFunction
    let st0 : RefProbeState :=
      { store := [], hashTable := hashTable, steps := [], stepCounter := 1 }
    let st1 := st0.emit { type := .init, hashTable := st0.hashTable }
    (forEachM (hashWithLinearProbingRefs.insertKey hashFunc tableSize) keys st1).map
      fun st2 => st2.emit { type := .complete, hashTable := st2.hashTable }

/-- The address-level state `rst` and the value-level state `st` of the probing build
correspond: the table and the snapshots of `st` are what those of `rst` show, and every
address in use is an address of the store. -/
def RefSim (rst : RefProbeState) (st : ProbeState) : Prop :=
  st.hashTable = showTable rst.store rst.hashTable ∧
  st.steps.map (fun s => (s.type, s.hashTable, s.stepNumber)) =
    rst.steps.map (fun s => (s.type, showTable rst.store s.hashTable, s.stepNumber)) ∧
  st.stepCounter = rst.stepCounter ∧
  (∀ a, some a ∈ rst.hashTable → a < rst.store.length) ∧
  (∀ s ∈ rst.steps, ∀ a, some a ∈ s.hashTable → a < rst.store.length)

/-! ## Validity of the `swap` steps (C31, C32, C38) -/

/-- What a `swap` step `s'` shows with respect to the step `s` right before it: it names an
index pair `[p, q]` inside the array, its snapshot is the snapshot of `s` after the exchange
of the values at `p` and `q`, the value at `q` was smaller than the value at `p` when the
two indices differ, and smaller than the value at some index `m` in any case. -/
def SwapValid (s s' : SortStep) : Prop :=
  s'.type = .swap →
    ∃ p q m, s'.swapping = [p, q] ∧ p < s.array.length ∧ q < s.array.length ∧
      s'.array = jsSwap s.array p q ∧
      (p < q → jsGet s.array q < jsGet s.array p) ∧
      m < s.array.length ∧ jsGet s.array q < jsGet s.array m

/-- The invariant of the sorting generators that exchange values: every `swap` step is valid
with respect to the step before it, the first step is no `swap` step, the last step shows
the working array, and every snapshot and the working array are permutations of `arr`. -/
def SwapTrace (arr : List Int) (st : SortState) : Prop :=
  st.steps.Chain' SwapValid ∧
  (∀ x, st.steps.head? = some x → x.type ≠ .swap) ∧
  (∀ x, st.steps.getLast? = some x → x.array = st.result) ∧
  (∀ x ∈ st.steps, x.array.Perm arr) ∧
  st.result.Perm arr

/-- Every `swap` step of a trace has a step before it and shows the snapshot of that step
with the values at the two indices of `swapping` exchanged and all others in place. -/
def SwapsExchange (steps : List SortStep) : Prop :=
  ∀ k s', steps[k]? = some s' → s'.type = .swap →
    ∃ j s p q, k = j + 1 ∧ steps[j]? = some s ∧ s'.swapping = [p, q] ∧
      p < s.array.length ∧ q < s.array.length ∧ s'.array.length = s.array.length ∧
      ∀ i, jsGet s'.array i =
        if i = q then jsGet s.array p else if i = p then jsGet s.array q else jsGet s.array i

/-- Every `swap` step of a trace that names two indices `p < q` follows a snapshot whose
value at `p` is greater than its value at `q`. -/
def SwapsStrict (steps : List SortStep) : Prop :=
  ∀ j s s' p q, steps[j]? = some s → steps[j + 1]? = some s' → s'.type = .swap →
    s'.swapping = [p, q] → p < q → jsGet s.array q < jsGet s.array p

/-! ## Inversions (C39) -/

/-- The number of index pairs `p < q` inside the array with `a[p] > a[q]`. -/
def inversionPairs (a : List Int) : Nat :=
  ((List.range a.length).map fun p =>
    (List.range a.length).countP fun q => decide (p < q ∧ jsGet a q < jsGet a p)).sum

/-- The inversions counted along the list: for each element the number of smaller values
after it (`inversions_eq_pairs` shows that this is `inversionPairs`). -/
def inversions : List Int → Nat
  | [] => 0
  | x :: l => l.countP (fun y => y < x) + inversions l

/-- The number of steps of a sorting trace with the given `type`. -/
def countType (kind : SortKind) (steps : List SortStep) : Nat :=
  steps.countP (fun s => s.type = kind)

/-! ## The bounds of an unsuccessful binary search (C37) -/

/-- What a `not-found` step records in `searchRange = {left, right}`: the bounds have
crossed by exactly one inside `0 .. array.length`, and in an ascending array `left` is the
insertion point of the target. -/
def InsertionPoint (array : List Int) (target : Int) (s : SearchStep) : Prop :=
  s.searchRange.1 = s.searchRange.2 + 1 ∧ 0 ≤ s.searchRange.1 ∧
    s.searchRange.1 ≤ (array.length : Int) ∧
    (array.Sorted (· ≤ ·) →
      (∀ k : Nat, (k : Int) < s.searchRange.1 → jsGet array k < target) ∧
      (∀ k : Nat, s.searchRange.1 ≤ (k : Int) → k < array.length → target < jsGet array k))

/-! ## Counting the steps of the Fibonacci trace (C40) -/

/-- The number of steps of a recursion trace with the given `type`. -/
def countKind (kind : RecKind) (steps : List RecStep) : Nat :=
  steps.countP (fun s => s.type = kind)

/-- The argument of the frame on top of the call stack of a step. -/
def RecStep.topValue (s : RecStep) : Option Nat := s.callStack.getLast?.map Frame.value

/-- The arguments of the `call` steps of a trace, in the order of the steps. -/
def callArguments (steps : List RecStep) : List (Option Nat) :=
  (steps.filter (fun s => s.type = .call)).map RecStep.topValue

/-- The `memoized` steps of a trace: the argument that was looked up (`value`) and the
argument of the frame in which the lookup was made. -/
def memoHits (steps : List RecStep) : List (Option Nat × Option Nat) :=
  (steps.filter (fun s => s.type = .memoized)).map (fun s => (s.value, s.topValue))

/-! ## Legality of the Hanoi trace (C35) -/

/-- A towers snapshot is legal for the disks `disks`: every peg lists strictly decreasing
sizes from the bottom to the top, and the pegs together hold exactly the given disks. -/
def LegalSnapshot (disks : List Nat) (snapshot : List (List Nat)) : Prop :=
  (∀ peg ∈ snapshot, peg.Sorted (· > ·)) ∧ snapshot.flatten.Perm disks

/-- What a `move` step `s'` shows with respect to the step `s` right before it: the disk of
its `move` was the top of peg `from` in the snapshot of `s`, is gone from there and lies on
top of peg `to`, the third peg is as it was, and `moveCount` is one more. -/
def MoveValid (s s' : HanoiStep) : Prop :=
  s'.type = .move →
    ∃ (disk : Nat) (src dest : Peg) (rest : List Nat) (t t' : Towers),
      s'.move = some { disk := disk, fromPeg := src, toPeg := dest } ∧ src ≠ dest ∧
      s.towers = towerOfHanoiSteps.cloneTowersArray t ∧
      s'.towers = towerOfHanoiSteps.cloneTowersArray t' ∧
      t.get src = rest ++ [disk] ∧ t'.get src = rest ∧ t'.get dest = t.get dest ++ [disk] ∧
      (∀ q, q ≠ src → q ≠ dest → t'.get q = t.get q) ∧
      s'.moveCount = s.moveCount + 1

/-- The invariant of `towerOfHanoiSteps`: every `move` step is valid with respect to the
step before it, the first step is no `move` step, the last step shows the current towers
and move count, and every snapshot is legal. -/
def HanoiTrace (disks : List Nat) (st : HanoiState) : Prop :=
  st.steps.Chain' MoveValid ∧
  (∀ s, st.steps.head? = some s → s.type ≠ .move) ∧
  (∃ s, st.steps.getLast? = some s ∧
    s.towers = towerOfHanoiSteps.cloneTowersArray st.towers ∧ s.moveCount = st.moveCount) ∧
  (∀ s ∈ st.steps, LegalSnapshot disks s.towers)

/-! ## The outcome of the probe loop (C34, C36, C27) -/

/-- What the probe loop of a key does on the table `t`, started at the slot `ci` with
`left` probes to go and `probeCount = pc`: it pushes the `collision-probe` steps `probes`,
one for each slot of the path that another key holds, and then the step `final`: either the
`insert-probing` step, after the record was written to the first slot of the path that is
free or holds the key, or the `table-full` step after `left` probes, the table unchanged.
The table afterwards is `t'`. -/
def ProbeOutcome (tableSize : Int) (keyStr value : String) (initialIndex : Option Int)
    (left : Nat) (ci : Int) (pc : Nat) (t t' : List (Option Entry))
    (probes : List ProbeStep) (final : ProbeStep) : Prop :=
  (∀ s ∈ probes, s.type = .collisionProbe ∧ s.hashTable = t ∧
    ∃ info, s.currentHashStep = some info ∧ info.key = keyStr) ∧
  (∀ q : Nat, q < probes.length →
    heldByOther (t.getD ((ci + (q : Int)) % tableSize).toNat none) keyStr = true) ∧
  final.hashTable = t' ∧
  ((final.type = .insertProbing ∧ probes.length < left ∧
      heldByOther (t.getD ((ci + (probes.length : Int)) % tableSize).toNat none) keyStr =
        false ∧
      t' = t.set ((ci + (probes.length : Int)) % tableSize).toNat
        (some { key := keyStr, value := value }) ∧
      final.currentHashStep = some
        { key := keyStr, hash := 0, initialIndex := initialIndex,
          finalIndex := some ((ci + (probes.length : Int)) % tableSize),
          probeCount := some (pc + probes.length) }) ∨
    (final.type = .tableFull ∧ probes.length = left ∧ t' = t ∧
      final.currentHashStep = some
        { key := keyStr, hash := 0, initialIndex := initialIndex }))
/-- No two occupied slots of the table hold the same key. -/
def UniqueKeys (t : List (Option Entry)) : Prop :=
  ∀ (i j : Nat) (e e' : Entry), t[i]? = some (some e) → t[j]? = some (some e') →
    e.key = e'.key → i = j

/-- The steps that the key `key` contributes to the probing trace, with the table `t` before
and the table `t'` after the key: the `hash-computation` and the `hash-result` step, which
show `t`, and then the steps of the probe loop from the hash index of the key. -/
def ProbeSeg (hashFunc : HashFn) (tableSize : Int) (key : Key) (seg : List ProbeStep) :
    Prop :=
  ∃ (t t' : List (Option Entry)) (idx : Int) (hc hr : ProbeStep) (probes : List ProbeStep)
    (final : ProbeStep),
    seg = hc :: hr :: (probes ++ [final]) ∧
    (hashFunc key tableSize).result = some idx ∧ 0 ≤ idx ∧ idx < tableSize ∧
    (t.length : Int) = tableSize ∧
    hc.type = .hashComputation ∧ hc.hashTable = t ∧
    (∃ info, hc.currentHashStep = some info ∧ info.key = key.toString) ∧
    hr.type = .hashResult ∧ hr.hashTable = t ∧
    (∃ info, hr.currentHashStep = some info ∧ info.key = key.toString ∧
      info.index = some idx) ∧
    ProbeOutcome tableSize key.toString ("value_" ++ key.toString) (some idx)
      tableSize.toNat idx 0 t t' probes final

/-- The invariant of the probing build after the keys `done`: the table has `tableSize`
slots, the trace invariant `ProbeInv` holds, the probe path of every key of `done` has no
gap, no key occupies two slots, and every record of the table is that of a key of `done`. -/
def ProbeRunInv (hashFunc : HashFn) (tableSize : Int) (done : List Key) (st : ProbeState) :
    Prop :=
  (st.hashTable.length : Int) = tableSize ∧ ProbeInv st ∧
  (∀ key ∈ done, ∀ idx, (hashFunc key tableSize).result = some idx →
    NoGapFrom st.hashTable tableSize key.toString (tableSize.toNat - 1) idx) ∧
  UniqueKeys st.hashTable ∧
  ∀ (slot : Nat) (e : Entry), st.hashTable[slot]? = some (some e) →
    ∃ k0 ∈ done, e.key = k0.toString
/-- The segment of a key in the probing trace as far as the `table-full` step goes: the
segment starts with the `hash-computation` and the `hash-result` step of the key, whose
snapshot is the table when the key is processed; it holds a `table-full` step exactly when
every slot of that table is held by another key, and then all its steps show that table;
otherwise it holds an `insert-probing` step whose snapshot has the record of the key. -/
def TableFullSeg (tableSize : Int) (key : Key) (seg : List ProbeStep) : Prop :=
  ∃ hc hr rest, seg = hc :: hr :: rest ∧
    hc.type = .hashComputation ∧ hr.type = .hashResult ∧
    (∃ info, hc.currentHashStep = some info ∧ info.key = key.toString) ∧
    (∃ info, hr.currentHashStep = some info ∧ info.key = key.toString) ∧
    (hc.hashTable.length : Int) = tableSize ∧
    ((∃ s ∈ seg, s.type = .tableFull) ↔
      ∀ j : Nat, (j : Int) < tableSize →
        heldByOther (hc.hashTable.getD j none) key.toString = true) ∧
    ((∃ s ∈ seg, s.type = .tableFull) → ∀ s ∈ seg, s.hashTable = hc.hashTable) ∧
    ((¬ ∃ s ∈ seg, s.type = .tableFull) →
      ∃ s ∈ seg, s.type = .insertProbing ∧
        ∃ slot : Nat, s.hashTable[slot]? = some (some (entryOf key)))

/-- What an `insert-probing` step records: `finalIndex = (initialIndex + probeCount) mod
tableSize` with `probeCount < tableSize`, and in its snapshot the `probeCount` slots of the
probe path from `initialIndex` on are held by other keys. -/
def InsertPathOK (tableSize : Int) (s : ProbeStep) : Prop :=
  ∃ (info : HashInfo) (i0 f : Int) (pc : Nat), s.currentHashStep = some info ∧
    info.initialIndex = some i0 ∧ info.finalIndex = some f ∧ info.probeCount = some pc ∧
    f = (i0 + (pc : Int)) % tableSize ∧ (pc : Int) < tableSize ∧
    ∀ q : Nat, q < pc →
      heldByOther (s.hashTable.getD ((i0 + (q : Int)) % tableSize).toNat none) info.key = true

/-! ## Searching a hash table (`hashSearchSteps`)

`hashSearchSteps(hashTable, searchKey, hashFunction)` looks at the cell `hashTable[index]`:
when it is an array the table is searched as a table of buckets, otherwise as a table of
slots.  The narrative strings of the steps are left out as before. -/

/-- A cell of a table: a bucket, as `hashWithChainingSteps` builds it, or a slot that is
`null` or holds a record, as `hashWithLinearProbingSteps` builds it. -/
inductive Cell
  | bucket (entries : List Entry)
  | slot (record : Option Entry)
  deriving DecidableEq, Repr

/-- The `type` tags of the search trace. -/
inductive LookupKind
  | searchStart | bucketScan | compare | probe | found | notFound
  deriving DecidableEq, Repr

/-- The field `found` of a `found` step: `{ bucket, item }` in a table of buckets, the index
of the slot in a table of slots. -/
inductive FoundAt
  | inBucket (bucket : Option Int) (item : Nat)
  | atSlot (index : Option Int)
  deriving DecidableEq, Repr

/-- A step of the search trace; `hashTable` is the copy of the table.  In `index`,
`bucketIndex` and `key` the value `none` also stands for a value that is no integer index
(`NaN`, `undefined`) or no key (`undefined`). -/
structure LookupStep where
  type : LookupKind
  hashTable : List Cell
  key : Option Key := none
  index : Option Int := none
  bucketIndex : Option Int := none
  itemIndex : Option Nat := none
  comparing : Option String := none
  found : Option FoundAt := none
  result : Option String := none
  probes : Option Nat := none
  deriving DecidableEq, Repr

/-- The read `hashTable[index]`; `none` is `undefined`. -/
def cellAt (hashTable : List Cell) (index : Option Int) : Option Cell :=
  match index with
  | none => none
  | some i => if 0 ≤ i then hashTable[i.toNat]? else none

/-- The read `hashTable[currentIndex]?.key`; `none` is `undefined`. -/
def cellKey : Option Cell → Option String
  | some (Cell.slot (some record)) => some record.key
  | _ => none

/-- The read `hashTable[currentIndex].value`; `none` is `undefined`. -/
def cellValue : Option Cell → Option String
  | some (Cell.slot (some record)) => some record.value
  | _ => none

/-- The loop `for (let i = 0; i < bucket.length; i++)` of the bucket branch together with
the `not-found` step after it; the `found` branch is the early `return steps`.  The test
`bucket[i].key === searchKey` holds when the search key is the string `bucket[i].key`. -/
def hashSearchSteps.scan (hashTable : List Cell) (searchKey : Key) (index : Option Int) :
    List Entry → Nat → List LookupStep → List LookupStep
  | [], _, steps => steps ++ [{ type := .notFound, hashTable := hashTable }]
  | entry :: rest, i, steps =>
    let steps1 := steps ++
      [{ type := .compare, hashTable := hashTable, bucketIndex := index, itemIndex := some i,
         comparing := some entry.key }]
    if Key.str entry.key = searchKey then
      steps1 ++
        [{ type := .found, hashTable := hashTable, found := some (.inBucket index i),
           result := some entry.value }]
    else hashSearchSteps.scan hashTable searchKey index rest (i + 1) steps1

/-- The loop `while (hashTable[currentIndex] !== null && probes < hashTable.length)` of the
slot branch together with the `not-found` step after it; the `found` branch is the early
`return steps`.  The first argument is `hashTable.length - probes`. -/
def hashSearchSteps.probe (hashTable : List Cell) (searchKey : Key) :
    Nat → Option Int → Nat → List LookupStep → List LookupStep
  | 0, _, probes, steps =>
    steps ++ [{ type := .notFound, hashTable := hashTable, probes := some probes }]
  | left + 1, currentIndex, probes, steps =>
    if cellAt hashTable currentIndex = some (Cell.slot none) then
      steps ++ [{ type := .notFound, hashTable := hashTable, probes := some probes }]
    else
      let steps1 := steps ++
        [{ type := .probe, hashTable := hashTable, index := currentIndex,
           key := (cellKey (cellAt hashTable currentIndex)).map Key.str }]
      if (cellKey (cellAt hashTable currentIndex)).map Key.str = some searchKey then
        steps1 ++
          [{ type := .found, hashTable := hashTable, found := some (.atSlot currentIndex),
             result := cellValue (cellAt hashTable currentIndex), probes := some probes }]
      else
        hashSearchSteps.probe hashTable searchKey left
          (currentIndex.bind fun c => jsRem (c + 1) hashTable.length) (probes + 1) steps1

/-- The function `hashSearchSteps(hashTable, searchKey, hashFunction)`. -/
def hashSearchSteps (hashTable : List Cell) (searchKey : Key)
    (hashFunction : Key → Option Int) : List LookupStep :=
  let index := hashFunction searchKey
  let steps : List LookupStep :=
    [{ type := .searchStart, hashTable := hashTable, key := some searchKey, index := index }]
  match cellAt hashTable index with
  | some (Cell.bucket bucket) =>
    hashSearchSteps.scan hashTable searchKey index bucket 0
      (steps ++ [{ type := .bucketScan, hashTable := hashTable, bucketIndex := index }])
  | _ => hashSearchSteps.probe hashTable searchKey hashTable.length index 0 steps
/-- Every record of every bucket is the record of a key of `done`. -/
def BucketsDone (done : List Key) (t : List (List Entry)) : Prop :=
  ∀ (b : Nat) (bucket : List Entry) (e : Entry), t[b]? = some bucket → e ∈ bucket →
    ∃ k0 ∈ done, e = entryOf k0

/-! ## The nesting of the call stacks (C22) -/

/-- The frames of a call stack record their position: the `i`-th frame has depth `i`. -/
def WellStacked (stack : List Frame) : Prop :=
  ∀ (i : Nat) (fr : Frame), stack[i]? = some fr → fr.depth = i

/-- The steps pushed by calls made one after the other while the call stack is `stack`.  A
call answered from the memo pushes one `memoized` step showing `stack`.  Any other call
pushes its `call` step, showing `stack` with the new frame on top, then the steps of the
calls made inside it, then the `base-case` or `return` step that shows the same stack as the
`call` step; and the step after that, if it belongs to the same sequence, does not show the
frame. -/
inductive Nested : List Frame → List RecStep → Prop
  | nil (stack : List Frame) : Nested stack []
  | hit (stack : List Frame) (s : RecStep) (rest : List RecStep) :
      s.type = .memoized → s.callStack = stack → Nested stack rest → Nested stack (s :: rest)
  | frame (stack : List Frame) (fr : Frame) (c e : RecStep) (mid rest : List RecStep) :
      c.type = .call → c.callStack = stack ++ [fr] → fr.depth = stack.length →
      (e.type = .baseCase ∨ e.type = .ret) → e.callStack = stack ++ [fr] →
      Nested (stack ++ [fr]) mid → Nested stack rest →
      (∀ nxt, rest.head? = some nxt → fr ∉ nxt.callStack) →
      Nested stack (c :: (mid ++ e :: rest))

/-- What a trace shows after a `call` step `c` that is followed by the steps `rest`: the
call stack of `c` has its frames at their depths, with the new frame `fr` on top; `rest`
starts with steps that all show that stack or an extension of it, none of them a `base-case`
or `return` step showing exactly that stack; then comes the `base-case` or `return` step `e`
with the call stack of `c`; and the step after `e` does not show the frame. -/
def ClosesFrame (c : RecStep) (rest : List RecStep) : Prop :=
  ∃ (fr : Frame) (mid : List RecStep) (e nxt : RecStep) (post : List RecStep),
    c.callStack.getLast? = some fr ∧ c.callStack.length = fr.depth + 1 ∧
    WellStacked c.callStack ∧
    rest = mid ++ e :: nxt :: post ∧
    (∀ s ∈ mid, ∃ ext, s.callStack = c.callStack ++ ext ∧
      (s.type = .baseCase ∨ s.type = .ret → ext ≠ [])) ∧
    (e.type = .baseCase ∨ e.type = .ret) ∧ e.callStack = c.callStack ∧
    fr ∉ nxt.callStack
/-- The steps pushed by one call with the argument `value` while the call stack is `stack`:
one `memoized` step showing `stack`, or the `call` step with the new frame on top, the steps
of the calls made inside, and the `base-case` or `return` step showing the stack of the
`call` step. -/
def CallUnit (stack : List Frame) (value : Nat) (seg : List RecStep) : Prop :=
  (∃ s, seg = [s] ∧ s.type = .memoized ∧ s.callStack = stack) ∨
  (∃ c mid e, seg = c :: (mid ++ [e]) ∧ c.type = .call ∧
    c.callStack = stack ++ [{ value := value, depth := stack.length }] ∧
    (e.type = .baseCase ∨ e.type = .ret) ∧
    e.callStack = stack ++ [{ value := value, depth := stack.length }] ∧
    Nested (stack ++ [{ value := value, depth := stack.length }]) mid)

/-! # Proofs -/

/-! ## General lemmas on arrays and loops -/

theorem jsGet_set (a : List Int) (i k : Nat) (x : Int) (hi : i < a.length) :
    jsGet (a.set i x) k = if k = i then x else jsGet a k := by
  unfold jsGet
  by_cases h : k = i
  · subst h; simp [List.getElem?_set, hi]
  · have h2 : ¬ i = k := fun e => h e.symm
    simp [List.getElem?_set, h, h2]

theorem length_jsSwap (a : List Int) (i j : Nat) : (jsSwap a i j).length = a.length := by
  simp [jsSwap]

theorem jsGet_jsSwap (a : List Int) (i j k : Nat) (hi : i < a.length) (hj : j < a.length) :
    jsGet (jsSwap a i j) k =
      if k = j then jsGet a i else if k = i then jsGet a j else jsGet a k := by
  unfold jsSwap
  rw [jsGet_set _ _ _ _ (by simpa using hj), jsGet_set _ _ _ _ hi]

theorem set_cons_perm (a : List Int) (j : Nat) (x : Int) (hj : j < a.length) :
    (jsGet a j :: a.set j x).Perm (x :: a) := by
  induction a generalizing j with
  | nil => simp at hj
  | cons y a ih =>
    cases j with
    | zero => simp [jsGet, List.Perm.swap]
    | succ j =>
      have hj2 : j < a.length := by simpa using hj
      have h := ih j hj2
      simp only [List.set_cons_succ]
      have e : jsGet (y :: a) (j + 1) = jsGet a j := by simp [jsGet]
      rw [e]
      exact ((List.Perm.swap y (jsGet a j) (a.set j x)).trans (h.cons y)).trans
        (List.Perm.swap x y a)

theorem jsSwap_perm (a : List Int) (i j : Nat) (hi : i < a.length) (hj : j < a.length) :
    (jsSwap a i j).Perm a := by
  induction a generalizing i j with
  | nil => simp at hi
  | cons y a ih =>
    cases i with
    | zero =>
      cases j with
      | zero => simp [jsSwap, jsGet]
      | succ j =>
        have hj2 : j < a.length := by simpa using hj
        have h := set_cons_perm a j y hj2
        simpa [jsSwap, jsGet] using h
    | succ i =>
      have hi2 : i < a.length := by simpa using hi
      cases j with
      | zero =>
        have h := set_cons_perm a i y hi2
        simpa [jsSwap, jsGet] using h
      | succ j =>
        have hj2 : j < a.length := by simpa using hj
        have h := ih i j hi2 hj2
        simpa [jsSwap, jsGet] using h

theorem sorted_of_jsGet (a : List Int)
    (h : ∀ p q, p < q → q < a.length → jsGet a p ≤ jsGet a q) : a.Sorted (· ≤ ·) := by
  unfold List.Sorted
  rw [List.pairwise_iff_getElem]
  intro i j hi hj hij
  have := h i j hij hj
  simpa [jsGet, List.getElem?_eq_getElem hi, List.getElem?_eq_getElem hj] using this

/-- Invariant rule for a counted loop. -/
theorem forLoop_inv {σ : Type} (P : Nat → σ → Prop) (f : σ → Nat → σ) (lo hi : Nat) (s0 : σ)
    (hle : lo ≤ hi) (h0 : P lo s0)
    (hstep : ∀ k s, lo ≤ k → k < hi → P k s → P (k + 1) (f s k)) :
    P hi (forLoop lo hi f s0) := by
  unfold forLoop
  obtain ⟨d, rfl⟩ := Nat.exists_eq_add_of_le hle
  simp only [Nat.add_sub_cancel_left]
  induction d with
  | zero => simpa using h0
  | succ d ih =>
    rw [List.range'_concat, List.foldl_append]
    simp only [List.foldl_cons, List.foldl_nil]
    have h1 : lo + (d + 1) = lo + d + 1 := by omega
    rw [h1, Nat.one_mul]
    apply hstep (lo + d) _ (by omega) (by omega)
    exact ih (by omega) (fun k s hk1 hk2 hp => hstep k s hk1 (by omega) hp)

theorem forLoop_empty {σ : Type} (f : σ → Nat → σ) (lo hi : Nat) (s0 : σ) (h : hi ≤ lo) :
    forLoop lo hi f s0 = s0 := by
  unfold forLoop
  have : hi - lo = 0 := by omega
  simp [this]

@[simp] theorem sortState_emit_result (st : SortState) (s : SortStep) :
    (st.emit s).result = st.result := rfl

@[simp] theorem sortState_push_result (st : SortState) (s : SortStep) :
    (st.push s).result = st.result := rfl

/-! ## Bubble sort: correctness of the working array -/

theorem bubbleInner_result (i : Nat) (st : SortState) (j : Nat) :
    (bubbleInner i st j).result =
      if jsGet st.result j > jsGet st.result (j + 1) then jsSwap st.result j (j + 1)
      else st.result := by
  unfold bubbleInner
  by_cases h : jsGet st.result j > jsGet st.result (j + 1) <;> simp [h]

theorem bubbleInner_fold (arr : List Int) (n i : Nat) (hi : i + 1 < n) (st : SortState)
    (hlen : st.result.length = n) (hperm : st.result.Perm arr)
    (hdone : TailDone n i st.result) :
    let st2 := forLoop 0 (n - i - 1) (bubbleInner i) st
    st2.result.length = n ∧ st2.result.Perm arr ∧ TailDone n (i + 1) st2.result := by
  intro st2
  have key := forLoop_inv
    (fun j (s : SortState) => s.result.length = n ∧ s.result.Perm arr ∧
      TailDone n i s.result ∧ ∀ p, p < j → jsGet s.result p ≤ jsGet s.result j)
    (bubbleInner i) 0 (n - i - 1) st (Nat.zero_le _)
    ⟨hlen, hperm, hdone, fun p hp => absurd hp (Nat.not_lt_zero p)⟩
    (by
      intro j s _ hj ⟨hl, hp, hd, hm⟩
      have hj1 : j < s.result.length := by omega
      have hj2 : j + 1 < s.result.length := by omega
      rw [bubbleInner_result]
      by_cases hc : jsGet s.result j > jsGet s.result (j + 1)
      · simp only [hc, if_true]
        refine ⟨by rw [length_jsSwap]; exact hl, (jsSwap_perm _ _ _ hj1 hj2).trans hp, ?_, ?_⟩
        · intro p q hpq hq1 hq2
          have hq : jsGet (jsSwap s.result j (j + 1)) q = jsGet s.result q := by
            rw [jsGet_jsSwap _ _ _ _ hj1 hj2]
            have h1 : ¬ q = j + 1 := by omega
            have h2 : ¬ q = j := by omega
            simp [h1, h2]
          rw [hq, jsGet_jsSwap _ _ _ _ hj1 hj2]
          by_cases e1 : p = j + 1
          · rw [if_pos e1]; exact hd j q (by omega) hq1 hq2
          · by_cases e2 : p = j
            · rw [if_neg e1, if_pos e2]
              exact hd (j + 1) q (by omega) hq1 hq2
            · rw [if_neg e1, if_neg e2]; exact hd p q hpq hq1 hq2
        · intro p hpj
          rw [jsGet_jsSwap _ _ _ _ hj1 hj2, jsGet_jsSwap _ _ _ _ hj1 hj2]
          rw [if_pos rfl]
          have e1 : ¬ p = j + 1 := by omega
          by_cases e2 : p = j
          · rw [if_neg e1, if_pos e2]; omega
          · rw [if_neg e1, if_neg e2]; exact hm p (by omega)
      · simp only [hc, if_false]
        refine ⟨hl, hp, hd, ?_⟩
        intro p hpj
        by_cases e2 : p = j
        · subst e2; omega
        · have := hm p (by omega); omega)
  obtain ⟨hl, hp, hd, hm⟩ := key
  refine ⟨hl, hp, ?_⟩
  intro p q hpq hq1 hq2
  by_cases e : q = n - i - 1
  · subst e; exact hm p hpq
  · exact hd p q hpq (by omega) hq2

theorem bubbleOuter_inv (arr : List Int) (n i : Nat) (hi : i + 1 < n) (st : SortState)
    (hlen : st.result.length = n) (hperm : st.result.Perm arr)
    (hdone : TailDone n i st.result) :
    (bubbleOuter st i).result.length = n ∧ (bubbleOuter st i).result.Perm arr ∧
      TailDone n (i + 1) (bubbleOuter st i).result := by
  unfold bubbleOuter
  simp only [sortState_emit_result]
  rw [hlen]
  exact bubbleInner_fold arr n i hi _ (by simpa using hlen) (by simpa using hperm)
    (by simpa using hdone)

theorem bubbleSortRun_result (arr : List Int) :
    (bubbleSortRun arr).result.Sorted (· ≤ ·) ∧ (bubbleSortRun arr).result.Perm arr := by
  have key := forLoop_inv
    (fun i (s : SortState) => s.result.length = arr.length ∧ s.result.Perm arr ∧
      TailDone arr.length i s.result)
    bubbleOuter 0 (arr.length - 1)
    (({ result := arr, steps := [], stepCounter := 1 } : SortState).emit
      { type := .init, array := arr }) (Nat.zero_le _)
    ⟨rfl, List.Perm.refl _, fun p q hpq h1 h2 => by omega⟩
    (fun i s _ hi ⟨hl, hp, hd⟩ => bubbleOuter_inv arr arr.length i (by omega) s hl hp hd)
  obtain ⟨hl, hp, hd⟩ := key
  unfold bubbleSortRun
  simp only [sortState_emit_result]
  refine ⟨sorted_of_jsGet _ ?_, hp⟩
  intro p q hpq hq
  rw [hl] at hq
  exact hd p q hpq (by omega) hq

/-! ## Selection sort: correctness of the working array -/

theorem selectionInner_fold (i n : Nat) (hi : i + 1 ≤ n) (st : SortState) :
    let sm := forLoop (i + 1) n (selectionInner i) (st, i)
    sm.1.result = st.result ∧ i ≤ sm.2 ∧ sm.2 < n ∧
      ∀ k, i ≤ k → k < n → jsGet st.result sm.2 ≤ jsGet st.result k := by
  intro sm
  have key := forLoop_inv
    (fun j (s : SortState × Nat) => s.1.result = st.result ∧ i ≤ s.2 ∧ s.2 < j ∧
      ∀ k, i ≤ k → k < j → jsGet st.result s.2 ≤ jsGet st.result k)
    (selectionInner i) (i + 1) n (st, i) hi
    ⟨rfl, Nat.le_refl i, Nat.lt_succ_self i, fun k h1 h2 => by
      have : k = i := by omega
      subst this; exact le_refl _⟩
    (by
      intro j s hj1 hj2 ⟨hr, hm1, hm2, hmin⟩
      unfold selectionInner
      simp only [sortState_emit_result, hr]
      by_cases hc : jsGet st.result j < jsGet st.result s.2
      · simp only [hc, if_true, sortState_emit_result, hr]
        refine ⟨trivial, by omega, by omega, ?_⟩
        intro k hk1 hk2
        by_cases e : k = j
        · subst e; exact le_refl _
        · have := hmin k hk1 (by omega); omega
      · simp only [hc, if_false, sortState_emit_result, hr]
        refine ⟨trivial, hm1, by omega, ?_⟩
        intro k hk1 hk2
        by_cases e : k = j
        · subst e; omega
        · exact hmin k hk1 (by omega))
  exact key

theorem selectionOuter_inv (arr : List Int) (n i : Nat) (hi : i + 1 < n) (st : SortState)
    (hlen : st.result.length = n) (hperm : st.result.Perm arr)
    (hdone : HeadDone n i st.result) :
    (selectionOuter st i).result.length = n ∧ (selectionOuter st i).result.Perm arr ∧
      HeadDone n (i + 1) (selectionOuter st i).result := by
  have key := selectionInner_fold i n (by omega)
    (st.emit { type := .passStart, array := st.result, sorted := arrayFrom i (fun idx => idx) })
  simp only [sortState_emit_result] at key
  obtain ⟨hr, hm1, hm2, hmin⟩ := key
  unfold selectionOuter
  simp only [sortState_emit_result, hlen]
  generalize forLoop (i + 1) n (selectionInner i)
    (st.emit { type := .passStart, array := st.result, sorted := arrayFrom i (fun idx => idx) },
      i) = sm at hr hm1 hm2 hmin
  have hin : i < st.result.length := by omega
  have hmn : sm.2 < st.result.length := by omega
  by_cases hc : sm.2 = i
  · simp only [hc, ne_eq, not_true_eq_false, if_false, sortState_emit_result, hr]
    refine ⟨hlen, hperm, ?_⟩
    intro p q hpq hp hq
    by_cases e : p = i
    · subst e; rw [← hc]; exact hmin q (by omega) hq
    · exact hdone p q hpq (by omega) hq
  · simp only [hc, ne_eq, not_false_eq_true, if_true, sortState_emit_result, hr]
    refine ⟨by rw [length_jsSwap]; exact hlen, (jsSwap_perm _ _ _ hin hmn).trans hperm, ?_⟩
    intro p q hpq hp hq
    rw [jsGet_jsSwap _ _ _ _ hin hmn, jsGet_jsSwap _ _ _ _ hin hmn]
    by_cases e : p = i
    · have e1 : ¬ p = sm.2 := by omega
      rw [if_neg e1, if_pos e]
      split_ifs
      · exact hmin i (Nat.le_refl i) (by omega)
      · omega
      · exact hmin q (by omega) hq
    · have e1 : ¬ p = sm.2 := by omega
      rw [if_neg e1, if_neg e]
      split_ifs
      · exact hdone p i (by omega) (by omega) (by omega)
      · exact hdone p sm.2 (by omega) (by omega) (by omega)
      · exact hdone p q hpq (by omega) hq

theorem selectionSortRun_result (arr : List Int) :
    (selectionSortRun arr).result.Sorted (· ≤ ·) ∧ (selectionSortRun arr).result.Perm arr := by
  have key := forLoop_inv
    (fun i (s : SortState) => s.result.length = arr.length ∧ s.result.Perm arr ∧
      HeadDone arr.length i s.result)
    selectionOuter 0 (arr.length - 1)
    (({ result := arr, steps := [], stepCounter := 1 } : SortState).emit
      { type := .init, array := arr }) (Nat.zero_le _)
    ⟨rfl, List.Perm.refl _, fun p q hpq h1 h2 => by omega⟩
    (fun i s _ hi ⟨hl, hp, hd⟩ => selectionOuter_inv arr arr.length i (by omega) s hl hp hd)
  obtain ⟨hl, hp, hd⟩ := key
  unfold selectionSortRun
  simp only [sortState_emit_result]
  refine ⟨sorted_of_jsGet _ ?_, hp⟩
  intro p q hpq hq
  rw [hl] at hq
  exact hd p q hpq (by omega) hq

/-! ## Insertion sort: correctness of the working array -/

theorem jsGet_append_length (A B : List Int) (x : Int) :
    jsGet (A ++ x :: B) A.length = x := by
  induction A with
  | nil => simp [jsGet]
  | cons a A ih => simpa [jsGet] using ih

theorem exists_append_singleton (A : List Int) (h : A ≠ []) :
    ∃ (A0 : List Int) (a : Int), A = A0 ++ [a] := by
  rcases List.eq_nil_or_concat A with hnil | ⟨A0, a, hcat⟩
  · exact absurd hnil h
  · exact ⟨A0, a, by simpa using hcat⟩

theorem set_append_length (A B : List Int) (x y : Int) :
    (A ++ x :: B).set A.length y = A ++ y :: B := by
  simp

theorem insertionWhile_spec (key : Int) (i : Nat) (R : List Int) :
    ∀ (k : Nat) (A B : List Int) (x : Int) (st : SortState), A.length = k →
      st.result = A ++ x :: (B ++ R) → (∀ y ∈ B, key < y) →
      ∃ (A1 B1 : List Int) (x1 : Int), A ++ B = A1 ++ B1 ∧
        A1.length = (insertionWhile key i k st).1 ∧
        (insertionWhile key i k st).2.result = A1 ++ x1 :: (B1 ++ R) ∧
        (∀ y ∈ B1, key < y) ∧ (∀ a ∈ A1.getLast?, a ≤ key) := by
  intro k
  induction k with
  | zero =>
    intro A B x st hA hr hB
    have hA0 : A = [] := List.length_eq_zero.1 hA
    subst hA0
    exact ⟨[], B, x, rfl, rfl, hr, hB, by simp⟩
  | succ k ih =>
    intro A B x st hA hr hB
    have hne : A ≠ [] := by
      intro e; subst e; simp at hA
    obtain ⟨A0, a, hcat⟩ := exists_append_singleton A hne
    · subst hcat
      have hA0 : A0.length = k := by simpa using hA
      have hget : jsGet st.result k = a := by
        rw [hr, ← hA0, List.append_assoc]
        exact jsGet_append_length A0 _ a
      unfold insertionWhile
      by_cases hc : jsGet st.result k > key
      · simp only [hc, if_true, sortState_emit_result]
        have hset : st.result.set (k + 1) (jsGet st.result k) = A0 ++ a :: ((a :: B) ++ R) := by
          rw [hget, hr]
          have : k + 1 = (A0 ++ [a]).length := by simp [hA0]
          rw [this, set_append_length]
          simp
        obtain ⟨A1, B1, x1, h1, h2, h3, h4, h5⟩ := ih A0 (a :: B) a
          { result := st.result.set (k + 1) (jsGet st.result k),
            steps := ((st.emit
              { type := .compare, array := st.result, comparing := [k, i],
                sorted := arrayFrom i (fun idx => idx) }).emit
              { type := .shift, array := st.result, shifting := [k, k + 1],
                sorted := arrayFrom i (fun idx => idx) }).steps,
            stepCounter := ((st.emit
              { type := .compare, array := st.result, comparing := [k, i],
                sorted := arrayFrom i (fun idx => idx) }).emit
              { type := .shift, array := st.result, shifting := [k, k + 1],
                sorted := arrayFrom i (fun idx => idx) }).stepCounter }
          hA0 hset
          (by
            intro y hy
            rcases List.mem_cons.1 hy with e | hy
            · subst e; rw [hget] at hc; exact hc
            · exact hB y hy)
        exact ⟨A1, B1, x1, by simpa using h1, h2, h3, h4, h5⟩
      · simp only [hc, if_false]
        refine ⟨A0 ++ [a], B, x, rfl, by simp [hA0], hr, hB, ?_⟩
        intro a1 ha1
        simp at ha1
        subst ha1
        rw [hget] at hc
        omega

theorem insertionOuter_inv (arr : List Int) (n i : Nat) (hi : i < n)
    (st : SortState) (hlen : st.result.length = n) (hperm : st.result.Perm arr)
    (hsorted : (st.result.take i).Sorted (· ≤ ·)) :
    (insertionOuter st i).result.length = n ∧ (insertionOuter st i).result.Perm arr ∧
      ((insertionOuter st i).result.take (i + 1)).Sorted (· ≤ ·) := by
  have hin : i < st.result.length := by omega
  have hsplit : st.result = st.result.take i ++ jsGet st.result i :: ([] ++ st.result.drop (i + 1)) := by
    have h1 : jsGet st.result i = st.result[i] := by
      simp [jsGet, List.getElem?_eq_getElem hin]
    rw [h1, List.nil_append, ← List.drop_eq_getElem_cons hin, List.take_append_drop]
  have hLlen : (st.result.take i).length = i := by
    rw [List.length_take]; omega
  obtain ⟨A1, B1, x1, h1, h2, h3, h4, h5⟩ :=
    insertionWhile_spec (jsGet st.result i) i (st.result.drop (i + 1)) i (st.result.take i) []
      (jsGet st.result i)
      (st.emit { type := .select, array := st.result, sorted := arrayFrom i (fun idx => idx) })
      hLlen (by simpa using hsplit) (by simp)
  simp only [List.append_nil] at h1
  have hres : (insertionOuter st i).result =
      A1 ++ jsGet st.result i :: (B1 ++ st.result.drop (i + 1)) := by
    unfold insertionOuter
    simp only [sortState_emit_result]
    split_ifs <;> simp only [sortState_emit_result, h3, ← h2, set_append_length]
  have hAB : A1.length + B1.length = i := by
    have := congrArg List.length h1
    simp only [List.length_append] at this
    omega
  rw [hres]
  refine ⟨?_, ?_, ?_⟩
  · have := congrArg List.length hsplit
    simp only [List.length_append, List.length_cons, List.length_nil] at this ⊢
    omega
  · refine List.Perm.trans ?_ (List.Perm.trans (List.Perm.of_eq hsplit.symm) hperm)
    rw [h1, List.nil_append]
    have e1 : (A1 ++ jsGet st.result i :: (B1 ++ st.result.drop (i + 1))).Perm
        (jsGet st.result i :: (A1 ++ (B1 ++ st.result.drop (i + 1)))) := List.perm_middle
    have e2 : ((A1 ++ B1) ++ jsGet st.result i :: st.result.drop (i + 1)).Perm
        (jsGet st.result i :: ((A1 ++ B1) ++ st.result.drop (i + 1))) := List.perm_middle
    have e3 : (A1 ++ B1) ++ st.result.drop (i + 1) = A1 ++ (B1 ++ st.result.drop (i + 1)) :=
      List.append_assoc _ _ _
    rw [e3] at e2
    exact e1.trans e2.symm
  · have htake : (A1 ++ jsGet st.result i :: (B1 ++ st.result.drop (i + 1))).take (i + 1) =
        A1 ++ jsGet st.result i :: B1 := by
      have e : A1 ++ jsGet st.result i :: (B1 ++ st.result.drop (i + 1)) =
          (A1 ++ jsGet st.result i :: B1) ++ st.result.drop (i + 1) := by simp
      rw [e, List.take_left']
      simp only [List.length_append, List.length_cons]
      omega
    rw [htake]
    rw [h1] at hsorted
    unfold List.Sorted at hsorted ⊢
    rw [List.pairwise_append] at hsorted ⊢
    obtain ⟨hA, hB, hAB2⟩ := hsorted
    have hAkey : ∀ a ∈ A1, a ≤ jsGet st.result i := by
      intro a ha
      have hne : A1 ≠ [] := by
        intro e; subst e; simp at ha
      obtain ⟨A0, l, hcat⟩ := exists_append_singleton A1 hne
      · subst hcat
        have hl : l ≤ jsGet st.result i := h5 l (by simp)
        rcases List.mem_append.1 ha with ha0 | ha1
        · rw [List.pairwise_append] at hA
          have := hA.2.2 a ha0 l (by simp)
          omega
        · simp at ha1; subst ha1; exact hl
    refine ⟨hA, ?_, ?_⟩
    · rw [List.pairwise_cons]
      exact ⟨fun b hb => le_of_lt (h4 b hb), hB⟩
    · intro a ha b hb
      rcases List.mem_cons.1 hb with e | hb
      · subst e; exact hAkey a ha
      · exact hAB2 a ha b hb

theorem insertionSortRun_result (arr : List Int) :
    (insertionSortRun arr).result.Sorted (· ≤ ·) ∧ (insertionSortRun arr).result.Perm arr := by
  unfold insertionSortRun
  simp only [sortState_emit_result]
  by_cases h0 : arr.length = 0
  · have e : arr = [] := List.length_eq_zero.1 h0
    subst e
    rw [forLoop_empty _ _ _ _ (by simp)]
    simp
  · have key := forLoop_inv
      (fun i (s : SortState) => s.result.length = arr.length ∧ s.result.Perm arr ∧
        (s.result.take i).Sorted (· ≤ ·))
      insertionOuter 1 arr.length
      (({ result := arr, steps := [], stepCounter := 1 } : SortState).emit
        { type := .init, array := arr, sorted := [0] }) (by omega)
      ⟨rfl, List.Perm.refl _, by
        cases arr with
        | nil => simp
        | cons a l => simp⟩
      (fun i s _ hi ⟨hl, hp, hd⟩ => insertionOuter_inv arr arr.length i hi s hl hp hd)
    obtain ⟨hl, hp, hd⟩ := key
    refine ⟨?_, hp⟩
    rw [List.take_of_length_le (by omega)] at hd
    exact hd

/-! ## C1: bubble, selection and insertion sort end in a sorted `complete` step -/

theorem sortState_getLast?_emit (st : SortState) (s : SortStep) :
    (st.emit s).steps.getLast? = some { s with stepNumber := some st.stepCounter } := by
  simp [SortState.emit]

/-- C1. For every array of integers, the empty one included, the traces of `bubbleSortSteps`,
`selectionSortSteps` and `insertionSortSteps` each end in a step of type `complete` whose
`array` snapshot is in ascending order and is a permutation of the input. -/
theorem simple_sorts_end_sorted (arr : List Int) :
    EndsSorted (bubbleSortSteps arr) arr ∧ EndsSorted (selectionSortSteps arr) arr ∧
      EndsSorted (insertionSortSteps arr) arr := by
  refine ⟨?_, ?_, ?_⟩
  · have h := bubbleSortRun_result arr
    unfold bubbleSortRun at h
    simp only [sortState_emit_result] at h
    unfold EndsSorted bubbleSortSteps bubbleSortRun
    exact ⟨_, sortState_getLast?_emit _ _, rfl, h.1, h.2⟩
  · have h := selectionSortRun_result arr
    unfold selectionSortRun at h
    simp only [sortState_emit_result] at h
    unfold EndsSorted selectionSortSteps selectionSortRun
    exact ⟨_, sortState_getLast?_emit _ _, rfl, h.1, h.2⟩
  · have h := insertionSortRun_result arr
    unfold insertionSortRun at h
    simp only [sortState_emit_result] at h
    unfold EndsSorted insertionSortSteps insertionSortRun
    exact ⟨_, sortState_getLast?_emit _ _, rfl, h.1, h.2⟩

/-! ## Merge sort: the `while` rule and the function `merge` -/

/-- Total-correctness rule for a `while` loop: an invariant and a measure that the body
decreases and that the fuel covers. -/
theorem whileLoop_spec {σ : Type} (cond : σ → Bool) (body : σ → σ) (Inv : σ → Prop)
    (μ : σ → Nat)
    (hstep : ∀ s, Inv s → cond s = true → Inv (body s) ∧ μ (body s) < μ s) :
    ∀ (fuel : Nat) (s : σ), Inv s → μ s ≤ fuel →
      ∃ s', whileLoop cond body fuel s = some s' ∧ Inv s' ∧ cond s' = false := by
  intro fuel
  induction fuel with
  | zero =>
    intro s hs hm
    cases hc : cond s with
    | false => exact ⟨s, by simp [whileLoop, hc], hs, hc⟩
    | true => have := (hstep s hs hc).2; omega
  | succ fuel ih =>
    intro s hs hm
    cases hc : cond s with
    | false => exact ⟨s, by simp [whileLoop, hc], hs, hc⟩
    | true =>
      obtain ⟨h1, h2⟩ := hstep s hs hc
      obtain ⟨s', e, h3, h4⟩ := ih (body s) h1 (by omega)
      exact ⟨s', by simp [whileLoop, hc, e], h3, h4⟩

theorem jsSlice_append (P A S : List Int) (lo hi : Nat) (hlo : P.length = lo)
    (hhi : hi - lo = A.length) : jsSlice (P ++ (A ++ S)) lo hi = A := by
  unfold jsSlice
  rw [List.drop_left' hlo, hhi, List.take_left' rfl]

theorem jsGet_eq_getElem (a : List Int) (i : Nat) (h : i < a.length) : jsGet a i = a[i] := by
  simp [jsGet, List.getElem?_eq_getElem h]

theorem drop_eq_jsGet_cons (a : List Int) (i : Nat) (h : i < a.length) :
    a.drop i = jsGet a i :: a.drop (i + 1) := by
  rw [jsGet_eq_getElem a i h]
  exact List.drop_eq_getElem_cons h

/-- Writing the next cell of the merged block. -/
theorem set_merged_block (P M T S : List Int) (N k : Nat) (x : Int)
    (hk : k = P.length + M.length) (hN : M.length + T.length = N) (hlt : M.length < N) :
    (P ++ (M ++ (T ++ S))).set k x = P ++ ((M ++ [x]) ++ (T.tail ++ S)) ∧
      (M ++ [x]).length + T.tail.length = N := by
  cases T with
  | nil => simp at hN; omega
  | cons t T =>
    constructor
    · have e : P ++ (M ++ (t :: T ++ S)) = (P ++ M) ++ t :: (T ++ S) := by simp
      have hk2 : k = (P ++ M).length := by simp [hk]
      rw [e, hk2, set_append_length]
      simp
    · simp at hN ⊢
      omega

theorem mergeBody_inv (left mid : Nat) (P la ra S : List Int) (v : MergeVars)
    (h : MergeInv P la ra S v) (hi : v.i < la.length) (hj : v.j < ra.length) :
    MergeInv P la ra S (mergeSortSteps.mergeBody left mid la ra v) := by
  obtain ⟨hk, _, _, M, T, hr, hM, hMT, hmerge⟩ := h
  rw [drop_eq_jsGet_cons la v.i hi, drop_eq_jsGet_cons ra v.j hj, List.cons_merge_cons] at hmerge
  unfold mergeSortSteps.mergeBody
  by_cases hc : jsGet la v.i ≤ jsGet ra v.j
  · obtain ⟨e1, e2⟩ := set_merged_block P M T S (la.length + ra.length) v.k (jsGet la v.i)
      (by omega) hMT (by omega)
    simp only [hc, if_true, sortState_push_result, hr, decide_True] at hmerge ⊢
    refine ⟨by simp only []; omega, by simp only []; omega, by simp only []; omega,
      M ++ [jsGet la v.i], T.tail, e1, by simp; omega, e2, ?_⟩
    simp only [List.append_assoc, List.singleton_append]
    rw [drop_eq_jsGet_cons ra v.j hj]
    exact hmerge
  · obtain ⟨e1, e2⟩ := set_merged_block P M T S (la.length + ra.length) v.k (jsGet ra v.j)
      (by omega) hMT (by omega)
    simp only [hc, if_false, sortState_push_result, hr, decide_False, Bool.false_eq_true]
      at hmerge ⊢
    refine ⟨by simp only []; omega, by simp only []; omega, by simp only []; omega,
      M ++ [jsGet ra v.j], T.tail, e1, by simp; omega, e2, ?_⟩
    simp only [List.append_assoc, List.singleton_append]
    rw [drop_eq_jsGet_cons la v.i hi]
    exact hmerge

theorem copyLeft_inv (P la ra S : List Int) (v : MergeVars)
    (h : MergeInv P la ra S v) (hi : v.i < la.length) (hj : v.j = ra.length) :
    MergeInv P la ra S (mergeSortSteps.copyLeft la v) := by
  obtain ⟨hk, _, _, M, T, hr, hM, hMT, hmerge⟩ := h
  have hnil : ra.drop v.j = [] := by rw [hj]; exact List.drop_length ra
  rw [hnil, List.merge_right, drop_eq_jsGet_cons la v.i hi] at hmerge
  obtain ⟨e1, e2⟩ := set_merged_block P M T S (la.length + ra.length) v.k (jsGet la v.i)
    (by omega) hMT (by omega)
  unfold mergeSortSteps.copyLeft
  simp only [hr]
  refine ⟨by simp only []; omega, by simp only []; omega, by simp only []; omega,
    M ++ [jsGet la v.i], T.tail, e1, by simp; omega, e2, ?_⟩
  simp only [hnil, List.merge_right, List.append_assoc, List.singleton_append]
  exact hmerge

theorem copyRight_inv (P la ra S : List Int) (v : MergeVars)
    (h : MergeInv P la ra S v) (hj : v.j < ra.length) (hi : v.i = la.length) :
    MergeInv P la ra S (mergeSortSteps.copyRight ra v) := by
  obtain ⟨hk, _, _, M, T, hr, hM, hMT, hmerge⟩ := h
  have hnil : la.drop v.i = [] := by rw [hi]; exact List.drop_length la
  rw [hnil, List.nil_merge, drop_eq_jsGet_cons ra v.j hj] at hmerge
  obtain ⟨e1, e2⟩ := set_merged_block P M T S (la.length + ra.length) v.k (jsGet ra v.j)
    (by omega) hMT (by omega)
  unfold mergeSortSteps.copyRight
  simp only [hr]
  refine ⟨by simp only []; omega, by simp only []; omega, by simp only []; omega,
    M ++ [jsGet ra v.j], T.tail, e1, by simp; omega, e2, ?_⟩
  simp only [hnil, List.nil_merge, List.append_assoc, List.singleton_append]
  exact hmerge

theorem merge_spec (left mid right : Nat) (P la ra S : List Int) (st : SortState)
    (hr : st.result = P ++ (la ++ (ra ++ S))) (hP : P.length = left)
    (hla : left + la.length = mid + 1) (hra : mid + 1 + ra.length = right + 1) :
    ∃ st', mergeSortSteps.merge left mid right st = some st' ∧
      st'.result = P ++ (List.merge la ra (fun a b => decide (a ≤ b)) ++ S) := by
  have hs1 : jsSlice st.result left (mid + 1) = la := by
    rw [hr]; exact jsSlice_append P la (ra ++ S) left (mid + 1) hP (by omega)
  have hs2 : jsSlice st.result (mid + 1) (right + 1) = ra := by
    have e : st.result = (P ++ la) ++ (ra ++ S) := by rw [hr]; simp
    rw [e]
    exact jsSlice_append (P ++ la) ra S (mid + 1) (right + 1) (by simp; omega) (by omega)
  unfold mergeSortSteps.merge
  simp only [hs1, hs2]
  -- first loop
  obtain ⟨v1, e1, hv1, hc1⟩ := whileLoop_spec
    (fun v : MergeVars => decide (v.i < la.length ∧ v.j < ra.length))
    (mergeSortSteps.mergeBody left mid la ra) (MergeInv P la ra S)
    (fun v => (la.length - v.i) + (ra.length - v.j))
    (by
      intro v hv hc
      simp only [decide_eq_true_eq] at hc
      refine ⟨mergeBody_inv left mid P la ra S v hv hc.1 hc.2, ?_⟩
      unfold mergeSortSteps.mergeBody
      split_ifs <;> simp only [] <;> omega)
    (la.length + ra.length) { i := 0, j := 0, k := left, st := st }
    ⟨by simp only []; omega, Nat.zero_le _, Nat.zero_le _, [], la ++ ra,
      by simp [hr], rfl, by simp, by simp⟩
    (by simp only []; omega)
  -- second loop
  obtain ⟨v2, e2, hv2, hc2⟩ := whileLoop_spec
    (fun v : MergeVars => decide (v.i < la.length))
    (mergeSortSteps.copyLeft la)
    (fun v => MergeInv P la ra S v ∧ (v.i = la.length ∨ v.j = ra.length))
    (fun v => la.length - v.i)
    (by
      intro v hv hc
      simp only [decide_eq_true_eq] at hc
      have hj : v.j = ra.length := by
        rcases hv.2 with h | h
        · omega
        · exact h
      refine ⟨⟨copyLeft_inv P la ra S v hv.1 hc hj, Or.inr ?_⟩, ?_⟩
      · unfold mergeSortSteps.copyLeft; exact hj
      · unfold mergeSortSteps.copyLeft; simp only []; omega)
    (la.length + ra.length) v1
    ⟨hv1, by
      simp only [decide_eq_false_iff_not, not_and_or] at hc1
      have h1 := hv1.2.1
      have h2 := hv1.2.2.1
      rcases hc1 with h | h
      · left; omega
      · right; omega⟩
    (by dsimp only; omega)
  -- third loop
  obtain ⟨v3, e3, hv3, hc3⟩ := whileLoop_spec
    (fun v : MergeVars => decide (v.j < ra.length))
    (mergeSortSteps.copyRight ra)
    (fun v => MergeInv P la ra S v ∧ v.i = la.length)
    (fun v => ra.length - v.j)
    (by
      intro v hv hc
      simp only [decide_eq_true_eq] at hc
      refine ⟨⟨copyRight_inv P la ra S v hv.1 hc hv.2, ?_⟩, ?_⟩
      · unfold mergeSortSteps.copyRight; exact hv.2
      · unfold mergeSortSteps.copyRight; simp only []; omega)
    (la.length + ra.length) v2
    ⟨hv2.1, by
      simp only [decide_eq_false_iff_not] at hc2
      have h1 := hv2.1.2.1
      omega⟩
    (by dsimp only; omega)
  refine ⟨v3.st, by rw [e1, Option.some_bind, e2, Option.some_bind, e3, Option.some_bind], ?_⟩
  obtain ⟨⟨_, _, hj3, M, T, hres, hM, hMT, hmerge⟩, hi3⟩ := hv3
  simp only [decide_eq_false_iff_not] at hc3
  have hj : v3.j = ra.length := by omega
  rw [hi3, hj, List.drop_length, List.drop_length] at hmerge
  simp only [List.nil_merge, List.append_nil] at hmerge
  have hT : T = [] := List.length_eq_zero.1 (by omega)
  rw [hres, hT, hmerge]
  simp

/-! ## Merge sort: the recursion -/

theorem sortState_getLast?_push (st : SortState) (s : SortStep) :
    (st.push s).steps.getLast? = some s := by
  simp [SortState.push]

theorem mergeSort_spec : ∀ (fuel : Nat) (left right : Int) (st : SortState)
    (P A S : List Int), st.result = P ++ (A ++ S) → left = (P.length : Int) →
    right = (P.length : Int) + (A.length : Int) - 1 → 1 ≤ A.length → A.length ≤ fuel →
    ∃ st' M, mergeSortSteps.mergeSort fuel left right st = some st' ∧
      st'.result = P ++ (M ++ S) ∧ M.Sorted (· ≤ ·) ∧ M.Perm A ∧
      (2 ≤ A.length → ∃ s, st'.steps.getLast? = some s ∧ s.type = SortKind.merge ∧
        s.array = st'.result ∧ s.merged = arrayFrom A.length (fun i => P.length + i)) := by
  intro fuel
  induction fuel with
  | zero => intro left right st P A S _ _ _ h1 h2; omega
  | succ fuel ih =>
    intro left right st P A S hr hl hrt hA1 hAf
    unfold mergeSortSteps.mergeSort
    by_cases hlt : left < right
    · simp only [hlt, if_true]
      have hA2 : 2 ≤ A.length := by omega
      obtain ⟨a1, ha1⟩ : ∃ a1 : Nat, a1 = (A.length - 1) / 2 + 1 := ⟨_, rfl⟩
      have hmid : (left + right) / 2 = (P.length : Int) + (a1 : Int) - 1 := by omega
      have hsplit : A = A.take a1 ++ A.drop a1 := (List.take_append_drop a1 A).symm
      have hlen1 : (A.take a1).length = a1 := by rw [List.length_take]; omega
      have hlen2 : (A.drop a1).length = A.length - a1 := by rw [List.length_drop]
      obtain ⟨st2, M1, e1, r1, s1, p1, _⟩ := ih left ((left + right) / 2)
        (st.push { type := .divide, array := st.result, range := [left.toNat, right.toNat] })
        P (A.take a1) (A.drop a1 ++ S)
        (by
          rw [sortState_push_result, hr, ← List.append_assoc (A.take a1), ← hsplit])
        hl (by rw [hmid, hlen1]) (by omega) (by omega)
      have hM1 : M1.length = a1 := by rw [p1.length_eq, hlen1]
      obtain ⟨st3, M2, e2, r2, s2, p2, _⟩ := ih ((left + right) / 2 + 1) right st2
        (P ++ M1) (A.drop a1) S
        (by rw [r1]; simp)
        (by rw [hmid]; simp [hM1])
        (by rw [hrt, hlen2]; simp [hM1]; omega) (by omega) (by omega)
      have hM2 : M2.length = A.length - a1 := by rw [p2.length_eq, hlen2]
      obtain ⟨st4, e3, r3⟩ := merge_spec left.toNat ((left + right) / 2).toNat right.toNat
        P M1 M2 S st3 (by rw [r2]; simp) (by omega) (by omega) (by omega)
      rw [e1, Option.some_bind, e2, Option.some_bind, e3, Option.some_bind]
      refine ⟨_, List.merge M1 M2 (fun a b => decide (a ≤ b)), rfl, ?_, ?_, ?_, ?_⟩
      · rw [sortState_push_result, r3]
      · exact List.Sorted.merge s1 s2
      · refine (List.merge_perm_append _).trans ?_
        have := List.Perm.append p1 p2
        rw [← hsplit] at this
        exact this
      · intro _
        refine ⟨_, sortState_getLast?_push _ _, rfl, rfl, ?_⟩
        have h1 : (right - left + 1).toNat = A.length := by omega
        have h2 : left.toNat = P.length := by omega
        simp only [h1, h2]
    · simp only [hlt, if_false]
      have hA : A.length = 1 := by omega
      obtain ⟨a, ha⟩ := List.length_eq_one.1 hA
      refine ⟨st, A, rfl, hr, ?_, List.Perm.refl _, ?_⟩
      · rw [ha]; exact List.sorted_singleton a
      · intro h; omega

/-- C2. For every array of integers with at least two elements `mergeSortSteps` returns a
trace, and the last step of the trace is a `merge` step covering the whole range `0..n-1`
whose `array` snapshot is in ascending order and is a permutation of the input. -/
theorem mergeSort_last_step_sorted (arr : List Int) (h : 2 ≤ arr.length) :
    ∃ steps s, mergeSortSteps arr = some steps ∧ steps.getLast? = some s ∧
      s.type = SortKind.merge ∧ s.merged = List.range arr.length ∧
      s.array.Sorted (· ≤ ·) ∧ s.array.Perm arr := by
  obtain ⟨st', M, e, r, hs, hp, hlast⟩ := mergeSort_spec (arr.length + 1) 0
    ((arr.length : Int) - 1) { result := arr, steps := [], stepCounter := 1 } [] arr []
    (by simp) (by simp) (by simp) (by omega) (by omega)
  obtain ⟨s, h1, h2, h3, h4⟩ := hlast h
  refine ⟨st'.steps, s, ?_, h1, h2, ?_, ?_, ?_⟩
  · unfold mergeSortSteps mergeSortRun
    rw [e]; rfl
  · rw [h4]; simp [arrayFrom]
  · rw [h3, r]; simpa using hs
  · rw [h3, r]; simpa using hp

/-- C2, at the array `[3, 1, 2]`. -/
theorem mergeSort_last_step_sorted_witness :
    2 ≤ [3, 1, (2 : Int)].length ∧
    ∃ steps s, mergeSortSteps [3, 1, 2] = some steps ∧ steps.getLast? = some s ∧
      s.type = SortKind.merge ∧ s.merged = List.range [3, 1, (2 : Int)].length ∧
      s.array.Sorted (· ≤ ·) ∧ s.array.Perm [3, 1, 2] :=
  ⟨by decide, mergeSort_last_step_sorted [3, 1, 2] (by decide)⟩

/-! ## Quick sort: the function `partition` -/

theorem jsSwap_self (a : List Int) (i : Nat) : jsSwap a i i = a := by
  unfold jsSwap jsGet
  induction a generalizing i with
  | nil => simp
  | cons x a ih =>
    cases i with
    | zero => simp
    | succ i => simpa using ih i

theorem jsSwap_blocks (X Y Z : List Int) (g u : Int) (i j : Nat) (hi : i = X.length)
    (hj : j = X.length + 1 + Y.length) :
    jsSwap (X ++ g :: (Y ++ u :: Z)) i j = X ++ u :: (Y ++ g :: Z) := by
  have e1 : X ++ g :: (Y ++ u :: Z) = (X ++ g :: Y) ++ u :: Z := by simp
  have hj1 : j = (X ++ g :: Y).length := by simp [hj]; omega
  have hgj : jsGet (X ++ g :: (Y ++ u :: Z)) j = u := by
    rw [e1, hj1]; exact jsGet_append_length _ _ _
  have hgi : jsGet (X ++ g :: (Y ++ u :: Z)) i = g := by
    rw [hi]; exact jsGet_append_length _ _ _
  unfold jsSwap
  rw [hgj, hgi, hi, set_append_length]
  have e2 : X ++ u :: (Y ++ u :: Z) = (X ++ u :: Y) ++ u :: Z := by simp
  have hj2 : j = (X ++ u :: Y).length := by simp [hj]; omega
  rw [e2, hj2, set_append_length]
  simp

theorem sortState_lastShows_push (st : SortState) (r : List Int) (s : SortStep)
    (h : s.array = r) : LastShows (({ st with result := r } : SortState).push s) :=
  ⟨s, by simp [SortState.push], h⟩

theorem partitionBody_inv (P A0 S : List Int) (pivot : Int) (high j : Nat)
    (si : SortState × Nat) (hlen : A0.length = high - P.length) (hj : j < high)
    (h : PartitionInv P A0 S pivot j si) :
    PartitionInv P A0 S pivot (j + 1) (quickSortSteps.partitionBody high pivot si j) := by
  obtain ⟨Ls, Gs, U, hr, hi1, hjj, hL, hG, hperm, _⟩ := h
  have hlenU : Ls.length + (Gs.length + U.length) = A0.length := by
    have := hperm.length_eq
    simpa using this
  cases U with
  | nil => simp at hlenU; omega
  | cons u U =>
    have hget : jsGet si.1.result j = u := by
      have e : si.1.result = (P ++ Ls ++ Gs) ++ u :: (U ++ pivot :: S) := by rw [hr]; simp
      have hj2 : j = (P ++ Ls ++ Gs).length := by
        simp only [List.length_append]; omega
      rw [e, hj2]; exact jsGet_append_length _ _ _
    unfold quickSortSteps.partitionBody
    simp only [sortState_push_result, hget]
    by_cases hc : u < pivot
    · simp only [hc, if_true]
      cases Gs with
      | nil =>
        have hij : si.2 = j := by simp at hjj; omega
        refine ⟨Ls ++ [u], [], U, ?_, ?_, ?_, ?_, ?_, ?_, ?_⟩
        · simp only [sortState_push_result, hij, jsSwap_self, hr]; simp
        · simp only [List.length_append, List.length_singleton]; omega
        · simp at hjj ⊢; omega
        · intro x hx
          rcases List.mem_append.1 hx with h1 | h1
          · exact hL x h1
          · simp at h1; subst h1; exact hc
        · intro x hx; simp at hx
        · simpa using hperm
        · exact sortState_lastShows_push _ _ _ rfl
      | cons g Gs =>
        have hsw : jsSwap si.1.result si.2 j =
            (P ++ Ls) ++ u :: (Gs ++ g :: (U ++ pivot :: S)) := by
          have e : si.1.result = (P ++ Ls) ++ g :: (Gs ++ u :: (U ++ pivot :: S)) := by
            rw [hr]; simp
          rw [e]
          exact jsSwap_blocks (P ++ Ls) Gs (U ++ pivot :: S) g u si.2 j (by simp [hi1])
            (by simp at hjj ⊢; omega)
        refine ⟨Ls ++ [u], Gs ++ [g], U, ?_, ?_, ?_, ?_, ?_, ?_, ?_⟩
        · simp only [sortState_push_result, hsw]; simp
        · simp only [List.length_append, List.length_singleton]; omega
        · simp at hjj ⊢; omega
        · intro x hx
          rcases List.mem_append.1 hx with h1 | h1
          · exact hL x h1
          · simp at h1; subst h1; exact hc
        · intro x hx
          rcases List.mem_append.1 hx with h1 | h1
          · exact hG x (List.mem_cons_of_mem _ h1)
          · simp at h1; subst h1; exact hG x (List.mem_cons_self _ _)
        · refine List.Perm.trans ?_ hperm
          simp only [List.append_assoc, List.singleton_append, List.cons_append]
          refine List.Perm.append_left Ls ?_
          have m1 : (Gs ++ g :: U).Perm (g :: (Gs ++ U)) := List.perm_middle
          have m2 : (Gs ++ u :: U).Perm (u :: (Gs ++ U)) := List.perm_middle
          refine (List.Perm.cons u m1).trans ?_
          refine (List.Perm.swap g u (Gs ++ U)).trans ?_
          exact List.Perm.cons g m2.symm
        · exact sortState_lastShows_push _ _ _ rfl
    · simp only [hc, if_false]
      refine ⟨Ls, Gs ++ [u], U, ?_, hi1, ?_, hL, ?_, ?_, ?_⟩
      · simp only [sortState_push_result, hr]; simp
      · simp only [List.length_append, List.length_singleton]; omega
      · intro x hx
        rcases List.mem_append.1 hx with h1 | h1
        · exact hG x h1
        · simp at h1; subst h1; omega
      · simpa using hperm
      · exact ⟨_, sortState_getLast?_push _ _, rfl⟩

theorem partition_spec (low high : Nat) (st : SortState) (P A S : List Int)
    (hr : st.result = P ++ (A ++ S)) (hlow : low = P.length)
    (hhigh : high + 1 = P.length + A.length) (hA : 2 ≤ A.length) :
    ∃ (L G : List Int) (pivot : Int),
      (quickSortSteps.partition low high st).2.result = P ++ (L ++ pivot :: (G ++ S)) ∧
      (quickSortSteps.partition low high st).1 = P.length + L.length ∧
      (∀ x ∈ L, x < pivot) ∧ (∀ x ∈ G, pivot ≤ x) ∧ (L ++ pivot :: G).Perm A ∧
      LastShows (quickSortSteps.partition low high st).2 := by
  have hne : A ≠ [] := by intro e; subst e; simp at hA
  obtain ⟨A0, pivot, hcat⟩ := exists_append_singleton A hne
  subst hcat
  have hA0 : A0.length = high - P.length := by simp at hhigh; omega
  have hpiv : jsGet st.result high = pivot := by
    have e : st.result = (P ++ A0) ++ pivot :: S := by rw [hr]; simp
    have hh : high = (P ++ A0).length := by simp at hhigh ⊢; omega
    rw [e, hh]; exact jsGet_append_length _ _ _
  have key := forLoop_inv (PartitionInv P A0 S pivot)
    (quickSortSteps.partitionBody high pivot) low high
    (st.push { type := .selectPivot, array := st.result, pivot := some high }, low)
    (by simp at hhigh; omega)
    ⟨[], [], A0, by simp [hr], by simp [hlow], by simp [hlow], by simp, by simp, by simp,
      ⟨_, sortState_getLast?_push _ _, rfl⟩⟩
    (fun j s _ hj2 hinv => partitionBody_inv P A0 S pivot high j s hA0 hj2 hinv)
  unfold quickSortSteps.partition
  simp only [hpiv]
  generalize forLoop low high (quickSortSteps.partitionBody high pivot)
    (st.push { type := .selectPivot, array := st.result, pivot := some high }, low) = si at key
  obtain ⟨Ls, Gs, U, hres, hi1, hjj, hL, hG, hperm, _⟩ := key
  have hlenU : Ls.length + (Gs.length + U.length) = A0.length := by
    have := hperm.length_eq
    simpa using this
  have hU : U = [] := List.length_eq_zero.1 (by omega)
  subst hU
  simp only [List.nil_append, List.append_nil] at hres hperm
  cases Gs with
  | nil =>
    have hih : si.2 = high := by simp at hjj; omega
    refine ⟨Ls, [], pivot, ?_, hi1, hL, by simp, ?_, sortState_lastShows_push _ _ _ rfl⟩
    · simp only [sortState_push_result, hih, jsSwap_self, hres]; simp
    · simp only [List.append_nil] at hperm
      exact List.Perm.append_right [pivot] hperm
  | cons g Gs =>
    have hsw : jsSwap si.1.result si.2 high = (P ++ Ls) ++ pivot :: (Gs ++ g :: S) := by
      have e : si.1.result = (P ++ Ls) ++ g :: (Gs ++ pivot :: S) := by rw [hres]; simp
      rw [e]
      exact jsSwap_blocks (P ++ Ls) Gs S g pivot si.2 high (by simp [hi1])
        (by simp at hjj ⊢; omega)
    refine ⟨Ls, Gs ++ [g], pivot, ?_, hi1, hL, ?_, ?_, sortState_lastShows_push _ _ _ rfl⟩
    · simp only [sortState_push_result, hsw]; simp
    · intro x hx
      rcases List.mem_append.1 hx with h1 | h1
      · exact hG x (List.mem_cons_of_mem _ h1)
      · simp at h1; subst h1; exact hG x (List.mem_cons_self _ _)
    · have h1 : (Ls ++ pivot :: (Gs ++ [g])).Perm (pivot :: (Ls ++ (Gs ++ [g]))) :=
        List.perm_middle
      have h2 : (Ls ++ (Gs ++ [g])).Perm (Ls ++ g :: Gs) :=
        List.Perm.append_left Ls (List.perm_append_singleton g Gs)
      have h3 : (A0 ++ [pivot]).Perm (pivot :: A0) := List.perm_append_singleton pivot A0
      exact (h1.trans (List.Perm.cons pivot (h2.trans hperm))).trans h3.symm

/-! ## Quick sort: the recursion -/

theorem quickSort_spec : ∀ (fuel : Nat) (low high : Int) (st : SortState)
    (P A S : List Int), st.result = P ++ (A ++ S) → low = (P.length : Int) →
    high = (P.length : Int) + (A.length : Int) - 1 → A.length + 1 ≤ fuel →
    ∃ st' M, quickSortSteps.quickSort fuel low high st = some st' ∧
      st'.result = P ++ (M ++ S) ∧ M.Sorted (· ≤ ·) ∧ M.Perm A ∧
      (LastShows st ∨ 2 ≤ A.length → LastShows st') := by
  intro fuel
  induction fuel with
  | zero => intro low high st P A S _ _ _ h; omega
  | succ fuel ih =>
    intro low high st P A S hr hl hh hAf
    unfold quickSortSteps.quickSort
    by_cases hlt : low < high
    · simp only [hlt, if_true]
      have hA2 : 2 ≤ A.length := by omega
      obtain ⟨L, G, pivot, r0, hpi, hL, hG, hperm, hshow⟩ :=
        partition_spec low.toNat high.toNat st P A S hr (by omega) (by omega) hA2
      have hlen : L.length + (G.length + 1) = A.length := by
        have := hperm.length_eq
        simpa using this
      generalize quickSortSteps.partition low.toNat high.toNat st = ps at r0 hpi hshow
      obtain ⟨st2, L', e1, r1, s1, p1, show1⟩ := ih low ((ps.1 : Int) - 1) ps.2
        P L (pivot :: (G ++ S)) r0 hl (by rw [hpi]; push_cast; omega) (by omega)
      have hL' : L'.length = L.length := p1.length_eq
      obtain ⟨st3, G', e2, r2, s2, p2, show2⟩ := ih ((ps.1 : Int) + 1) high st2
        (P ++ (L' ++ [pivot])) G S (by rw [r1]; simp)
        (by rw [hpi]; simp [hL']; omega)
        (by rw [hh]; simp [hL']; omega) (by omega)
      rw [e1, Option.some_bind, e2]
      refine ⟨st3, L' ++ pivot :: G', rfl, by rw [r2]; simp, ?_, ?_, ?_⟩
      · unfold List.Sorted at s1 s2 ⊢
        rw [List.pairwise_append]
        refine ⟨s1, ?_, ?_⟩
        · rw [List.pairwise_cons]
          exact ⟨fun b hb => hG b (p2.subset hb), s2⟩
        · intro a ha b hb
          have h1 : a < pivot := hL a (p1.subset ha)
          rcases List.mem_cons.1 hb with e | hb
          · subst e; exact le_of_lt h1
          · have h2 : pivot ≤ b := hG b (p2.subset hb)
            omega
      · exact (List.Perm.append p1 (List.Perm.cons pivot p2)).trans hperm
      · intro _
        exact show2 (Or.inl (show1 (Or.inl hshow)))
    · simp only [hlt, if_false]
      have hA : A.length ≤ 1 := by omega
      refine ⟨st, A, rfl, hr, ?_, List.Perm.refl _, ?_⟩
      · match A, hA with
        | [], _ => exact List.sorted_nil
        | [a], _ => exact List.sorted_singleton a
      · intro h
        rcases h with h | h
        · exact h
        · omega

/-- C3. For every array of integers with at least two elements `quickSortSteps` returns a
trace whose last step has an `array` snapshot in ascending order that is a permutation of
the input; the snapshot is the working array as `quickSort` leaves it, so nothing is written
after the last step. -/
theorem quickSort_last_step_sorted (arr : List Int) (h : 2 ≤ arr.length) :
    ∃ st steps s, quickSortRun arr = some st ∧ quickSortSteps arr = some steps ∧
      steps.getLast? = some s ∧ s.array = st.result ∧
      s.array.Sorted (· ≤ ·) ∧ s.array.Perm arr := by
  obtain ⟨st', M, e, r, hs, hp, hlast⟩ := quickSort_spec (arr.length + 1) 0
    ((arr.length : Int) - 1) { result := arr, steps := [], stepCounter := 1 } [] arr []
    (by simp) (by simp) (by simp) (by omega)
  obtain ⟨s, h1, h2⟩ := hlast (Or.inr h)
  have e0 : quickSortRun arr = some st' := e
  refine ⟨st', st'.steps, s, e0, ?_, h1, h2, ?_, ?_⟩
  · unfold quickSortSteps
    rw [e0]; rfl
  · rw [h2, r]; simpa using hs
  · rw [h2, r]; simpa using hp

/-- C3, at the array `[2, 3, 1]`. -/
theorem quickSort_last_step_sorted_witness :
    2 ≤ [2, 3, (1 : Int)].length ∧
    ∃ st steps s, quickSortRun [2, 3, 1] = some st ∧ quickSortSteps [2, 3, 1] = some steps ∧
      steps.getLast? = some s ∧ s.array = st.result ∧
      s.array.Sorted (· ≤ ·) ∧ s.array.Perm [2, 3, 1] :=
  ⟨by decide, quickSort_last_step_sorted [2, 3, 1] (by decide)⟩

/-! ## C5: linear search -/

theorem searchState_getLast?_emit (st : SearchState) (s : SearchStep) :
    (st.emit s).steps.getLast? = some { s with stepNumber := some st.stepCounter } := by
  simp [SearchState.emit]

theorem linearScan_spec (array : List Int) (target : Int) (startIndex : Nat) :
    ∀ (n i : Nat) (st : SearchState), n = array.length - i → startIndex ≤ i →
      (∀ k, startIndex ≤ k → k < i → jsGet array k ≠ target) →
      ∃ s, (linearSearchSteps.scan array target startIndex n i st).steps.getLast? = some s ∧
        ((s.type = SearchKind.found ∧
            ∃ j : Nat, s.foundIndex = some (j : Int) ∧ IsFirstMatch array target startIndex j) ∨
         (s.type = SearchKind.notFound ∧
            ∀ k, startIndex ≤ k → k < array.length → jsGet array k ≠ target)) := by
  intro n
  induction n with
  | zero =>
    intro i st hn hi hno
    refine ⟨_, searchState_getLast?_emit _ _, Or.inr ⟨rfl, ?_⟩⟩
    intro k hk1 hk2
    exact hno k hk1 (by omega)
  | succ n ih =>
    intro i st hn hi hno
    unfold linearSearchSteps.scan
    by_cases hc : jsGet array i = target
    · simp only [hc, if_true]
      exact ⟨_, searchState_getLast?_emit _ _, Or.inl ⟨rfl, i, rfl, hi, by omega, hc, hno⟩⟩
    · simp only [hc, if_false]
      apply ih (i + 1) _ (by omega) (by omega)
      intro k hk1 hk2
      by_cases e : k = i
      · subst e; exact hc
      · exact hno k hk1 (by omega)

/-- C5. For every array, target and integer `startIndex ≥ 0`, the trace of
`linearSearchSteps` ends in a `found` step with `foundIndex = i` exactly when `i` is the
smallest index at or after `startIndex` whose element equals the target, and it ends in a
`not-found` step when no index at or after `startIndex` holds the target. -/
theorem linearSearch_finds_first (array : List Int) (target : Int) (startIndex : Nat) :
    ∃ s, (linearSearchSteps array target startIndex).getLast? = some s ∧
      (∀ i : Nat, (s.type = SearchKind.found ∧ s.foundIndex = some (i : Int)) ↔
        IsFirstMatch array target startIndex i) ∧
      ((¬ ∃ i, startIndex ≤ i ∧ i < array.length ∧ jsGet array i = target) →
        s.type = SearchKind.notFound) := by
  obtain ⟨s, hs, h⟩ := linearScan_spec array target startIndex (array.length - startIndex)
    startIndex
    (({ steps := [], stepCounter := 1 } : SearchState).emit
      { type := .init, array := array, target := target,
        searchRange := (startIndex, (array.length : Int) - 1) })
    rfl (Nat.le_refl _) (fun k h1 h2 => by omega)
  refine ⟨s, hs, ?_, ?_⟩
  · intro i
    constructor
    · rintro ⟨ht, hf⟩
      rcases h with ⟨_, j, hj, hfirst⟩ | ⟨hnf, _⟩
      · rw [hf] at hj
        have : i = j := by simpa using hj
        subst this
        exact hfirst
      · rw [ht] at hnf; cases hnf
    · intro hfirst
      rcases h with ⟨ht, j, hj, hfirst2⟩ | ⟨_, hno⟩
      · obtain ⟨a1, a2, a3, a4⟩ := hfirst
        obtain ⟨b1, b2, b3, b4⟩ := hfirst2
        have hij : i = j := by
          rcases Nat.lt_trichotomy i j with h1 | h1 | h1
          · exact absurd a3 (b4 i a1 h1)
          · exact h1
          · exact absurd b3 (a4 j b1 h1)
        subst hij
        exact ⟨ht, hj⟩
      · exact absurd hfirst.2.2.1 (hno i hfirst.1 hfirst.2.1)
  · intro hnone
    rcases h with ⟨_, j, _, hfirst⟩ | ⟨hnf, _⟩
    · exact absurd ⟨j, hfirst.1, hfirst.2.1, hfirst.2.2.1⟩ hnone
    · exact hnf

/-! ## C4: binary search on a sorted array -/

theorem jsGet_mono_of_sorted (a : List Int) (h : a.Sorted (· ≤ ·)) (p q : Nat) (hpq : p ≤ q)
    (hq : q < a.length) : jsGet a p ≤ jsGet a q := by
  rcases Nat.eq_or_lt_of_le hpq with e | hlt
  · subst e; exact le_refl _
  · have hp : p < a.length := by omega
    rw [jsGet_eq_getElem a p hp, jsGet_eq_getElem a q hq]
    unfold List.Sorted at h
    rw [List.pairwise_iff_getElem] at h
    exact h p q hp hq hlt

theorem jsGet_mem (a : List Int) (i : Nat) (h : i < a.length) : jsGet a i ∈ a := by
  rw [jsGet_eq_getElem a i h]
  exact List.getElem_mem h

theorem binaryLoop_spec (array : List Int) (target : Int) (hs : array.Sorted (· ≤ ·)) :
    ∀ (fuel : Nat) (left right c : Int) (st : SearchState), 0 ≤ left →
      right < (array.length : Int) → right - left + 1 ≤ (fuel : Int) →
      (∀ k : Nat, k < array.length → jsGet array k = target →
        left ≤ (k : Int) ∧ (k : Int) ≤ right) →
      ∃ st' s, binarySearchSteps.loop array target fuel left right c st = some st' ∧
        st'.steps.getLast? = some s ∧
        ((s.type = SearchKind.found ∧ ∃ i : Nat, s.foundIndex = some (i : Int) ∧
            i < array.length ∧ jsGet array i = target) ∨
         (s.type = SearchKind.notFound ∧ target ∉ array)) := by
  intro fuel
  induction fuel with
  | zero =>
    intro left right c st h0 hr hf hinv
    have hlr : ¬ left ≤ right := by omega
    unfold binarySearchSteps.loop
    simp only [hlr, if_false]
    refine ⟨_, _, rfl, searchState_getLast?_emit _ _, Or.inr ⟨rfl, ?_⟩⟩
    intro hmem
    obtain ⟨k, hk, e⟩ := List.mem_iff_getElem.1 hmem
    have := hinv k hk (by rw [jsGet_eq_getElem array k hk]; exact e)
    omega
  | succ fuel ih =>
    intro left right c st h0 hr hf hinv
    unfold binarySearchSteps.loop
    by_cases hlr : left ≤ right
    · simp only [hlr, if_true]
      have hm0 : 0 ≤ (left + right) / 2 := by omega
      have hmn : ((left + right) / 2).toNat < array.length := by omega
      by_cases hc : jsGet array ((left + right) / 2).toNat = target
      · simp only [hc, if_true]
        refine ⟨_, _, rfl, searchState_getLast?_emit _ _,
          Or.inl ⟨rfl, ((left + right) / 2).toNat, ?_, hmn, hc⟩⟩
        simp only [Int.toNat_of_nonneg hm0]
      · simp only [hc, if_false]
        by_cases hlt : jsGet array ((left + right) / 2).toNat < target
        · simp only [hlt, if_true]
          apply ih _ _ _ _ (by omega) hr (by omega)
          intro k hk e
          have h1 := hinv k hk e
          refine ⟨?_, h1.2⟩
          by_contra hcon
          have hle : k ≤ ((left + right) / 2).toNat := by omega
          have := jsGet_mono_of_sorted array hs k _ hle hmn
          omega
        · simp only [hlt, if_false]
          apply ih _ _ _ _ h0 (by omega) (by omega)
          intro k hk e
          have h1 := hinv k hk e
          refine ⟨h1.1, ?_⟩
          by_contra hcon
          have hle : ((left + right) / 2).toNat ≤ k := by omega
          have := jsGet_mono_of_sorted array hs _ k hle hk
          omega
    · simp only [hlr, if_false]
      refine ⟨_, _, rfl, searchState_getLast?_emit _ _, Or.inr ⟨rfl, ?_⟩⟩
      intro hmem
      obtain ⟨k, hk, e⟩ := List.mem_iff_getElem.1 hmem
      have := hinv k hk (by rw [jsGet_eq_getElem array k hk]; exact e)
      omega

/-- C4. For every array in ascending order and every target, `binarySearchSteps` returns a
trace; its last step is a `found` step exactly when the target occurs in the array, the
`foundIndex` of a `found` step is an index holding the target, and the last step is a
`not-found` step when the target does not occur. -/
theorem binarySearch_finds_iff_present (array : List Int) (target : Int)
    (hs : array.Sorted (· ≤ ·)) :
    ∃ steps s, binarySearchSteps array target = some steps ∧ steps.getLast? = some s ∧
      (s.type = SearchKind.found ↔ target ∈ array) ∧
      (s.type = SearchKind.found → ∃ i : Nat, s.foundIndex = some (i : Int) ∧
        i < array.length ∧ jsGet array i = target) ∧
      (target ∉ array → s.type = SearchKind.notFound) := by
  obtain ⟨st', s, e, hlast, h⟩ := binaryLoop_spec array target hs array.length 0
    ((array.length : Int) - 1) 0
    (({ steps := [], stepCounter := 1 } : SearchState).emit
      { type := .init, array := array, target := target,
        searchRange := (0, (array.length : Int) - 1) })
    (le_refl _) (by omega) (by omega) (fun k hk _ => by omega)
  refine ⟨st'.steps, s, ?_, hlast, ?_, ?_, ?_⟩
  · unfold binarySearchSteps
    simp only [e, Option.map_some']
  · constructor
    · intro ht
      rcases h with ⟨_, i, _, hi, hget⟩ | ⟨hnf, _⟩
      · rw [← hget]; exact jsGet_mem array i hi
      · rw [ht] at hnf; cases hnf
    · intro hmem
      rcases h with ⟨ht, _⟩ | ⟨_, hnot⟩
      · exact ht
      · exact absurd hmem hnot
  · intro ht
    rcases h with ⟨_, i, hf, hi, hget⟩ | ⟨hnf, _⟩
    · exact ⟨i, hf, hi, hget⟩
    · rw [ht] at hnf; cases hnf
  · intro hnot
    rcases h with ⟨_, i, _, hi, hget⟩ | ⟨hnf, _⟩
    · exact absurd (hget ▸ jsGet_mem array i hi) hnot
    · exact hnf

/-- C4, at the sorted array `[1, 3, 5, 7, 9]` and the target `5`. -/
theorem binarySearch_finds_iff_present_witness :
    ([1, 3, 5, 7, 9] : List Int).Sorted (· ≤ ·) ∧
    ∃ steps s, binarySearchSteps [1, 3, 5, 7, 9] 5 = some steps ∧ steps.getLast? = some s ∧
      (s.type = SearchKind.found ↔ (5 : Int) ∈ ([1, 3, 5, 7, 9] : List Int)) ∧
      (s.type = SearchKind.found → ∃ i : Nat, s.foundIndex = some (i : Int) ∧
        i < ([1, 3, 5, 7, 9] : List Int).length ∧ jsGet [1, 3, 5, 7, 9] i = 5) ∧
      ((5 : Int) ∉ ([1, 3, 5, 7, 9] : List Int) → s.type = SearchKind.notFound) :=
  ⟨by decide, binarySearch_finds_iff_present [1, 3, 5, 7, 9] 5 (by decide)⟩

/-! ## C6: Tower of Hanoi -/

theorem towers_get_set_same (t : Towers) (p : Peg) (l : List Nat) :
    (t.set p l).get p = l := by
  cases p <;> rfl

theorem towers_get_set_ne (t : Towers) (p q : Peg) (l : List Nat) (h : q ≠ p) :
    (t.set p l).get q = t.get q := by
  cases p <;> cases q <;> first | rfl | exact absurd rfl h

theorem moveDisk_spec (src dest : Peg) (depth : Nat) (st : HanoiState) (X : List Nat)
    (d : Nat) (hsd : src ≠ dest) (hsrc : st.towers.get src = X ++ [d]) :
    ∃ st', towerOfHanoiSteps.moveDisk src dest depth st = some st' ∧
      st'.towers.get src = X ∧ st'.towers.get dest = st.towers.get dest ++ [d] ∧
      (∀ q, q ≠ src → q ≠ dest → st'.towers.get q = st.towers.get q) ∧
      st'.moveCount = st.moveCount + 1 := by
  unfold towerOfHanoiSteps.moveDisk
  simp only [hsrc, List.getLast?_append, List.getLast?_singleton, Option.or_some,
    List.dropLast_concat]
  refine ⟨_, rfl, ?_, ?_, ?_, rfl⟩
  · simp only []
    rw [towers_get_set_ne _ _ _ _ hsd, towers_get_set_same]
  · simp only []
    rw [towers_get_set_same, towers_get_set_ne _ _ _ _ (Ne.symm hsd)]
  · intro q h1 h2
    simp only []
    rw [towers_get_set_ne _ _ _ _ h2, towers_get_set_ne _ _ _ _ h1]

theorem hanoi_spec : ∀ (k : Nat) (src dest aux : Peg) (depth : Nat) (st : HanoiState)
    (X D : List Nat), src ≠ dest → src ≠ aux → dest ≠ aux → D.length = k + 1 →
    st.towers.get src = X ++ D →
    ∃ st', towerOfHanoiSteps.hanoi (k + 1) src dest aux depth st = some st' ∧
      st'.towers.get src = X ∧ st'.towers.get dest = st.towers.get dest ++ D ∧
      st'.towers.get aux = st.towers.get aux ∧
      st'.moveCount + 1 = st.moveCount + 2 ^ (k + 1) := by
  intro k
  induction k with
  | zero =>
    intro src dest aux depth st X D hsd hsa hda hD hsrc
    obtain ⟨d, rfl⟩ := List.length_eq_one.1 hD
    obtain ⟨st', e, h1, h2, h3, h4⟩ := moveDisk_spec src dest depth st X d hsd hsrc
    refine ⟨st', ?_, h1, h2, h3 aux (Ne.symm hsa) (Ne.symm hda), by rw [h4]; rfl⟩
    unfold towerOfHanoiSteps.hanoi
    exact e
  | succ k ih =>
    intro src dest aux depth st X D hsd hsa hda hD hsrc
    cases D with
    | nil => simp at hD
    | cons d D =>
      have hD' : D.length = k + 1 := by simpa using hD
      obtain ⟨st1, e1, a1, a2, a3, a4⟩ := ih src aux dest (depth + 1)
        (towerOfHanoiSteps.announce depth st) (X ++ [d]) D hsa hsd (Ne.symm hda) hD'
        (by simpa [towerOfHanoiSteps.announce] using hsrc)
      obtain ⟨st2, e2, b1, b2, b3, b4⟩ := moveDisk_spec src dest depth st1 X d hsd a1
      obtain ⟨st3, e3, c1, c2, c3, c4⟩ := ih aux dest src (depth + 1)
        (towerOfHanoiSteps.announce depth st2) (st.towers.get aux) D (Ne.symm hda)
        (Ne.symm hsa) (Ne.symm hsd) hD'
        (by
          have := b3 aux (Ne.symm hsa) (Ne.symm hda)
          simp only [towerOfHanoiSteps.announce] at a2 ⊢
          rw [this, a2])
      refine ⟨st3, ?_, ?_, ?_, c1, ?_⟩
      · unfold towerOfHanoiSteps.hanoi
        rw [e1, Option.some_bind, e2, Option.some_bind, e3]
      · rw [c3]; simpa [towerOfHanoiSteps.announce] using b1
      · rw [c2]
        simp only [towerOfHanoiSteps.announce] at a3 ⊢
        rw [b2, a3]; simp
      · simp only [towerOfHanoiSteps.announce] at a4 c4
        rw [b4] at c4
        have : 2 ^ (k + 1 + 1) = 2 * 2 ^ (k + 1) := by rw [pow_succ]; ring
        omega

theorem length_countdown (n : Nat) : (countdown n).length = n := by
  induction n with
  | zero => rfl
  | succ n ih => simp [countdown, ih]

/-- C6. For every `n ≥ 1` and the default pegs (source `A`, destination `C`, auxiliary `B`),
`towerOfHanoiSteps(n)` returns a trace whose last step is the `complete` step, with
`moveCount = 2^n - 1` and the towers snapshot `[[], [], [n, n-1, ..., 1]]`. -/
theorem hanoi_complete_step (n : Nat) (hn : 1 ≤ n) :
    ∃ steps s, towerOfHanoiSteps n Peg.A Peg.C Peg.B = some steps ∧
      steps.getLast? = some s ∧ s.type = HanoiKind.complete ∧
      s.moveCount = 2 ^ n - 1 ∧ s.towers = [[], [], countdown n] := by
  obtain ⟨k, rfl⟩ : ∃ k, n = k + 1 := ⟨n - 1, by omega⟩
  obtain ⟨st', e, h1, h2, h3, h4⟩ := hanoi_spec k Peg.A Peg.C Peg.B 0
    { towers := { A := countdown (k + 1), B := [], C := [] }, moveCount := 0,
      steps := [{ type := .initial,
                  towers := towerOfHanoiSteps.cloneTowersArray
                    { A := countdown (k + 1), B := [], C := [] },
                  moveCount := 0 }] }
    [] (countdown (k + 1)) (by decide) (by decide) (by decide) (length_countdown _) rfl
  refine ⟨st'.steps ++
      [{ type := .complete, towers := towerOfHanoiSteps.cloneTowersArray st'.towers,
         moveCount := st'.moveCount }],
    { type := .complete, towers := towerOfHanoiSteps.cloneTowersArray st'.towers,
      moveCount := st'.moveCount }, ?_, List.getLast?_concat _, rfl, ?_, ?_⟩
  · unfold towerOfHanoiSteps
    simp only [Towers.set, Towers.get, List.nil_append]
    rw [e]; rfl
  · simp only []
    simp only [Nat.zero_add] at h4
    omega
  · simp only [Towers.get] at h1 h2 h3
    simp only [towerOfHanoiSteps.cloneTowersArray, h1, h2, h3, List.nil_append]

/-- C6, at `n = 3`. -/
theorem hanoi_complete_step_witness :
    1 ≤ 3 ∧ ∃ steps s, towerOfHanoiSteps 3 Peg.A Peg.C Peg.B = some steps ∧
      steps.getLast? = some s ∧ s.type = HanoiKind.complete ∧
      s.moveCount = 2 ^ 3 - 1 ∧ s.towers = [[], [], countdown 3] :=
  ⟨by decide, hanoi_complete_step 3 (by decide)⟩

/-! ## Rounding to a double -/

/-- An integer below `2^53` is a double: rounding leaves it as it is. -/
theorem roundDouble_small (x : Nat) (h : x < 2 ^ 53) : roundDouble x = .fin x := by
  have hu : ulpFrom 1024 x 1 = 1 := by
    show (if x < 2 ^ 53 * 1 then 1 else ulpFrom 1023 x (2 * 1)) = 1
    rw [if_pos (by omega)]
  have hx : x < doubleLimit :=
    lt_of_lt_of_le h (by decide)
  unfold roundDouble
  simp only [hu, Nat.div_one, Nat.mod_one, Nat.mul_one, Nat.mul_zero]
  simp [hx]

/-- The factorials up to `22!` are doubles, although `19!` and the later ones exceed
`2^53`. -/
theorem roundDouble_factorial :
    ∀ k, k ≤ 22 → roundDouble (Nat.factorial k) = .fin (Nat.factorial k) := by
  decide

/-! ## C9: factorial -/

theorem factorial_value : ∀ (num depth : Nat) (st : RecState), num ≤ 22 →
    (factorialSteps.factorial num depth st).1 = .fin (Nat.factorial num) := by
  intro num
  induction num with
  | zero => intro depth st _; rfl
  | succ num ih =>
    intro depth st hle
    unfold factorialSteps.factorial
    by_cases h : num + 1 ≤ 1
    · have h0 : num = 0 := by omega
      subst h0
      rfl
    · simp only [h, if_false, factorialSteps.leave, ih _ _ (Nat.le_of_succ_le hle)]
      show roundDouble ((num + 1) * Nat.factorial num) = _
      exact roundDouble_factorial (num + 1) hle

theorem factorial_types : ∀ (m depth : Nat) (st : RecState),
    (factorialSteps.factorial (m + 1) depth st).2.steps.map RecStep.type =
      st.steps.map RecStep.type ++
        (List.replicate (m + 1) RecKind.call ++
          RecKind.baseCase :: List.replicate m RecKind.ret) := by
  intro m
  induction m with
  | zero =>
    intro depth st
    simp [factorialSteps.factorial, factorialSteps.baseCase, factorialSteps.enter]
  | succ m ih =>
    intro depth st
    unfold factorialSteps.factorial
    have h : ¬ (m + 1 + 1 ≤ 1) := by omega
    simp only [h, if_false, factorialSteps.leave, List.map_append, ih,
      factorialSteps.enter, List.map_cons, List.map_nil]
    rw [List.replicate_succ RecKind.call (m + 1), List.replicate_succ' m RecKind.ret]
    simp

/-- C9 fails on the code at `n = 23`: the product `23 * factorial(22)` of doubles is
`25852016738884978212864`, the double nearest to `23! = 25852016738884976640000`, and that
is the `finalResult` of the `complete` step. -/
theorem factorial_23_is_rounded :
    ∃ s, (factorialSteps 23).getLast? = some s ∧ s.type = RecKind.complete ∧
      s.finalResult = some (.fin 25852016738884978212864) ∧
      Nat.factorial 23 = 25852016738884976640000 := by
  refine ⟨_, List.getLast?_concat _, rfl, ?_, by decide⟩
  have h : (factorialSteps.factorial 23 0 { steps := [], callStack := [] }).1 =
      JsNum.mul (.fin 23)
        (factorialSteps.factorial 22 1
          (factorialSteps.enter 23 0 { steps := [], callStack := [] })).1 := rfl
  show some (factorialSteps.factorial 23 0 { steps := [], callStack := [] }).1 = _
  rw [h, factorial_value 22 _ _ (by decide)]
  decide

/-- C9, amended. For every `n ≥ 0` the trace of `factorialSteps(n)` ends in a `complete`
step, and for `n ≤ 22` its `finalResult` is `n!`; for `n = 0` the trace is exactly `call`,
`base-case` with result `1`, `complete` with `finalResult = 1`; for `n ≥ 1` it has `n`
`call` steps, one `base-case`, `n - 1` `return` steps, one `complete` and `2n + 1` steps in
all. -/
theorem factorial_trace (n : Nat) :
    (∃ s, (factorialSteps n).getLast? = some s ∧ s.type = RecKind.complete ∧
      (n ≤ 22 → s.finalResult = some (.fin (Nat.factorial n)))) ∧
    (factorialSteps 0).map (fun s => (s.type, s.result, s.finalResult)) =
      [(RecKind.call, none, none), (RecKind.baseCase, some (.fin 1), none),
        (RecKind.complete, none, some (.fin 1))] ∧
    (1 ≤ n →
      ((factorialSteps n).map RecStep.type).count RecKind.call = n ∧
      ((factorialSteps n).map RecStep.type).count RecKind.baseCase = 1 ∧
      ((factorialSteps n).map RecStep.type).count RecKind.ret = n - 1 ∧
      ((factorialSteps n).map RecStep.type).count RecKind.complete = 1 ∧
      (factorialSteps n).length = 2 * n + 1) := by
  refine ⟨?_, rfl, ?_⟩
  · refine ⟨_, List.getLast?_concat _, rfl, ?_⟩
    intro hn
    simp only [factorial_value n _ _ hn]
  · intro hn
    obtain ⟨m, rfl⟩ : ∃ m, n = m + 1 := ⟨n - 1, by omega⟩
    have ht : (factorialSteps (m + 1)).map RecStep.type =
        List.replicate (m + 1) RecKind.call ++
          RecKind.baseCase :: (List.replicate m RecKind.ret ++ [RecKind.complete]) := by
      unfold factorialSteps
      simp only [List.map_append, factorial_types]
      simp
    have hl : (factorialSteps (m + 1)).length = 2 * (m + 1) + 1 := by
      have := congrArg List.length ht
      simp only [List.length_map, List.length_append, List.length_replicate,
        List.length_cons, List.length_nil] at this
      omega
    rw [ht]
    refine ⟨?_, ?_, ?_, ?_, hl⟩
    · simp [List.count_append, List.count_replicate, List.count_cons]
    · simp [List.count_append, List.count_replicate, List.count_cons]
    · simp [List.count_append, List.count_replicate, List.count_cons]
    · simp [List.count_append, List.count_replicate, List.count_cons]

/-- C9, amended, at `n = 5`: the `complete` step has `finalResult = 120`, and the trace has
`5` `call` steps and `11` steps in all. -/
theorem factorial_trace_witness :
    (∃ s, (factorialSteps 5).getLast? = some s ∧ s.type = RecKind.complete ∧
      s.finalResult = some (.fin 120)) ∧
    ((factorialSteps 5).map RecStep.type).count RecKind.call = 5 ∧
    (factorialSteps 5).length = 2 * 5 + 1 :=
  ⟨(factorial_trace 5).1.imp fun _ h => ⟨h.1, h.2.1, h.2.2 (by decide)⟩,
    ((factorial_trace 5).2.2 (by decide)).1,
    ((factorial_trace 5).2.2 (by decide)).2.2.2.2⟩

/-! ## C7 and C8: Fibonacci with memoization -/

theorem fibNumber_eq_fib : ∀ n, fibNumber n = Nat.fib n := by
  intro n
  induction n using Nat.twoStepInduction with
  | zero => rfl
  | one => rfl
  | more n ih0 ih1 =>
    show fibNumber (n + 1) + fibNumber n = Nat.fib (n + 2)
    rw [Nat.fib_add_two, ih0, ih1, Nat.add_comm]

theorem fibNumber_77 : fibNumber 77 = 5527939700884757 := by
  rw [fibNumber_eq_fib]; norm_num

theorem fibNumber_78 : fibNumber 78 = 8944394323791464 := by
  rw [fibNumber_eq_fib]; norm_num

theorem fibNumber_79 : fibNumber 79 = 14472334024676221 := by
  show fibNumber 78 + fibNumber 77 = _
  rw [fibNumber_78, fibNumber_77]

/-- The Fibonacci numbers up to `F(78)` are below `2^53`. -/
theorem fibNumber_lt (n : Nat) (h : n ≤ 78) : fibNumber n < 2 ^ 53 := by
  have h1 : fibNumber n ≤ fibNumber 78 := by
    rw [fibNumber_eq_fib, fibNumber_eq_fib]; exact Nat.fib_mono h
  rw [fibNumber_78] at h1
  exact lt_of_le_of_lt h1 (by norm_num)

theorem memo_get_mem (m : Memo) (k : Nat) (v : JsNum) (h : m.get k = some v) :
    (k, v) ∈ m := by
  induction m with
  | nil => simp [Memo.get] at h
  | cons e m ih =>
    obtain ⟨k1, v1⟩ := e
    unfold Memo.get at h ih
    rw [List.lookup_cons] at h
    by_cases hk : k = k1
    · subst hk
      simp at h
      subst h
      exact List.mem_cons_self _ _
    · have hb : (k == k1) = false := by simpa using hk
      rw [hb] at h
      exact List.mem_cons_of_mem _ (ih h)

theorem memo_mem_set (m : Memo) (k : Nat) (v : JsNum) (e : Nat × JsNum)
    (h : e ∈ m.set k v) : e = (k, v) ∨ e ∈ m := by
  induction m with
  | nil =>
    simp only [Memo.set, List.mem_singleton] at h
    exact Or.inl h
  | cons e1 m ih =>
    obtain ⟨k1, v1⟩ := e1
    unfold Memo.set at h
    by_cases h1 : k < k1
    · simp only [h1, if_true] at h
      rcases List.mem_cons.1 h with h | h
      · exact Or.inl h
      · exact Or.inr h
    · by_cases h2 : k = k1
      · subst h2
        simp only [Nat.lt_irrefl, if_false, if_true] at h
        rcases List.mem_cons.1 h with h | h
        · exact Or.inl h
        · exact Or.inr (List.mem_cons_of_mem _ h)
      · simp only [h1, h2, if_false] at h
        rcases List.mem_cons.1 h with h | h
        · exact Or.inr (by rw [h]; exact List.mem_cons_self _ _)
        · rcases ih h with h | h
          · exact Or.inl h
          · exact Or.inr (List.mem_cons_of_mem _ h)

theorem memo_set_mem_self (m : Memo) (k : Nat) (v : JsNum) : (k, v) ∈ m.set k v := by
  induction m with
  | nil => simp [Memo.set]
  | cons e1 m ih =>
    obtain ⟨k1, v1⟩ := e1
    unfold Memo.set
    by_cases h1 : k < k1
    · simp [h1]
    · by_cases h2 : k = k1
      · simp [h2]
      · simp only [h1, h2, if_false]
        exact List.mem_cons_of_mem _ ih

theorem memoOK_set (m : Memo) (k : Nat) (h : MemoOK m) :
    MemoOK (m.set k (.fin (fibNumber k))) := by
  intro e he
  rcases memo_mem_set m k _ e he with h1 | h1
  · rw [h1]
  · exact h e h1

/-- What a call of `fibonacci` with an argument up to `78` guarantees, given a consistent
memo table and trace. -/
theorem fibonacci_spec : ∀ (num depth : Nat) (st : RecState), num ≤ 78 → MemoOK st.memo →
    (∀ s ∈ st.steps, FibStepOK s) →
    (fibonacciSteps.fibonacci num depth st).1 = .fin (fibNumber num) ∧
    MemoOK (fibonacciSteps.fibonacci num depth st).2.memo ∧
    (∀ s ∈ (fibonacciSteps.fibonacci num depth st).2.steps, FibStepOK s) ∧
    (fibonacciSteps.fibonacci num depth st).2.callStack = st.callStack := by
  have hhit : ∀ (num : Nat) (v : JsNum) (st : RecState), MemoOK st.memo →
      (∀ s ∈ st.steps, FibStepOK s) → st.memo.get num = some v →
      (fibonacciSteps.hit num v st).1 = .fin (fibNumber num) ∧
      MemoOK (fibonacciSteps.hit num v st).2.memo ∧
      (∀ s ∈ (fibonacciSteps.hit num v st).2.steps, FibStepOK s) ∧
      (fibonacciSteps.hit num v st).2.callStack = st.callStack := by
    intro num v st hm hs hget
    have hv : v = .fin (fibNumber num) := hm (num, v) (memo_get_mem _ _ _ hget)
    refine ⟨hv, hm, ?_, rfl⟩
    intro s hmem
    simp only [fibonacciSteps.hit, List.mem_append, List.mem_singleton] at hmem
    rcases hmem with h | h
    · exact hs s h
    · subst h
      refine ⟨?_, ?_, ?_⟩
      · intro snap e; simp only [Option.some.injEq] at e; subst e; exact hm
      · intro _; exact ⟨num, rfl, by rw [hv]⟩
      · intro h; rcases h with h | h <;> cases h
  have hbase : ∀ (num depth : Nat) (st : RecState), num ≤ 1 → MemoOK st.memo →
      (∀ s ∈ st.steps, FibStepOK s) →
      (fibonacciSteps.baseCase num (fibonacciSteps.enter num depth st)).1 =
        .fin (fibNumber num) ∧
      MemoOK (fibonacciSteps.baseCase num (fibonacciSteps.enter num depth st)).2.memo ∧
      (∀ s ∈ (fibonacciSteps.baseCase num (fibonacciSteps.enter num depth st)).2.steps,
        FibStepOK s) ∧
      (fibonacciSteps.baseCase num (fibonacciSteps.enter num depth st)).2.callStack =
        st.callStack := by
    intro num depth st hle hm hs
    have hv : num = fibNumber num := by
      rcases Nat.le_one_iff_eq_zero_or_eq_one.1 hle with h | h <;> subst h <;> rfl
    refine ⟨by simp only [fibonacciSteps.baseCase]; rw [← hv], ?_, ?_, ?_⟩
    · simp only [fibonacciSteps.baseCase, fibonacciSteps.enter]
      have := memoOK_set st.memo num hm
      rw [← hv] at this
      exact this
    · intro s hmem
      simp only [fibonacciSteps.baseCase, fibonacciSteps.enter, List.mem_append,
        List.mem_singleton] at hmem
      rcases hmem with (h | h) | h
      · exact hs s h
      · subst h
        refine ⟨?_, ?_, ?_⟩
        · intro snap e; simp only [Option.some.injEq] at e; subst e; exact hm
        · intro h; cases h
        · intro h; rcases h with h | h <;> cases h
      · subst h
        refine ⟨?_, ?_, ?_⟩
        · intro snap e; simp only [Option.some.injEq] at e; subst e; exact hm
        · intro h; cases h
        · intro _
          exact ⟨{ value := num, depth := depth }, List.getLast?_concat _, by
            simp only []; rw [← hv]⟩
    · simp [fibonacciSteps.baseCase, fibonacciSteps.enter]
  intro num
  induction num using Nat.twoStepInduction with
  | zero =>
    intro depth st _ hm hs
    unfold fibonacciSteps.fibonacci
    cases hget : st.memo.get 0 with
    | some v => exact hhit 0 v st hm hs hget
    | none => exact hbase 0 depth st (by omega) hm hs
  | one =>
    intro depth st _ hm hs
    unfold fibonacciSteps.fibonacci
    cases hget : st.memo.get 1 with
    | some v => exact hhit 1 v st hm hs hget
    | none => exact hbase 1 depth st (by omega) hm hs
  | more n ih0 ih1 =>
    intro depth st hle hm hs
    unfold fibonacciSteps.fibonacci
    cases hget : st.memo.get (n + 2) with
    | some v => exact hhit (n + 2) v st hm hs hget
    | none =>
      simp only []
      have hs1 : ∀ s ∈ (fibonacciSteps.enter (n + 2) depth st).steps, FibStepOK s := by
        intro s hmem
        simp only [fibonacciSteps.enter, List.mem_append, List.mem_singleton] at hmem
        rcases hmem with h | h
        · exact hs s h
        · subst h
          refine ⟨?_, ?_, ?_⟩
          · intro snap e; simp only [Option.some.injEq] at e; subst e; exact hm
          · intro h; cases h
          · intro h; rcases h with h | h <;> cases h
      obtain ⟨a1, a2, a3, a4⟩ := ih1 (depth + 1) (fibonacciSteps.enter (n + 2) depth st)
        (by omega) hm hs1
      generalize fibonacciSteps.fibonacci (n + 1) (depth + 1)
        (fibonacciSteps.enter (n + 2) depth st) = r1 at a1 a2 a3 a4
      obtain ⟨b1, b2, b3, b4⟩ := ih0 (depth + 1) r1.2 (by omega) a2 a3
      generalize fibonacciSteps.fibonacci n (depth + 1) r1.2 = r2 at b1 b2 b3 b4
      have hv : JsNum.add r1.1 r2.1 = .fin (fibNumber (n + 2)) := by
        rw [a1, b1]
        exact roundDouble_small _ (fibNumber_lt (n + 2) hle)
      have hstack : r2.2.callStack = st.callStack ++ [{ value := n + 2, depth := depth }] := by
        rw [b4, a4]; rfl
      refine ⟨hv, ?_, ?_, ?_⟩
      · simp only [fibonacciSteps.leave]
        rw [hv]
        exact memoOK_set _ _ b2
      · intro s hmem
        simp only [fibonacciSteps.leave, List.mem_append, List.mem_singleton] at hmem
        rcases hmem with h | h
        · exact b3 s h
        · subst h
          refine ⟨?_, ?_, ?_⟩
          · intro snap e; simp only [Option.some.injEq] at e; subst e; exact b2
          · intro h; cases h
          · intro _
            refine ⟨{ value := n + 2, depth := depth }, ?_, ?_⟩
            · simp only [hstack, List.getLast?_concat]
            · simp only [hv]
      · simp only [fibonacciSteps.leave, hstack, List.dropLast_concat]

theorem fibonacci_initial :
    MemoOK ({ steps := [], callStack := [] } : RecState).memo ∧
      ∀ s ∈ ({ steps := [], callStack := [] } : RecState).steps, FibStepOK s :=
  ⟨fun e he => (by cases he), fun s hs => (by cases hs)⟩

/-- The outermost call `fibonacci(79)`: the operands `F(78)` and `F(77)` are exact, their sum
`F(79) = 14472334024676221` is odd and above `2^53`, and the sum of the doubles is
`14472334024676220`.  The call is `fibonacci(78)`, then `fibonacci(77)`, then the `return`
step with the frame of `79` on the stack. -/
theorem fibonacci_79 :
    ∃ st : RecState,
      fibonacciSteps.fibonacci 79 0 { steps := [], callStack := [] } =
        fibonacciSteps.leave 79 (.fin 14472334024676220) st ∧
      st.callStack = [{ value := 79, depth := 0 }] := by
  obtain ⟨a1, a2, a3, a4⟩ := fibonacci_spec 78 1
    (fibonacciSteps.enter 79 0 { steps := [], callStack := [] }) (by decide)
    fibonacci_initial.1 (by
      intro s hmem
      simp only [fibonacciSteps.enter, List.nil_append, List.mem_singleton] at hmem
      subst hmem
      refine ⟨?_, ?_, ?_⟩
      · intro snap e; simp only [Option.some.injEq] at e; subst e
        exact fibonacci_initial.1
      · intro h; cases h
      · intro h; rcases h with h | h <;> cases h)
  have hun : fibonacciSteps.fibonacci 79 0 { steps := [], callStack := [] } =
      fibonacciSteps.leave 79
        (JsNum.add
          (fibonacciSteps.fibonacci 78 1
            (fibonacciSteps.enter 79 0 { steps := [], callStack := [] })).1
          (fibonacciSteps.fibonacci 77 1
            (fibonacciSteps.fibonacci 78 1
              (fibonacciSteps.enter 79 0 { steps := [], callStack := [] })).2).1)
        (fibonacciSteps.fibonacci 77 1
          (fibonacciSteps.fibonacci 78 1
            (fibonacciSteps.enter 79 0 { steps := [], callStack := [] })).2).2 := by
    conv_lhs => unfold fibonacciSteps.fibonacci
    rfl
  generalize fibonacciSteps.fibonacci 78 1
    (fibonacciSteps.enter 79 0 { steps := [], callStack := [] }) = r1 at a1 a2 a3 a4 hun
  obtain ⟨b1, b2, b3, b4⟩ := fibonacci_spec 77 1 r1.2 (by decide) a2 a3
  generalize fibonacciSteps.fibonacci 77 1 r1.2 = r2 at b1 b2 b3 b4 hun
  refine ⟨r2.2, ?_, ?_⟩
  · rw [hun, a1, b1, fibNumber_78, fibNumber_77]
    have : JsNum.add (.fin 8944394323791464) (.fin 5527939700884757) =
        .fin 14472334024676220 := by decide
    rw [this]
  · rw [b4, a4]; rfl

/-- C7 fails on the code at `n = 79`: the `finalResult` of the `complete` step is
`14472334024676220`, and `F(79) = 14472334024676221`. -/
theorem fibonacci_79_final_is_rounded :
    ∃ s, (fibonacciSteps 79).getLast? = some s ∧ s.type = RecKind.complete ∧
      s.fibTree = some true ∧ s.finalResult = some (.fin 14472334024676220) ∧
      fibNumber 79 = 14472334024676221 := by
  obtain ⟨st, h, _⟩ := fibonacci_79
  refine ⟨_, List.getLast?_concat _, rfl, rfl, ?_, fibNumber_79⟩
  simp only [h, fibonacciSteps.leave]

/-- C7, amended. For every `n ≥ 0` the trace of `fibonacciSteps(n)` (a total function: the
recursion is on `num - 1` and `num - 2`) ends in a step of type `complete` with
`fibTree = true`, and for `n ≤ 78` its `finalResult` is the `n`-th Fibonacci number. -/
theorem fibonacci_final_result (n : Nat) :
    ∃ s, (fibonacciSteps n).getLast? = some s ∧ s.type = RecKind.complete ∧
      s.fibTree = some true ∧ (n ≤ 78 → s.finalResult = some (.fin (fibNumber n))) := by
  refine ⟨_, List.getLast?_concat _, rfl, rfl, ?_⟩
  intro hn
  obtain ⟨h1, _, _, _⟩ := fibonacci_spec n 0 { steps := [], callStack := [] } hn
    fibonacci_initial.1 fibonacci_initial.2
  simp only [h1]

/-- C7, amended, at `n = 10`: the `finalResult` is `F(10) = 55`. -/
theorem fibonacci_final_result_witness :
    ∃ s, (fibonacciSteps 10).getLast? = some s ∧ s.type = RecKind.complete ∧
      s.fibTree = some true ∧ s.finalResult = some (.fin 55) :=
  (fibonacci_final_result 10).imp fun _ h => ⟨h.1, h.2.1, h.2.2.1, h.2.2.2 (by decide)⟩

/-- C8 fails on the code at `n = 79`: the `return` step of the outermost frame has
`result = 14472334024676220`, the `memoSnapshot` of the `complete` step holds the entry
`79 -> 14472334024676220`, and `F(79) = 14472334024676221`. -/
theorem fibonacci_79_memo_is_rounded :
    (∃ s ∈ fibonacciSteps 79, s.type = RecKind.ret ∧
      s.callStack = [{ value := 79, depth := 0 }] ∧
      s.result = some (.fin 14472334024676220)) ∧
    (∃ s snap, (fibonacciSteps 79).getLast? = some s ∧ s.memoSnapshot = some snap ∧
      (79, JsNum.fin 14472334024676220) ∈ snap) ∧
    fibNumber 79 = 14472334024676221 := by
  obtain ⟨st, h, hstack⟩ := fibonacci_79
  refine ⟨?_, ?_, fibNumber_79⟩
  · refine ⟨{ type := .ret, callStack := st.callStack,
              result := some (.fin 14472334024676220),
              memoSnapshot := some st.memo }, ?_, rfl, hstack, rfl⟩
    simp [fibonacciSteps, h, fibonacciSteps.leave]
  · refine ⟨_, _, List.getLast?_concat _, rfl, ?_⟩
    simp only [h, fibonacciSteps.leave]
    exact memo_set_mem_self _ _ _

/-- C8, amended. For every `n ≤ 78` and every step of `fibonacciSteps(n)`: every entry
`k -> v` of the step's `memoSnapshot` has `v = F(k)`; the `result` of a `memoized` step is
`F` of its `value`; the `result` of a `base-case` or `return` step is `F` of the argument of
the frame on top of the step's call stack, the frame the step closes. -/
theorem fibonacci_memo_consistent (n : Nat) (hn : n ≤ 78) :
    ∀ s ∈ fibonacciSteps n,
      (∀ snap, s.memoSnapshot = some snap →
        ∀ k v, (k, v) ∈ snap → v = .fin (fibNumber k)) ∧
      (s.type = RecKind.memoized →
        ∃ k, s.value = some k ∧ s.result = some (.fin (fibNumber k))) ∧
      (s.type = RecKind.baseCase ∨ s.type = RecKind.ret →
        ∃ fr, s.callStack.getLast? = some fr ∧
          s.result = some (.fin (fibNumber fr.value))) := by
  obtain ⟨_, h2, h3, _⟩ := fibonacci_spec n 0 { steps := [], callStack := [] } hn
    fibonacci_initial.1 fibonacci_initial.2
  intro s hs
  have hok : FibStepOK s := by
    simp only [fibonacciSteps, List.mem_append, List.mem_singleton] at hs
    rcases hs with h | h
    · exact h3 s h
    · subst h
      refine ⟨?_, ?_, ?_⟩
      · intro snap e; simp only [Option.some.injEq] at e; subst e; exact h2
      · intro h; cases h
      · intro h; rcases h with h | h <;> cases h
  exact ⟨fun snap e k v hkv => hok.1 snap e (k, v) hkv, hok.2.1, hok.2.2⟩

/-- C8, amended, at `n = 3` and the `memoized` step of the trace. -/
theorem fibonacci_memo_consistent_witness :
    3 ≤ 78 ∧ memoizedStepOfFib3 ∈ fibonacciSteps 3 ∧
      (∀ snap, memoizedStepOfFib3.memoSnapshot = some snap →
        ∀ k v, (k, v) ∈ snap → v = .fin (fibNumber k)) ∧
      (memoizedStepOfFib3.type = RecKind.memoized →
        ∃ k, memoizedStepOfFib3.value = some k ∧
          memoizedStepOfFib3.result = some (.fin (fibNumber k))) ∧
      (memoizedStepOfFib3.type = RecKind.baseCase ∨ memoizedStepOfFib3.type = RecKind.ret →
        ∃ fr, memoizedStepOfFib3.callStack.getLast? = some fr ∧
          memoizedStepOfFib3.result = some (.fin (fibNumber fr.value))) :=
  ⟨by decide, by decide,
    fibonacci_memo_consistent 3 (by decide) memoizedStepOfFib3 (by decide)⟩

/-! ## C10: chaining keeps every key -/

theorem jsRem_range (a b : Int) (ha : 0 ≤ a) (hb : 1 ≤ b) :
    ∃ idx, jsRem a b = some idx ∧ 0 ≤ idx ∧ idx < b := by
  have hb0 : b ≠ 0 := by omega
  refine ⟨Int.tmod a b, by simp [jsRem, hb0], Int.tmod_nonneg b ha,
    Int.tmod_lt_of_pos a (by omega)⟩

theorem modulo_inRange (tableSize : Int) (h : 1 ≤ tableSize) :
    IndexInRange hashFunctions.modulo tableSize := by
  intro key
  exact jsRem_range _ tableSize (Int.ofNat_nonneg _) h

theorem djb2_inRange (tableSize : Int) (h : 1 ≤ tableSize) :
    IndexInRange hashFunctions.djb2 tableSize := by
  intro key
  exact jsRem_range _ tableSize (Int.ofNat_nonneg _) h

/-- Invariant rule for `forEach`. -/
theorem forEachM_inv {σ α : Type} (f : σ → α → Option σ) (P : List α → σ → Prop)
    (hstep : ∀ done a s, P done s → ∃ s', f s a = some s' ∧ P (done ++ [a]) s') :
    ∀ (as done : List α) (s : σ), P done s →
      ∃ s', forEachM f as s = some s' ∧ P (done ++ as) s' := by
  intro as
  induction as with
  | nil => intro done s h; exact ⟨s, rfl, by simpa using h⟩
  | cons a as ih =>
    intro done s h
    obtain ⟨s1, e1, h1⟩ := hstep done a s h
    obtain ⟨s2, e2, h2⟩ := ih (done ++ [a]) s1 h1
    refine ⟨s2, ?_, by simpa using h2⟩
    simp only [forEachM, e1, Option.some_bind, e2]

theorem sum_length_set_append (t : List (List Entry)) (i : Nat) (e : Entry)
    (hi : i < t.length) :
    ((t.set i (t.getD i [] ++ [e])).map List.length).sum = (t.map List.length).sum + 1 := by
  induction t generalizing i with
  | nil => simp at hi
  | cons b t ih =>
    cases i with
    | zero => simp; omega
    | succ i =>
      have hi2 : i < t.length := by simpa using hi
      have := ih i hi2
      simp only [List.getD_cons_succ, List.set_cons_succ, List.map_cons, List.sum_cons, this]
      omega

theorem chainState_emit_hashTable (st : ChainState) (s : ChainStep) :
    (st.emit s).hashTable = st.hashTable := rfl

theorem insertKey_hashTable (hashFunc : HashFn) (tableSize : Int) (hashFunction : String)
    (st : ChainState) (key : Key) (idx : Int)
    (hres : (hashFunc key tableSize).result = some idx) (h0 : 0 ≤ idx)
    (h1 : idx < (st.hashTable.length : Int)) :
    ∃ st', hashWithChainingSteps.insertKey hashFunc tableSize hashFunction st key = some st' ∧
      st'.hashTable =
        st.hashTable.set idx.toNat (st.hashTable.getD idx.toNat [] ++ [entryOf key]) := by
  unfold hashWithChainingSteps.insertKey
  simp only [hres, chainState_emit_hashTable, h0, h1, and_self, if_true]
  refine ⟨_, rfl, ?_⟩
  split_ifs <;> simp only [chainState_emit_hashTable, entryOf]

theorem insertKey_inv (hashFunc : HashFn) (tableSize : Int) (hashFunction : String)
    (hrange : IndexInRange hashFunc tableSize) (done : List Key) (key : Key)
    (st : ChainState) (h : ChainInv hashFunc tableSize done st) :
    ∃ st', hashWithChainingSteps.insertKey hashFunc tableSize hashFunction st key = some st' ∧
      ChainInv hashFunc tableSize (done ++ [key]) st' := by
  obtain ⟨hlen, hsum, hmem⟩ := h
  obtain ⟨idx, hres, h0, h1⟩ := hrange key
  obtain ⟨st', e, ht⟩ := insertKey_hashTable hashFunc tableSize hashFunction st key idx hres h0
    (by omega)
  have hi : idx.toNat < st.hashTable.length := by omega
  refine ⟨st', e, ?_, ?_, ?_⟩
  · rw [ht, List.length_set]; exact hlen
  · rw [ht, sum_length_set_append _ _ _ hi, hsum]; simp
  · intro k hk
    rcases List.mem_append.1 hk with hk | hk
    · obtain ⟨i2, b2, r2, g2, m2⟩ := hmem k hk
      by_cases hc : idx.toNat = i2.toNat
      · refine ⟨i2, st.hashTable.getD idx.toNat [] ++ [entryOf key], r2, ?_, ?_⟩
        · rw [ht, ← hc, List.getElem?_set_self hi]
        · rw [← hc, List.getElem?_eq_getElem hi, Option.some.injEq] at g2
          have hb : st.hashTable.getD idx.toNat [] = b2 := by
            rw [List.getD_eq_getElem _ _ hi]; exact g2
          rw [hb]
          exact List.mem_append_left _ m2
      · refine ⟨i2, b2, r2, ?_, m2⟩
        rw [ht, List.getElem?_set_ne hc]; exact g2
    · have hk2 : k = key := by simpa using hk
      subst hk2
      refine ⟨idx, st.hashTable.getD idx.toNat [] ++ [entryOf k], hres, ?_, by simp⟩
      rw [ht, List.getElem?_set_self hi]

/-- C10. For every key sequence, every table size `≥ 1` and the hash function `'modulo'` or
`'djb2'`, `hashWithChainingSteps` returns a trace whose last step is the `complete` step; in
its `hashTable` the bucket lengths add up to the number of input keys, and the record of
every input key is in the bucket at the key's hash index. -/
theorem chaining_keeps_every_key (multiplication : HashFn) (keys : List Key) (tableSize : Int)
    (hashFunction : String) (hsize : 1 ≤ tableSize)
    (hfn : hashFunction = "modulo" ∨ hashFunction = "djb2") :
    ∃ steps s, hashWithChainingSteps multiplication keys tableSize hashFunction = some steps ∧
      steps.getLast? = some s ∧ s.type = HashKind.complete ∧
      (s.hashTable.map List.length).sum = keys.length ∧
      ∀ key ∈ keys, ∃ idx bucket,
        (hashFunctions.resolve multiplication hashFunction key tableSize).result = some idx ∧
        0 ≤ idx ∧ s.hashTable[idx.toNat]? = some bucket ∧
        { key := key.toString, value := "value_" ++ key.toString } ∈ bucket := by
  have hrange : IndexInRange (hashFunctions.resolve multiplication hashFunction) tableSize := by
    rcases hfn with h | h
    · subst h
      simpa [hashFunctions.resolve] using modulo_inRange tableSize hsize
    · subst h
      simpa [hashFunctions.resolve] using djb2_inRange tableSize hsize
  obtain ⟨st2, e, hlen, hsum, hmem⟩ := forEachM_inv
    (hashWithChainingSteps.insertKey (hashFunctions.resolve multiplication hashFunction)
      tableSize hashFunction)
    (ChainInv (hashFunctions.resolve multiplication hashFunction) tableSize)
    (fun done a s h => insertKey_inv _ tableSize hashFunction hrange done a s h)
    keys []
    (({ hashTable := List.replicate tableSize.toNat [], steps := [], stepCounter := 1 } :
      ChainState).emit { type := .init, hashTable := List.replicate tableSize.toNat [] })
    ⟨by simp [chainState_emit_hashTable]; omega, by simp [chainState_emit_hashTable],
      fun k hk => by cases hk⟩
  refine ⟨(st2.emit { type := .complete, hashTable := st2.hashTable }).steps,
    { type := .complete, hashTable := st2.hashTable, stepNumber := some st2.stepCounter },
    ?_, ?_, rfl, by simpa using hsum, ?_⟩
  · unfold hashWithChainingSteps
    have hneg : ¬ tableSize < 0 := by omega
    simp only [hneg, if_false]
    rw [e]; rfl
  · simp [ChainState.emit]
  · intro key hk
    obtain ⟨idx, bucket, r, g, m⟩ := hmem key (by simpa using hk)
    obtain ⟨idx2, r2, h0, _⟩ := hrange key
    have : idx = idx2 := by rw [r] at r2; simpa using r2
    subst this
    exact ⟨idx, bucket, r, h0, g, m⟩

/-- C10, at the keys `"ab"`, `"ba"`, table size `5` and the hash function `'modulo'`. -/
theorem chaining_keeps_every_key_witness :
    (1 : Int) ≤ 5 ∧ ("modulo" = "modulo" ∨ "modulo" = "djb2") ∧
    ∃ steps s, hashWithChainingSteps hashFunctions.inherited [Key.str "ab", Key.str "ba"] 5
        "modulo" = some steps ∧
      steps.getLast? = some s ∧ s.type = HashKind.complete ∧
      (s.hashTable.map List.length).sum = [Key.str "ab", Key.str "ba"].length ∧
      ∀ key ∈ [Key.str "ab", Key.str "ba"], ∃ idx bucket,
        (hashFunctions.resolve hashFunctions.inherited "modulo" key 5).result = some idx ∧
        0 ≤ idx ∧ s.hashTable[idx.toNat]? = some bucket ∧
        { key := key.toString, value := "value_" ++ key.toString } ∈ bucket :=
  ⟨by decide, Or.inl rfl,
    chaining_keeps_every_key hashFunctions.inherited [Key.str "ab", Key.str "ba"] 5 "modulo"
      (by decide) (Or.inl rfl)⟩

/-! ## C14, C15, C16: the hash functions -/

/-- C14. For every key and every integer table size `≥ 1`, the `result` of
`hashFunctions.modulo` and of `hashFunctions.djb2` is an integer in `[0, tableSize)`, an
index of a table of `tableSize` cells. -/
theorem hash_result_in_range (key : Key) (tableSize : Int) (h : 1 ≤ tableSize) :
    (∃ i, (hashFunctions.modulo key tableSize).result = some i ∧ 0 ≤ i ∧ i < tableSize) ∧
    (∃ i, (hashFunctions.djb2 key tableSize).result = some i ∧ 0 ≤ i ∧ i < tableSize) :=
  ⟨modulo_inRange tableSize h key, djb2_inRange tableSize h key⟩

/-- C14, at the key `"ab"` and table size `5`. -/
theorem hash_result_in_range_witness :
    (1 : Int) ≤ 5 ∧
    (∃ i, (hashFunctions.modulo (Key.str "ab") 5).result = some i ∧ 0 ≤ i ∧ i < 5) ∧
    (∃ i, (hashFunctions.djb2 (Key.str "ab") 5).result = some i ∧ 0 ≤ i ∧ i < 5) :=
  ⟨by decide, hash_result_in_range (Key.str "ab") 5 (by decide)⟩

set_option maxRecDepth 100000 in
/-- C15 fails on the code at the key `"algorithm"` and table size `7`: the loop of
`hashFunctions.djb2` wraps only the shift `hash << 5`, so the running value leaves the
32-bit range (it ends at `3303977708`) and the result is `3`, while the classic 32-bit djb2
hash is `-990989588`, whose absolute value is `1` modulo `7`. -/
theorem djb2_differs_from_classic :
    (hashFunctions.djb2 (Key.str "algorithm") 7).result = some 3 ∧
    ((charCodes "algorithm").foldl hashFunctions.djb2Step
      (5381, ["Initial hash: 5381"])).1 = 3303977708 ∧
    classicDjb2 (charCodes "algorithm") = -990989588 ∧
    jsRem (Int.natAbs (classicDjb2 (charCodes "algorithm")) : Int) 7 = some 1 := by
  decide

/-- C16 fails on the code at the key `"ab"`: for the table sizes `0` and `-3`
`hashFunctions.modulo` and `hashFunctions.djb2` return a record; its `result` is `NaN` for
size `0` and a number for size `-3`. -/
theorem hash_returns_for_nonpositive_size :
    hashFunctions.modulo (Key.str "ab") 0 =
      { result := none,
        steps := ["Key: \"ab\"", "Character codes: [97, 98]", "Sum: 97 + 98 = 195",
          "Hash: 195 mod 0 = NaN"] } ∧
    (hashFunctions.modulo (Key.str "ab") (-3)).result = some 0 ∧
    (hashFunctions.djb2 (Key.str "ab") 0).result = none ∧
    (hashFunctions.djb2 (Key.str "ab") (-3)).result = some 2 := by
  decide

theorem jsRem_zero (a : Int) : jsRem a 0 = none := by simp [jsRem]

theorem jsRem_neg_range (a b : Int) (ha : 0 ≤ a) (hb : b < 0) :
    ∃ i, jsRem a b = some i ∧ 0 ≤ i ∧ i < -b := by
  have hb0 : b ≠ 0 := by omega
  refine ⟨Int.tmod a b, by simp [jsRem, hb0], Int.tmod_nonneg b ha, ?_⟩
  have h1 : Int.tmod a b = Int.tmod a (-b) := by rw [Int.tmod_neg]
  rw [h1]
  exact Int.tmod_lt_of_pos a (by omega)

/-- C16, amended. For every key and every table size `≤ 0`, `hashFunctions.modulo` and
`hashFunctions.djb2` return a record without failing: its `result` is `NaN` when the size
is `0` and an integer in `[0, -tableSize)` when the size is negative. -/
theorem hash_nonpositive_size (key : Key) (tableSize : Int) (h : tableSize ≤ 0) :
    (tableSize = 0 →
      (hashFunctions.modulo key tableSize).result = none ∧
      (hashFunctions.djb2 key tableSize).result = none) ∧
    (tableSize < 0 →
      (∃ i, (hashFunctions.modulo key tableSize).result = some i ∧ 0 ≤ i ∧ i < -tableSize) ∧
      (∃ i, (hashFunctions.djb2 key tableSize).result = some i ∧ 0 ≤ i ∧ i < -tableSize)) := by
  constructor
  · intro h0
    subst h0
    exact ⟨by simp [hashFunctions.modulo, jsRem], by simp [hashFunctions.djb2, jsRem]⟩
  · intro hneg
    exact ⟨jsRem_neg_range _ tableSize (Int.ofNat_nonneg _) hneg,
      jsRem_neg_range _ tableSize (Int.ofNat_nonneg _) hneg⟩

/-- C16 amended, at the key `"ab"` and table size `-3`. -/
theorem hash_nonpositive_size_witness :
    (-3 : Int) ≤ 0 ∧
    (((-3 : Int) = 0 →
      (hashFunctions.modulo (Key.str "ab") (-3)).result = none ∧
      (hashFunctions.djb2 (Key.str "ab") (-3)).result = none) ∧
    ((-3 : Int) < 0 →
      (∃ i, (hashFunctions.modulo (Key.str "ab") (-3)).result = some i ∧ 0 ≤ i ∧ i < -(-3)) ∧
      (∃ i, (hashFunctions.djb2 (Key.str "ab") (-3)).result = some i ∧ 0 ≤ i ∧ i < -(-3)))) :=
  ⟨by decide, hash_nonpositive_size (Key.str "ab") (-3) (by decide)⟩

/-! ## C17: the number of comparisons of the binary search -/

theorem searchState_emit_types (st : SearchState) (s : SearchStep) :
    (st.emit s).steps.map SearchStep.type = st.steps.map SearchStep.type ++ [s.type] := by
  simp [SearchState.emit]

theorem binaryLoop_bound (array : List Int) (target : Int) :
    ∀ (fuel : Nat) (left right : Int) (c : Nat) (st : SearchState),
      right - left + 1 ≤ (fuel : Int) →
      (right - left + 1).toNat * 2 ^ c ≤ array.length →
      (c = 0 ∨ 2 ^ (c - 1) ≤ array.length) →
      (st.steps.map SearchStep.type).count SearchKind.compare = c →
      ∃ st' s, ∃ c' : Nat,
        binarySearchSteps.loop array target fuel left right (c : Int) st = some st' ∧
        st'.steps.getLast? = some s ∧
        (s.type = SearchKind.found ∨ s.type = SearchKind.notFound) ∧
        s.comparisons = some (c' : Int) ∧ (c' = 0 ∨ 2 ^ (c' - 1) ≤ array.length) ∧
        (st'.steps.map SearchStep.type).count SearchKind.compare = c' := by
  intro fuel
  induction fuel with
  | zero =>
    intro left right c st hf hsz hc hcount
    have hlr : ¬ left ≤ right := by omega
    unfold binarySearchSteps.loop
    simp only [hlr, if_false]
    refine ⟨_, _, c, rfl, searchState_getLast?_emit _ _, Or.inr rfl, rfl, hc, ?_⟩
    rw [searchState_emit_types, List.count_append, hcount]
    simp
  | succ fuel ih =>
    intro left right c st hf hsz hc hcount
    unfold binarySearchSteps.loop
    by_cases hlr : left ≤ right
    · simp only [hlr, if_true]
      have hpos : 1 ≤ (right - left + 1).toNat := by omega
      have hpow : 2 ^ c ≤ array.length :=
        le_trans (Nat.le_mul_of_pos_left _ hpos) hsz
      have hcast : ((c : Int) + 1) = ((c + 1 : Nat) : Int) := by push_cast; rfl
      have hc1 : c + 1 = 0 ∨ 2 ^ (c + 1 - 1) ≤ array.length := Or.inr (by simpa using hpow)
      by_cases hm : jsGet array ((left + right) / 2).toNat = target
      · simp only [hm, if_true]
        refine ⟨_, _, c + 1, rfl, searchState_getLast?_emit _ _, Or.inl rfl, ?_, hc1, ?_⟩
        · simp only [hcast]
        · simp only [searchState_emit_types, List.count_append, hcount]
          simp
      · simp only [hm, if_false]
        by_cases hlt : jsGet array ((left + right) / 2).toNat < target
        · simp only [hlt, if_true]
          rw [hcast]
          apply ih
          · omega
          · have h2 : ((right - ((left + right) / 2 + 1) + 1).toNat) * 2 ≤
                (right - left + 1).toNat := by omega
            calc (right - ((left + right) / 2 + 1) + 1).toNat * 2 ^ (c + 1)
                = ((right - ((left + right) / 2 + 1) + 1).toNat * 2) * 2 ^ c := by
                  rw [pow_succ]; ring
              _ ≤ (right - left + 1).toNat * 2 ^ c := Nat.mul_le_mul_right _ h2
              _ ≤ array.length := hsz
          · exact hc1
          · simp only [searchState_emit_types, List.count_append, hcount]
            simp
        · simp only [hlt, if_false]
          rw [hcast]
          apply ih
          · omega
          · have h2 : (((left + right) / 2 - 1 - left + 1).toNat) * 2 ≤
                (right - left + 1).toNat := by omega
            calc ((left + right) / 2 - 1 - left + 1).toNat * 2 ^ (c + 1)
                = (((left + right) / 2 - 1 - left + 1).toNat * 2) * 2 ^ c := by
                  rw [pow_succ]; ring
              _ ≤ (right - left + 1).toNat * 2 ^ c := Nat.mul_le_mul_right _ h2
              _ ≤ array.length := hsz
          · exact hc1
          · simp only [searchState_emit_types, List.count_append, hcount]
            simp
    · simp only [hlr, if_false]
      refine ⟨_, _, c, rfl, searchState_getLast?_emit _ _, Or.inr rfl, rfl, hc, ?_⟩
      rw [searchState_emit_types, List.count_append, hcount]
      simp

theorem le_clog_of_pow_le (c n : Nat) (h : c = 0 ∨ 2 ^ (c - 1) ≤ n) :
    c ≤ Nat.clog 2 (n + 1) := by
  rcases h with h | h
  · omega
  · by_contra hcon
    have h1 : Nat.clog 2 (n + 1) ≤ c - 1 := by omega
    have h2 := (Nat.le_pow_iff_clog_le (by norm_num : 1 < 2)).2 h1
    omega

/-- C17. For every array, sorted or not, and every target, `binarySearchSteps` returns a
trace; its last step is a `found` or a `not-found` step whose `comparisons` value `c`
satisfies `c = 0` or `2^(c-1) ≤ n`, that is `c ≤ ⌈log₂ (n + 1)⌉`, for the length `n` of the
array, and `c` is the number of `compare` steps of the trace. -/
theorem binarySearch_comparison_bound (array : List Int) (target : Int) :
    ∃ steps s, ∃ c : Nat, binarySearchSteps array target = some steps ∧
      steps.getLast? = some s ∧
      (s.type = SearchKind.found ∨ s.type = SearchKind.notFound) ∧
      s.comparisons = some (c : Int) ∧
      (c = 0 ∨ 2 ^ (c - 1) ≤ array.length) ∧ c ≤ Nat.clog 2 (array.length + 1) ∧
      (steps.map SearchStep.type).count SearchKind.compare = c := by
  obtain ⟨st', s, c, e, hlast, ht, hcmp, hb, hcount⟩ := binaryLoop_bound array target
    array.length 0 ((array.length : Int) - 1) 0
    (({ steps := [], stepCounter := 1 } : SearchState).emit
      { type := .init, array := array, target := target,
        searchRange := (0, (array.length : Int) - 1) })
    (by omega) (by simp) (Or.inl rfl) (by simp [searchState_emit_types])
  refine ⟨st'.steps, s, c, ?_, hlast, ht, hcmp, hb, le_clog_of_pow_le c _ hb, hcount⟩
  unfold binarySearchSteps
  simp only [Nat.cast_zero] at e
  simp only [e, Option.map_some']

/-! ## C18: the `comparisons` field of the linear search -/

/-- C18 fails on the code at the array `[1]`, the target `5` and `startIndex = 3`: the loop
does not run, the trace is `initialize`, `not-found` with no `compare` step, and the
`not-found` step records `comparisons = array.length - startIndex = -2`. -/
theorem linearSearch_comparisons_negative :
    (linearSearchSteps [1] 5 3).map (fun s => (s.type, s.comparisons)) =
      [(SearchKind.init, none), (SearchKind.notFound, some (-2))] ∧
    ((linearSearchSteps [1] 5 3).map SearchStep.type).count SearchKind.compare = 0 := by
  decide

theorem linearScan_comparisons (array : List Int) (target : Int) (startIndex : Nat) :
    ∀ (n i : Nat) (st : SearchState), i + n = array.length → startIndex ≤ i →
      (st.steps.map SearchStep.type).count SearchKind.compare = i - startIndex →
      ∃ s, ∃ c : Nat,
        (linearSearchSteps.scan array target startIndex n i st).steps.getLast? = some s ∧
        s.comparisons = some (c : Int) ∧
        ((linearSearchSteps.scan array target startIndex n i st).steps.map
          SearchStep.type).count SearchKind.compare = c := by
  intro n
  induction n with
  | zero =>
    intro i st hn hi hcount
    refine ⟨_, i - startIndex, searchState_getLast?_emit _ _, ?_, ?_⟩
    · simp only [Option.some.injEq]
      omega
    · unfold linearSearchSteps.scan
      rw [searchState_emit_types, List.count_append, hcount]
      simp
  | succ n ih =>
    intro i st hn hi hcount
    unfold linearSearchSteps.scan
    by_cases hc : jsGet array i = target
    · simp only [hc, if_true]
      refine ⟨_, i - startIndex + 1, searchState_getLast?_emit _ _, ?_, ?_⟩
      · simp only [Option.some.injEq]
        omega
      · simp only [searchState_emit_types, List.count_append, hcount]
        simp
    · simp only [hc, if_false]
      apply ih (i + 1) _ (by omega) (by omega)
      simp only [searchState_emit_types, List.count_append, hcount]
      simp
      omega

/-- On the inputs with `startIndex ≤ array.length` the recorded `comparisons` is the number
of `compare` steps of the trace. -/
theorem linearSearch_comparisons_in_range (array : List Int) (target : Int) (startIndex : Nat)
    (h : startIndex ≤ array.length) :
    ∃ s, ∃ c : Nat, (linearSearchSteps array target startIndex).getLast? = some s ∧
      s.comparisons = some (c : Int) ∧
      ((linearSearchSteps array target startIndex).map SearchStep.type).count
        SearchKind.compare = c := by
  unfold linearSearchSteps
  apply linearScan_comparisons array target startIndex (array.length - startIndex) startIndex _
    (by omega) (Nat.le_refl _)
  simp [searchState_emit_types]

/-! ## C19: arrays with at most one element -/

/-- C19 fails on the code at the single-element array `[7]`: `mergeSortSteps` and
`quickSortSteps` return the empty trace, which has no last step. -/
theorem merge_quick_empty_trace_on_singleton :
    mergeSortSteps [7] = some [] ∧ quickSortSteps [7] = some [] ∧
    ¬ (∃ steps s, mergeSortSteps [7] = some steps ∧ steps.getLast? = some s ∧
        s.type = SortKind.complete) ∧
    ¬ (∃ steps s, quickSortSteps [7] = some steps ∧ steps.getLast? = some s ∧
        s.type = SortKind.complete) := by
  have e1 : mergeSortSteps [7] = some [] := by decide
  have e2 : quickSortSteps [7] = some [] := by decide
  refine ⟨e1, e2, ?_, ?_⟩
  · rintro ⟨steps, s, h, hl, -⟩
    rw [e1] at h
    cases h
    cases hl
  · rintro ⟨steps, s, h, hl, -⟩
    rw [e2] at h
    cases h
    cases hl

/-- C19, amended. For the empty array and for every single-element array, the traces of
`bubbleSortSteps`, `selectionSortSteps` and `insertionSortSteps` are exactly an `initialize`
step followed by a `complete` step, both showing the input array (so they are non-empty,
contain no `compare` step and end in `complete`), while `mergeSortSteps` and
`quickSortSteps` return the empty trace (so they contain no `compare` step either). -/
theorem short_array_traces (arr : List Int) (h : arr.length ≤ 1) :
    (bubbleSortSteps arr).map (fun s => (s.type, s.array)) =
      [(SortKind.init, arr), (SortKind.complete, arr)] ∧
    (selectionSortSteps arr).map (fun s => (s.type, s.array)) =
      [(SortKind.init, arr), (SortKind.complete, arr)] ∧
    (insertionSortSteps arr).map (fun s => (s.type, s.array)) =
      [(SortKind.init, arr), (SortKind.complete, arr)] ∧
    mergeSortSteps arr = some [] ∧ quickSortSteps arr = some [] := by
  refine ⟨?_, ?_, ?_, ?_, ?_⟩
  · unfold bubbleSortSteps bubbleSortRun
    simp only [SortState.emit]
    rw [forLoop_empty _ _ _ _ (by simp; omega)]
    simp
  · unfold selectionSortSteps selectionSortRun
    simp only [SortState.emit]
    rw [forLoop_empty _ _ _ _ (by simp; omega)]
    simp
  · unfold insertionSortSteps insertionSortRun
    simp only [SortState.emit]
    rw [forLoop_empty _ _ _ _ h]
    simp
  · unfold mergeSortSteps mergeSortRun mergeSortSteps.mergeSort
    have : ¬ ((0 : Int) < (arr.length : Int) - 1) := by omega
    simp [this]
  · unfold quickSortSteps quickSortRun quickSortSteps.quickSort
    have : ¬ ((0 : Int) < (arr.length : Int) - 1) := by omega
    simp [this]

theorem short_array_traces_witness :
    ([7] : List Int).length ≤ 1 ∧
    (bubbleSortSteps [7]).map (fun s => (s.type, s.array)) =
      [(SortKind.init, [7]), (SortKind.complete, [7])] ∧
    (selectionSortSteps [7]).map (fun s => (s.type, s.array)) =
      [(SortKind.init, [7]), (SortKind.complete, [7])] ∧
    (insertionSortSteps [7]).map (fun s => (s.type, s.array)) =
      [(SortKind.init, [7]), (SortKind.complete, [7])] ∧
    mergeSortSteps [7] = some [] ∧ quickSortSteps [7] = some [] :=
  ⟨by decide, short_array_traces [7] (by decide)⟩

/-! ## Linear probing: the loop, case by case -/

theorem probeState_emit_hashTable (st : ProbeState) (s : ProbeStep) :
    (st.emit s).hashTable = st.hashTable := rfl

theorem probeState_emit_steps (st : ProbeState) (s : ProbeStep) :
    (st.emit s).steps = st.steps ++ [{ s with stepNumber := some st.stepCounter }] := rfl

theorem probe_none (tableSize : Int) (keyStr value : String) (initialIndex : Option Int)
    (left pc : Nat) (st : ProbeState) :
    hashWithLinearProbingSteps.probe tableSize keyStr value initialIndex left none pc st =
      none := by
  cases left <;> rfl

theorem probe_outside (tableSize : Int) (keyStr value : String) (initialIndex : Option Int)
    (left : Nat) (ci : Int) (pc : Nat) (st : ProbeState)
    (h : ¬ (0 ≤ ci ∧ ci < (st.hashTable.length : Int))) :
    hashWithLinearProbingSteps.probe tableSize keyStr value initialIndex left (some ci) pc st =
      none := by
  cases left with
  | zero => exact if_neg h
  | succ n => cases n <;> exact if_neg h

theorem probe_free (tableSize : Int) (keyStr value : String) (initialIndex : Option Int)
    (left : Nat) (ci : Int) (pc : Nat) (st : ProbeState)
    (h : 0 ≤ ci ∧ ci < (st.hashTable.length : Int))
    (hfree : heldByOther (st.hashTable.getD ci.toNat none) keyStr = false) :
    hashWithLinearProbingSteps.probe tableSize keyStr value initialIndex left (some ci) pc st =
      some (({ st with
          hashTable := st.hashTable.set ci.toNat (some { key := keyStr, value := value }) }).emit
        { type := .insertProbing,
          hashTable := st.hashTable.set ci.toNat (some { key := keyStr, value := value }),
          currentHashStep := some
            { key := keyStr, hash := 0, initialIndex := initialIndex,
              finalIndex := some ci, probeCount := some pc },
          inserted := some ci, key := some keyStr, value := some value }) := by
  have hn : ¬ (heldByOther (st.hashTable.getD ci.toNat none) keyStr = true) := by
    rw [hfree]; decide
  cases left with
  | zero => exact (if_pos h).trans (if_neg hn)
  | succ n => cases n <;> exact (if_pos h).trans (if_neg hn)

theorem probe_held_last (tableSize : Int) (keyStr value : String) (initialIndex : Option Int)
    (left : Nat) (hleft : left ≤ 1) (ci : Int) (pc : Nat) (st : ProbeState)
    (h : 0 ≤ ci ∧ ci < (st.hashTable.length : Int))
    (hheld : heldByOther (st.hashTable.getD ci.toNat none) keyStr = true) :
    hashWithLinearProbingSteps.probe tableSize keyStr value initialIndex left (some ci) pc st =
      some ((st.emit
        { type := .collisionProbe, hashTable := st.hashTable,
          currentHashStep := some
            { key := keyStr, hash := 0, initialIndex := initialIndex,
              currentProbe := some ci, probeCount := some (pc + 1),
              occupied := st.hashTable.getD ci.toNat none } }).emit
        { type := .tableFull, hashTable := st.hashTable,
          currentHashStep := some
            { key := keyStr, hash := 0, initialIndex := initialIndex } }) := by
  cases left with
  | zero => exact (if_pos h).trans (if_pos hheld)
  | succ n =>
    cases n with
    | zero => exact (if_pos h).trans (if_pos hheld)
    | succ k => omega

theorem probe_held_step (tableSize : Int) (keyStr value : String) (initialIndex : Option Int)
    (left : Nat) (ci : Int) (pc : Nat) (st : ProbeState)
    (h : 0 ≤ ci ∧ ci < (st.hashTable.length : Int))
    (hheld : heldByOther (st.hashTable.getD ci.toNat none) keyStr = true) :
    hashWithLinearProbingSteps.probe tableSize keyStr value initialIndex (left + 2) (some ci) pc
        st =
      hashWithLinearProbingSteps.probe tableSize keyStr value initialIndex (left + 1)
        (jsRem (ci + 1) tableSize) (pc + 1) (st.emit
        { type := .collisionProbe, hashTable := st.hashTable,
          currentHashStep := some
            { key := keyStr, hash := 0, initialIndex := initialIndex,
              currentProbe := some ci, probeCount := some (pc + 1),
              occupied := st.hashTable.getD ci.toNat none } }) :=
  (if_pos h).trans (if_pos hheld)


/-! ## C11: linear probing terminates with one outcome for each key -/

theorem probe_segment (tableSize : Int) (keyStr value : String) (initialIndex : Option Int)
    (hm : 1 ≤ tableSize) :
    ∀ (left : Nat) (ci : Int) (pc : Nat) (st : ProbeState), 1 ≤ left → 0 ≤ ci →
      ci < tableSize → (st.hashTable.length : Int) = tableSize →
      ∃ st' seg, hashWithLinearProbingSteps.probe tableSize keyStr value initialIndex left
          (some ci) pc st = some st' ∧
        st'.steps = st.steps ++ seg ∧ st'.hashTable.length = st.hashTable.length ∧
        (∀ s ∈ seg, ∃ info, s.currentHashStep = some info ∧ info.key = keyStr) ∧
        (seg.map ProbeStep.type).count HashKind.collisionProbe ≤ left ∧
        (seg.map ProbeStep.type).count HashKind.insertProbing +
          (seg.map ProbeStep.type).count HashKind.tableFull = 1 := by
  intro left
  induction left with
  | zero => intro ci pc st h; omega
  | succ n ih =>
    intro ci pc st _ h0 h1 hlen
    have hr : 0 ≤ ci ∧ ci < (st.hashTable.length : Int) := ⟨h0, by omega⟩
    cases hheld : heldByOther (st.hashTable.getD ci.toNat none) keyStr with
    | true =>
      cases n with
      | zero =>
        rw [probe_held_last tableSize keyStr value initialIndex 1 (Nat.le_refl 1) ci pc st hr
          hheld]
        refine ⟨_, _, rfl, List.append_assoc _ _ _, rfl, ?_, ?_, ?_⟩
        · intro s hs
          simp only [List.singleton_append, List.mem_cons, List.mem_singleton,
            List.not_mem_nil, or_false] at hs
          rcases hs with rfl | rfl
          · exact ⟨_, rfl, rfl⟩
          · exact ⟨_, rfl, rfl⟩
        · simp [List.count_cons]
        · simp [List.count_cons]
      | succ k =>
        rw [probe_held_step tableSize keyStr value initialIndex k ci pc st hr hheld]
        obtain ⟨c, hc, hc0, hc1⟩ := jsRem_range (ci + 1) tableSize (by omega) hm
        rw [hc]
        obtain ⟨st', seg, e, hsteps, hl, hkey, hcount, hone⟩ :=
          ih c (pc + 1) (st.emit
            { type := .collisionProbe, hashTable := st.hashTable,
              currentHashStep := some
                { key := keyStr, hash := 0, initialIndex := initialIndex,
                  currentProbe := some ci, probeCount := some (pc + 1),
                  occupied := st.hashTable.getD ci.toNat none } })
            (by omega) hc0 hc1 (by simpa [probeState_emit_hashTable] using hlen)
        refine ⟨st', _ :: seg, e, hsteps.trans (List.append_assoc _ _ _),
          by simpa [probeState_emit_hashTable] using hl, ?_, ?_, ?_⟩
        · intro s hs
          rcases List.mem_cons.1 hs with rfl | hs
          · exact ⟨_, rfl, rfl⟩
          · exact hkey s hs
        · simp only [List.map_cons, List.count_cons_self]
          omega
        · simpa [List.count_cons] using hone
    | false =>
      rw [probe_free tableSize keyStr value initialIndex (n + 1) ci pc st hr hheld]
      refine ⟨_, _, rfl, rfl, ?_, ?_, ?_, ?_⟩
      · simp [probeState_emit_hashTable]
      · intro s hs
        simp only [List.mem_singleton] at hs
        subst hs
        exact ⟨_, rfl, rfl⟩
      · simp
      · simp [List.count_cons]

theorem probing_insertKey_segment (hashFunc : HashFn) (tableSize : Int) (hashFunction : String)
    (hm : 1 ≤ tableSize) (hrange : IndexInRange hashFunc tableSize) (key : Key)
    (st : ProbeState) (hlen : (st.hashTable.length : Int) = tableSize) :
    ∃ st' seg, hashWithLinearProbingSteps.insertKey hashFunc tableSize hashFunction st key =
        some st' ∧
      st'.steps = st.steps ++ seg ∧ st'.hashTable.length = st.hashTable.length ∧
      KeySegment tableSize key seg := by
  obtain ⟨idx, hres, h0, h1⟩ := hrange key
  unfold hashWithLinearProbingSteps.insertKey
  simp only [hres]
  obtain ⟨st', seg, e, hsteps, hl, hkey, hcount, hone⟩ :=
    probe_segment tableSize key.toString ("value_" ++ key.toString) (some idx) hm
      tableSize.toNat idx 0
      ((st.emit
        { type := .hashComputation, hashTable := st.hashTable,
          currentHashStep := some
            { key := key.toString, hash := 0, function := some hashFunction,
              computationSteps := some ["Hash result: " ++ showNum (some idx)] } }).emit
        { type := .hashResult, hashTable := st.hashTable,
          currentHashStep := some
            { key := key.toString, hash := 0, index := some idx,
              function := some hashFunction } })
      (by omega) h0 h1 (by simpa [probeState_emit_hashTable] using hlen)
  refine ⟨st', _ :: _ :: seg, e,
    hsteps.trans ((List.append_assoc _ _ _).trans (List.append_assoc _ _ _)),
    by simpa [probeState_emit_hashTable] using hl, ?_, ?_, ?_⟩
  · intro s hs
    rcases List.mem_cons.1 hs with rfl | hs
    · exact ⟨_, rfl, rfl⟩
    rcases List.mem_cons.1 hs with rfl | hs
    · exact ⟨_, rfl, rfl⟩
    · exact hkey s hs
  · simpa [List.count_cons] using hcount
  · simpa [List.count_cons] using hone

theorem keySegment_total (tableSize : Int) (keys : List Key) (segments : List (List ProbeStep))
    (h : List.Forall₂ (KeySegment tableSize) keys segments) :
    (segments.flatten.map ProbeStep.type).count HashKind.insertProbing +
      (segments.flatten.map ProbeStep.type).count HashKind.tableFull = keys.length := by
  induction h with
  | nil => rfl
  | cons hseg _ ih =>
    simp only [List.flatten_cons, List.map_append, List.count_append, List.length_cons]
    have := hseg.2.2
    omega

theorem probing_run_segments (multiplication : HashFn) (keys : List Key) (tableSize : Int)
    (hashFunction : String) (hsize : 1 ≤ tableSize)
    (hrange : IndexInRange (hashFunctions.resolve multiplication hashFunction) tableSize) :
    ∃ (st : ProbeState) (segments : List (List ProbeStep)),
      hashWithLinearProbingRun multiplication keys tableSize hashFunction =
        some (st.emit { type := .complete, hashTable := st.hashTable }) ∧
      (st.hashTable.length : Int) = tableSize ∧
      st.steps =
        { type := .init, hashTable := List.replicate tableSize.toNat none,
          stepNumber := some 1 } :: segments.flatten ∧
      List.Forall₂ (KeySegment tableSize) keys segments := by
  obtain ⟨st2, e, hlen, segments, hsteps, hseg⟩ := forEachM_inv
    (hashWithLinearProbingSteps.insertKey (hashFunctions.resolve multiplication hashFunction)
      tableSize hashFunction)
    (fun (done : List Key) (st : ProbeState) => (st.hashTable.length : Int) = tableSize ∧
      ∃ segments : List (List ProbeStep), st.steps =
        { type := .init, hashTable := List.replicate tableSize.toNat none,
          stepNumber := some 1 } :: segments.flatten ∧
        List.Forall₂ (KeySegment tableSize) done segments)
    (fun done a s h => by
      obtain ⟨hl, segs, hs, hf⟩ := h
      obtain ⟨s', seg, e, hs', hl', hk⟩ := probing_insertKey_segment
        (hashFunctions.resolve multiplication hashFunction) tableSize hashFunction hsize hrange
        a s hl
      refine ⟨s', e, by rw [hl']; exact hl, segs ++ [seg], ?_, ?_⟩
      · rw [hs', hs]
        simp
      · exact List.rel_append hf (List.Forall₂.cons hk List.Forall₂.nil))
    keys []
    (({ hashTable := List.replicate tableSize.toNat none, steps := [], stepCounter := 1 } :
      ProbeState).emit { type := .init, hashTable := List.replicate tableSize.toNat none })
    ⟨by simp [probeState_emit_hashTable]; omega, [], rfl, List.Forall₂.nil⟩
  refine ⟨st2, segments, ?_, hlen, hsteps, by simpa using hseg⟩
  unfold hashWithLinearProbingRun
  have hneg : ¬ tableSize < 0 := by omega
  simp only [hneg, if_false]
  rw [e]
  rfl

/-- C11. For every key sequence, every table size `≥ 1` and every hash function that sends
the keys to indices of the table (as `'modulo'` and `'djb2'` do), `hashWithLinearProbingSteps`
returns a trace.  The trace is the `initialize` step, then one segment of steps for each input
key in order, then the `complete` step; the segment of a key has at most `tableSize`
`collision-probe` steps and exactly one step that is `insert-probing` or `table-full`; in the
whole trace the number of `insert-probing` steps plus the number of `table-full` steps is the
number of input keys. -/
theorem probing_one_outcome_per_key (multiplication : HashFn) (keys : List Key)
    (tableSize : Int) (hashFunction : String) (hsize : 1 ≤ tableSize)
    (hrange : IndexInRange (hashFunctions.resolve multiplication hashFunction) tableSize) :
    ∃ steps first segments last,
      hashWithLinearProbingSteps multiplication keys tableSize hashFunction = some steps ∧
      steps = first :: segments.flatten ++ [last] ∧
      first.type = HashKind.init ∧ last.type = HashKind.complete ∧
      List.Forall₂ (KeySegment tableSize) keys segments ∧
      (steps.map ProbeStep.type).count HashKind.insertProbing +
        (steps.map ProbeStep.type).count HashKind.tableFull = keys.length := by
  obtain ⟨st, segments, e, _, hsteps, hseg⟩ :=
    probing_run_segments multiplication keys tableSize hashFunction hsize hrange
  refine ⟨(st.emit { type := .complete, hashTable := st.hashTable }).steps,
    ({ type := .init, hashTable := List.replicate tableSize.toNat none, stepNumber := some 1 } :
      ProbeStep), segments,
    ({ type := .complete, hashTable := st.hashTable, stepNumber := some st.stepCounter } :
      ProbeStep), ?_, ?_, rfl, rfl, hseg, ?_⟩
  · unfold hashWithLinearProbingSteps
    rw [e]
    rfl
  · rw [probeState_emit_steps, hsteps]
  · have := keySegment_total tableSize keys segments hseg
    rw [probeState_emit_steps, hsteps]
    generalize segments.flatten = body at this ⊢
    simp [List.count_cons]
    omega

theorem resolve_inRange (multiplication : HashFn) (hashFunction : String) (tableSize : Int)
    (hsize : 1 ≤ tableSize) (hfn : hashFunction = "modulo" ∨ hashFunction = "djb2") :
    IndexInRange (hashFunctions.resolve multiplication hashFunction) tableSize := by
  rcases hfn with h | h
  · subst h
    simpa [hashFunctions.resolve] using modulo_inRange tableSize hsize
  · subst h
    simpa [hashFunctions.resolve] using djb2_inRange tableSize hsize

/-- C11, at the keys `"ab"`, `"ba"`, `"c"`, table size `2` and the hash function
`'modulo'`. -/
theorem probing_one_outcome_per_key_witness :
    (1 : Int) ≤ 2 ∧
    IndexInRange (hashFunctions.resolve hashFunctions.inherited "modulo") 2 ∧
    ∃ steps first segments last,
      hashWithLinearProbingSteps hashFunctions.inherited
        [Key.str "ab", Key.str "ba", Key.str "c"] 2 "modulo" = some steps ∧
      steps = first :: segments.flatten ++ [last] ∧
      first.type = HashKind.init ∧ last.type = HashKind.complete ∧
      List.Forall₂ (KeySegment 2) [Key.str "ab", Key.str "ba", Key.str "c"] segments ∧
      (steps.map ProbeStep.type).count HashKind.insertProbing +
        (steps.map ProbeStep.type).count HashKind.tableFull =
          [Key.str "ab", Key.str "ba", Key.str "c"].length :=
  ⟨by decide, resolve_inRange _ "modulo" 2 (by decide) (Or.inl rfl),
    probing_one_outcome_per_key hashFunctions.inherited
      [Key.str "ab", Key.str "ba", Key.str "c"] 2 "modulo" (by decide)
      (resolve_inRange _ "modulo" 2 (by decide) (Or.inl rfl))⟩

/-! ## C20: the first and the last step of a trace -/

theorem head?_append_of_head? {α : Type} (l t : List α) (a : α) (h : l.head? = some a) :
    (l ++ t).head? = some a := by
  cases l with
  | nil => cases h
  | cons b l => simpa using h

theorem forLoop_preserves {σ : Type} (P : σ → Prop) (f : σ → Nat → σ) (lo hi : Nat) (s0 : σ)
    (h0 : P s0) (hstep : ∀ s k, P s → P (f s k)) : P (forLoop lo hi f s0) := by
  unfold forLoop
  generalize List.range' lo (hi - lo) = l
  induction l generalizing s0 with
  | nil => exact h0
  | cons k l ih => exact ih (f s0 k) (hstep s0 k h0)

theorem sortState_emit_head (st : SortState) (s first : SortStep)
    (h : st.steps.head? = some first) : (st.emit s).steps.head? = some first :=
  head?_append_of_head? _ _ _ h

theorem bubbleInner_head (first : SortStep) (i : Nat) (st : SortState) (j : Nat)
    (h : st.steps.head? = some first) : (bubbleInner i st j).steps.head? = some first := by
  unfold bubbleInner
  simp only
  split_ifs
  · exact sortState_emit_head _ _ _ (sortState_emit_head _ _ _ h)
  · exact sortState_emit_head _ _ _ h

theorem bubbleOuter_head (first : SortStep) (st : SortState) (i : Nat)
    (h : st.steps.head? = some first) : (bubbleOuter st i).steps.head? = some first := by
  unfold bubbleOuter
  exact sortState_emit_head _ _ _
    (forLoop_preserves (fun s => s.steps.head? = some first) _ _ _ _
      (sortState_emit_head _ _ _ h) (fun s k hs => bubbleInner_head first i s k hs))

theorem selectionInner_head (first : SortStep) (i : Nat) (sm : SortState × Nat) (j : Nat)
    (h : sm.1.steps.head? = some first) :
    (selectionInner i sm j).1.steps.head? = some first := by
  unfold selectionInner
  simp only
  split_ifs
  · exact sortState_emit_head _ _ _ (sortState_emit_head _ _ _ h)
  · exact sortState_emit_head _ _ _ h

theorem selectionOuter_head (first : SortStep) (st : SortState) (i : Nat)
    (h : st.steps.head? = some first) : (selectionOuter st i).steps.head? = some first := by
  have hin := forLoop_preserves (fun sm : SortState × Nat => sm.1.steps.head? = some first)
    (selectionInner i) (i + 1) st.result.length
    (st.emit { type := .passStart, array := st.result, sorted := arrayFrom i (fun idx => idx) },
      i)
    (sortState_emit_head _ _ _ h) (fun s k hs => selectionInner_head first i s k hs)
  unfold selectionOuter
  simp only [sortState_emit_result]
  apply sortState_emit_head
  split_ifs
  · exact sortState_emit_head _ _ _ hin
  · exact sortState_emit_head _ _ _ hin

theorem insertionWhile_head (first : SortStep) (key : Int) (i : Nat) :
    ∀ (k : Nat) (st : SortState), st.steps.head? = some first →
      (insertionWhile key i k st).2.steps.head? = some first := by
  intro k
  induction k with
  | zero => intro st h; exact h
  | succ k ih =>
    intro st h
    unfold insertionWhile
    split_ifs
    · exact ih _ (sortState_emit_head _ _ _ (sortState_emit_head _ _ _ h))
    · exact h

theorem insertionOuter_head (first : SortStep) (st : SortState) (i : Nat)
    (h : st.steps.head? = some first) : (insertionOuter st i).steps.head? = some first := by
  have hin := insertionWhile_head first (jsGet st.result i) i i
    (st.emit { type := .select, array := st.result, sorted := arrayFrom i (fun idx => idx) })
    (sortState_emit_head _ _ _ h)
  unfold insertionOuter
  simp only
  apply sortState_emit_head
  split_ifs
  · exact sortState_emit_head _ _ _ hin
  · exact sortState_emit_head _ _ _ hin

theorem simple_sorts_bookends (arr : List Int) :
    SortBookends arr (bubbleSortSteps arr) ∧ SortBookends arr (selectionSortSteps arr) ∧
      SortBookends arr (insertionSortSteps arr) := by
  refine ⟨?_, ?_, ?_⟩
  · refine ⟨{ type := .init, array := arr, stepNumber := some 1 }, _, ?_, rfl, rfl,
      sortState_getLast?_emit _ _, rfl⟩
    exact sortState_emit_head _ _ _
      (forLoop_preserves (fun s => s.steps.head? = some _) _ _ _ _ rfl
        (fun s k hs => bubbleOuter_head _ s k hs))
  · refine ⟨{ type := .init, array := arr, stepNumber := some 1 }, _, ?_, rfl, rfl,
      sortState_getLast?_emit _ _, rfl⟩
    exact sortState_emit_head _ _ _
      (forLoop_preserves (fun s => s.steps.head? = some _) _ _ _ _ rfl
        (fun s k hs => selectionOuter_head _ s k hs))
  · refine ⟨{ type := .init, array := arr, sorted := [0], stepNumber := some 1 }, _, ?_, rfl,
      rfl, sortState_getLast?_emit _ _, rfl⟩
    exact sortState_emit_head _ _ _
      (forLoop_preserves (fun s => s.steps.head? = some _) _ _ _ _ rfl
        (fun s k hs => insertionOuter_head _ s k hs))

theorem searchState_emit_head (st : SearchState) (s first : SearchStep)
    (h : st.steps.head? = some first) : (st.emit s).steps.head? = some first :=
  head?_append_of_head? _ _ _ h

theorem linearScan_head (first : SearchStep) (array : List Int) (target : Int)
    (startIndex : Nat) :
    ∀ (n i : Nat) (st : SearchState), st.steps.head? = some first →
      (linearSearchSteps.scan array target startIndex n i st).steps.head? = some first := by
  intro n
  induction n with
  | zero => intro i st h; exact searchState_emit_head _ _ _ h
  | succ n ih =>
    intro i st h
    unfold linearSearchSteps.scan
    simp only
    split_ifs
    · exact searchState_emit_head _ _ _
        (searchState_emit_head _ _ _ (searchState_emit_head _ _ _ h))
    · exact ih _ _ (searchState_emit_head _ _ _ (searchState_emit_head _ _ _ h))

theorem binaryLoop_head (first : SearchStep) (array : List Int) (target : Int) :
    ∀ (fuel : Nat) (left right comparisons : Int) (st st' : SearchState),
      binarySearchSteps.loop array target fuel left right comparisons st = some st' →
      st.steps.head? = some first → st'.steps.head? = some first := by
  intro fuel
  induction fuel with
  | zero =>
    intro left right c st st' e h
    unfold binarySearchSteps.loop at e
    split_ifs at e
    all_goals (cases e; exact searchState_emit_head _ _ _ h)
  | succ fuel ih =>
    intro left right c st st' e h
    unfold binarySearchSteps.loop at e
    simp only at e
    have h3 := searchState_emit_head _
      { type := .compare, array := array, target := target, searchRange := (left, right),
        mid := some ((left + right) / 2),
        value := some (jsGet array ((left + right) / 2).toNat),
        isMatch := some (decide (jsGet array ((left + right) / 2).toNat = target)) } first
      (searchState_emit_head _
        { type := .examineMid, array := array, target := target, searchRange := (left, right),
          mid := some ((left + right) / 2),
          value := some (jsGet array ((left + right) / 2).toNat) } first
        (searchState_emit_head st
          { type := .calculateMid, array := array, target := target,
            searchRange := (left, right), mid := some ((left + right) / 2) } first h))
    split_ifs at e
    · cases e
      exact searchState_emit_head _ _ _ h3
    · exact ih _ _ _ _ _ e (searchState_emit_head _ _ _ h3)
    · exact ih _ _ _ _ _ e (searchState_emit_head _ _ _ h3)
    · cases e
      exact searchState_emit_head _ _ _ h

theorem searches_bookends (array : List Int) (target : Int) (startIndex : Nat) :
    SearchBookends array (linearSearchSteps array target startIndex) ∧
      ∃ steps, binarySearchSteps array target = some steps ∧ SearchBookends array steps := by
  constructor
  · obtain ⟨s, hs, h⟩ := linearScan_spec array target startIndex (array.length - startIndex)
      startIndex
      (({ steps := [], stepCounter := 1 } : SearchState).emit
        { type := .init, array := array, target := target,
          searchRange := (startIndex, (array.length : Int) - 1) })
      rfl (Nat.le_refl _) (fun k h1 h2 => by omega)
    refine ⟨
      { type := .init, array := array, target := target,
        searchRange := (startIndex, (array.length : Int) - 1), stepNumber := some 1 }, s,
      linearScan_head _ array target startIndex _ _ _ rfl, rfl, rfl, hs, ?_⟩
    rcases h with ⟨ht, _⟩ | ⟨ht, _⟩
    · exact Or.inl ht
    · exact Or.inr ht
  · obtain ⟨st', s, c', e, hl, ht, _⟩ := binaryLoop_bound array target array.length 0
      ((array.length : Int) - 1) 0
      (({ steps := [], stepCounter := 1 } : SearchState).emit
        { type := .init, array := array, target := target,
          searchRange := (0, (array.length : Int) - 1) })
      (by omega) (by simp) (Or.inl rfl) (by simp [searchState_emit_types])
    refine ⟨st'.steps, ?_,
      { type := .init, array := array, target := target,
        searchRange := (0, (array.length : Int) - 1), stepNumber := some 1 }, s,
      binaryLoop_head _ array target _ _ _ _ _ _ e rfl, rfl, rfl, hl, ht⟩
    unfold binarySearchSteps
    simp only
    have e2 : binarySearchSteps.loop array target array.length 0 ((array.length : Int) - 1) 0
        (({ steps := [], stepCounter := 1 } : SearchState).emit
          { type := .init, array := array, target := target,
            searchRange := (0, (array.length : Int) - 1) }) = some st' := e
    rw [e2]
    rfl

theorem chainState_emit_head (st : ChainState) (s first : ChainStep)
    (h : st.steps.head? = some first) : (st.emit s).steps.head? = some first :=
  head?_append_of_head? _ _ _ h

theorem chaining_insertKey_head (first : ChainStep) (hashFunc : HashFn) (tableSize : Int)
    (hashFunction : String) (st st' : ChainState) (key : Key)
    (e : hashWithChainingSteps.insertKey hashFunc tableSize hashFunction st key = some st')
    (h : st.steps.head? = some first) : st'.steps.head? = some first := by
  unfold hashWithChainingSteps.insertKey at e
  simp only at e
  split at e
  · cases e
  · split_ifs at e
    · cases e
      exact chainState_emit_head _ _ _
        (chainState_emit_head _ _ _ (chainState_emit_head _ _ _ (chainState_emit_head _ _ _ h)))
    · cases e
      exact chainState_emit_head _ _ _
        (chainState_emit_head _ _ _ (chainState_emit_head _ _ _ h))

theorem chaining_bookends (multiplication : HashFn) (keys : List Key) (tableSize : Int)
    (hashFunction : String) (hsize : 1 ≤ tableSize)
    (hrange : IndexInRange (hashFunctions.resolve multiplication hashFunction) tableSize) :
    ∃ steps first last,
      hashWithChainingSteps multiplication keys tableSize hashFunction = some steps ∧
      steps.head? = some first ∧ first.type = HashKind.init ∧
      first.hashTable = List.replicate tableSize.toNat [] ∧
      steps.getLast? = some last ∧ last.type = HashKind.complete := by
  obtain ⟨st2, e, _, hhead⟩ := forEachM_inv
    (hashWithChainingSteps.insertKey (hashFunctions.resolve multiplication hashFunction)
      tableSize hashFunction)
    (fun (done : List Key) (st : ChainState) =>
      ChainInv (hashFunctions.resolve multiplication hashFunction) tableSize done st ∧
      st.steps.head? = some
        { type := .init, hashTable := List.replicate tableSize.toNat [], stepNumber := some 1 })
    (fun done a s h => by
      obtain ⟨s', e, hinv⟩ := insertKey_inv _ tableSize hashFunction hrange done a s h.1
      exact ⟨s', e, hinv, chaining_insertKey_head _ _ _ _ _ _ _ e h.2⟩)
    keys []
    (({ hashTable := List.replicate tableSize.toNat [], steps := [], stepCounter := 1 } :
      ChainState).emit { type := .init, hashTable := List.replicate tableSize.toNat [] })
    ⟨⟨by simp [chainState_emit_hashTable]; omega, by simp [chainState_emit_hashTable],
      fun k hk => by cases hk⟩, rfl⟩
  refine ⟨(st2.emit { type := .complete, hashTable := st2.hashTable }).steps, _,
    { type := .complete, hashTable := st2.hashTable, stepNumber := some st2.stepCounter },
    ?_, chainState_emit_head _ _ _ hhead, rfl, rfl, by simp [ChainState.emit], rfl⟩
  unfold hashWithChainingSteps
  have hneg : ¬ tableSize < 0 := by omega
  simp only [hneg, if_false]
  rw [e]
  rfl

theorem probing_bookends (multiplication : HashFn) (keys : List Key) (tableSize : Int)
    (hashFunction : String) (hsize : 1 ≤ tableSize)
    (hrange : IndexInRange (hashFunctions.resolve multiplication hashFunction) tableSize) :
    ∃ steps first last,
      hashWithLinearProbingSteps multiplication keys tableSize hashFunction = some steps ∧
      steps.head? = some first ∧ first.type = HashKind.init ∧
      first.hashTable = List.replicate tableSize.toNat none ∧
      steps.getLast? = some last ∧ last.type = HashKind.complete := by
  obtain ⟨st, segments, e, _, hsteps, _⟩ :=
    probing_run_segments multiplication keys tableSize hashFunction hsize hrange
  refine ⟨(st.emit { type := .complete, hashTable := st.hashTable }).steps,
    { type := .init, hashTable := List.replicate tableSize.toNat none, stepNumber := some 1 },
    { type := .complete, hashTable := st.hashTable, stepNumber := some st.stepCounter },
    ?_, ?_, rfl, rfl, by simp [ProbeState.emit], rfl⟩
  · unfold hashWithLinearProbingSteps
    rw [e]
    rfl
  · rw [probeState_emit_steps, hsteps]
    rfl

/-- C20. For every array, target, `startIndex ≥ 0`, key sequence, table size `≥ 1` and hash
function that sends the keys to indices of the table, the traces of `bubbleSortSteps`,
`selectionSortSteps`, `insertionSortSteps`, `linearSearchSteps`, `binarySearchSteps`,
`hashWithChainingSteps` and `hashWithLinearProbingSteps` are non-empty; the first step is the
`initialize` step and shows the input array, or the table with every bucket or slot empty;
the last step is `complete` for the sorts and the hash builds, `found` or `not-found` for
the searches. -/
theorem traces_have_bookends (multiplication : HashFn) (arr : List Int) (target : Int)
    (startIndex : Nat) (keys : List Key) (tableSize : Int) (hashFunction : String)
    (hsize : 1 ≤ tableSize)
    (hrange : IndexInRange (hashFunctions.resolve multiplication hashFunction) tableSize) :
    SortBookends arr (bubbleSortSteps arr) ∧ SortBookends arr (selectionSortSteps arr) ∧
    SortBookends arr (insertionSortSteps arr) ∧
    SearchBookends arr (linearSearchSteps arr target startIndex) ∧
    (∃ steps, binarySearchSteps arr target = some steps ∧ SearchBookends arr steps) ∧
    (∃ steps first last,
      hashWithChainingSteps multiplication keys tableSize hashFunction = some steps ∧
      steps.head? = some first ∧ first.type = HashKind.init ∧
      first.hashTable = List.replicate tableSize.toNat [] ∧
      steps.getLast? = some last ∧ last.type = HashKind.complete) ∧
    (∃ steps first last,
      hashWithLinearProbingSteps multiplication keys tableSize hashFunction = some steps ∧
      steps.head? = some first ∧ first.type = HashKind.init ∧
      first.hashTable = List.replicate tableSize.toNat none ∧
      steps.getLast? = some last ∧ last.type = HashKind.complete) :=
  ⟨(simple_sorts_bookends arr).1, (simple_sorts_bookends arr).2.1,
    (simple_sorts_bookends arr).2.2, (searches_bookends arr target startIndex).1,
    (searches_bookends arr target startIndex).2,
    chaining_bookends multiplication keys tableSize hashFunction hsize hrange,
    probing_bookends multiplication keys tableSize hashFunction hsize hrange⟩

/-- C20, at the array `[3, 1, 2]`, the target `2`, `startIndex = 0`, the keys `"ab"`, `"ba"`,
table size `2` and the hash function `'djb2'`. -/
theorem traces_have_bookends_witness :
    (1 : Int) ≤ 2 ∧ IndexInRange (hashFunctions.resolve hashFunctions.inherited "djb2") 2 ∧
    SortBookends [3, 1, 2] (bubbleSortSteps [3, 1, 2]) ∧
    SortBookends [3, 1, 2] (selectionSortSteps [3, 1, 2]) ∧
    SortBookends [3, 1, 2] (insertionSortSteps [3, 1, 2]) ∧
    SearchBookends [3, 1, 2] (linearSearchSteps [3, 1, 2] 2 0) ∧
    (∃ steps, binarySearchSteps [3, 1, 2] 2 = some steps ∧ SearchBookends [3, 1, 2] steps) ∧
    (∃ steps first last,
      hashWithChainingSteps hashFunctions.inherited [Key.str "ab", Key.str "ba"] 2 "djb2" =
        some steps ∧
      steps.head? = some first ∧ first.type = HashKind.init ∧
      first.hashTable = List.replicate (2 : Int).toNat [] ∧
      steps.getLast? = some last ∧ last.type = HashKind.complete) ∧
    (∃ steps first last,
      hashWithLinearProbingSteps hashFunctions.inherited [Key.str "ab", Key.str "ba"] 2
        "djb2" = some steps ∧
      steps.head? = some first ∧ first.type = HashKind.init ∧
      first.hashTable = List.replicate (2 : Int).toNat none ∧
      steps.getLast? = some last ∧ last.type = HashKind.complete) :=
  ⟨by decide, resolve_inRange _ "djb2" 2 (by decide) (Or.inr rfl),
    traces_have_bookends hashFunctions.inherited [3, 1, 2] 2 0 [Key.str "ab", Key.str "ba"] 2
      "djb2" (by decide) (resolve_inRange _ "djb2" 2 (by decide) (Or.inr rfl))⟩

/-! ## C12: an occupied slot stays occupied by the same record -/

theorem slotsKept_refl (t : List (Option Entry)) : SlotsKept t t := fun _ _ h => h

theorem slotsKept_trans (t1 t2 t3 : List (Option Entry)) (h1 : SlotsKept t1 t2)
    (h2 : SlotsKept t2 t3) : SlotsKept t1 t3 := fun slot e h => h2 slot e (h1 slot e h)

theorem not_heldByOther (slot : Option Entry) (keyStr : String)
    (h : heldByOther slot keyStr = false) : slot = none ∨ ∃ occ, slot = some occ ∧ occ.key = keyStr := by
  cases slot with
  | none => exact Or.inl rfl
  | some occ =>
    refine Or.inr ⟨occ, rfl, ?_⟩
    simpa [heldByOther] using h

theorem slotsKept_set (t : List (Option Entry)) (i : Nat) (keyStr : String)
    (hcan : CanonicalTable t)
    (hfree : heldByOther (t.getD i none) keyStr = false) :
    SlotsKept t (t.set i (some { key := keyStr, value := "value_" ++ keyStr })) := by
  intro slot e he
  by_cases hsi : i = slot
  · subst hsi
    have hlt : i < t.length := by
      rcases List.getElem?_eq_some.1 he with ⟨h, _⟩
      exact h
    rw [List.getElem?_set_self hlt]
    have hget : t.getD i none = some e := by
      rw [List.getD_eq_getElem?_getD, he]
      rfl
    rw [hget] at hfree
    rcases not_heldByOther _ _ hfree with h | ⟨occ, h1, h2⟩
    · cases h
    · cases h1
      have hv := hcan e (List.mem_iff_getElem?.2 ⟨i, he⟩)
      cases e with
      | mk k v =>
        simp only at h2 hv
        subst h2
        subst hv
        rfl
  · rw [List.getElem?_set_ne hsi]
    exact he

theorem canonical_set (t : List (Option Entry)) (i : Nat) (keyStr : String)
    (hcan : CanonicalTable t) :
    CanonicalTable (t.set i (some { key := keyStr, value := "value_" ++ keyStr })) := by
  intro e he
  rcases List.mem_or_eq_of_mem_set he with h | h
  · exact hcan e h
  · cases h
    rfl

theorem probeState_getLast?_emit (st : ProbeState) (s : ProbeStep) :
    (st.emit s).steps.getLast? = some { s with stepNumber := some st.stepCounter } := by
  simp [ProbeState.emit]

theorem probeInv_emit (st : ProbeState) (s : ProbeStep) (h : ProbeInv st)
    (hs : s.hashTable = st.hashTable) : ProbeInv (st.emit s) := by
  obtain ⟨hch, hlast, hcan⟩ := h
  refine ⟨?_, ?_, hcan⟩
  · rw [probeState_emit_steps, List.chain'_append]
    refine ⟨hch, List.chain'_singleton _, ?_⟩
    intro x hx y hy
    simp only [List.head?_cons, Option.mem_def, Option.some.injEq] at hy
    subst hy
    rw [hlast x hx]
    show SlotsKept st.hashTable s.hashTable
    rw [hs]
    exact slotsKept_refl _
  · intro s' hs'
    rw [probeState_getLast?_emit] at hs'
    cases hs'
    exact hs

theorem probeInv_insert (st : ProbeState) (s : ProbeStep) (i : Nat) (keyStr : String)
    (h : ProbeInv st) (hfree : heldByOther (st.hashTable.getD i none) keyStr = false)
    (hs : s.hashTable = st.hashTable.set i (some { key := keyStr, value := "value_" ++ keyStr })) :
    ProbeInv (({ st with
      hashTable := st.hashTable.set i
        (some { key := keyStr, value := "value_" ++ keyStr }) }).emit s) := by
  obtain ⟨hch, hlast, hcan⟩ := h
  refine ⟨?_, ?_, canonical_set _ _ _ hcan⟩
  · rw [probeState_emit_steps, List.chain'_append]
    refine ⟨hch, List.chain'_singleton _, ?_⟩
    intro x hx y hy
    simp only [List.head?_cons, Option.mem_def, Option.some.injEq] at hy
    subst hy
    rw [hlast x hx]
    show SlotsKept st.hashTable s.hashTable
    rw [hs]
    exact slotsKept_set _ _ _ hcan hfree
  · intro s' hs'
    rw [probeState_getLast?_emit] at hs'
    cases hs'
    exact hs

theorem probe_inv (tableSize : Int) (keyStr : String) (initialIndex : Option Int) :
    ∀ (left : Nat) (currentIndex : Option Int) (pc : Nat) (st st' : ProbeState),
      hashWithLinearProbingSteps.probe tableSize keyStr ("value_" ++ keyStr) initialIndex left
        currentIndex pc st = some st' →
      ProbeInv st → ProbeInv st' := by
  have hfin : ∀ (left : Nat) (ci : Int) (pc : Nat) (st st' : ProbeState),
      (0 ≤ ci ∧ ci < (st.hashTable.length : Int)) →
      heldByOther (st.hashTable.getD ci.toNat none) keyStr = false →
      hashWithLinearProbingSteps.probe tableSize keyStr ("value_" ++ keyStr) initialIndex left
        (some ci) pc st = some st' →
      ProbeInv st → ProbeInv st' := by
    intro left ci pc st st' hr hheld e h
    rw [probe_free tableSize keyStr _ initialIndex left ci pc st hr hheld] at e
    cases e
    exact probeInv_insert st _ ci.toNat keyStr h hheld rfl
  have hlast : ∀ (left : Nat) (ci : Int) (pc : Nat) (st st' : ProbeState), left ≤ 1 →
      (0 ≤ ci ∧ ci < (st.hashTable.length : Int)) →
      heldByOther (st.hashTable.getD ci.toNat none) keyStr = true →
      hashWithLinearProbingSteps.probe tableSize keyStr ("value_" ++ keyStr) initialIndex left
        (some ci) pc st = some st' →
      ProbeInv st → ProbeInv st' := by
    intro left ci pc st st' hl hr hheld e h
    rw [probe_held_last tableSize keyStr _ initialIndex left hl ci pc st hr hheld] at e
    cases e
    exact probeInv_emit _ _ (probeInv_emit _ _ h rfl) rfl
  intro left
  induction left with
  | zero =>
    intro currentIndex pc st st' e h
    cases currentIndex with
    | none => rw [probe_none] at e; cases e
    | some ci =>
      by_cases hr : 0 ≤ ci ∧ ci < (st.hashTable.length : Int)
      · cases hheld : heldByOther (st.hashTable.getD ci.toNat none) keyStr with
        | true => exact hlast 0 ci pc st st' (by omega) hr hheld e h
        | false => exact hfin 0 ci pc st st' hr hheld e h
      · rw [probe_outside _ _ _ _ _ _ _ _ hr] at e; cases e
  | succ n ih =>
    intro currentIndex pc st st' e h
    cases currentIndex with
    | none => rw [probe_none] at e; cases e
    | some ci =>
      by_cases hr : 0 ≤ ci ∧ ci < (st.hashTable.length : Int)
      · cases hheld : heldByOther (st.hashTable.getD ci.toNat none) keyStr with
        | true =>
          cases n with
          | zero => exact hlast 1 ci pc st st' (by omega) hr hheld e h
          | succ k =>
            rw [probe_held_step tableSize keyStr _ initialIndex k ci pc st hr hheld] at e
            exact ih _ _ _ _ e (probeInv_emit _ _ h rfl)
        | false => exact hfin (n + 1) ci pc st st' hr hheld e h
      · rw [probe_outside _ _ _ _ _ _ _ _ hr] at e; cases e

theorem probing_insertKey_inv (hashFunc : HashFn) (tableSize : Int) (hashFunction : String)
    (st st' : ProbeState) (key : Key)
    (e : hashWithLinearProbingSteps.insertKey hashFunc tableSize hashFunction st key = some st')
    (h : ProbeInv st) : ProbeInv st' := by
  unfold hashWithLinearProbingSteps.insertKey at e
  exact probe_inv tableSize key.toString _ _ _ _ _ _ e
    (probeInv_emit _ _ (probeInv_emit _ _ h rfl) rfl)

theorem forEachM_preserves {σ α : Type} (f : σ → α → Option σ) (P : σ → Prop)
    (hstep : ∀ s a s', f s a = some s' → P s → P s') :
    ∀ (as : List α) (s s' : σ), forEachM f as s = some s' → P s → P s' := by
  intro as
  induction as with
  | nil =>
    intro s s' e h
    cases e
    exact h
  | cons a as ih =>
    intro s s' e h
    simp only [forEachM] at e
    cases h1 : f s a with
    | none => rw [h1] at e; cases e
    | some s1 =>
      rw [h1] at e
      exact ih s1 s' e (hstep s a s1 h1 h)

theorem probing_run_inv (multiplication : HashFn) (keys : List Key) (tableSize : Int)
    (hashFunction : String) (st : ProbeState)
    (e : hashWithLinearProbingRun multiplication keys tableSize hashFunction = some st) :
    ProbeInv st := by
  unfold hashWithLinearProbingRun at e
  split_ifs at e
  simp only [Option.map_eq_some'] at e
  obtain ⟨st2, e2, rfl⟩ := e
  refine probeInv_emit _ _ ?_ rfl
  refine forEachM_preserves _ ProbeInv
    (fun s a s' e h => probing_insertKey_inv _ tableSize hashFunction s s' a e h) keys _ _ e2 ?_
  refine probeInv_emit _ _ ⟨List.chain'_nil, fun s hs => (by cases hs), ?_⟩ rfl
  intro e he
  simp only [List.mem_replicate] at he
  cases he.2

/-- C12. In every trace that `hashWithLinearProbingSteps` returns, for every pair of
consecutive steps `s`, `s'` and every slot index: a slot that holds a record in the
`hashTable` of `s` holds the same record (same key and value) in the `hashTable` of `s'`. -/
theorem probing_slots_stay_occupied (multiplication : HashFn) (keys : List Key)
    (tableSize : Int) (hashFunction : String) (steps : List ProbeStep)
    (h : hashWithLinearProbingSteps multiplication keys tableSize hashFunction = some steps)
    (i : Nat) (s s' : ProbeStep) (hs : steps[i]? = some s) (hs' : steps[i + 1]? = some s')
    (slot : Nat) (e : Entry) (he : s.hashTable[slot]? = some (some e)) :
    s'.hashTable[slot]? = some (some e) := by
  unfold hashWithLinearProbingSteps at h
  simp only [Option.map_eq_some'] at h
  obtain ⟨st, e1, rfl⟩ := h
  obtain ⟨hch, _, _⟩ := probing_run_inv multiplication keys tableSize hashFunction st e1
  obtain ⟨h1, rfl⟩ := List.getElem?_eq_some.1 hs
  obtain ⟨h2, rfl⟩ := List.getElem?_eq_some.1 hs'
  exact List.chain'_iff_get.1 hch i (by omega) slot e he

/-- C12, at the keys `"ab"`, `"ba"`, table size `2`, the hash function `'modulo'`, the steps
at the indices `3` and `4` of the trace and the slot `1`. -/
theorem probing_slots_stay_occupied_witness :
    hashWithLinearProbingSteps hashFunctions.inherited [Key.str "ab", Key.str "ba"] 2
      "modulo" = some probingTraceOfAbBa ∧
    probingTraceOfAbBa[3]? = some insertStepOfAb ∧
    probingTraceOfAbBa[3 + 1]? = some hashStepOfBa ∧
    insertStepOfAb.hashTable[1]? = some (some { key := "ab", value := "value_ab" }) ∧
    hashStepOfBa.hashTable[1]? = some (some { key := "ab", value := "value_ab" }) :=
  ⟨by decide, by decide, by decide, by decide,
    probing_slots_stay_occupied hashFunctions.inherited [Key.str "ab", Key.str "ba"] 2
      "modulo" probingTraceOfAbBa (by decide) 3 insertStepOfAb hashStepOfBa (by decide)
      (by decide) 1 { key := "ab", value := "value_ab" } (by decide)⟩

/-! ## C13: inserting a key again leaves the table as it is -/

theorem noGapFrom_mono (t t' : List (Option Entry)) (m : Int) (keyStr : String)
    (h : SlotsKept t t') :
    ∀ (n : Nat) (ci : Int), NoGapFrom t m keyStr n ci → NoGapFrom t' m keyStr n ci := by
  intro n
  induction n with
  | zero =>
    rintro ci ⟨occ, hocc⟩
    exact ⟨occ, h _ _ hocc⟩
  | succ n ih =>
    rintro ci ⟨occ, hocc, hnext⟩
    exact ⟨occ, h _ _ hocc, fun hne => ih _ (hnext hne)⟩

theorem heldByOther_true (slot : Option Entry) (keyStr : String)
    (h : heldByOther slot keyStr = true) : ∃ occ, slot = some occ ∧ occ.key ≠ keyStr := by
  cases slot with
  | none => cases h
  | some occ => exact ⟨occ, rfl, by simpa [heldByOther] using h⟩

theorem getElem?_of_getD (t : List (Option Entry)) (i : Nat) (occ : Entry)
    (h : t.getD i none = some occ) : t[i]? = some (some occ) := by
  rw [List.getD_eq_getElem?_getD] at h
  cases hget : t[i]? with
  | none => rw [hget] at h; cases h
  | some x =>
    rw [hget] at h
    simp only [Option.getD_some] at h
    rw [h]

theorem jsRem_succ_eq (ci m : Int) (hm : 1 ≤ m) : jsRem (ci + 1) m = some (Int.tmod (ci + 1) m) := by
  have : m ≠ 0 := by omega
  simp [jsRem, this]

theorem tmod_succ_range (ci m : Int) (h0 : 0 ≤ ci) (hm : 1 ≤ m) :
    0 ≤ Int.tmod (ci + 1) m ∧ Int.tmod (ci + 1) m < m :=
  ⟨Int.tmod_nonneg m (by omega), Int.tmod_lt_of_pos (ci + 1) (by omega)⟩

theorem probe_noGap (tableSize : Int) (keyStr : String) (initialIndex : Option Int)
    (hm : 1 ≤ tableSize) :
    ∀ (left : Nat) (ci : Int) (pc : Nat) (st st' : ProbeState), 0 ≤ ci → ci < tableSize →
      (st.hashTable.length : Int) = tableSize → CanonicalTable st.hashTable →
      hashWithLinearProbingSteps.probe tableSize keyStr ("value_" ++ keyStr) initialIndex
        (left + 1) (some ci) pc st = some st' →
      NoGapFrom st'.hashTable tableSize keyStr left ci ∧
        SlotsKept st.hashTable st'.hashTable ∧
        st'.hashTable.length = st.hashTable.length := by
  have hfree : ∀ (left : Nat) (ci : Int) (pc : Nat) (st st' : ProbeState), 0 ≤ ci →
      ci < tableSize → (st.hashTable.length : Int) = tableSize →
      CanonicalTable st.hashTable →
      heldByOther (st.hashTable.getD ci.toNat none) keyStr = false →
      hashWithLinearProbingSteps.probe tableSize keyStr ("value_" ++ keyStr) initialIndex
        (left + 1) (some ci) pc st = some st' →
      NoGapFrom st'.hashTable tableSize keyStr left ci ∧
        SlotsKept st.hashTable st'.hashTable ∧
        st'.hashTable.length = st.hashTable.length := by
    intro left ci pc st st' h0 h1 hlen hcan hheld e
    rw [probe_free tableSize keyStr _ initialIndex (left + 1) ci pc st ⟨h0, by omega⟩ hheld] at e
    cases e
    have hlt : ci.toNat < st.hashTable.length := by omega
    have hget : (st.hashTable.set ci.toNat
        (some { key := keyStr, value := "value_" ++ keyStr }))[ci.toNat]? =
        some (some { key := keyStr, value := "value_" ++ keyStr }) :=
      List.getElem?_set_self hlt
    refine ⟨?_, slotsKept_set _ _ _ hcan hheld, by simp [probeState_emit_hashTable]⟩
    cases left with
    | zero => exact ⟨_, hget⟩
    | succ n => exact ⟨_, hget, fun hne => absurd rfl hne⟩
  intro left
  induction left with
  | zero =>
    intro ci pc st st' h0 h1 hlen hcan e
    cases hheld : heldByOther (st.hashTable.getD ci.toNat none) keyStr with
    | false => exact hfree 0 ci pc st st' h0 h1 hlen hcan hheld e
    | true =>
      rw [probe_held_last tableSize keyStr _ initialIndex 1 (Nat.le_refl 1) ci pc st
        ⟨h0, by omega⟩ hheld] at e
      cases e
      obtain ⟨occ, hocc, _⟩ := heldByOther_true _ _ hheld
      exact ⟨⟨occ, getElem?_of_getD _ _ _ hocc⟩, slotsKept_refl _, rfl⟩
  | succ n ih =>
    intro ci pc st st' h0 h1 hlen hcan e
    cases hheld : heldByOther (st.hashTable.getD ci.toNat none) keyStr with
    | false => exact hfree (n + 1) ci pc st st' h0 h1 hlen hcan hheld e
    | true =>
      rw [probe_held_step tableSize keyStr _ initialIndex n ci pc st ⟨h0, by omega⟩ hheld,
        jsRem_succ_eq ci tableSize hm] at e
      obtain ⟨hr0, hr1⟩ := tmod_succ_range ci tableSize h0 hm
      obtain ⟨hgap, hkept, hl⟩ := ih _ _ _ _ hr0 hr1
        (by simpa [probeState_emit_hashTable] using hlen)
        (by simpa [probeState_emit_hashTable] using hcan) e
      obtain ⟨occ, hocc, _⟩ := heldByOther_true _ _ hheld
      exact ⟨⟨occ, hkept _ _ (getElem?_of_getD _ _ _ hocc), fun _ => hgap⟩, hkept, hl⟩

theorem probing_insertKey_noGap (hashFunc : HashFn) (tableSize : Int) (hashFunction : String)
    (hm : 1 ≤ tableSize) (key : Key) (idx : Int)
    (hres : (hashFunc key tableSize).result = some idx) (h0 : 0 ≤ idx) (h1 : idx < tableSize)
    (st st' : ProbeState) (hlen : (st.hashTable.length : Int) = tableSize)
    (hcan : CanonicalTable st.hashTable)
    (e : hashWithLinearProbingSteps.insertKey hashFunc tableSize hashFunction st key =
      some st') :
    NoGapFrom st'.hashTable tableSize key.toString (tableSize.toNat - 1) idx ∧
      SlotsKept st.hashTable st'.hashTable := by
  unfold hashWithLinearProbingSteps.insertKey at e
  simp only [hres] at e
  have hfuel : tableSize.toNat = (tableSize.toNat - 1) + 1 := by omega
  rw [hfuel] at e
  obtain ⟨hgap, hkept, _⟩ := probe_noGap tableSize key.toString (some idx) hm _ idx 0 _ st'
    h0 h1 (by simpa [probeState_emit_hashTable] using hlen)
    (by simpa [probeState_emit_hashTable] using hcan) e
  exact ⟨hgap, hkept⟩

theorem set_same (t : List (Option Entry)) (i : Nat) (x : Option Entry)
    (h : t[i]? = some x) : t.set i x = t := by
  apply List.ext_getElem?
  intro n
  by_cases hin : i = n
  · subst hin
    obtain ⟨hlt, _⟩ := List.getElem?_eq_some.1 h
    rw [List.getElem?_set_self hlt, h]
  · rw [List.getElem?_set_ne hin]

theorem probe_settled (tableSize : Int) (keyStr : String) (initialIndex : Option Int)
    (hm : 1 ≤ tableSize) :
    ∀ (left : Nat) (ci : Int) (pc : Nat) (st : ProbeState), 0 ≤ ci → ci < tableSize →
      (st.hashTable.length : Int) = tableSize → CanonicalTable st.hashTable →
      NoGapFrom st.hashTable tableSize keyStr left ci →
      ∃ st' s, hashWithLinearProbingSteps.probe tableSize keyStr ("value_" ++ keyStr)
          initialIndex (left + 1) (some ci) pc st = some st' ∧
        st'.hashTable = st.hashTable ∧ st'.steps.getLast? = some s ∧
        ((s.type = HashKind.insertProbing ∧ ∃ c, s.inserted = some c ∧ 0 ≤ c ∧
            st.hashTable[c.toNat]? =
              some (some { key := keyStr, value := "value_" ++ keyStr })) ∨
          (s.type = HashKind.tableFull ∧ AllHeld st.hashTable tableSize keyStr left ci)) := by
  have hfree : ∀ (left : Nat) (ci : Int) (pc : Nat) (st : ProbeState) (occ : Entry),
      0 ≤ ci → ci < tableSize → (st.hashTable.length : Int) = tableSize →
      CanonicalTable st.hashTable → st.hashTable[ci.toNat]? = some (some occ) →
      heldByOther (st.hashTable.getD ci.toNat none) keyStr = false →
      ∃ st' s, hashWithLinearProbingSteps.probe tableSize keyStr ("value_" ++ keyStr)
          initialIndex (left + 1) (some ci) pc st = some st' ∧
        st'.hashTable = st.hashTable ∧ st'.steps.getLast? = some s ∧
        ((s.type = HashKind.insertProbing ∧ ∃ c, s.inserted = some c ∧ 0 ≤ c ∧
            st.hashTable[c.toNat]? =
              some (some { key := keyStr, value := "value_" ++ keyStr })) ∨
          (s.type = HashKind.tableFull ∧ AllHeld st.hashTable tableSize keyStr left ci)) := by
    intro left ci pc st occ h0 h1 hlen hcan hocc hheld
    rw [probe_free tableSize keyStr _ initialIndex (left + 1) ci pc st ⟨h0, by omega⟩ hheld]
    have hslot : st.hashTable.getD ci.toNat none = some occ := by
      rw [List.getD_eq_getElem?_getD, hocc]
      rfl
    rw [hslot] at hheld
    have hentry : occ = { key := keyStr, value := "value_" ++ keyStr } := by
      rcases not_heldByOther _ _ hheld with h | ⟨occ2, h2, h3⟩
      · cases h
      · cases h2
        have hv := hcan occ (List.mem_iff_getElem?.2 ⟨_, hocc⟩)
        cases occ with
        | mk k v =>
          simp only at h3 hv
          subst h3
          subst hv
          rfl
    subst hentry
    refine ⟨_, _, rfl, ?_, probeState_getLast?_emit _ _, Or.inl ⟨rfl, ci, rfl, h0, hocc⟩⟩
    rw [probeState_emit_hashTable]
    exact set_same _ _ _ hocc
  intro left
  induction left with
  | zero =>
    rintro ci pc st h0 h1 hlen hcan ⟨occ, hocc⟩
    cases hheld : heldByOther (st.hashTable.getD ci.toNat none) keyStr with
    | false => exact hfree 0 ci pc st occ h0 h1 hlen hcan hocc hheld
    | true =>
      rw [probe_held_last tableSize keyStr _ initialIndex 1 (Nat.le_refl 1) ci pc st
        ⟨h0, by omega⟩ hheld]
      exact ⟨_, _, rfl, rfl, probeState_getLast?_emit _ _, Or.inr ⟨rfl, hheld⟩⟩
  | succ n ih =>
    rintro ci pc st h0 h1 hlen hcan ⟨occ, hocc, hnext⟩
    cases hheld : heldByOther (st.hashTable.getD ci.toNat none) keyStr with
    | false => exact hfree (n + 1) ci pc st occ h0 h1 hlen hcan hocc hheld
    | true =>
      rw [probe_held_step tableSize keyStr _ initialIndex n ci pc st ⟨h0, by omega⟩ hheld,
        jsRem_succ_eq ci tableSize hm]
      obtain ⟨hr0, hr1⟩ := tmod_succ_range ci tableSize h0 hm
      obtain ⟨occ2, hocc2, hne⟩ := heldByOther_true _ _ hheld
      have hsame : occ = occ2 := by
        have := getElem?_of_getD _ _ _ hocc2
        rw [hocc] at this
        simpa using this
      subst hsame
      obtain ⟨st', s, e, htab, hl, hcase⟩ := ih (Int.tmod (ci + 1) tableSize) (pc + 1)
        (st.emit
          { type := .collisionProbe, hashTable := st.hashTable,
            currentHashStep := some
              { key := keyStr, hash := 0, initialIndex := initialIndex,
                currentProbe := some ci, probeCount := some (pc + 1),
                occupied := st.hashTable.getD ci.toNat none } })
        hr0 hr1 (by simpa [probeState_emit_hashTable] using hlen)
        (by simpa [probeState_emit_hashTable] using hcan)
        (by simpa [probeState_emit_hashTable] using hnext hne)
      refine ⟨st', s, e, htab, hl, ?_⟩
      rcases hcase with hins | ⟨hfull, hall⟩
      · exact Or.inl hins
      · exact Or.inr ⟨hfull, hheld, hall⟩

theorem allHeld_path (t : List (Option Entry)) (m : Int) (keyStr : String) (hm : 1 ≤ m) :
    ∀ (n : Nat) (ci : Int), 0 ≤ ci → ci < m → AllHeld t m keyStr n ci →
      ∀ q : Nat, q ≤ n → heldByOther (t.getD ((ci + (q : Int)) % m).toNat none) keyStr = true := by
  intro n
  induction n with
  | zero =>
    intro ci h0 h1 hall q hq
    have : q = 0 := by omega
    subst this
    simp only [Nat.cast_zero, Int.add_zero]
    rw [Int.emod_eq_of_lt h0 h1]
    exact hall
  | succ n ih =>
    rintro ci h0 h1 ⟨hheld, hall⟩ q hq
    cases q with
    | zero =>
      simp only [Nat.cast_zero, Int.add_zero]
      rw [Int.emod_eq_of_lt h0 h1]
      exact hheld
    | succ q =>
      obtain ⟨hr0, hr1⟩ := tmod_succ_range ci m h0 hm
      have := ih _ hr0 hr1 hall q (by omega)
      rw [Int.tmod_eq_emod (by omega) (by omega), Int.emod_add_emod] at this
      have e : ci + ((q + 1 : Nat) : Int) = ci + 1 + (q : Int) := by push_cast; ring
      rw [e]
      exact this

theorem allHeld_every_slot (t : List (Option Entry)) (m : Int) (keyStr : String) (hm : 1 ≤ m)
    (ci : Int) (h0 : 0 ≤ ci) (h1 : ci < m) (hall : AllHeld t m keyStr (m.toNat - 1) ci)
    (j : Nat) (hj : (j : Int) < m) : heldByOther (t.getD j none) keyStr = true := by
  have hm0 : m ≠ 0 := by omega
  have hq0 : 0 ≤ ((j : Int) - ci) % m := Int.emod_nonneg _ hm0
  have hq1 : ((j : Int) - ci) % m < m := Int.emod_lt_of_pos _ (by omega)
  have := allHeld_path t m keyStr hm (m.toNat - 1) ci h0 h1 hall
    ((((j : Int) - ci) % m).toNat) (by omega)
  rw [Int.toNat_of_nonneg hq0, Int.add_emod_emod] at this
  have e : ci + ((j : Int) - ci) = (j : Int) := by ring
  rw [e, Int.emod_eq_of_lt (by omega) hj] at this
  simpa using this

theorem forEachM_append {σ α : Type} (f : σ → α → Option σ) (as bs : List α) (s : σ) :
    forEachM f (as ++ bs) s = (forEachM f as s).bind (forEachM f bs) := by
  induction as generalizing s with
  | nil => rfl
  | cons a as ih =>
    simp only [List.cons_append, forEachM]
    cases f s a with
    | none => rfl
    | some s1 => exact ih s1

theorem probing_keys_settled (hashFunc : HashFn) (tableSize : Int) (hashFunction : String)
    (hsize : 1 ≤ tableSize) (hrange : IndexInRange hashFunc tableSize) (keys : List Key) :
    ∃ st, forEachM (hashWithLinearProbingSteps.insertKey hashFunc tableSize hashFunction) keys
        (({ hashTable := List.replicate tableSize.toNat none, steps := [], stepCounter := 1 } :
          ProbeState).emit { type := .init, hashTable := List.replicate tableSize.toNat none }) =
        some st ∧
      (st.hashTable.length : Int) = tableSize ∧ ProbeInv st ∧
      ∀ key ∈ keys, ∀ idx, (hashFunc key tableSize).result = some idx →
        NoGapFrom st.hashTable tableSize key.toString (tableSize.toNat - 1) idx := by
  have h := forEachM_inv
    (hashWithLinearProbingSteps.insertKey hashFunc tableSize hashFunction)
    (fun (done : List Key) (st : ProbeState) =>
      (st.hashTable.length : Int) = tableSize ∧ ProbeInv st ∧
      ∀ key ∈ done, ∀ idx, (hashFunc key tableSize).result = some idx →
        NoGapFrom st.hashTable tableSize key.toString (tableSize.toNat - 1) idx)
    (fun done a s h => by
      obtain ⟨hl, hinv, hgap⟩ := h
      obtain ⟨s', _, e, _, hl', _⟩ :=
        probing_insertKey_segment hashFunc tableSize hashFunction hsize hrange a s hl
      obtain ⟨idx, hres, h0, h1⟩ := hrange a
      obtain ⟨hnew, hkept⟩ := probing_insertKey_noGap hashFunc tableSize hashFunction hsize a
        idx hres h0 h1 s s' hl hinv.2.2 e
      refine ⟨s', e, by rw [hl']; exact hl,
        probing_insertKey_inv hashFunc tableSize hashFunction s s' a e hinv, ?_⟩
      intro key hkey idx2 hres2
      rcases List.mem_append.1 hkey with hold | hnow
      · exact noGapFrom_mono _ _ _ _ hkept _ _ (hgap key hold idx2 hres2)
      · simp only [List.mem_singleton] at hnow
        subst hnow
        rw [hres] at hres2
        cases hres2
        exact hnew)
    keys []
    (({ hashTable := List.replicate tableSize.toNat none, steps := [], stepCounter := 1 } :
      ProbeState).emit { type := .init, hashTable := List.replicate tableSize.toNat none })
    ⟨by simp [probeState_emit_hashTable]; omega,
      probeInv_emit _ _ ⟨List.chain'_nil, fun s hs => (by cases hs), fun e he => (by
        simp only [List.mem_replicate] at he
        cases he.2)⟩ rfl,
      fun k hk => (by cases hk)⟩
  simpa using h

/-- C13. For every key sequence `ks`, every table size `≥ 1`, every hash function that sends
the keys to indices of the table and looks at a key only through its string form (as
`'modulo'` and `'djb2'` do), and every key `k` whose string form is that of a key of `ks`:
`hashWithLinearProbingSteps` returns a trace for `ks` and for `ks ++ [k]`, and the
`hashTable` of the last step is the same in both.  When a slot of that table holds the key,
the step before the `complete` step of the second trace is an `insert-probing` step whose
`inserted` slot already holds the record of `k` in the final table of `ks`. -/
theorem probing_reinsert_idempotent (multiplication : HashFn) (ks : List Key) (k : Key)
    (tableSize : Int) (hashFunction : String) (hsize : 1 ≤ tableSize)
    (hrange : IndexInRange (hashFunctions.resolve multiplication hashFunction) tableSize)
    (hstr : ByStringForm (hashFunctions.resolve multiplication hashFunction) tableSize)
    (hk : ∃ k0 ∈ ks, k0.toString = k.toString) :
    ∃ steps steps2 last last2 body s,
      hashWithLinearProbingSteps multiplication ks tableSize hashFunction = some steps ∧
      hashWithLinearProbingSteps multiplication (ks ++ [k]) tableSize hashFunction =
        some steps2 ∧
      steps.getLast? = some last ∧ steps2 = body ++ [s, last2] ∧
      last.type = HashKind.complete ∧ last2.type = HashKind.complete ∧
      last2.hashTable = last.hashTable ∧
      ((∃ (slot : Nat) (e : Entry), last.hashTable[slot]? = some (some e) ∧
          e.key = k.toString) →
        s.type = HashKind.insertProbing ∧ ∃ c, s.inserted = some c ∧ 0 ≤ c ∧
          last.hashTable[c.toNat]? = some (some (entryOf k))) := by
  obtain ⟨st, e, hlen, hinv, hgap⟩ := probing_keys_settled
    (hashFunctions.resolve multiplication hashFunction) tableSize hashFunction hsize hrange ks
  obtain ⟨k0, hk0, hsame⟩ := hk
  obtain ⟨idx, hres, h0, h1⟩ := hrange k
  have hres0 : (hashFunctions.resolve multiplication hashFunction k0 tableSize).result =
      some idx := by
    rw [hstr k0 k hsame]
    exact hres
  have hg := hgap k0 hk0 idx hres0
  rw [hsame] at hg
  obtain ⟨st', s, e', htab, hlast, hcase⟩ := probe_settled tableSize k.toString (some idx)
    hsize (tableSize.toNat - 1) idx 0
    ((st.emit
      { type := .hashComputation, hashTable := st.hashTable,
        currentHashStep := some
          { key := k.toString, hash := 0, function := some hashFunction,
            computationSteps := some ["Hash result: " ++ showNum (some idx)] } }).emit
      { type := .hashResult, hashTable := st.hashTable,
        currentHashStep := some
          { key := k.toString, hash := 0, index := some idx,
            function := some hashFunction } })
    h0 h1 (by simpa [probeState_emit_hashTable] using hlen)
    (by simpa [probeState_emit_hashTable] using hinv.2.2)
    (by simpa [probeState_emit_hashTable] using hg)
  have hfuel : tableSize.toNat - 1 + 1 = tableSize.toNat := by omega
  rw [hfuel] at e'
  have hins : hashWithLinearProbingSteps.insertKey
      (hashFunctions.resolve multiplication hashFunction) tableSize hashFunction st k =
      some st' := by
    unfold hashWithLinearProbingSteps.insertKey
    simp only [hres]
    exact e'
  have hneg : ¬ tableSize < 0 := by omega
  have hrun1 : hashWithLinearProbingRun multiplication ks tableSize hashFunction =
      some (st.emit { type := .complete, hashTable := st.hashTable }) := by
    unfold hashWithLinearProbingRun
    simp only [hneg, if_false]
    rw [e]
    rfl
  have hrun2 : hashWithLinearProbingRun multiplication (ks ++ [k]) tableSize hashFunction =
      some (st'.emit { type := .complete, hashTable := st'.hashTable }) := by
    unfold hashWithLinearProbingRun
    simp only [hneg, if_false]
    rw [forEachM_append, e]
    simp only [Option.some_bind, forEachM, hins]
    rfl
  obtain ⟨body, hbody⟩ : ∃ body, st'.steps = body ++ [s] := by
    refine ⟨st'.steps.dropLast, ?_⟩
    rw [List.getLast?_eq_some_iff] at hlast
    obtain ⟨ys, hys⟩ := hlast
    rw [hys]
    simp
  refine ⟨(st.emit { type := .complete, hashTable := st.hashTable }).steps,
    (st'.emit { type := .complete, hashTable := st'.hashTable }).steps,
    { type := .complete, hashTable := st.hashTable, stepNumber := some st.stepCounter },
    { type := .complete, hashTable := st'.hashTable, stepNumber := some st'.stepCounter },
    body, s, ?_, ?_, probeState_getLast?_emit _ _, ?_, rfl, rfl, htab, ?_⟩
  · unfold hashWithLinearProbingSteps
    rw [hrun1]
    rfl
  · unfold hashWithLinearProbingSteps
    rw [hrun2]
    rfl
  · rw [probeState_emit_steps, hbody]
    simp
  · rintro ⟨slot, ent, hslot, hkey⟩
    simp only at hslot
    rcases hcase with hins | ⟨_, hall⟩
    · exact hins
    · exfalso
      have hlt : slot < st.hashTable.length := by
        rcases List.getElem?_eq_some.1 hslot with ⟨h, _⟩
        exact h
      have hheld := allHeld_every_slot _ tableSize k.toString hsize idx h0 h1
        (by simpa [probeState_emit_hashTable] using hall) slot (by omega)
      rw [List.getD_eq_getElem?_getD, hslot] at hheld
      simp [heldByOther, hkey] at hheld

theorem resolve_byStringForm (multiplication : HashFn) (hashFunction : String)
    (tableSize : Int) (hfn : hashFunction = "modulo" ∨ hashFunction = "djb2") :
    ByStringForm (hashFunctions.resolve multiplication hashFunction) tableSize := by
  intro k k' h
  rcases hfn with hf | hf
  · subst hf
    simp only [hashFunctions.resolve, if_true, hashFunctions.modulo, h]
  · subst hf
    have e : hashFunctions.resolve multiplication "djb2" = hashFunctions.djb2 := by
      simp [hashFunctions.resolve]
    rw [e]
    simp only [hashFunctions.djb2, h]

/-- C13, at the keys `"5"`, `"ab"`, table size `2`, the hash function `'modulo'` and the
number `5` inserted again. -/
theorem probing_reinsert_idempotent_witness :
    (1 : Int) ≤ 2 ∧
    IndexInRange (hashFunctions.resolve hashFunctions.inherited "modulo") 2 ∧
    ByStringForm (hashFunctions.resolve hashFunctions.inherited "modulo") 2 ∧
    (∃ k0 ∈ [Key.str "5", Key.str "ab"], k0.toString = (Key.num 5).toString) ∧
    ∃ steps steps2 last last2 body s,
      hashWithLinearProbingSteps hashFunctions.inherited [Key.str "5", Key.str "ab"] 2
        "modulo" = some steps ∧
      hashWithLinearProbingSteps hashFunctions.inherited
        ([Key.str "5", Key.str "ab"] ++ [Key.num 5]) 2 "modulo" = some steps2 ∧
      steps.getLast? = some last ∧ steps2 = body ++ [s, last2] ∧
      last.type = HashKind.complete ∧ last2.type = HashKind.complete ∧
      last2.hashTable = last.hashTable ∧
      ((∃ (slot : Nat) (e : Entry), last.hashTable[slot]? = some (some e) ∧
          e.key = (Key.num 5).toString) →
        s.type = HashKind.insertProbing ∧ ∃ c, s.inserted = some c ∧ 0 ≤ c ∧
          last.hashTable[c.toNat]? = some (some (entryOf (Key.num 5)))) :=
  ⟨by decide, resolve_inRange _ "modulo" 2 (by decide) (Or.inl rfl),
    resolve_byStringForm _ "modulo" 2 (Or.inl rfl),
    ⟨Key.str "5", by simp, by decide⟩,
    probing_reinsert_idempotent hashFunctions.inherited [Key.str "5", Key.str "ab"]
      (Key.num 5) 2 "modulo" (by decide)
      (resolve_inRange _ "modulo" 2 (by decide) (Or.inl rfl))
      (resolve_byStringForm _ "modulo" 2 (Or.inl rfl))
      ⟨Key.str "5", by simp, by decide⟩⟩

/-! ## C21: the step numbers -/

theorem numbered_concat {α : Type} (num : α → Option Nat) (steps : List α) (s : α)
    (h : Numbered num steps) (hs : num s = some (steps.length + 1)) :
    Numbered num (steps ++ [s]) := by
  intro k t hk
  by_cases hlt : k < steps.length
  · rw [List.getElem?_append_left hlt] at hk
    exact h k t hk
  · have hge : steps.length ≤ k := by omega
    rw [List.getElem?_append_right hge] at hk
    have hk0 : k - steps.length = 0 := by
      by_contra hne
      have : [s][k - steps.length]? = none := by
        apply List.getElem?_eq_none
        simp
        omega
      rw [this] at hk
      cases hk
    rw [hk0] at hk
    simp only [List.getElem?_cons_zero, Option.some.injEq] at hk
    subst hk
    have : k = steps.length := by omega
    rw [this]
    exact hs

theorem sortState_emit_counted (st : SortState) (s : SortStep)
    (h : Numbered SortStep.stepNumber st.steps ∧ st.stepCounter = st.steps.length + 1) :
    Numbered SortStep.stepNumber (st.emit s).steps ∧
      (st.emit s).stepCounter = (st.emit s).steps.length + 1 := by
  refine ⟨numbered_concat _ _ _ h.1 (by simp [h.2]), ?_⟩
  simp [SortState.emit, h.2]

theorem bubbleInner_preserves (P : SortState → Prop)
    (hemit : ∀ st s, P st → P (st.emit s))
    (hres : ∀ (st : SortState) r, P st → P { st with result := r })
    (i : Nat) (st : SortState) (j : Nat) (h : P st) : P (bubbleInner i st j) := by
  unfold bubbleInner
  simp only
  split_ifs
  · exact hemit _ _ (hres _ _ (hemit _ _ h))
  · exact hemit _ _ h

theorem bubbleOuter_preserves (P : SortState → Prop)
    (hemit : ∀ st s, P st → P (st.emit s))
    (hres : ∀ (st : SortState) r, P st → P { st with result := r })
    (st : SortState) (i : Nat) (h : P st) : P (bubbleOuter st i) := by
  unfold bubbleOuter
  exact hemit _ _ (forLoop_preserves P _ _ _ _ (hemit _ _ h)
    (fun s k hs => bubbleInner_preserves P hemit hres i s k hs))

theorem selectionInner_preserves (P : SortState → Prop)
    (hemit : ∀ st s, P st → P (st.emit s))
    (i : Nat) (sm : SortState × Nat) (j : Nat) (h : P sm.1) :
    P (selectionInner i sm j).1 := by
  unfold selectionInner
  simp only
  split_ifs
  · exact hemit _ _ (hemit _ _ h)
  · exact hemit _ _ h

theorem selectionOuter_preserves (P : SortState → Prop)
    (hemit : ∀ st s, P st → P (st.emit s))
    (hres : ∀ (st : SortState) r, P st → P { st with result := r })
    (st : SortState) (i : Nat) (h : P st) : P (selectionOuter st i) := by
  have hin := forLoop_preserves (fun sm : SortState × Nat => P sm.1)
    (selectionInner i) (i + 1) st.result.length
    (st.emit { type := .passStart, array := st.result, sorted := arrayFrom i (fun idx => idx) },
      i)
    (hemit _ _ h) (fun s k hs => selectionInner_preserves P hemit i s k hs)
  unfold selectionOuter
  simp only [sortState_emit_result]
  apply hemit
  split_ifs
  · exact hemit _ _ (hres _ _ hin)
  · exact hemit _ _ hin

theorem insertionWhile_preserves (P : SortState → Prop)
    (hemit : ∀ st s, P st → P (st.emit s))
    (hres : ∀ (st : SortState) r, P st → P { st with result := r })
    (key : Int) (i : Nat) :
    ∀ (k : Nat) (st : SortState), P st → P (insertionWhile key i k st).2 := by
  intro k
  induction k with
  | zero => intro st h; exact h
  | succ k ih =>
    intro st h
    unfold insertionWhile
    split_ifs
    · exact ih _ (hres _ _ (hemit _ _ (hemit _ _ h)))
    · exact h

theorem insertionOuter_preserves (P : SortState → Prop)
    (hemit : ∀ st s, P st → P (st.emit s))
    (hres : ∀ (st : SortState) r, P st → P { st with result := r })
    (st : SortState) (i : Nat) (h : P st) : P (insertionOuter st i) := by
  have hin := insertionWhile_preserves P hemit hres (jsGet st.result i) i i
    (st.emit { type := .select, array := st.result, sorted := arrayFrom i (fun idx => idx) })
    (hemit _ _ h)
  unfold insertionOuter
  simp only
  apply hemit
  apply hres
  split_ifs
  · exact hemit _ _ hin
  · exact hemit _ _ hin

theorem simple_sorts_preserve (P : SortState → Prop)
    (hemit : ∀ st s, P st → P (st.emit s))
    (hres : ∀ (st : SortState) r, P st → P { st with result := r })
    (arr : List Int) (h : P { result := arr, steps := [], stepCounter := 1 }) :
    P (bubbleSortRun arr) ∧ P (selectionSortRun arr) ∧ P (insertionSortRun arr) := by
  refine ⟨?_, ?_, ?_⟩
  · exact hemit _ _ (forLoop_preserves P _ _ _ _ (hemit _ _ h)
      (fun s k hs => bubbleOuter_preserves P hemit hres s k hs))
  · exact hemit _ _ (forLoop_preserves P _ _ _ _ (hemit _ _ h)
      (fun s k hs => selectionOuter_preserves P hemit hres s k hs))
  · exact hemit _ _ (forLoop_preserves P _ _ _ _ (hemit _ _ h)
      (fun s k hs => insertionOuter_preserves P hemit hres s k hs))

theorem searchState_emit_counted (st : SearchState) (s : SearchStep)
    (h : Numbered SearchStep.stepNumber st.steps ∧ st.stepCounter = st.steps.length + 1) :
    Numbered SearchStep.stepNumber (st.emit s).steps ∧
      (st.emit s).stepCounter = (st.emit s).steps.length + 1 := by
  refine ⟨numbered_concat _ _ _ h.1 (by simp [h.2]), ?_⟩
  simp [SearchState.emit, h.2]

theorem linearScan_preserves (P : SearchState → Prop)
    (hemit : ∀ st s, P st → P (st.emit s)) (array : List Int) (target : Int)
    (startIndex : Nat) :
    ∀ (n i : Nat) (st : SearchState), P st →
      P (linearSearchSteps.scan array target startIndex n i st) := by
  intro n
  induction n with
  | zero => intro i st h; exact hemit _ _ h
  | succ n ih =>
    intro i st h
    unfold linearSearchSteps.scan
    simp only
    split_ifs
    · exact hemit _ _ (hemit _ _ (hemit _ _ h))
    · exact ih _ _ (hemit _ _ (hemit _ _ h))

theorem binaryLoop_preserves (P : SearchState → Prop)
    (hemit : ∀ st s, P st → P (st.emit s)) (array : List Int) (target : Int) :
    ∀ (fuel : Nat) (left right comparisons : Int) (st st' : SearchState),
      binarySearchSteps.loop array target fuel left right comparisons st = some st' →
      P st → P st' := by
  intro fuel
  induction fuel with
  | zero =>
    intro left right c st st' e h
    unfold binarySearchSteps.loop at e
    split_ifs at e
    all_goals (cases e; exact hemit _ _ h)
  | succ fuel ih =>
    intro left right c st st' e h
    unfold binarySearchSteps.loop at e
    simp only at e
    have h3 := hemit _
      { type := .compare, array := array, target := target, searchRange := (left, right),
        mid := some ((left + right) / 2),
        value := some (jsGet array ((left + right) / 2).toNat),
        isMatch := some (decide (jsGet array ((left + right) / 2).toNat = target)) }
      (hemit _
        { type := .examineMid, array := array, target := target, searchRange := (left, right),
          mid := some ((left + right) / 2),
          value := some (jsGet array ((left + right) / 2).toNat) }
        (hemit st
          { type := .calculateMid, array := array, target := target,
            searchRange := (left, right), mid := some ((left + right) / 2) } h))
    split_ifs at e
    · cases e
      exact hemit _ _ h3
    · exact ih _ _ _ _ _ e (hemit _ _ h3)
    · exact ih _ _ _ _ _ e (hemit _ _ h3)
    · cases e
      exact hemit _ _ h

theorem chainState_emit_counted (st : ChainState) (s : ChainStep)
    (h : Numbered ChainStep.stepNumber st.steps ∧ st.stepCounter = st.steps.length + 1) :
    Numbered ChainStep.stepNumber (st.emit s).steps ∧
      (st.emit s).stepCounter = (st.emit s).steps.length + 1 := by
  refine ⟨numbered_concat _ _ _ h.1 (by simp [h.2]), ?_⟩
  simp [ChainState.emit, h.2]

theorem chaining_insertKey_preserves (P : ChainState → Prop)
    (hemit : ∀ st s, P st → P (st.emit s))
    (htab : ∀ (st : ChainState) t, P st → P { st with hashTable := t })
    (hashFunc : HashFn) (tableSize : Int)
    (hashFunction : String) (st st' : ChainState) (key : Key)
    (e : hashWithChainingSteps.insertKey hashFunc tableSize hashFunction st key = some st')
    (h : P st) : P st' := by
  unfold hashWithChainingSteps.insertKey at e
  simp only at e
  split at e
  · cases e
  · split_ifs at e
    · cases e
      exact hemit _ _ (htab _ _ (hemit _ _ (hemit _ _ (hemit _ _ h))))
    · cases e
      exact hemit _ _ (htab _ _ (hemit _ _ (hemit _ _ h)))

theorem probeState_emit_counted (st : ProbeState) (s : ProbeStep)
    (h : Numbered ProbeStep.stepNumber st.steps ∧ st.stepCounter = st.steps.length + 1) :
    Numbered ProbeStep.stepNumber (st.emit s).steps ∧
      (st.emit s).stepCounter = (st.emit s).steps.length + 1 := by
  refine ⟨numbered_concat _ _ _ h.1 (by simp [h.2]), ?_⟩
  simp [ProbeState.emit, h.2]

theorem probe_preserves (P : ProbeState → Prop)
    (hemit : ∀ st s, P st → P (st.emit s))
    (htab : ∀ (st : ProbeState) t, P st → P { st with hashTable := t })
    (tableSize : Int) (keyStr value : String) (initialIndex : Option Int) :
    ∀ (left : Nat) (currentIndex : Option Int) (pc : Nat) (st st' : ProbeState),
      hashWithLinearProbingSteps.probe tableSize keyStr value initialIndex left
        currentIndex pc st = some st' →
      P st → P st' := by
  have hfin : ∀ (left : Nat) (ci : Int) (pc : Nat) (st st' : ProbeState),
      (0 ≤ ci ∧ ci < (st.hashTable.length : Int)) →
      heldByOther (st.hashTable.getD ci.toNat none) keyStr = false →
      hashWithLinearProbingSteps.probe tableSize keyStr value initialIndex left
        (some ci) pc st = some st' →
      P st → P st' := by
    intro left ci pc st st' hr hheld e h
    rw [probe_free tableSize keyStr _ initialIndex left ci pc st hr hheld] at e
    cases e
    exact hemit _ _ (htab _ _ h)
  have hlast : ∀ (left : Nat) (ci : Int) (pc : Nat) (st st' : ProbeState), left ≤ 1 →
      (0 ≤ ci ∧ ci < (st.hashTable.length : Int)) →
      heldByOther (st.hashTable.getD ci.toNat none) keyStr = true →
      hashWithLinearProbingSteps.probe tableSize keyStr value initialIndex left
        (some ci) pc st = some st' →
      P st → P st' := by
    intro left ci pc st st' hl hr hheld e h
    rw [probe_held_last tableSize keyStr _ initialIndex left hl ci pc st hr hheld] at e
    cases e
    exact hemit _ _ (hemit _ _ h)
  intro left
  induction left with
  | zero =>
    intro currentIndex pc st st' e h
    cases currentIndex with
    | none => rw [probe_none] at e; cases e
    | some ci =>
      by_cases hr : 0 ≤ ci ∧ ci < (st.hashTable.length : Int)
      · cases hheld : heldByOther (st.hashTable.getD ci.toNat none) keyStr with
        | true => exact hlast 0 ci pc st st' (by omega) hr hheld e h
        | false => exact hfin 0 ci pc st st' hr hheld e h
      · rw [probe_outside _ _ _ _ _ _ _ _ hr] at e; cases e
  | succ n ih =>
    intro currentIndex pc st st' e h
    cases currentIndex with
    | none => rw [probe_none] at e; cases e
    | some ci =>
      by_cases hr : 0 ≤ ci ∧ ci < (st.hashTable.length : Int)
      · cases hheld : heldByOther (st.hashTable.getD ci.toNat none) keyStr with
        | true =>
          cases n with
          | zero => exact hlast 1 ci pc st st' (by omega) hr hheld e h
          | succ k =>
            rw [probe_held_step tableSize keyStr _ initialIndex k ci pc st hr hheld] at e
            exact ih _ _ _ _ e (hemit _ _ h)
        | false => exact hfin (n + 1) ci pc st st' hr hheld e h
      · rw [probe_outside _ _ _ _ _ _ _ _ hr] at e; cases e

theorem probing_insertKey_preserves (P : ProbeState → Prop)
    (hemit : ∀ st s, P st → P (st.emit s))
    (htab : ∀ (st : ProbeState) t, P st → P { st with hashTable := t })
    (hashFunc : HashFn) (tableSize : Int) (hashFunction : String)
    (st st' : ProbeState) (key : Key)
    (e : hashWithLinearProbingSteps.insertKey hashFunc tableSize hashFunction st key = some st')
    (h : P st) : P st' := by
  unfold hashWithLinearProbingSteps.insertKey at e
  exact probe_preserves P hemit htab tableSize key.toString _ _ _ _ _ _ _ e
    (hemit _ _ (hemit _ _ h))

/-- C21. In the traces of `bubbleSortSteps`, `selectionSortSteps`, `insertionSortSteps`,
`linearSearchSteps`, `binarySearchSteps` (which returns for every input) and in every trace
that `hashWithChainingSteps` or `hashWithLinearProbingSteps` returns, the step at position
`k` counted from `1` has `stepNumber = k`; the `found` and `table-full` paths are paths of
these functions. -/
theorem step_numbers_contiguous (multiplication : HashFn) (arr : List Int) (target : Int)
    (startIndex : Nat) (keys : List Key) (tableSize : Int) (hashFunction : String) :
    Numbered SortStep.stepNumber (bubbleSortSteps arr) ∧
    Numbered SortStep.stepNumber (selectionSortSteps arr) ∧
    Numbered SortStep.stepNumber (insertionSortSteps arr) ∧
    Numbered SearchStep.stepNumber (linearSearchSteps arr target startIndex) ∧
    (∃ steps, binarySearchSteps arr target = some steps ∧
      Numbered SearchStep.stepNumber steps) ∧
    (∀ steps, hashWithChainingSteps multiplication keys tableSize hashFunction = some steps →
      Numbered ChainStep.stepNumber steps) ∧
    (∀ steps,
      hashWithLinearProbingSteps multiplication keys tableSize hashFunction = some steps →
      Numbered ProbeStep.stepNumber steps) := by
  have h0 : ∀ {α : Type} (num : α → Option Nat), Numbered num ([] : List α) := by
    intro α num k s hk
    cases hk
  obtain ⟨hb, hs, hi⟩ := simple_sorts_preserve
    (fun st => Numbered SortStep.stepNumber st.steps ∧ st.stepCounter = st.steps.length + 1)
    sortState_emit_counted (fun st r h => h) arr ⟨h0 _, rfl⟩
  refine ⟨hb.1, hs.1, hi.1, ?_, ?_, ?_, ?_⟩
  · exact (linearScan_preserves
      (fun st => Numbered SearchStep.stepNumber st.steps ∧
        st.stepCounter = st.steps.length + 1)
      searchState_emit_counted arr target startIndex _ _ _
      (searchState_emit_counted _ _ ⟨h0 _, rfl⟩)).1
  · obtain ⟨steps, e, _⟩ := (searches_bookends arr target startIndex).2
    refine ⟨steps, e, ?_⟩
    unfold binarySearchSteps at e
    simp only [Option.map_eq_some'] at e
    obtain ⟨st', e', rfl⟩ := e
    exact (binaryLoop_preserves
      (fun st => Numbered SearchStep.stepNumber st.steps ∧
        st.stepCounter = st.steps.length + 1)
      searchState_emit_counted arr target _ _ _ _ _ _ e'
      (searchState_emit_counted _ _ ⟨h0 _, rfl⟩)).1
  · intro steps e
    unfold hashWithChainingSteps at e
    split_ifs at e
    simp only [Option.map_eq_some'] at e
    obtain ⟨st2, e2, rfl⟩ := e
    exact (chainState_emit_counted _ _ (forEachM_preserves _
      (fun st => Numbered ChainStep.stepNumber st.steps ∧
        st.stepCounter = st.steps.length + 1)
      (fun s a s' e h => chaining_insertKey_preserves _ chainState_emit_counted
        (fun st t h => h) _ tableSize hashFunction s s' a e h) keys _ _ e2
      (chainState_emit_counted _ _ ⟨h0 _, rfl⟩))).1
  · intro steps e
    unfold hashWithLinearProbingSteps hashWithLinearProbingRun at e
    split_ifs at e
    · simp at e
    · dsimp only at e
      simp only [Option.map_eq_some'] at e
      obtain ⟨st3, h1, rfl⟩ := e
      obtain ⟨st2, e2, rfl⟩ := h1
      exact (probeState_emit_counted _ _ (forEachM_preserves _
        (fun st => Numbered ProbeStep.stepNumber st.steps ∧
          st.stepCounter = st.steps.length + 1)
        (fun s a s' e h => probing_insertKey_preserves _ probeState_emit_counted
          (fun st t h => h) _ tableSize hashFunction s s' a e h) keys _ _ e2
        (probeState_emit_counted _ _ ⟨h0 _, rfl⟩))).1

/-! ## C23: the buckets of the chaining trace only grow -/

theorem bucketsGrow_refl (t : List (List Entry)) : BucketsGrow t t :=
  fun _ bucket h => ⟨[], by simpa using h⟩

theorem bucketsGrow_set (t : List (List Entry)) (i : Nat) (e : Entry) :
    BucketsGrow t (t.set i (t.getD i [] ++ [e])) := by
  intro b bucket hb
  by_cases hib : i = b
  · subst hib
    have hlt : i < t.length := by
      rcases List.getElem?_eq_some.1 hb with ⟨h, _⟩
      exact h
    refine ⟨[e], ?_⟩
    rw [List.getElem?_set_self hlt, List.getD_eq_getElem?_getD, hb]
    rfl
  · refine ⟨[], ?_⟩
    rw [List.getElem?_set_ne hib, hb]
    simp

theorem chainState_getLast?_emit (st : ChainState) (s : ChainStep) :
    (st.emit s).steps.getLast? = some { s with stepNumber := some st.stepCounter } := by
  simp [ChainState.emit]

theorem chainState_emit_steps (st : ChainState) (s : ChainStep) :
    (st.emit s).steps = st.steps ++ [{ s with stepNumber := some st.stepCounter }] := rfl

theorem chainTraceInv_emit (st : ChainState) (t : List (List Entry)) (s : ChainStep)
    (h : ChainTraceInv st) (hgrow : BucketsGrow st.hashTable t) (hs : s.hashTable = t) :
    ChainTraceInv (({ st with hashTable := t }).emit s) := by
  obtain ⟨hch, hlast⟩ := h
  refine ⟨?_, ?_⟩
  · rw [chainState_emit_steps, List.chain'_append]
    refine ⟨hch, List.chain'_singleton _, ?_⟩
    intro x hx y hy
    simp only [List.head?_cons, Option.mem_def, Option.some.injEq] at hy
    subst hy
    rw [hlast x hx]
    show BucketsGrow st.hashTable s.hashTable
    rw [hs]
    exact hgrow
  · intro s' hs'
    rw [chainState_getLast?_emit] at hs'
    cases hs'
    exact hs

theorem chaining_insertKey_traceInv (hashFunc : HashFn) (tableSize : Int)
    (hashFunction : String) (st st' : ChainState) (key : Key)
    (e : hashWithChainingSteps.insertKey hashFunc tableSize hashFunction st key = some st')
    (h : ChainTraceInv st) : ChainTraceInv st' := by
  unfold hashWithChainingSteps.insertKey at e
  simp only at e
  have h1 := chainTraceInv_emit st st.hashTable
    { type := .hashComputation, hashTable := st.hashTable,
      currentHashStep := some
        { key := key.toString, hash := 0, function := some hashFunction,
          computationSteps := some
            ["Hash result: " ++ showNum (hashFunc key tableSize).result] } }
    h (bucketsGrow_refl _) rfl
  have h2 := chainTraceInv_emit _ st.hashTable
    { type := .hashResult, hashTable := st.hashTable,
      currentHashStep := some
        { key := key.toString, hash := 0, index := (hashFunc key tableSize).result,
          function := some hashFunction } }
    h1 (bucketsGrow_refl _) rfl
  split at e
  · cases e
  · rename_i idx hidx
    split_ifs at e
    · cases e
      have h3 := chainTraceInv_emit _ st.hashTable
        { type := .collisionDetected, hashTable := st.hashTable,
          currentHashStep := some
            { key := key.toString, hash := 0, index := (hashFunc key tableSize).result,
              collision := some true } }
        h2 (bucketsGrow_refl _) rfl
      exact chainTraceInv_emit _ _ _ h3 (bucketsGrow_set _ _ _) rfl
    · cases e
      exact chainTraceInv_emit _ _ _ h2 (bucketsGrow_set _ _ _) rfl

theorem chaining_run_traceInv (multiplication : HashFn) (keys : List Key) (tableSize : Int)
    (hashFunction : String) (steps : List ChainStep)
    (e : hashWithChainingSteps multiplication keys tableSize hashFunction = some steps) :
    List.Chain' (fun s s' => BucketsGrow s.hashTable s'.hashTable) steps := by
  unfold hashWithChainingSteps at e
  split_ifs at e
  simp only [Option.map_eq_some'] at e
  obtain ⟨st2, e2, rfl⟩ := e
  refine (chainTraceInv_emit st2 st2.hashTable _ ?_ (bucketsGrow_refl _) rfl).1
  refine forEachM_preserves _ ChainTraceInv
    (fun s a s' e h => chaining_insertKey_traceInv _ tableSize hashFunction s s' a e h)
    keys _ _ e2 ?_
  exact chainTraceInv_emit
    ({ hashTable := List.replicate tableSize.toNat [], steps := [], stepCounter := 1 } :
      ChainState) _ _ ⟨List.chain'_nil, fun s hs => (by cases hs)⟩
    (bucketsGrow_refl _) rfl

/-- C23. For every key sequence, every table size `≥ 1` and the hash function `'modulo'` or
`'djb2'`, `hashWithChainingSteps` returns a trace, and for every pair of consecutive steps
`s`, `s'` of it and every bucket index `b`, the bucket `b` of the `hashTable` of `s'` is the
bucket `b` of the `hashTable` of `s` followed by zero or more entries. -/
theorem chaining_buckets_only_grow (multiplication : HashFn) (keys : List Key)
    (tableSize : Int) (hashFunction : String) (hsize : 1 ≤ tableSize)
    (hfn : hashFunction = "modulo" ∨ hashFunction = "djb2") :
    ∃ steps, hashWithChainingSteps multiplication keys tableSize hashFunction = some steps ∧
      ∀ (i : Nat) (s s' : ChainStep), steps[i]? = some s → steps[i + 1]? = some s' →
        ∀ (b : Nat) (bucket : List Entry), s.hashTable[b]? = some bucket →
          ∃ ext, s'.hashTable[b]? = some (bucket ++ ext) := by
  obtain ⟨steps, _, _, e, _⟩ := chaining_bookends multiplication keys tableSize hashFunction
    hsize (resolve_inRange multiplication hashFunction tableSize hsize hfn)
  refine ⟨steps, e, ?_⟩
  intro i s s' hs hs' b bucket hb
  have hch := chaining_run_traceInv multiplication keys tableSize hashFunction steps e
  obtain ⟨h1, rfl⟩ := List.getElem?_eq_some.1 hs
  obtain ⟨h2, rfl⟩ := List.getElem?_eq_some.1 hs'
  exact List.chain'_iff_get.1 hch i (by omega) b bucket hb

/-- C23, at the keys `"ab"`, `"ba"`, table size `5` and the hash function `'modulo'`. -/
theorem chaining_buckets_only_grow_witness :
    (1 : Int) ≤ 5 ∧ ("modulo" = "modulo" ∨ "modulo" = "djb2") ∧
    ∃ steps, hashWithChainingSteps hashFunctions.inherited [Key.str "ab", Key.str "ba"] 5
        "modulo" = some steps ∧
      ∀ (i : Nat) (s s' : ChainStep), steps[i]? = some s → steps[i + 1]? = some s' →
        ∀ (b : Nat) (bucket : List Entry), s.hashTable[b]? = some bucket →
          ∃ ext, s'.hashTable[b]? = some (bucket ++ ext) :=
  ⟨by decide, Or.inl rfl,
    chaining_buckets_only_grow hashFunctions.inherited [Key.str "ab", Key.str "ba"] 5
      "modulo" (by decide) (Or.inl rfl)⟩

/-! ## C24: anagrams collide under `modulo` -/

theorem foldl_add_perm (l l' : List Nat) (h : l.Perm l') :
    l.foldl (fun acc code => acc + code) 0 = l'.foldl (fun acc code => acc + code) 0 := by
  have e : ∀ (l : List Nat), l.foldl (fun acc code => acc + code) 0 = l.sum := by
    intro l
    rw [List.sum_eq_foldl]
  rw [e, e]
  exact h.sum_eq

theorem modulo_perm (k1 k2 : Key) (tableSize : Int)
    (hperm : (charCodes k1.toString).Perm (charCodes k2.toString)) :
    (hashFunctions.modulo k1 tableSize).result = (hashFunctions.modulo k2 tableSize).result := by
  simp only [hashFunctions.modulo]
  rw [foldl_add_perm _ _ hperm]

theorem chaining_insertKey_segment (hashFunc : HashFn) (tableSize : Int)
    (hashFunction : String) (st : ChainState) (key : Key) (idx : Int)
    (hres : (hashFunc key tableSize).result = some idx) (h0 : 0 ≤ idx)
    (h1 : idx < (st.hashTable.length : Int)) :
    ∃ st' seg, hashWithChainingSteps.insertKey hashFunc tableSize hashFunction st key =
        some st' ∧
      st'.steps = st.steps ++ seg ∧
      st'.hashTable =
        st.hashTable.set idx.toNat (st.hashTable.getD idx.toNat [] ++ [entryOf key]) ∧
      (st.hashTable.getD idx.toNat [] = [] →
        seg.map (fun s => (s.type, s.currentHashStep.map HashInfo.key)) =
          [(HashKind.hashComputation, some key.toString),
            (HashKind.hashResult, some key.toString),
            (HashKind.insertChaining, some key.toString)]) ∧
      (st.hashTable.getD idx.toNat [] ≠ [] →
        seg.map (fun s => (s.type, s.currentHashStep.map HashInfo.key)) =
          [(HashKind.hashComputation, some key.toString),
            (HashKind.hashResult, some key.toString),
            (HashKind.collisionDetected, some key.toString),
            (HashKind.insertChaining, some key.toString)]) := by
  unfold hashWithChainingSteps.insertKey
  simp only [hres, chainState_emit_hashTable, h0, h1, and_self, if_true]
  by_cases hb : st.hashTable.getD idx.toNat [] = []
  · have hlen : ¬ (st.hashTable.getD idx.toNat []).length > 0 := by
      rw [hb]
      simp
    simp only [hlen, decide_False, Bool.false_eq_true, if_false]
    refine ⟨_, _, rfl, (List.append_assoc _ _ _).trans (List.append_assoc _ _ _), rfl,
      fun _ => rfl, fun hne => absurd hb hne⟩
  · have hlen : (st.hashTable.getD idx.toNat []).length > 0 :=
      List.length_pos.2 hb
    simp only [hlen, decide_True, if_true]
    refine ⟨_, _, rfl,
      (List.append_assoc _ _ _).trans
        ((List.append_assoc _ _ _).trans (List.append_assoc _ _ _)), rfl,
      fun he => absurd he hb, fun _ => rfl⟩

/-- C24. For keys whose string forms have the same multiset of characters (code units) and
every table size `≥ 1`: `hashFunctions.modulo` gives both the same index; the trace of
`hashWithChainingSteps([k1, k2], tableSize, 'modulo')` is `initialize`, the three steps of
`k1`, then for `k2` the steps `hash-computation`, `hash-result`, `collision-detected`,
`insert-chaining`, then `complete`, so it has exactly one `collision-detected` step; and in
general the steps that the callback pushes for a key contain a `collision-detected` step
exactly when the bucket at the key's index is non-empty before the insert. -/
theorem anagrams_collide (multiplication : HashFn) (k1 k2 : Key) (tableSize : Int)
    (hsize : 1 ≤ tableSize)
    (hperm : (charCodes k1.toString).Perm (charCodes k2.toString)) :
    (hashFunctions.modulo k1 tableSize).result = (hashFunctions.modulo k2 tableSize).result ∧
    (∃ steps, hashWithChainingSteps multiplication [k1, k2] tableSize "modulo" = some steps ∧
      steps.map (fun s => (s.type, s.currentHashStep.map HashInfo.key)) =
        [(HashKind.init, none),
          (HashKind.hashComputation, some k1.toString),
          (HashKind.hashResult, some k1.toString),
          (HashKind.insertChaining, some k1.toString),
          (HashKind.hashComputation, some k2.toString),
          (HashKind.hashResult, some k2.toString),
          (HashKind.collisionDetected, some k2.toString),
          (HashKind.insertChaining, some k2.toString),
          (HashKind.complete, none)]) ∧
    (∀ (hashFunc : HashFn) (hashFunction : String) (st : ChainState) (key : Key) (idx : Int),
      (hashFunc key tableSize).result = some idx → 0 ≤ idx →
      idx < (st.hashTable.length : Int) →
      ∃ st' seg, hashWithChainingSteps.insertKey hashFunc tableSize hashFunction st key =
          some st' ∧
        st'.steps = st.steps ++ seg ∧
        (HashKind.collisionDetected ∈ seg.map ChainStep.type ↔
          st.hashTable.getD idx.toNat [] ≠ [])) := by
  have hsame := modulo_perm k1 k2 tableSize hperm
  refine ⟨hsame, ?_, ?_⟩
  · obtain ⟨idx, hres1, h0, h1⟩ := modulo_inRange tableSize hsize k1
    have hres2 : (hashFunctions.modulo k2 tableSize).result = some idx := by
      rw [← hsame]
      exact hres1
    have hlt : idx.toNat < tableSize.toNat := by omega
    obtain ⟨sta, seg1, ea, hsa, hta, hfree, _⟩ := chaining_insertKey_segment
      hashFunctions.modulo tableSize "modulo"
      (({ hashTable := List.replicate tableSize.toNat [], steps := [], stepCounter := 1 } :
        ChainState).emit { type := .init, hashTable := List.replicate tableSize.toNat [] })
      k1 idx hres1 h0 (by simp [chainState_emit_hashTable]; omega)
    have hseg1 := hfree (by simp [chainState_emit_hashTable])
    obtain ⟨stb, seg2, eb, hsb, _, _, hheld⟩ := chaining_insertKey_segment
      hashFunctions.modulo tableSize "modulo" sta k2 idx hres2 h0
      (by rw [hta]; simp [chainState_emit_hashTable]; omega)
    have hseg2 := hheld (by
      rw [hta]
      simp [chainState_emit_hashTable, hlt])
    refine ⟨(stb.emit { type := .complete, hashTable := stb.hashTable }).steps, ?_, ?_⟩
    · unfold hashWithChainingSteps
      have hneg : ¬ tableSize < 0 := by omega
      have hres : hashFunctions.resolve multiplication "modulo" = hashFunctions.modulo := by
        simp [hashFunctions.resolve]
      simp only [hneg, if_false, hres, forEachM, ea, eb, Option.some_bind]
      rfl
    · rw [chainState_emit_steps, hsb, hsa, chainState_emit_steps]
      simp only [List.nil_append, List.map_append, hseg1, hseg2]
      rfl
  · intro hashFunc hashFunction st key idx hres h0 h1
    obtain ⟨st', seg, e, hs, _, hfree, hheld⟩ := chaining_insertKey_segment hashFunc tableSize
      hashFunction st key idx hres h0 h1
    refine ⟨st', seg, e, hs, ?_⟩
    have hty : seg.map ChainStep.type =
        (seg.map (fun s => (s.type, s.currentHashStep.map HashInfo.key))).map Prod.fst := by
      rw [List.map_map]
      rfl
    rw [hty]
    by_cases hb : st.hashTable.getD idx.toNat [] = []
    · rw [hfree hb]
      constructor
      · intro hmem
        simp at hmem
      · intro hne
        exact absurd hb hne
    · rw [hheld hb]
      exact ⟨fun _ => hb, fun _ => by simp⟩

/-- C24, at the keys `"ab"`, `"ba"` and table size `5`. -/
theorem anagrams_collide_witness :
    (1 : Int) ≤ 5 ∧
    (charCodes (Key.str "ab").toString).Perm (charCodes (Key.str "ba").toString) ∧
    (hashFunctions.modulo (Key.str "ab") 5).result =
      (hashFunctions.modulo (Key.str "ba") 5).result ∧
    (∃ steps, hashWithChainingSteps hashFunctions.inherited [Key.str "ab", Key.str "ba"] 5
        "modulo" = some steps ∧
      steps.map (fun s => (s.type, s.currentHashStep.map HashInfo.key)) =
        [(HashKind.init, none),
          (HashKind.hashComputation, some (Key.str "ab").toString),
          (HashKind.hashResult, some (Key.str "ab").toString),
          (HashKind.insertChaining, some (Key.str "ab").toString),
          (HashKind.hashComputation, some (Key.str "ba").toString),
          (HashKind.hashResult, some (Key.str "ba").toString),
          (HashKind.collisionDetected, some (Key.str "ba").toString),
          (HashKind.insertChaining, some (Key.str "ba").toString),
          (HashKind.complete, none)]) ∧
    (∀ (hashFunc : HashFn) (hashFunction : String) (st : ChainState) (key : Key) (idx : Int),
      (hashFunc key 5).result = some idx → 0 ≤ idx →
      idx < (st.hashTable.length : Int) →
      ∃ st' seg, hashWithChainingSteps.insertKey hashFunc 5 hashFunction st key =
          some st' ∧
        st'.steps = st.steps ++ seg ∧
        (HashKind.collisionDetected ∈ seg.map ChainStep.type ↔
          st.hashTable.getD idx.toNat [] ≠ [])) :=
  ⟨by decide, by decide,
    anagrams_collide hashFunctions.inherited (Key.str "ab") (Key.str "ba") 5 (by decide)
      (by decide)⟩

/-! ## C25: the `computationSteps` of the `hash-computation` step -/

set_option maxRecDepth 100000 in
/-- C25 fails on the code at the key `"ab"`, table size `5` and the function `'modulo'`: the
`hash-computation` step of both generators carries the one line `Hash result: 0`, while
`hashFunctions.modulo("ab", 5).steps` has four lines. -/
theorem computationSteps_is_one_line :
    (hashWithChainingSteps hashFunctions.inherited [Key.str "ab"] 5 "modulo").map
        (fun steps => steps.map
          (fun s => (s.type, s.currentHashStep.bind HashInfo.computationSteps))) =
      some [(HashKind.init, none), (HashKind.hashComputation, some ["Hash result: 0"]),
        (HashKind.hashResult, none), (HashKind.insertChaining, none),
        (HashKind.complete, none)] ∧
    (hashWithLinearProbingSteps hashFunctions.inherited [Key.str "ab"] 5 "modulo").map
        (fun steps => steps.map
          (fun s => (s.type, s.currentHashStep.bind HashInfo.computationSteps))) =
      some [(HashKind.init, none), (HashKind.hashComputation, some ["Hash result: 0"]),
        (HashKind.hashResult, none), (HashKind.insertProbing, none),
        (HashKind.complete, none)] ∧
    (hashFunctions.modulo (Key.str "ab") 5).steps =
      ["Key: \"ab\"", "Character codes: [97, 98]", "Sum: 97 + 98 = 195",
        "Hash: 195 mod 5 = 0"] := by
  decide

/-! ## C26: hash-function names that are not `modulo`, `multiplication`, `djb2` -/

/-- C26 fails on the code at the name `'toString'`, which `hashFunctions` inherits from
`Object.prototype`: the value found under the name is used instead of
`hashFunctions.modulo`, and both generators fail at the first key, while with `'modulo'`
they return a trace. -/
theorem inherited_name_is_not_modulo (multiplication : HashFn) :
    hashWithChainingSteps multiplication [Key.str "ab"] 5 "toString" = none ∧
    hashWithLinearProbingSteps multiplication [Key.str "ab"] 5 "toString" = none ∧
    (hashWithChainingSteps multiplication [Key.str "ab"] 5 "modulo").isSome = true ∧
    (hashWithLinearProbingSteps multiplication [Key.str "ab"] 5 "modulo").isSome = true := by
  have h1 : hashFunctions.resolve multiplication "toString" = hashFunctions.inherited := by
    simp [hashFunctions.resolve, objectPrototypeNames]
  have h2 : hashFunctions.resolve multiplication "modulo" = hashFunctions.modulo := by
    simp [hashFunctions.resolve]
  refine ⟨?_, ?_, ?_, ?_⟩
  · unfold hashWithChainingSteps
    rw [h1]
    decide
  · unfold hashWithLinearProbingSteps hashWithLinearProbingRun
    rw [h1]
    decide
  · unfold hashWithChainingSteps
    rw [h2]
    decide
  · unfold hashWithLinearProbingSteps hashWithLinearProbingRun
    rw [h2]
    decide

/-- A name that is none of the three functions and is not inherited from `Object.prototype`
resolves to `hashFunctions.modulo`. -/
theorem resolve_unknown_name (multiplication : HashFn) (hashFunction : String)
    (h1 : hashFunction ≠ "modulo") (h2 : hashFunction ≠ "multiplication")
    (h3 : hashFunction ≠ "djb2") (h4 : hashFunction ∉ objectPrototypeNames) :
    hashFunctions.resolve multiplication hashFunction = hashFunctions.modulo := by
  simp [hashFunctions.resolve, h1, h2, h3, h4]

/-! ## C29: visiting a step again -/

/-- C29 fails on the code at the trace of `factorialSteps(0)`, from the initial state: the
first visit of step `0` leaves `finalResult` at `null`; after a visit of step `2`, the
`complete` step, the second visit of step `0` shows `finalResult = 1`. -/
theorem revisit_keeps_finalResult :
    ((executeStep ((factorialSteps 0).map RecStep.toJs) 0 initialState).map
      AnimState.finalResult) = some JsVal.null ∧
    ((((executeStep ((factorialSteps 0).map RecStep.toJs) 0 initialState).bind
        (executeStep ((factorialSteps 0).map RecStep.toJs) 2)).bind
        (executeStep ((factorialSteps 0).map RecStep.toJs) 0)).map
      AnimState.finalResult) = some (JsVal.num 1) := by
  constructor <;> rfl

theorem jsOr_truthy (a b : JsVal) (h : a.truthy = true) : jsOr a b = a := by
  simp [jsOr, h]

theorem jsOr_undefined (b : JsVal) : jsOr .undefined b = b := rfl

theorem jsOr_idem (a b : JsVal) : jsOr a (jsOr a b) = jsOr a b := by
  unfold jsOr
  split_ifs <;> rfl

theorem animationReducer_setCurrentStep (state : AnimState) (step a : JsVal)
    (ht : a.truthy = true) :
    animationReducer state (.setCurrentStep step a) =
      some { state with
        currentStep := step
        currentStepData := a
        comparing := jsOr (a.get "comparing") (.arr [])
        swapping := jsOr (a.get "swapping") (.arr [])
        sorted := jsOr (a.get "sorted") (.arr [])
        searching := jsOr (a.get "searching") (.num (-1))
        found := jsOr (a.get "found") (.num (-1))
        highlight := jsOr (a.get "highlight") (.str "")
        hashTable := jsOr (a.get "hashTable") state.hashTable
        currentHashStep := jsOr (a.get "currentHashStep") .null
        callStack := jsOr (a.get "callStack") (.arr [])
        towers := jsOr (a.get "towers") state.towers
        moveCount := jsOr (a.get "moveCount") state.moveCount
        finalResult := jsOr (a.get "finalResult") state.finalResult
        fibTree := jsOr (a.get "fibTree") state.fibTree } := by
  cases a with
  | undefined => cases ht
  | null => cases ht
  | num n => rfl
  | infinity => rfl
  | nan => cases ht
  | str s => rfl
  | bool b => rfl
  | arr l => rfl
  | obj f => rfl

theorem executeStep_visit (steps : List JsVal) (i : Nat) (a : JsVal) (state : AnimState)
    (ha : steps[i]? = some a) (ht : a.truthy = true) :
    executeStep steps (i : Int) state =
      animationReducer state (.setCurrentStep (.num (i : Int)) a) := by
  have hlt : i < steps.length := by
    rcases List.getElem?_eq_some.1 ha with ⟨h, _⟩
    exact h
  unfold executeStep
  have hr : ¬ ((i : Int) < 0 ∨ (i : Int) ≥ (steps.length : Int)) := by omega
  simp only [hr, if_false, Int.toNat_ofNat, ha, ht, if_true]

theorem executeStep_skip (steps : List JsVal) (j : Nat) (b : JsVal) (state : AnimState)
    (hb : steps[j]? = some b) (ht : b.truthy = false) :
    executeStep steps (j : Int) state = some state := by
  unfold executeStep
  split_ifs
  · rfl
  · simp only [Int.toNat_ofNat, hb, ht]
    rfl

/-- C29, amended. For every list of steps, every state and indices `i`, `j` whose steps are
`a` (a truthy value, as every step object is) and `b`: `executeStep` at `i`, then at `j`,
then at `i` again returns states `s1`, `s2`, `s3`.  In `s1` the fields `currentStep`,
`currentStepData`, `comparing`, `swapping`, `sorted`, `searching`, `found`, `highlight`,
`currentHashStep` and `callStack` are computed from the index and the step alone, so `s3`
has the same values.  Each of `hashTable`, `towers`, `moveCount`, `finalResult`, `fibTree`
has the same value in `s3` as in `s1` when `a` carries a truthy value for it or `b` does not
carry it. -/
theorem revisit_reproduces (steps : List JsVal) (i j : Nat) (a b : JsVal) (state : AnimState)
    (ha : steps[i]? = some a) (hb : steps[j]? = some b) (hta : a.truthy = true) :
    ∃ s1 s2 s3, executeStep steps (i : Int) state = some s1 ∧
      executeStep steps (j : Int) s1 = some s2 ∧ executeStep steps (i : Int) s2 = some s3 ∧
      (s1.currentStep = .num (i : Int) ∧ s1.currentStepData = a ∧
        s1.comparing = jsOr (a.get "comparing") (.arr []) ∧
        s1.swapping = jsOr (a.get "swapping") (.arr []) ∧
        s1.sorted = jsOr (a.get "sorted") (.arr []) ∧
        s1.searching = jsOr (a.get "searching") (.num (-1)) ∧
        s1.found = jsOr (a.get "found") (.num (-1)) ∧
        s1.highlight = jsOr (a.get "highlight") (.str "") ∧
        s1.currentHashStep = jsOr (a.get "currentHashStep") .null ∧
        s1.callStack = jsOr (a.get "callStack") (.arr [])) ∧
      (s3.currentStep = s1.currentStep ∧ s3.currentStepData = s1.currentStepData ∧
        s3.comparing = s1.comparing ∧ s3.swapping = s1.swapping ∧ s3.sorted = s1.sorted ∧
        s3.searching = s1.searching ∧ s3.found = s1.found ∧ s3.highlight = s1.highlight ∧
        s3.currentHashStep = s1.currentHashStep ∧ s3.callStack = s1.callStack) ∧
      (((a.get "hashTable").truthy = true ∨ b.get "hashTable" = .undefined) →
        s3.hashTable = s1.hashTable) ∧
      (((a.get "towers").truthy = true ∨ b.get "towers" = .undefined) →
        s3.towers = s1.towers) ∧
      (((a.get "moveCount").truthy = true ∨ b.get "moveCount" = .undefined) →
        s3.moveCount = s1.moveCount) ∧
      (((a.get "finalResult").truthy = true ∨ b.get "finalResult" = .undefined) →
        s3.finalResult = s1.finalResult) ∧
      (((a.get "fibTree").truthy = true ∨ b.get "fibTree" = .undefined) →
        s3.fibTree = s1.fibTree) := by
  have sticky : ∀ (x y old : JsVal), (x.truthy = true ∨ y = .undefined) →
      jsOr x (jsOr y (jsOr x old)) = jsOr x old := by
    intro x y old h
    rcases h with h | h
    · rw [jsOr_truthy _ _ h, jsOr_truthy _ _ h]
    · rw [h, jsOr_undefined, jsOr_idem]
  cases htb : b.truthy with
  | true =>
    refine ⟨_, _, _,
      (executeStep_visit steps i a state ha hta).trans
        (animationReducer_setCurrentStep state _ a hta),
      (executeStep_visit steps j b _ hb htb).trans
        (animationReducer_setCurrentStep _ _ b htb),
      (executeStep_visit steps i a _ ha hta).trans
        (animationReducer_setCurrentStep _ _ a hta),
      ⟨rfl, rfl, rfl, rfl, rfl, rfl, rfl, rfl, rfl, rfl⟩,
      ⟨rfl, rfl, rfl, rfl, rfl, rfl, rfl, rfl, rfl, rfl⟩,
      fun h => sticky _ _ _ h, fun h => sticky _ _ _ h, fun h => sticky _ _ _ h,
      fun h => sticky _ _ _ h, fun h => sticky _ _ _ h⟩
  | false =>
    refine ⟨_, _, _,
      (executeStep_visit steps i a state ha hta).trans
        (animationReducer_setCurrentStep state _ a hta),
      executeStep_skip steps j b _ hb htb,
      (executeStep_visit steps i a _ ha hta).trans
        (animationReducer_setCurrentStep _ _ a hta),
      ⟨rfl, rfl, rfl, rfl, rfl, rfl, rfl, rfl, rfl, rfl⟩,
      ⟨rfl, rfl, rfl, rfl, rfl, rfl, rfl, rfl, rfl, rfl⟩,
      fun _ => jsOr_idem _ _, fun _ => jsOr_idem _ _, fun _ => jsOr_idem _ _,
      fun _ => jsOr_idem _ _, fun _ => jsOr_idem _ _⟩

/-- C29, amended, at the trace of `factorialSteps(0)`, the indices `0` and `2` and the
initial state. -/
theorem revisit_reproduces_witness :
    ((factorialSteps 0).map RecStep.toJs)[0]? = some callStepOfFactorial0 ∧
    ((factorialSteps 0).map RecStep.toJs)[2]? = some completeStepOfFactorial0 ∧
    callStepOfFactorial0.truthy = true ∧
    ∃ s1 s2 s3,
      executeStep ((factorialSteps 0).map RecStep.toJs) ((0 : Nat) : Int) initialState =
        some s1 ∧
      executeStep ((factorialSteps 0).map RecStep.toJs) ((2 : Nat) : Int) s1 = some s2 ∧
      executeStep ((factorialSteps 0).map RecStep.toJs) ((0 : Nat) : Int) s2 = some s3 ∧
      (s1.currentStep = .num ((0 : Nat) : Int) ∧ s1.currentStepData = callStepOfFactorial0 ∧
        s1.comparing = jsOr (callStepOfFactorial0.get "comparing") (.arr []) ∧
        s1.swapping = jsOr (callStepOfFactorial0.get "swapping") (.arr []) ∧
        s1.sorted = jsOr (callStepOfFactorial0.get "sorted") (.arr []) ∧
        s1.searching = jsOr (callStepOfFactorial0.get "searching") (.num (-1)) ∧
        s1.found = jsOr (callStepOfFactorial0.get "found") (.num (-1)) ∧
        s1.highlight = jsOr (callStepOfFactorial0.get "highlight") (.str "") ∧
        s1.currentHashStep = jsOr (callStepOfFactorial0.get "currentHashStep") .null ∧
        s1.callStack = jsOr (callStepOfFactorial0.get "callStack") (.arr [])) ∧
      (s3.currentStep = s1.currentStep ∧ s3.currentStepData = s1.currentStepData ∧
        s3.comparing = s1.comparing ∧ s3.swapping = s1.swapping ∧ s3.sorted = s1.sorted ∧
        s3.searching = s1.searching ∧ s3.found = s1.found ∧ s3.highlight = s1.highlight ∧
        s3.currentHashStep = s1.currentHashStep ∧ s3.callStack = s1.callStack) ∧
      (((callStepOfFactorial0.get "hashTable").truthy = true ∨
          completeStepOfFactorial0.get "hashTable" = .undefined) →
        s3.hashTable = s1.hashTable) ∧
      (((callStepOfFactorial0.get "towers").truthy = true ∨
          completeStepOfFactorial0.get "towers" = .undefined) →
        s3.towers = s1.towers) ∧
      (((callStepOfFactorial0.get "moveCount").truthy = true ∨
          completeStepOfFactorial0.get "moveCount" = .undefined) →
        s3.moveCount = s1.moveCount) ∧
      (((callStepOfFactorial0.get "finalResult").truthy = true ∨
          completeStepOfFactorial0.get "finalResult" = .undefined) →
        s3.finalResult = s1.finalResult) ∧
      (((callStepOfFactorial0.get "fibTree").truthy = true ∨
          completeStepOfFactorial0.get "fibTree" = .undefined) →
        s3.fibTree = s1.fibTree) :=
  ⟨rfl, rfl, rfl,
    revisit_reproduces ((factorialSteps 0).map RecStep.toJs) 0 2 callStepOfFactorial0
      completeStepOfFactorial0 initialState rfl rfl rfl⟩

/-! ## C30: the records of the probing snapshots are shared -/

set_option maxRecDepth 100000 in
/-- C30 fails on the code at `hashWithLinearProbingSteps(['a'], 1, 'modulo')`.  The
snapshots of the `insert-probing` step (index `3`) and of the `complete` step (index `4`)
hold the same record, the one at address `0`; they show what the value-level trace shows;
and the assignment `steps[4].hashTable[0].value = 'x'`, a write to the record at address `0`,
changes what the snapshot of step `3` shows. -/
theorem probing_snapshots_share_records :
    (hashWithLinearProbingRefs hashFunctions.inherited [Key.str "a"] 1 "modulo").map
        (fun st => (st.store, st.steps.map fun s => (s.type, s.hashTable))) =
      some ([{ key := "a", value := "value_a" }],
        [(HashKind.init, [none]), (HashKind.hashComputation, [none]),
          (HashKind.hashResult, [none]), (HashKind.insertProbing, [some 0]),
          (HashKind.complete, [some 0])]) ∧
    (hashWithLinearProbingRefs hashFunctions.inherited [Key.str "a"] 1 "modulo").map
        (fun st => st.steps.map fun s => (s.type, showTable st.store s.hashTable,
          s.stepNumber)) =
      (hashWithLinearProbingSteps hashFunctions.inherited [Key.str "a"] 1 "modulo").map
        (fun steps => steps.map fun s => (s.type, s.hashTable, s.stepNumber)) ∧
    showTable [{ key := "a", value := "value_a" }] [some 0] =
      [some { key := "a", value := "value_a" }] ∧
    showTable ([{ key := "a", value := "value_a" }].set 0 { key := "a", value := "x" })
        [some 0] =
      [some { key := "a", value := "x" }] := by
  refine ⟨by decide, by decide, by decide, by decide⟩

/-! ### The address-level generator shows the value-level trace -/

theorem ref_probe_none (tableSize : Int) (keyStr value : String)
    (left pc : Nat) (st : RefProbeState) :
    hashWithLinearProbingRefs.probe tableSize keyStr value left none pc st = none := by
  cases left <;> rfl

theorem ref_probe_outside (tableSize : Int) (keyStr value : String)
    (left : Nat) (ci : Int) (pc : Nat) (st : RefProbeState)
    (h : ¬ (0 ≤ ci ∧ ci < (st.hashTable.length : Int))) :
    hashWithLinearProbingRefs.probe tableSize keyStr value left (some ci) pc st = none := by
  cases left with
  | zero => exact if_neg h
  | succ n => cases n <;> exact if_neg h

theorem ref_probe_free (tableSize : Int) (keyStr value : String)
    (left : Nat) (ci : Int) (pc : Nat) (st : RefProbeState)
    (h : 0 ≤ ci ∧ ci < (st.hashTable.length : Int))
    (hfree : heldByOther (derefSlot st.store (st.hashTable.getD ci.toNat none)) keyStr =
      false) :
    hashWithLinearProbingRefs.probe tableSize keyStr value left (some ci) pc st =
      some (({ st with
          store := st.store ++ [({ key := keyStr, value := value } : Entry)]
          hashTable := st.hashTable.set ci.toNat (some st.store.length) }).emit
        { type := .insertProbing,
          hashTable := st.hashTable.set ci.toNat (some st.store.length) }) := by
  have hn : ¬ (heldByOther (derefSlot st.store (st.hashTable.getD ci.toNat none)) keyStr =
      true) := by
    rw [hfree]; decide
  cases left with
  | zero => exact (if_pos h).trans (if_neg hn)
  | succ n => cases n <;> exact (if_pos h).trans (if_neg hn)

theorem ref_probe_held_last (tableSize : Int) (keyStr value : String)
    (left : Nat) (hleft : left ≤ 1) (ci : Int) (pc : Nat) (st : RefProbeState)
    (h : 0 ≤ ci ∧ ci < (st.hashTable.length : Int))
    (hheld : heldByOther (derefSlot st.store (st.hashTable.getD ci.toNat none)) keyStr =
      true) :
    hashWithLinearProbingRefs.probe tableSize keyStr value left (some ci) pc st =
      some ((st.emit
        { type := .collisionProbe, hashTable := st.hashTable,
          occupied := st.hashTable.getD ci.toNat none }).emit
        { type := .tableFull, hashTable := st.hashTable }) := by
  cases left with
  | zero => exact (if_pos h).trans (if_pos hheld)
  | succ n =>
    cases n with
    | zero => exact (if_pos h).trans (if_pos hheld)
    | succ k => omega

theorem ref_probe_held_step (tableSize : Int) (keyStr value : String)
    (left : Nat) (ci : Int) (pc : Nat) (st : RefProbeState)
    (h : 0 ≤ ci ∧ ci < (st.hashTable.length : Int))
    (hheld : heldByOther (derefSlot st.store (st.hashTable.getD ci.toNat none)) keyStr =
      true) :
    hashWithLinearProbingRefs.probe tableSize keyStr value (left + 2) (some ci) pc st =
      hashWithLinearProbingRefs.probe tableSize keyStr value (left + 1)
        (jsRem (ci + 1) tableSize) (pc + 1) (st.emit
        { type := .collisionProbe, hashTable := st.hashTable,
          occupied := st.hashTable.getD ci.toNat none }) :=
  (if_pos h).trans (if_pos hheld)

theorem showTable_append (store ext : List Entry) (table : List (Option Nat))
    (h : ∀ a, some a ∈ table → a < store.length) :
    showTable (store ++ ext) table = showTable store table := by
  unfold showTable
  apply List.map_congr_left
  intro slot hslot
  cases slot with
  | none => rfl
  | some a =>
    have := h a hslot
    simp [derefSlot, List.getElem?_append_left this]

theorem showTable_getD (store : List Entry) (table : List (Option Nat)) (i : Nat) :
    (showTable store table).getD i none = derefSlot store (table.getD i none) := by
  unfold showTable
  rw [List.getD_eq_getElem?_getD, List.getD_eq_getElem?_getD, List.getElem?_map]
  cases table[i]? with
  | none => rfl
  | some slot => rfl

theorem refSim_emit (rst : RefProbeState) (st : ProbeState) (r : RefProbeStep)
    (s : ProbeStep) (h : RefSim rst st) (hty : s.type = r.type)
    (hs : s.hashTable = st.hashTable) (hr : r.hashTable = rst.hashTable) :
    RefSim (rst.emit r) (st.emit s) := by
  obtain ⟨htab, hsteps, hcount, haddr, hsaddr⟩ := h
  refine ⟨htab, ?_, congrArg (· + 1) hcount, haddr, ?_⟩
  · simp only [ProbeState.emit, RefProbeState.emit, List.map_append, List.map_cons,
      List.map_nil, hsteps, hty, hs, hr, htab, hcount]
  · intro x hx a ha
    simp only [RefProbeState.emit, List.mem_append, List.mem_singleton] at hx
    rcases hx with hx | hx
    · exact hsaddr x hx a ha
    · subst hx
      have ha' : some a ∈ r.hashTable := ha
      rw [hr] at ha'
      exact haddr a ha'

theorem refSim_insert (rst : RefProbeState) (st : ProbeState) (r : RefProbeStep)
    (s : ProbeStep) (i : Nat) (e : Entry) (h : RefSim rst st) (hty : s.type = r.type)
    (hs : s.hashTable = st.hashTable.set i (some e))
    (hr : r.hashTable = rst.hashTable.set i (some rst.store.length)) :
    RefSim
      (({ rst with
        store := rst.store ++ [e]
        hashTable := rst.hashTable.set i (some rst.store.length) }).emit r)
      (({ st with hashTable := st.hashTable.set i (some e) }).emit s) := by
  obtain ⟨htab, hsteps, hcount, haddr, hsaddr⟩ := h
  have hnew : showTable (rst.store ++ [e]) (rst.hashTable.set i (some rst.store.length)) =
      st.hashTable.set i (some e) := by
    unfold showTable
    rw [List.map_set]
    have h1 := showTable_append rst.store [e] rst.hashTable haddr
    unfold showTable at h1
    rw [h1, htab]
    unfold showTable
    simp [derefSlot]
  have hbound : ∀ a, some a ∈ rst.hashTable.set i (some rst.store.length) →
      a < (rst.store ++ [e]).length := by
    intro a ha
    rcases List.mem_or_eq_of_mem_set ha with ha | ha
    · have := haddr a ha
      simp only [List.length_append, List.length_singleton]
      omega
    · cases ha
      simp
  refine ⟨hnew.symm, ?_, congrArg (· + 1) hcount, hbound, ?_⟩
  · simp only [ProbeState.emit, RefProbeState.emit, List.map_append, List.map_cons,
      List.map_nil, hty, hs, hr, hnew, hcount, hsteps]
    congr 1
    apply List.map_congr_left
    intro x hx
    rw [showTable_append rst.store [e] x.hashTable (hsaddr x hx)]
  · intro x hx a ha
    simp only [RefProbeState.emit, List.mem_append, List.mem_singleton] at hx
    rcases hx with hx | hx
    · have := hsaddr x hx a ha
      have hl : (rst.store ++ [e]).length = rst.store.length + 1 := by simp
      show a < (rst.store ++ [e]).length
      omega
    · subst hx
      have ha' : some a ∈ r.hashTable := ha
      rw [hr] at ha'
      exact hbound a ha'

theorem refSim_held (rst : RefProbeState) (st : ProbeState) (h : RefSim rst st) (i : Nat)
    (keyStr : String) :
    heldByOther (st.hashTable.getD i none) keyStr =
      heldByOther (derefSlot rst.store (rst.hashTable.getD i none)) keyStr := by
  rw [h.1, showTable_getD]

theorem refSim_length (rst : RefProbeState) (st : ProbeState) (h : RefSim rst st) :
    st.hashTable.length = rst.hashTable.length := by
  rw [h.1]
  simp [showTable]

theorem probe_refSim (tableSize : Int) (keyStr value : String) (initialIndex : Option Int) :
    ∀ (left : Nat) (currentIndex : Option Int) (pc : Nat) (rst : RefProbeState)
      (st : ProbeState), RefSim rst st →
      (hashWithLinearProbingRefs.probe tableSize keyStr value left currentIndex pc rst =
          none ∧
        hashWithLinearProbingSteps.probe tableSize keyStr value initialIndex left currentIndex
          pc st = none) ∨
      ∃ rst' st',
        hashWithLinearProbingRefs.probe tableSize keyStr value left currentIndex pc rst =
          some rst' ∧
        hashWithLinearProbingSteps.probe tableSize keyStr value initialIndex left currentIndex
          pc st = some st' ∧ RefSim rst' st' := by
  have hfree : ∀ (left : Nat) (ci : Int) (pc : Nat) (rst : RefProbeState) (st : ProbeState),
      RefSim rst st → (0 ≤ ci ∧ ci < (st.hashTable.length : Int)) →
      heldByOther (st.hashTable.getD ci.toNat none) keyStr = false →
      ∃ rst' st',
        hashWithLinearProbingRefs.probe tableSize keyStr value left (some ci) pc rst =
          some rst' ∧
        hashWithLinearProbingSteps.probe tableSize keyStr value initialIndex left (some ci)
          pc st = some st' ∧ RefSim rst' st' := by
    intro left ci pc rst st h hr hheld
    have hr2 : 0 ≤ ci ∧ ci < (rst.hashTable.length : Int) := by
      rw [← refSim_length rst st h]
      exact hr
    refine ⟨_, _,
      ref_probe_free tableSize keyStr value left ci pc rst hr2
        (by rw [← refSim_held rst st h]; exact hheld),
      probe_free tableSize keyStr value initialIndex left ci pc st hr hheld, ?_⟩
    exact refSim_insert rst st _ _ ci.toNat { key := keyStr, value := value } h rfl rfl rfl
  have hlast : ∀ (left : Nat) (ci : Int) (pc : Nat) (rst : RefProbeState) (st : ProbeState),
      left ≤ 1 → RefSim rst st → (0 ≤ ci ∧ ci < (st.hashTable.length : Int)) →
      heldByOther (st.hashTable.getD ci.toNat none) keyStr = true →
      ∃ rst' st',
        hashWithLinearProbingRefs.probe tableSize keyStr value left (some ci) pc rst =
          some rst' ∧
        hashWithLinearProbingSteps.probe tableSize keyStr value initialIndex left (some ci)
          pc st = some st' ∧ RefSim rst' st' := by
    intro left ci pc rst st hl h hr hheld
    have hr2 : 0 ≤ ci ∧ ci < (rst.hashTable.length : Int) := by
      rw [← refSim_length rst st h]
      exact hr
    refine ⟨_, _,
      ref_probe_held_last tableSize keyStr value left hl ci pc rst hr2
        (by rw [← refSim_held rst st h]; exact hheld),
      probe_held_last tableSize keyStr value initialIndex left hl ci pc st hr hheld, ?_⟩
    exact refSim_emit _ _ _ _ (refSim_emit _ _ _ _ h rfl rfl rfl) rfl rfl rfl
  intro left
  induction left with
  | zero =>
    intro currentIndex pc rst st h
    cases currentIndex with
    | none => exact Or.inl ⟨ref_probe_none _ _ _ _ _ _, probe_none _ _ _ _ _ _ _⟩
    | some ci =>
      by_cases hr : 0 ≤ ci ∧ ci < (st.hashTable.length : Int)
      · cases hheld : heldByOther (st.hashTable.getD ci.toNat none) keyStr with
        | true => exact Or.inr (hlast 0 ci pc rst st (by omega) h hr hheld)
        | false => exact Or.inr (hfree 0 ci pc rst st h hr hheld)
      · exact Or.inl ⟨ref_probe_outside _ _ _ _ _ _ _
          (by rw [← refSim_length rst st h]; exact hr), probe_outside _ _ _ _ _ _ _ _ hr⟩
  | succ n ih =>
    intro currentIndex pc rst st h
    cases currentIndex with
    | none => exact Or.inl ⟨ref_probe_none _ _ _ _ _ _, probe_none _ _ _ _ _ _ _⟩
    | some ci =>
      by_cases hr : 0 ≤ ci ∧ ci < (st.hashTable.length : Int)
      · cases hheld : heldByOther (st.hashTable.getD ci.toNat none) keyStr with
        | true =>
          cases n with
          | zero => exact Or.inr (hlast 1 ci pc rst st (by omega) h hr hheld)
          | succ k =>
            have hr2 : 0 ≤ ci ∧ ci < (rst.hashTable.length : Int) := by
              rw [← refSim_length rst st h]
              exact hr
            rw [ref_probe_held_step tableSize keyStr value k ci pc rst hr2
                (by rw [← refSim_held rst st h]; exact hheld),
              probe_held_step tableSize keyStr value initialIndex k ci pc st hr hheld]
            exact ih _ _ _ _ (refSim_emit _ _ _ _ h rfl rfl rfl)
        | false => exact Or.inr (hfree (n + 1) ci pc rst st h hr hheld)
      · exact Or.inl ⟨ref_probe_outside _ _ _ _ _ _ _
          (by rw [← refSim_length rst st h]; exact hr), probe_outside _ _ _ _ _ _ _ _ hr⟩

theorem insertKey_refSim (hashFunc : HashFn) (tableSize : Int) (hashFunction : String)
    (rst : RefProbeState) (st : ProbeState) (key : Key) (h : RefSim rst st) :
    (hashWithLinearProbingRefs.insertKey hashFunc tableSize rst key = none ∧
      hashWithLinearProbingSteps.insertKey hashFunc tableSize hashFunction st key = none) ∨
    ∃ rst' st', hashWithLinearProbingRefs.insertKey hashFunc tableSize rst key = some rst' ∧
      hashWithLinearProbingSteps.insertKey hashFunc tableSize hashFunction st key =
        some st' ∧ RefSim rst' st' := by
  unfold hashWithLinearProbingRefs.insertKey hashWithLinearProbingSteps.insertKey
  exact probe_refSim tableSize key.toString _ _ _ _ _ _ _
    (refSim_emit _ _ _ _ (refSim_emit _ _ _ _ h rfl rfl rfl) rfl rfl rfl)

theorem forEachM_sim {σ τ α : Type} (f : σ → α → Option σ) (g : τ → α → Option τ)
    (R : σ → τ → Prop)
    (hstep : ∀ s t a, R s t → (f s a = none ∧ g t a = none) ∨
      ∃ s' t', f s a = some s' ∧ g t a = some t' ∧ R s' t') :
    ∀ (as : List α) (s : σ) (t : τ), R s t →
      (forEachM f as s = none ∧ forEachM g as t = none) ∨
      ∃ s' t', forEachM f as s = some s' ∧ forEachM g as t = some t' ∧ R s' t' := by
  intro as
  induction as with
  | nil => intro s t h; exact Or.inr ⟨s, t, rfl, rfl, h⟩
  | cons a as ih =>
    intro s t h
    rcases hstep s t a h with ⟨e1, e2⟩ | ⟨s', t', e1, e2, h'⟩
    · left
      simp [forEachM, e1, e2]
    · simp only [forEachM, e1, e2, Option.some_bind]
      exact ih s' t' h'

/-- The address-level generator and the value-level generator fail on the same inputs, and
otherwise each snapshot of the address-level trace, read in the final store, shows the
snapshot of the value-level trace, step by step. -/
theorem refs_show_value_trace (multiplication : HashFn) (keys : List Key) (tableSize : Int)
    (hashFunction : String) :
    (hashWithLinearProbingRefs multiplication keys tableSize hashFunction).map
        (fun st => st.steps.map fun s => (s.type, showTable st.store s.hashTable,
          s.stepNumber)) =
      (hashWithLinearProbingSteps multiplication keys tableSize hashFunction).map
        (fun steps => steps.map fun s => (s.type, s.hashTable, s.stepNumber)) := by
  unfold hashWithLinearProbingRefs hashWithLinearProbingSteps hashWithLinearProbingRun
  by_cases hneg : tableSize < 0
  · simp [hneg]
  · simp only [hneg, if_false]
    have h0 : RefSim
        (({ store := [], hashTable := List.replicate tableSize.toNat none, steps := [],
            stepCounter := 1 } : RefProbeState).emit
          { type := .init, hashTable := List.replicate tableSize.toNat none })
        (({ hashTable := List.replicate tableSize.toNat none, steps := [],
            stepCounter := 1 } : ProbeState).emit
          { type := .init, hashTable := List.replicate tableSize.toNat none }) := by
      apply refSim_emit _ _ _ _ _ rfl rfl rfl
      refine ⟨by simp [showTable, derefSlot], rfl, rfl, ?_, ?_⟩
      · intro a ha
        simp only [List.mem_replicate] at ha
        cases ha.2
      · intro s hs
        cases hs
    rcases forEachM_sim _ _ RefSim
      (fun s t a h => insertKey_refSim
        (hashFunctions.resolve multiplication hashFunction) tableSize hashFunction s t a h)
      keys _ _ h0 with ⟨e1, e2⟩ | ⟨rst', st', e1, e2, h'⟩
    · rw [e1, e2]
      rfl
    · rw [e1, e2]
      have h2 := refSim_emit rst' st' { type := .complete, hashTable := rst'.hashTable }
        { type := .complete, hashTable := st'.hashTable } h' rfl rfl rfl
      simp only [Option.map_some']
      rw [h2.2.1]

/-! ## C31, C32, C38: the `swap` steps of bubble, selection and quick sort -/

theorem swapTrace_step (arr : List Int) (st st' : SortState) (s : SortStep)
    (h : SwapTrace arr st) (hsteps : st'.steps = st.steps ++ [s]) (hs : s.array = st'.result)
    (hperm : st'.result.Perm arr) (hfirst : st.steps = [] → s.type ≠ .swap)
    (hvalid : ∀ x, st.steps.getLast? = some x → SwapValid x s) : SwapTrace arr st' := by
  obtain ⟨hc, hh, _, hp, _⟩ := h
  refine ⟨?_, ?_, ?_, ?_, hperm⟩
  · rw [hsteps, List.chain'_append]
    refine ⟨hc, List.chain'_singleton _, ?_⟩
    intro x hx y hy
    simp only [List.head?_cons, Option.mem_def, Option.some.injEq] at hy
    subst hy
    exact hvalid x hx
  · intro x hx
    rw [hsteps] at hx
    cases hl : st.steps with
    | nil =>
      rw [hl] at hx
      simp only [List.nil_append, List.head?_cons, Option.some.injEq] at hx
      subst hx
      exact hfirst hl
    | cons y l =>
      rw [hl] at hx
      simp only [List.cons_append, List.head?_cons, Option.some.injEq] at hx
      subst hx
      exact hh y (by rw [hl]; rfl)
  · intro x hx
    rw [hsteps] at hx
    simp only [List.getLast?_append, List.getLast?_singleton, Option.or_some,
      Option.some.injEq] at hx
    subst hx
    exact hs
  · intro x hx
    rw [hsteps] at hx
    rcases List.mem_append.1 hx with h1 | h1
    · exact hp x h1
    · simp only [List.mem_singleton] at h1
      subst h1
      rw [hs]; exact hperm

theorem swapTrace_show (arr : List Int) (st st' : SortState) (s : SortStep)
    (h : SwapTrace arr st) (hsteps : st'.steps = st.steps ++ [s]) (hres : st'.result = st.result)
    (hs : s.array = st.result) (hne : s.type ≠ .swap) : SwapTrace arr st' :=
  swapTrace_step arr st st' s h hsteps (hs.trans hres.symm) (by rw [hres]; exact h.2.2.2.2)
    (fun _ => hne) (fun _ _ hsw => absurd hsw hne)

theorem swapTrace_swap (arr : List Int) (st st' : SortState) (s : SortStep) (p q m : Nat)
    (h : SwapTrace arr st) (hne : st.steps ≠ [])
    (hsteps : st'.steps = st.steps ++ [s]) (hres : st'.result = jsSwap st.result p q)
    (hs : s.array = st'.result) (hsw : s.swapping = [p, q])
    (hp : p < st.result.length) (hq : q < st.result.length)
    (hlt : p < q → jsGet st.result q < jsGet st.result p)
    (hm : m < st.result.length) (hqm : jsGet st.result q < jsGet st.result m) :
    SwapTrace arr st' := by
  refine swapTrace_step arr st st' s h hsteps hs ?_ (fun e => absurd e hne) ?_
  · rw [hres]; exact (jsSwap_perm _ _ _ hp hq).trans h.2.2.2.2
  · intro x hx _
    have hx2 : x.array = st.result := h.2.2.1 x hx
    exact ⟨p, q, m, hsw, by rw [hx2]; exact hp, by rw [hx2]; exact hq,
      by rw [hs, hres, hx2], by rw [hx2]; exact hlt, by rw [hx2]; exact hm,
      by rw [hx2]; exact hqm⟩

theorem bubbleInner_swapTrace (arr : List Int) (i j : Nat) (st : SortState)
    (hj : j + 1 < st.result.length) (h : SwapTrace arr st) :
    SwapTrace arr (bubbleInner i st j) ∧
      (bubbleInner i st j).result.length = st.result.length := by
  have h1 : SwapTrace arr (st.emit
      { type := .compare, array := st.result, comparing := [j, j + 1],
        sorted := bubbleSortedSet st.result.length i }) :=
    swapTrace_show arr st _ _ h rfl rfl rfl (by simp)
  unfold bubbleInner
  simp only [sortState_emit_result]
  by_cases hc : jsGet st.result j > jsGet st.result (j + 1)
  · simp only [hc, if_true]
    refine ⟨?_, by simp [length_jsSwap]⟩
    exact swapTrace_swap arr _ _ _ j (j + 1) j h1 (by simp [SortState.emit]) rfl rfl rfl rfl
      (by simp only [sortState_emit_result]; omega) (by simpa using hj)
      (fun _ => by simpa using hc) (by simp only [sortState_emit_result]; omega)
      (by simpa using hc)
  · simp only [hc, if_false]
    exact ⟨h1, rfl⟩

theorem bubbleOuter_swapTrace (arr : List Int) (i : Nat) (st : SortState)
    (h : SwapTrace arr st) :
    SwapTrace arr (bubbleOuter st i) ∧ (bubbleOuter st i).result.length = st.result.length := by
  have h1 : SwapTrace arr (st.emit
      { type := .passStart, array := st.result,
        sorted := bubbleSortedSet st.result.length i }) :=
    swapTrace_show arr st _ _ h rfl rfl rfl (by simp)
  have key := forLoop_inv
    (fun (_ : Nat) (s : SortState) => SwapTrace arr s ∧ s.result.length = st.result.length)
    (bubbleInner i) 0 (st.result.length - i - 1)
    (st.emit { type := .passStart, array := st.result,
               sorted := bubbleSortedSet st.result.length i })
    (Nat.zero_le _) ⟨h1, rfl⟩
    (fun k s _ hk hs => by
      obtain ⟨a, b⟩ := bubbleInner_swapTrace arr i k s (by rw [hs.2]; omega) hs.1
      exact ⟨a, b.trans hs.2⟩)
  unfold bubbleOuter
  simp only [sortState_emit_result]
  exact ⟨swapTrace_show arr _ _ _ key.1 rfl rfl rfl (by simp), key.2⟩

theorem bubbleSortRun_swapTrace (arr : List Int) : SwapTrace arr (bubbleSortRun arr) := by
  have h0 : SwapTrace arr ({ result := arr, steps := [], stepCounter := 1 } : SortState) :=
    ⟨List.chain'_nil, fun x hx => by simp at hx, fun x hx => by simp at hx,
      fun x hx => by simp at hx, List.Perm.refl _⟩
  have h1 : SwapTrace arr (({ result := arr, steps := [], stepCounter := 1 } : SortState).emit
      { type := .init, array := arr }) :=
    swapTrace_show arr _ _ _ h0 rfl rfl rfl (by simp)
  have key := forLoop_preserves (fun s : SortState => SwapTrace arr s) bubbleOuter 0
    (arr.length - 1) _ h1 (fun s k hs => (bubbleOuter_swapTrace arr k s hs).1)
  unfold bubbleSortRun
  exact swapTrace_show arr _ _ _ key rfl rfl rfl (by simp)

theorem selectionInner_swapTrace (arr r : List Int) (i j : Nat) (sm : SortState × Nat)
    (h : SwapTrace arr sm.1 ∧ sm.1.result = r ∧ sm.1.steps ≠ [] ∧ i ≤ sm.2 ∧ sm.2 < j ∧
      (sm.2 ≠ i → jsGet r sm.2 < jsGet r i)) :
    SwapTrace arr (selectionInner i sm j).1 ∧ (selectionInner i sm j).1.result = r ∧
      (selectionInner i sm j).1.steps ≠ [] ∧ i ≤ (selectionInner i sm j).2 ∧
      (selectionInner i sm j).2 < j + 1 ∧
      ((selectionInner i sm j).2 ≠ i → jsGet r (selectionInner i sm j).2 < jsGet r i) := by
  obtain ⟨ht, hr, hne, hi, hlt, hmin⟩ := h
  have h1 : SwapTrace arr (sm.1.emit
      { type := .compare, array := sm.1.result, comparing := [sm.2, j],
        sorted := arrayFrom i (fun idx => idx) }) :=
    swapTrace_show arr sm.1 _ _ ht rfl rfl rfl (by simp)
  unfold selectionInner
  simp only [sortState_emit_result]
  by_cases hc : jsGet sm.1.result j < jsGet sm.1.result sm.2
  · simp only [hc, if_true]
    refine ⟨swapTrace_show arr _ _ _ h1 rfl rfl rfl (by simp), hr, by simp [SortState.emit],
      by omega, by omega, ?_⟩
    intro _
    rw [hr] at hc
    by_cases e : sm.2 = i
    · rw [e] at hc; exact hc
    · exact lt_trans hc (hmin e)
  · simp only [hc, if_false]
    exact ⟨h1, hr, by simp [SortState.emit], hi, by omega, hmin⟩

theorem selectionOuter_swapTrace (arr : List Int) (i : Nat) (st : SortState)
    (hi : i + 1 < st.result.length) (h : SwapTrace arr st) :
    SwapTrace arr (selectionOuter st i) ∧
      (selectionOuter st i).result.length = st.result.length := by
  have h1 : SwapTrace arr (st.emit
      { type := .passStart, array := st.result, sorted := arrayFrom i (fun idx => idx) }) :=
    swapTrace_show arr st _ _ h rfl rfl rfl (by simp)
  have key := forLoop_inv
    (fun (j : Nat) (sm : SortState × Nat) => SwapTrace arr sm.1 ∧ sm.1.result = st.result ∧
      sm.1.steps ≠ [] ∧ i ≤ sm.2 ∧ sm.2 < j ∧
      (sm.2 ≠ i → jsGet st.result sm.2 < jsGet st.result i))
    (selectionInner i) (i + 1) st.result.length
    (st.emit { type := .passStart, array := st.result,
               sorted := arrayFrom i (fun idx => idx) }, i)
    (by omega) ⟨h1, rfl, by simp [SortState.emit], le_refl _, by omega, fun e => absurd rfl e⟩
    (fun k s _ _ hs => selectionInner_swapTrace arr st.result i k s hs)
  unfold selectionOuter
  simp only [sortState_emit_result]
  generalize forLoop (i + 1) st.result.length (selectionInner i)
    (st.emit { type := .passStart, array := st.result,
               sorted := arrayFrom i (fun idx => idx) }, i) = sm at key
  obtain ⟨ht, hr, hne, hle, hlt, hmin⟩ := key
  by_cases e : sm.2 = i
  · simp only [e, ne_eq, not_true_eq_false, if_false, sortState_emit_result]
    have h2 : SwapTrace arr (sm.1.emit
        { type := .noSwap, array := sm.1.result, sorted := arrayFrom i (fun idx => idx) }) :=
      swapTrace_show arr sm.1 _ _ ht rfl rfl rfl (by simp)
    exact ⟨swapTrace_show arr _ _ _ h2 rfl rfl rfl (by simp), by rw [hr]⟩
  · simp only [e, ne_eq, not_false_eq_true, if_true, sortState_emit_result]
    have h2 : SwapTrace arr (({ sm.1 with result := jsSwap sm.1.result i sm.2 } : SortState).emit
        { type := .swap, array := jsSwap sm.1.result i sm.2, swapping := [i, sm.2],
          sorted := arrayFrom i (fun idx => idx) }) :=
      swapTrace_swap arr sm.1 _ _ i sm.2 i ht hne rfl rfl rfl rfl (by rw [hr]; omega)
        (by rw [hr]; omega) (fun _ => by rw [hr]; exact hmin e) (by rw [hr]; omega)
        (by rw [hr]; exact hmin e)
    exact ⟨swapTrace_show arr _ _ _ h2 rfl rfl rfl (by simp), by simp [length_jsSwap, hr]⟩

theorem selectionSortRun_swapTrace (arr : List Int) : SwapTrace arr (selectionSortRun arr) := by
  have h0 : SwapTrace arr ({ result := arr, steps := [], stepCounter := 1 } : SortState) :=
    ⟨List.chain'_nil, fun x hx => by simp at hx, fun x hx => by simp at hx,
      fun x hx => by simp at hx, List.Perm.refl _⟩
  have h1 : SwapTrace arr (({ result := arr, steps := [], stepCounter := 1 } : SortState).emit
      { type := .init, array := arr }) :=
    swapTrace_show arr _ _ _ h0 rfl rfl rfl (by simp)
  have key := forLoop_inv
    (fun (_ : Nat) (s : SortState) => SwapTrace arr s ∧ s.result.length = arr.length)
    selectionOuter 0 (arr.length - 1)
    (({ result := arr, steps := [], stepCounter := 1 } : SortState).emit
      { type := .init, array := arr })
    (Nat.zero_le _) ⟨h1, rfl⟩
    (fun k s _ hk hs => by
      obtain ⟨a, b⟩ := selectionOuter_swapTrace arr k s (by rw [hs.2]; omega) hs.1
      exact ⟨a, b.trans hs.2⟩)
  unfold selectionSortRun
  exact swapTrace_show arr _ _ _ key.1 rfl rfl rfl (by simp)

theorem partitionBody_swapTrace (arr P A0 S : List Int) (pivot : Int) (high j : Nat)
    (si : SortState × Nat) (hlen : A0.length = high - P.length) (hj : j < high)
    (h : PartitionInv P A0 S pivot j si) (ht : SwapTrace arr si.1) :
    SwapTrace arr (quickSortSteps.partitionBody high pivot si j).1 ∧
      (quickSortSteps.partitionBody high pivot si j).1.steps ≠ [] := by
  obtain ⟨Ls, Gs, U, hr, hi1, hjj, _, hG, hperm, _⟩ := h
  have hlenU : Ls.length + (Gs.length + U.length) = A0.length := by
    have := hperm.length_eq
    simpa using this
  have hrl : si.1.result.length = P.length + A0.length + 1 + S.length := by
    rw [hr]; simp only [List.length_append, List.length_cons]; omega
  have hhigh : jsGet si.1.result high = pivot := by
    have e : si.1.result = (P ++ Ls ++ Gs ++ U) ++ pivot :: S := by rw [hr]; simp
    have hh : high = (P ++ Ls ++ Gs ++ U).length := by
      simp only [List.length_append]; omega
    rw [e, hh]; exact jsGet_append_length _ _ _
  have hge : si.2 < j → pivot ≤ jsGet si.1.result si.2 := by
    intro hlt
    cases Gs with
    | nil => simp at hjj; omega
    | cons g Gs =>
      have e : si.1.result = (P ++ Ls) ++ g :: (Gs ++ (U ++ pivot :: S)) := by rw [hr]; simp
      have hh : si.2 = (P ++ Ls).length := by simp only [List.length_append]; omega
      rw [e, hh, jsGet_append_length]
      exact hG g (List.mem_cons_self _ _)
  have h1 : SwapTrace arr (si.1.push
      { type := .compare, array := si.1.result, comparing := [j, high] }) :=
    swapTrace_show arr si.1 _ _ ht rfl rfl rfl (by simp)
  unfold quickSortSteps.partitionBody
  simp only [sortState_push_result]
  by_cases hc : jsGet si.1.result j < pivot
  · simp only [hc, if_true]
    refine ⟨?_, by simp [SortState.push]⟩
    exact swapTrace_swap arr _ _ _ si.2 j high h1 (by simp [SortState.push]) rfl rfl rfl rfl
      (by simp only [sortState_push_result]; omega) (by simp only [sortState_push_result]; omega)
      (fun hlt => lt_of_lt_of_le hc (hge hlt)) (by simp only [sortState_push_result]; omega)
      (by simp only [sortState_push_result]; rw [hhigh]; exact hc)
  · simp only [hc, if_false]
    exact ⟨h1, by simp [SortState.push]⟩

theorem partition_swapTrace (arr : List Int) (low high : Nat) (st : SortState)
    (P A S : List Int) (hr : st.result = P ++ (A ++ S)) (hlow : low = P.length)
    (hhigh : high + 1 = P.length + A.length) (hA : 2 ≤ A.length) (ht : SwapTrace arr st) :
    SwapTrace arr (quickSortSteps.partition low high st).2 := by
  have hne : A ≠ [] := by intro e; subst e; simp at hA
  obtain ⟨A0, pivot, hcat⟩ := exists_append_singleton A hne
  subst hcat
  have hA0 : A0.length = high - P.length := by simp at hhigh; omega
  have hpiv : jsGet st.result high = pivot := by
    have e : st.result = (P ++ A0) ++ pivot :: S := by rw [hr]; simp
    have hh : high = (P ++ A0).length := by simp at hhigh ⊢; omega
    rw [e, hh]; exact jsGet_append_length _ _ _
  have h1 : SwapTrace arr (st.push
      { type := .selectPivot, array := st.result, pivot := some high }) :=
    swapTrace_show arr st _ _ ht rfl rfl rfl (by simp)
  have key := forLoop_inv
    (fun j (si : SortState × Nat) => PartitionInv P A0 S pivot j si ∧ SwapTrace arr si.1 ∧
      si.1.steps ≠ [])
    (quickSortSteps.partitionBody high pivot) low high
    (st.push { type := .selectPivot, array := st.result, pivot := some high }, low)
    (by simp at hhigh; omega)
    ⟨⟨[], [], A0, by simp [hr], by simp [hlow], by simp [hlow], by simp, by simp, by simp,
      ⟨_, sortState_getLast?_push _ _, rfl⟩⟩, h1, by simp [SortState.push]⟩
    (fun j s _ hj2 hinv => ⟨partitionBody_inv P A0 S pivot high j s hA0 hj2 hinv.1,
      partitionBody_swapTrace arr P A0 S pivot high j s hA0 hj2 hinv.1 hinv.2.1⟩)
  unfold quickSortSteps.partition
  simp only [hpiv]
  generalize forLoop low high (quickSortSteps.partitionBody high pivot)
    (st.push { type := .selectPivot, array := st.result, pivot := some high }, low) = si at key
  obtain ⟨⟨Ls, Gs, U, hres, hi1, hjj, _, _, hperm, _⟩, ht2, hne2⟩ := key
  have hlenU : Ls.length + (Gs.length + U.length) = A0.length := by
    have := hperm.length_eq
    simpa using this
  have hrl : si.1.result.length = P.length + A0.length + 1 + S.length := by
    rw [hres]; simp only [List.length_append, List.length_cons]; omega
  refine swapTrace_step arr si.1 _ _ ht2 rfl rfl ?_ (fun e => absurd e hne2)
    (fun _ _ hsw => absurd hsw (by simp))
  exact (jsSwap_perm _ _ _ (by omega) (by omega)).trans ht2.2.2.2.2

theorem quickSort_swapTrace (arr : List Int) : ∀ (fuel : Nat) (low high : Int)
    (st st' : SortState) (P A S : List Int), st.result = P ++ (A ++ S) →
    low = (P.length : Int) → high = (P.length : Int) + (A.length : Int) - 1 →
    A.length + 1 ≤ fuel → SwapTrace arr st →
    quickSortSteps.quickSort fuel low high st = some st' → SwapTrace arr st' := by
  intro fuel
  induction fuel with
  | zero => intro low high st st' P A S _ _ _ h; omega
  | succ fuel ih =>
    intro low high st st' P A S hr hl hh hAf ht he
    unfold quickSortSteps.quickSort at he
    by_cases hlt : low < high
    · simp only [hlt, if_true] at he
      have hA2 : 2 ≤ A.length := by omega
      obtain ⟨L, G, pivot, r0, hpi, hL, hG, hperm, hshow⟩ :=
        partition_spec low.toNat high.toNat st P A S hr (by omega) (by omega) hA2
      have ht1 := partition_swapTrace arr low.toNat high.toNat st P A S hr (by omega)
        (by omega) hA2 ht
      have hlen : L.length + (G.length + 1) = A.length := by
        have := hperm.length_eq
        simpa using this
      generalize quickSortSteps.partition low.toNat high.toNat st = ps at r0 hpi hshow ht1 he
      obtain ⟨st2, L', e1, r1, s1, p1, show1⟩ := quickSort_spec fuel low ((ps.1 : Int) - 1) ps.2
        P L (pivot :: (G ++ S)) r0 hl (by rw [hpi]; push_cast; omega) (by omega)
      have hL' : L'.length = L.length := p1.length_eq
      have ht2 := ih low ((ps.1 : Int) - 1) ps.2 st2 P L (pivot :: (G ++ S)) r0 hl
        (by rw [hpi]; push_cast; omega) (by omega) ht1 e1
      rw [e1, Option.some_bind] at he
      exact ih ((ps.1 : Int) + 1) high st2 st' (P ++ (L' ++ [pivot])) G S (by rw [r1]; simp)
        (by rw [hpi]; simp [hL']; omega) (by rw [hh]; simp [hL']; omega) (by omega) ht2 he
    · simp only [hlt, if_false, Option.some.injEq] at he
      subst he
      exact ht

theorem quickSortRun_swapTrace (arr : List Int) :
    ∃ st, quickSortRun arr = some st ∧ SwapTrace arr st := by
  obtain ⟨st', M, e, _⟩ := quickSort_spec (arr.length + 1) 0
    ((arr.length : Int) - 1) { result := arr, steps := [], stepCounter := 1 } [] arr []
    (by simp) (by simp) (by simp) (by omega)
  refine ⟨st', e, ?_⟩
  exact quickSort_swapTrace arr (arr.length + 1) 0 ((arr.length : Int) - 1)
    { result := arr, steps := [], stepCounter := 1 } st' [] arr [] (by simp) (by simp)
    (by simp) (by omega)
    ⟨List.chain'_nil, fun x hx => by simp at hx, fun x hx => by simp at hx,
      fun x hx => by simp at hx, List.Perm.refl _⟩ e

theorem swapTrace_pred (arr : List Int) (st : SortState) (h : SwapTrace arr st) (k : Nat)
    (s' : SortStep) (hk : st.steps[k]? = some s') (hsw : s'.type = .swap) :
    ∃ j s, k = j + 1 ∧ st.steps[j]? = some s ∧ s.array.Perm arr ∧
      ∃ p q m, s'.swapping = [p, q] ∧ p < s.array.length ∧ q < s.array.length ∧
        s'.array = jsSwap s.array p q ∧
        (p < q → jsGet s.array q < jsGet s.array p) ∧
        m < s.array.length ∧ jsGet s.array q < jsGet s.array m := by
  obtain ⟨hc, hh, _, hp, _⟩ := h
  cases k with
  | zero =>
    have : st.steps.head? = some s' := by
      rw [← hk]; cases st.steps <;> simp
    exact absurd hsw (hh s' this)
  | succ j =>
    obtain ⟨h2, e2⟩ := List.getElem?_eq_some.1 hk
    have h1 : j < st.steps.length := by omega
    have hv : SwapValid (st.steps.get ⟨j, h1⟩) (st.steps.get ⟨j + 1, h2⟩) :=
      List.chain'_iff_get.1 hc j (by omega)
    have e3 : st.steps.get ⟨j + 1, h2⟩ = s' := e2
    rw [e3] at hv
    exact ⟨j, st.steps.get ⟨j, h1⟩, rfl, List.getElem?_eq_getElem h1,
      hp _ (List.get_mem _ _ _), hv hsw⟩

theorem swapTrace_exchange (arr : List Int) (st : SortState) (h : SwapTrace arr st) :
    SwapsExchange st.steps := by
  intro k s' hk hsw
  obtain ⟨j, s, e, hj, _, p, q, m, h1, h2, h3, h4, _⟩ := swapTrace_pred arr st h k s' hk hsw
  refine ⟨j, s, p, q, e, hj, h1, h2, h3, by rw [h4, length_jsSwap], ?_⟩
  intro i
  rw [h4, jsGet_jsSwap _ _ _ _ h2 h3]

theorem swapTrace_strict (arr : List Int) (st : SortState) (h : SwapTrace arr st) :
    SwapsStrict st.steps := by
  intro j s s' p q hs hs' hsw hpq hlt
  obtain ⟨j2, s2, e, hj, _, p2, q2, m, h1, _, _, _, h5, _⟩ :=
    swapTrace_pred arr st h (j + 1) s' hs' hsw
  have ej : j2 = j := by omega
  subst ej
  rw [hs] at hj
  simp only [Option.some.injEq] at hj
  subst hj
  rw [hpq] at h1
  simp only [List.cons.injEq, and_true] at h1
  obtain ⟨e1, e2⟩ := h1
  subst e1; subst e2
  exact h5 hlt

theorem swapTrace_equal (arr : List Int) (c : Int) (hc : ∀ x ∈ arr, x = c) (st : SortState)
    (h : SwapTrace arr st) : ∀ s ∈ st.steps, s.type ≠ .swap := by
  intro s' hs' hsw
  obtain ⟨k, hk⟩ := List.mem_iff_getElem?.1 hs'
  obtain ⟨j, s, _, _, hperm, p, q, m, _, _, hq, _, _, hm, hlt⟩ :=
    swapTrace_pred arr st h k s' hk hsw
  have e1 : jsGet s.array q = c := hc _ (hperm.subset (jsGet_mem _ _ hq))
  have e2 : jsGet s.array m = c := hc _ (hperm.subset (jsGet_mem _ _ hm))
  omega

theorem insertionWhile_equal (c : Int) (i : Nat) (k : Nat) (st : SortState)
    (hc : ∀ x ∈ st.result, x = c) (hk : k ≤ st.result.length) :
    insertionWhile c i k st = (k, st) := by
  cases k with
  | zero => rfl
  | succ k =>
    have e : jsGet st.result k = c := hc _ (jsGet_mem _ _ (by omega))
    unfold insertionWhile
    simp [e]

theorem set_equal (a : List Int) (c : Int) (hc : ∀ x ∈ a, x = c) (k : Nat) :
    a.set k c = a := by
  apply List.ext_getElem?
  intro n
  by_cases hn : k = n
  · subst hn
    by_cases hl : k < a.length
    · rw [List.getElem?_set_self hl, List.getElem?_eq_getElem hl]
      exact congrArg some (hc _ (List.getElem_mem _)).symm
    · rw [List.getElem?_eq_none (by simpa using hl), List.getElem?_eq_none (by simpa using hl)]
  · rw [List.getElem?_set_ne hn]

theorem insertionOuter_equal (c : Int) (i : Nat) (st : SortState)
    (hi : i < st.result.length)
    (h : (∀ x ∈ st.result, x = c) ∧ ∀ s ∈ st.steps, s.type ≠ .shift) :
    (∀ x ∈ (insertionOuter st i).result, x = c) ∧
      (∀ s ∈ (insertionOuter st i).steps, s.type ≠ .shift) ∧
      (insertionOuter st i).result.length = st.result.length := by
  obtain ⟨hc, hs⟩ := h
  have e : jsGet st.result i = c := hc _ (jsGet_mem _ _ hi)
  unfold insertionOuter
  simp only [e]
  rw [insertionWhile_equal c i i _ (by simpa using hc)
    (by simp only [sortState_emit_result]; omega)]
  simp only [sortState_emit_result]
  split_ifs
  · simp only [sortState_emit_result, set_equal _ c hc]
    refine ⟨hc, ?_, trivial⟩
    intro s hs2
    simp only [SortState.emit, List.mem_append, List.mem_singleton] at hs2
    rcases hs2 with ((h1 | h1) | h1) | h1
    · exact hs s h1
    · subst h1; simp
    · subst h1; simp
    · subst h1; simp
  · simp only [sortState_emit_result, set_equal _ c hc]
    refine ⟨hc, ?_, trivial⟩
    intro s hs2
    simp only [SortState.emit, List.mem_append, List.mem_singleton] at hs2
    rcases hs2 with ((h1 | h1) | h1) | h1
    · exact hs s h1
    · subst h1; simp
    · subst h1; simp
    · subst h1; simp

theorem insertionSort_equal (arr : List Int) (c : Int) (hc : ∀ x ∈ arr, x = c) :
    ∀ s ∈ insertionSortSteps arr, s.type ≠ .shift := by
  have key : ∀ x ∈ (forLoop 1 arr.length insertionOuter
      (({ result := arr, steps := [], stepCounter := 1 } : SortState).emit
        { type := .init, array := arr, sorted := [0] })).steps, x.type ≠ .shift := by
    by_cases hl : 1 ≤ arr.length
    · exact (forLoop_inv
        (fun (_ : Nat) (s : SortState) => (∀ x ∈ s.result, x = c) ∧
          (∀ x ∈ s.steps, x.type ≠ .shift) ∧ s.result.length = arr.length)
        insertionOuter 1 arr.length
        (({ result := arr, steps := [], stepCounter := 1 } : SortState).emit
          { type := .init, array := arr, sorted := [0] })
        hl ⟨hc, by simp [SortState.emit], rfl⟩
        (fun k s _ hk hs => by
          obtain ⟨a, b, d⟩ := insertionOuter_equal c k s (by rw [hs.2.2]; omega)
            ⟨hs.1, hs.2.1⟩
          exact ⟨a, b, d.trans hs.2.2⟩)).2.1
    · rw [forLoop_empty _ _ _ _ (by omega)]
      simp [SortState.emit]
  intro s hs
  unfold insertionSortSteps insertionSortRun at hs
  simp only [SortState.emit, List.mem_append, List.mem_singleton] at hs key
  rcases hs with h1 | h1
  · exact key s h1
  · subst h1; simp

/-- C31. In the traces of `bubbleSortSteps`, `selectionSortSteps` and `quickSortSteps` (which
returns a trace for every array) every `swap` step has a step before it, names two indices
`p`, `q` of the array in `swapping`, and its `array` snapshot is the snapshot of the step
before it with the values at `p` and `q` exchanged and every other position unchanged. -/
theorem swap_steps_exchange (arr : List Int) :
    SwapsExchange (bubbleSortSteps arr) ∧ SwapsExchange (selectionSortSteps arr) ∧
      ∃ steps, quickSortSteps arr = some steps ∧ SwapsExchange steps := by
  refine ⟨swapTrace_exchange arr _ (bubbleSortRun_swapTrace arr),
    swapTrace_exchange arr _ (selectionSortRun_swapTrace arr), ?_⟩
  obtain ⟨st, e, h⟩ := quickSortRun_swapTrace arr
  exact ⟨st.steps, by unfold quickSortSteps; rw [e]; rfl, swapTrace_exchange arr st h⟩

/-- C32. In the traces of `bubbleSortSteps`, `selectionSortSteps` and `quickSortSteps` every
`swap` step with `swapping = [p, q]` and `p < q` follows a snapshot whose value at `p` is
strictly greater than its value at `q`; and when all elements of the input are equal, the
three traces hold no `swap` step and the trace of `insertionSortSteps` holds no `shift`
step. -/
theorem no_swap_on_equality (arr : List Int) :
    (SwapsStrict (bubbleSortSteps arr) ∧ SwapsStrict (selectionSortSteps arr) ∧
      ∃ steps, quickSortSteps arr = some steps ∧ SwapsStrict steps) ∧
    ((∃ c, ∀ x ∈ arr, x = c) →
      (∀ s ∈ bubbleSortSteps arr, s.type ≠ .swap) ∧
      (∀ s ∈ selectionSortSteps arr, s.type ≠ .swap) ∧
      (∃ steps, quickSortSteps arr = some steps ∧ ∀ s ∈ steps, s.type ≠ .swap) ∧
      (∀ s ∈ insertionSortSteps arr, s.type ≠ .shift)) := by
  obtain ⟨st, e, h⟩ := quickSortRun_swapTrace arr
  have eq : quickSortSteps arr = some st.steps := by unfold quickSortSteps; rw [e]; rfl
  refine ⟨⟨swapTrace_strict arr _ (bubbleSortRun_swapTrace arr),
    swapTrace_strict arr _ (selectionSortRun_swapTrace arr),
    st.steps, eq, swapTrace_strict arr st h⟩, ?_⟩
  rintro ⟨c, hc⟩
  exact ⟨swapTrace_equal arr c hc _ (bubbleSortRun_swapTrace arr),
    swapTrace_equal arr c hc _ (selectionSortRun_swapTrace arr),
    ⟨st.steps, eq, swapTrace_equal arr c hc st h⟩, insertionSort_equal arr c hc⟩

/-- C38. For every input array the `array` snapshot of every step of the traces of
`bubbleSortSteps`, `selectionSortSteps` and `quickSortSteps` is a permutation of the
input. -/
theorem every_snapshot_is_permutation (arr : List Int) :
    (∀ s ∈ bubbleSortSteps arr, s.array.Perm arr) ∧
    (∀ s ∈ selectionSortSteps arr, s.array.Perm arr) ∧
    ∃ steps, quickSortSteps arr = some steps ∧ ∀ s ∈ steps, s.array.Perm arr := by
  refine ⟨(bubbleSortRun_swapTrace arr).2.2.2.1, (selectionSortRun_swapTrace arr).2.2.2.1, ?_⟩
  obtain ⟨st, e, h⟩ := quickSortRun_swapTrace arr
  exact ⟨st.steps, by unfold quickSortSteps; rw [e]; rfl, h.2.2.2.1⟩

/-! ## C33: where `partition` places the pivot -/

theorem jsGet_append_lt (X Y : List Int) (k : Nat) (h : k < X.length) :
    jsGet (X ++ Y) k = jsGet X k := by
  unfold jsGet
  rw [List.getD_eq_getElem?_getD, List.getD_eq_getElem?_getD, List.getElem?_append_left h]

theorem jsGet_append_ge (X Y : List Int) (k : Nat) (h : X.length ≤ k) :
    jsGet (X ++ Y) k = jsGet Y (k - X.length) := by
  unfold jsGet
  rw [List.getD_eq_getElem?_getD, List.getD_eq_getElem?_getD, List.getElem?_append_right h]

theorem partition_spec_at (low high : Nat) (st : SortState) (P A0 S : List Int) (pivot : Int)
    (hr : st.result = P ++ (A0 ++ pivot :: S)) (hlow : low = P.length)
    (hhigh : high = P.length + A0.length) (hA : 1 ≤ A0.length) :
    ∃ (L G : List Int),
      (quickSortSteps.partition low high st).2.result = P ++ (L ++ pivot :: (G ++ S)) ∧
      (quickSortSteps.partition low high st).1 = P.length + L.length ∧
      (∀ x ∈ L, x < pivot) ∧ (∀ x ∈ G, pivot ≤ x) ∧ (L ++ G).Perm A0 := by
  have hA0 : A0.length = high - P.length := by omega
  have hpiv : jsGet st.result high = pivot := by
    have e : st.result = (P ++ A0) ++ pivot :: S := by rw [hr]; simp
    have hh : high = (P ++ A0).length := by simp; omega
    rw [e, hh]; exact jsGet_append_length _ _ _
  have key := forLoop_inv (PartitionInv P A0 S pivot)
    (quickSortSteps.partitionBody high pivot) low high
    (st.push { type := .selectPivot, array := st.result, pivot := some high }, low)
    (by omega)
    ⟨[], [], A0, by simp [hr], by simp [hlow], by simp [hlow], by simp, by simp, by simp,
      ⟨_, sortState_getLast?_push _ _, rfl⟩⟩
    (fun j s _ hj2 hinv => partitionBody_inv P A0 S pivot high j s hA0 hj2 hinv)
  unfold quickSortSteps.partition
  simp only [hpiv]
  generalize forLoop low high (quickSortSteps.partitionBody high pivot)
    (st.push { type := .selectPivot, array := st.result, pivot := some high }, low) = si at key
  obtain ⟨Ls, Gs, U, hres, hi1, hjj, hL, hG, hperm, _⟩ := key
  have hlenU : Ls.length + (Gs.length + U.length) = A0.length := by
    have := hperm.length_eq
    simpa using this
  have hU : U = [] := List.length_eq_zero.1 (by omega)
  subst hU
  simp only [List.nil_append, List.append_nil] at hres hperm
  cases Gs with
  | nil =>
    have hih : si.2 = high := by simp at hjj; omega
    refine ⟨Ls, [], ?_, hi1, hL, by simp, hperm⟩
    simp only [sortState_push_result, hih, jsSwap_self, hres]; simp
  | cons g Gs =>
    have hsw : jsSwap si.1.result si.2 high = (P ++ Ls) ++ pivot :: (Gs ++ g :: S) := by
      have e : si.1.result = (P ++ Ls) ++ g :: (Gs ++ pivot :: S) := by rw [hres]; simp
      rw [e]
      exact jsSwap_blocks (P ++ Ls) Gs S g pivot si.2 high (by simp [hi1])
        (by simp at hjj ⊢; omega)
    refine ⟨Ls, Gs ++ [g], ?_, hi1, hL, ?_, ?_⟩
    · simp only [sortState_push_result, hsw]; simp
    · intro x hx
      rcases List.mem_append.1 hx with h1 | h1
      · exact hG x (List.mem_cons_of_mem _ h1)
      · simp at h1; subst h1; exact hG x (List.mem_cons_self _ _)
    · exact (List.Perm.append_left Ls (List.perm_append_singleton g Gs)).trans hperm

theorem partition_last_step (low high : Nat) (st : SortState) :
    ∃ s, (quickSortSteps.partition low high st).2.steps.getLast? = some s ∧
      s.type = .placePivot ∧ s.pivot = some (quickSortSteps.partition low high st).1 ∧
      s.array = (quickSortSteps.partition low high st).2.result :=
  ⟨_, sortState_getLast?_push _ _, rfl, rfl, rfl⟩

/-- C33. For every call `partition(low, high)` with `low < high` inside the working array
(the calls of `quickSort` are such), whatever the state before it: the last step the call
pushes is the `place-pivot` step; its `pivot` is the returned index `p`, which is `low` plus
the number of elements at `[low, high)` that were strictly less than the pivot value
`result[high]` when the call began; in its `array` every element at `[low, p)` is strictly
less than the element at `p`, every element at `(p, high]` is at least the element at `p`,
the element at `p` is the pivot value, and the elements outside `[low, high]` are as they
were before the call. -/
theorem partition_places_pivot (low high : Nat) (st : SortState) (hlt : low < high)
    (hhigh : high < st.result.length) :
    ∃ s p, (quickSortSteps.partition low high st).2.steps.getLast? = some s ∧
      s.type = .placePivot ∧ (quickSortSteps.partition low high st).1 = p ∧
      s.pivot = some p ∧
      p = low + (jsSlice st.result low high).countP (fun x => x < jsGet st.result high) ∧
      s.array.length = st.result.length ∧
      jsGet s.array p = jsGet st.result high ∧
      (∀ k, low ≤ k → k < p → jsGet s.array k < jsGet s.array p) ∧
      (∀ k, p < k → k ≤ high → jsGet s.array p ≤ jsGet s.array k) ∧
      (∀ k, k < low ∨ high < k → jsGet s.array k = jsGet st.result k) := by
  obtain ⟨s, hs, hty, hpv, harr⟩ := partition_last_step low high st
  have e1 : st.result.drop high = jsGet st.result high :: st.result.drop (high + 1) := by
    rw [jsGet_eq_getElem _ _ hhigh]; exact List.drop_eq_getElem_cons hhigh
  have e2 : (st.result.drop low).drop (high - low) = st.result.drop high := by
    rw [List.drop_drop]; congr 1; omega
  have hsplit : st.result = st.result.take low ++
      ((st.result.drop low).take (high - low) ++
        jsGet st.result high :: st.result.drop (high + 1)) := by
    rw [← e1, ← e2, List.take_append_drop, List.take_append_drop]
  have hslice : jsSlice st.result low high = (st.result.drop low).take (high - low) := rfl
  rw [hslice]
  generalize hP : st.result.take low = P at hsplit
  generalize hA : (st.result.drop low).take (high - low) = A0 at hsplit
  generalize hS : st.result.drop (high + 1) = S at hsplit
  generalize jsGet st.result high = pivot at hsplit
  have hPl : P.length = low := by rw [← hP, List.length_take]; omega
  have hAl : A0.length = high - low := by
    rw [← hA, List.length_take, List.length_drop]; omega
  obtain ⟨L, G, hres, hret, hL, hG, hperm⟩ := partition_spec_at low high st P A0 S pivot hsplit
    hPl.symm (by omega) (by omega)
  have hlen : L.length + G.length = A0.length := by
    have := hperm.length_eq
    simpa using this
  rw [← harr] at hres
  have hp : jsGet s.array (P.length + L.length) = pivot := by
    have e : s.array = (P ++ L) ++ pivot :: (G ++ S) := by rw [hres]; simp
    have hh : P.length + L.length = (P ++ L).length := by simp
    rw [e, hh]; exact jsGet_append_length _ _ _
  refine ⟨s, P.length + L.length, hs, hty, hret, by rw [hpv, hret], ?_, ?_, hp, ?_, ?_, ?_⟩
  · have hc : A0.countP (fun x => x < pivot) = L.length := by
      rw [← hperm.countP_eq, List.countP_append]
      have c1 : L.countP (fun x => decide (x < pivot)) = L.length :=
        List.countP_eq_length.2 (fun x hx => by simpa using hL x hx)
      have c2 : G.countP (fun x => decide (x < pivot)) = 0 :=
        List.countP_eq_zero.2 (fun x hx => by have := hG x hx; simp; omega)
      rw [c1, c2]; rfl
    rw [hc, hPl]
  · rw [hres, hsplit]
    simp only [List.length_append, List.length_cons]
    omega
  · intro k hk1 hk2
    rw [hp, hres, jsGet_append_ge _ _ _ (by omega), jsGet_append_lt _ _ _ (by omega)]
    exact hL _ (jsGet_mem _ _ (by omega))
  · intro k hk1 hk2
    rw [hp, hres, jsGet_append_ge _ _ _ (by omega), jsGet_append_ge _ _ _ (by omega)]
    have e : k - P.length - L.length = (k - P.length - L.length - 1) + 1 := by omega
    rw [e]
    have e3 : jsGet (pivot :: (G ++ S)) (k - P.length - L.length - 1 + 1) =
        jsGet (G ++ S) (k - P.length - L.length - 1) := by simp [jsGet]
    rw [e3, jsGet_append_lt _ _ _ (by omega)]
    exact hG _ (jsGet_mem _ _ (by omega))
  · intro k hk
    have ea : s.array = P ++ ((L ++ pivot :: G) ++ S) := by rw [hres]; simp
    have eb : st.result = P ++ ((A0 ++ [pivot]) ++ S) := by rw [hsplit]; simp
    have hl2 : (L ++ pivot :: G).length = (A0 ++ [pivot]).length := by
      simp only [List.length_append, List.length_cons, List.length_nil]; omega
    rw [ea, eb]
    rcases hk with hk | hk
    · rw [jsGet_append_lt _ _ _ (by omega), jsGet_append_lt _ _ _ (by omega)]
    · have h3 : (A0 ++ [pivot]).length ≤ k - P.length := by
        simp only [List.length_append, List.length_cons, List.length_nil]; omega
      rw [jsGet_append_ge P _ k (by omega), jsGet_append_ge P _ k (by omega),
        jsGet_append_ge (L ++ pivot :: G) S _ (by rw [hl2]; exact h3),
        jsGet_append_ge (A0 ++ [pivot]) S _ h3, hl2]

/-- C33, at the call `partition(0, 2)` on the array `[3, 1, 2]` with no step pushed yet. -/
theorem partition_places_pivot_witness :
    0 < 2 ∧ 2 < ([3, 1, 2] : List Int).length ∧
    ∃ s p, (quickSortSteps.partition 0 2
        { result := [3, 1, 2], steps := [], stepCounter := 1 }).2.steps.getLast? = some s ∧
      s.type = .placePivot ∧ (quickSortSteps.partition 0 2
        { result := [3, 1, 2], steps := [], stepCounter := 1 }).1 = p ∧
      s.pivot = some p ∧
      p = 0 + (jsSlice [3, 1, 2] 0 2).countP (fun x => x < jsGet [3, 1, 2] 2) ∧
      s.array.length = ([3, 1, 2] : List Int).length ∧
      jsGet s.array p = jsGet [3, 1, 2] 2 ∧
      (∀ k, 0 ≤ k → k < p → jsGet s.array k < jsGet s.array p) ∧
      (∀ k, p < k → k ≤ 2 → jsGet s.array p ≤ jsGet s.array k) ∧
      (∀ k, k < 0 ∨ 2 < k → jsGet s.array k = jsGet [3, 1, 2] k) :=
  ⟨by decide, by decide,
    partition_places_pivot 0 2 { result := [3, 1, 2], steps := [], stepCounter := 1 }
      (by decide) (by decide)⟩

/-! ## C39: the number of comparisons and exchanges of bubble sort -/

theorem inversions_cons (x : Int) (l : List Int) :
    inversions (x :: l) = l.countP (fun y => y < x) + inversions l := rfl

theorem map_jsGet_range (l : List Int) : (List.range l.length).map (jsGet l) = l := by
  apply List.ext_getElem
  · simp
  · intro n h1 h2
    simp only [List.getElem_map, List.getElem_range]
    exact jsGet_eq_getElem l n h2

theorem countP_range_jsGet (l : List Int) (x : Int) :
    (List.range l.length).countP (fun q => decide (jsGet l q < x)) =
      l.countP (fun y => y < x) := by
  conv_rhs => rw [← map_jsGet_range l]
  rw [List.countP_map]
  rfl

theorem inversions_eq_pairs (a : List Int) : inversions a = inversionPairs a := by
  induction a with
  | nil => rfl
  | cons x l ih =>
    rw [inversions_cons, ih]
    unfold inversionPairs
    simp only [List.length_cons]
    rw [List.range_succ_eq_map]
    simp only [List.map_cons, List.sum_cons, List.countP_cons, List.map_map, List.countP_map]
    congr 1
    · rw [← countP_range_jsGet]
      simp [jsGet, Function.comp_def]
    · congr 1
      apply List.map_congr_left
      intro p _
      simp [jsGet, Function.comp_def]

theorem inversions_swap_adjacent (X Z : List Int) (x y : Int) (h : y < x) :
    inversions (X ++ y :: x :: Z) + 1 = inversions (X ++ x :: y :: Z) := by
  induction X with
  | nil =>
    have h2 : ¬ x < y := by omega
    simp only [List.nil_append, inversions_cons, List.countP_cons, h, h2, decide_True,
      decide_False]
    simp
    omega
  | cons a X ih =>
    have hp : (X ++ y :: x :: Z).Perm (X ++ x :: y :: Z) :=
      List.Perm.append_left X (List.Perm.swap _ _ _)
    rw [List.cons_append, List.cons_append, inversions_cons, inversions_cons, hp.countP_eq]
    omega

theorem inversions_sorted (a : List Int) (h : a.Sorted (· ≤ ·)) : inversions a = 0 := by
  induction a with
  | nil => rfl
  | cons x l ih =>
    unfold List.Sorted at h
    rw [List.pairwise_cons] at h
    have c : l.countP (fun y => decide (y < x)) = 0 :=
      List.countP_eq_zero.2 (fun y hy => by have := h.1 y hy; simp; omega)
    rw [inversions_cons, c, ih h.2]

theorem countType_emit (kind : SortKind) (st : SortState) (s : SortStep) :
    countType kind (st.emit s).steps =
      countType kind st.steps + if s.type = kind then 1 else 0 := by
  unfold countType SortState.emit
  simp only [List.countP_append, List.countP_cons, List.countP_nil]
  by_cases h : s.type = kind <;> simp [h]

theorem split_adjacent (a : List Int) (j : Nat) (hj : j + 1 < a.length) :
    a = a.take j ++ jsGet a j :: jsGet a (j + 1) :: a.drop (j + 2) := by
  have e1 : a.drop j = jsGet a j :: a.drop (j + 1) := by
    rw [jsGet_eq_getElem _ _ (by omega)]; exact List.drop_eq_getElem_cons (by omega)
  have e2 : a.drop (j + 1) = jsGet a (j + 1) :: a.drop (j + 2) := by
    rw [jsGet_eq_getElem _ _ hj]; exact List.drop_eq_getElem_cons hj
  rw [← e2, ← e1, List.take_append_drop]

theorem bubbleInner_counts (arr : List Int) (i j : Nat) (st : SortState)
    (hj : j + 1 < st.result.length)
    (h : countType .swap st.steps + inversions st.result = inversions arr) :
    (bubbleInner i st j).result.length = st.result.length ∧
    countType .compare (bubbleInner i st j).steps = countType .compare st.steps + 1 ∧
    countType .swap (bubbleInner i st j).steps + inversions (bubbleInner i st j).result =
      inversions arr := by
  unfold bubbleInner
  simp only [sortState_emit_result]
  by_cases hc : jsGet st.result j > jsGet st.result (j + 1)
  · simp only [hc, if_true, countType_emit, sortState_emit_result, length_jsSwap]
    refine ⟨trivial, by simp, ?_⟩
    have hsplit := split_adjacent st.result j hj
    have hsw : jsSwap st.result j (j + 1) =
        st.result.take j ++ jsGet st.result (j + 1) :: jsGet st.result j ::
          st.result.drop (j + 2) := by
      have hb := jsSwap_blocks (st.result.take j) [] (st.result.drop (j + 2))
        (jsGet st.result j) (jsGet st.result (j + 1)) j (j + 1)
        (by rw [List.length_take]; omega) (by rw [List.length_take]; simp; omega)
      simp only [List.nil_append] at hb
      rw [← hsplit] at hb
      exact hb
    have hinv := inversions_swap_adjacent (st.result.take j) (st.result.drop (j + 2))
      (jsGet st.result j) (jsGet st.result (j + 1)) hc
    rw [← hsplit, ← hsw] at hinv
    simp only [if_true, if_false, reduceCtorEq]
    omega
  · simp only [hc, if_false, countType_emit, sortState_emit_result]
    refine ⟨trivial, by simp, ?_⟩
    simpa using h

theorem bubbleOuter_counts (arr : List Int) (i : Nat) (st : SortState)
    (hi : i + 1 ≤ st.result.length)
    (h : countType .swap st.steps + inversions st.result = inversions arr) :
    (bubbleOuter st i).result.length = st.result.length ∧
    countType .compare (bubbleOuter st i).steps =
      countType .compare st.steps + (st.result.length - i - 1) ∧
    countType .swap (bubbleOuter st i).steps + inversions (bubbleOuter st i).result =
      inversions arr := by
  have key := forLoop_inv
    (fun (j : Nat) (s : SortState) => s.result.length = st.result.length ∧
      countType .compare s.steps = countType .compare st.steps + j ∧
      countType .swap s.steps + inversions s.result = inversions arr)
    (bubbleInner i) 0 (st.result.length - i - 1)
    (st.emit { type := .passStart, array := st.result,
               sorted := bubbleSortedSet st.result.length i })
    (Nat.zero_le _)
    ⟨rfl, by simp [countType_emit], by simpa [countType_emit] using h⟩
    (fun k s _ hk hs => by
      obtain ⟨a, b, c⟩ := bubbleInner_counts arr i k s (by rw [hs.1]; omega) hs.2.2
      exact ⟨a.trans hs.1, by rw [b, hs.2.1]; omega, c⟩)
  unfold bubbleOuter
  simp only [sortState_emit_result, countType_emit]
  obtain ⟨k1, k2, k3⟩ := key
  refine ⟨k1, by rw [k2]; simp, by simpa using k3⟩

theorem bubbleSortRun_counts (arr : List Int) :
    2 * countType .compare (bubbleSortRun arr).steps = arr.length * (arr.length - 1) ∧
    countType .swap (bubbleSortRun arr).steps + inversions (bubbleSortRun arr).result =
      inversions arr := by
  have key := forLoop_inv
    (fun (i : Nat) (s : SortState) => s.result.length = arr.length ∧
      2 * countType .compare s.steps + i * i + i = 2 * i * arr.length ∧
      countType .swap s.steps + inversions s.result = inversions arr)
    bubbleOuter 0 (arr.length - 1)
    (({ result := arr, steps := [], stepCounter := 1 } : SortState).emit
      { type := .init, array := arr })
    (Nat.zero_le _)
    ⟨rfl, by rw [countType_emit]; simp [countType], by rw [countType_emit]; simp [countType]⟩
    (fun k s _ hk hs => by
      obtain ⟨a, b, c⟩ := bubbleOuter_counts arr k s (by rw [hs.1]; omega) hs.2.2
      refine ⟨a.trans hs.1, ?_, c⟩
      rw [b, hs.1]
      obtain ⟨m, hm⟩ : ∃ m, arr.length = m + k + 1 := ⟨arr.length - k - 1, by omega⟩
      have h2 := hs.2.1
      rw [hm] at h2 ⊢
      have e : m + k + 1 - k - 1 = m := by omega
      rw [e]
      nlinarith)
  unfold bubbleSortRun
  simp only [sortState_emit_result, countType_emit]
  obtain ⟨_, k2, k3⟩ := key
  refine ⟨?_, by simpa using k3⟩
  simp only [reduceCtorEq, if_false, Nat.add_zero]
  rcases Nat.eq_zero_or_pos arr.length with h0 | h0
  · rw [h0] at k2 ⊢
    simpa using k2
  · obtain ⟨m, hm⟩ : ∃ m, arr.length = m + 1 := ⟨arr.length - 1, by omega⟩
    rw [hm] at k2 ⊢
    simp only [Nat.add_sub_cancel] at k2 ⊢
    nlinarith

/-- C39. For every array of `n` integers the trace of `bubbleSortSteps` holds exactly
`n (n - 1) / 2` steps of type `compare` (no pass ends early), and its number of `swap`
steps is the number of inversions of the input, the index pairs `p < q` with
`input[p] > input[q]`. -/
theorem bubble_compare_and_swap_counts (arr : List Int) :
    countType .compare (bubbleSortSteps arr) = arr.length * (arr.length - 1) / 2 ∧
    countType .swap (bubbleSortSteps arr) = inversionPairs arr := by
  obtain ⟨h1, h2⟩ := bubbleSortRun_counts arr
  have h3 := inversions_sorted _ (bubbleSortRun_result arr).1
  rw [← inversions_eq_pairs]
  unfold bubbleSortSteps
  refine ⟨?_, by omega⟩
  rw [← h1, Nat.mul_div_cancel_left _ (by decide : 0 < 2)]

/-! ## C37: the bounds recorded by an unsuccessful binary search -/

theorem binaryLoop_insertionPoint (array : List Int) (target : Int) :
    ∀ (fuel : Nat) (left right c : Int) (st : SearchState), 0 ≤ left →
      right < (array.length : Int) → left ≤ right + 1 → right - left + 1 ≤ (fuel : Int) →
      (array.Sorted (· ≤ ·) →
        (∀ k : Nat, (k : Int) < left → jsGet array k < target) ∧
        (∀ k : Nat, right < (k : Int) → k < array.length → target < jsGet array k)) →
      ∃ st' s, binarySearchSteps.loop array target fuel left right c st = some st' ∧
        st'.steps.getLast? = some s ∧
        (s.type = SearchKind.found ∨ s.type = SearchKind.notFound) ∧
        (s.type = SearchKind.notFound → InsertionPoint array target s) := by
  intro fuel
  induction fuel with
  | zero =>
    intro left right c st h0 hr hlr1 hf hinv
    have hlr : ¬ left ≤ right := by omega
    unfold binarySearchSteps.loop
    simp only [hlr, if_false]
    refine ⟨_, _, rfl, searchState_getLast?_emit _ _, Or.inr rfl, fun _ => ?_⟩
    refine ⟨by simp only; omega, h0, by simp only; omega, fun hs => ?_⟩
    obtain ⟨h1, h2⟩ := hinv hs
    exact ⟨h1, fun k hk hkl => h2 k (by simp only at hk; omega) hkl⟩
  | succ fuel ih =>
    intro left right c st h0 hr hlr1 hf hinv
    unfold binarySearchSteps.loop
    by_cases hlr : left ≤ right
    · simp only [hlr, if_true]
      have hm0 : 0 ≤ (left + right) / 2 := by omega
      have hmn : ((left + right) / 2).toNat < array.length := by omega
      by_cases hc : jsGet array ((left + right) / 2).toNat = target
      · simp only [hc, if_true]
        exact ⟨_, _, rfl, searchState_getLast?_emit _ _, Or.inl rfl, fun h => by simp at h⟩
      · simp only [hc, if_false]
        by_cases hlt : jsGet array ((left + right) / 2).toNat < target
        · simp only [hlt, if_true]
          apply ih _ _ _ _ (by omega) hr (by omega) (by omega)
          intro hs
          obtain ⟨h1, h2⟩ := hinv hs
          refine ⟨fun k hk => ?_, h2⟩
          have hle : k ≤ ((left + right) / 2).toNat := by omega
          have := jsGet_mono_of_sorted array hs k _ hle hmn
          omega
        · simp only [hlt, if_false]
          apply ih _ _ _ _ h0 (by omega) (by omega) (by omega)
          intro hs
          obtain ⟨h1, h2⟩ := hinv hs
          refine ⟨h1, fun k hk hkl => ?_⟩
          have hle : ((left + right) / 2).toNat ≤ k := by omega
          have := jsGet_mono_of_sorted array hs _ k hle hkl
          omega
    · simp only [hlr, if_false]
      refine ⟨_, _, rfl, searchState_getLast?_emit _ _, Or.inr rfl, fun _ => ?_⟩
      refine ⟨by simp only; omega, h0, by simp only; omega, fun hs => ?_⟩
      obtain ⟨h1, h2⟩ := hinv hs
      exact ⟨h1, fun k hk hkl => h2 k (by simp only at hk; omega) hkl⟩

/-- C37. For every array and target `binarySearchSteps` returns a trace that ends in a
`found` or a `not-found` step; when it ends in `not-found`, the bounds that step records
satisfy `left = right + 1` and `0 ≤ left ≤ array.length`, and when the array is in ascending
order every element at an index below `left` is smaller than the target and every element
at index `left` or above is larger. -/
theorem binarySearch_notFound_bounds (array : List Int) (target : Int) :
    ∃ steps s, binarySearchSteps array target = some steps ∧ steps.getLast? = some s ∧
      (s.type = SearchKind.found ∨ s.type = SearchKind.notFound) ∧
      (s.type = SearchKind.notFound →
        s.searchRange.1 = s.searchRange.2 + 1 ∧ 0 ≤ s.searchRange.1 ∧
        s.searchRange.1 ≤ (array.length : Int) ∧
        (array.Sorted (· ≤ ·) →
          (∀ k : Nat, (k : Int) < s.searchRange.1 → jsGet array k < target) ∧
          (∀ k : Nat, s.searchRange.1 ≤ (k : Int) → k < array.length →
            target < jsGet array k))) := by
  obtain ⟨st', s, e, hlast, hty, h⟩ := binaryLoop_insertionPoint array target array.length 0
    ((array.length : Int) - 1) 0
    (({ steps := [], stepCounter := 1 } : SearchState).emit
      { type := .init, array := array, target := target,
        searchRange := (0, (array.length : Int) - 1) })
    (le_refl _) (by omega) (by omega) (by omega)
    (fun _ => ⟨fun k hk => by omega, fun k hk hkl => by omega⟩)
  refine ⟨st'.steps, s, ?_, hlast, hty, h⟩
  unfold binarySearchSteps
  simp only
  rw [e]; rfl

/-! ## C40: the Fibonacci trace is linear -/

theorem memo_set_append (m : Memo) (k : Nat) (v : JsNum) (h : ∀ e ∈ m, e.1 < k) :
    m.set k v = m ++ [(k, v)] := by
  induction m with
  | nil => rfl
  | cons e m ih =>
    obtain ⟨k1, v1⟩ := e
    have h1 : k1 < k := h (k1, v1) (List.mem_cons_self _ _)
    have h2 : ¬ k < k1 := by omega
    have h3 : ¬ k = k1 := by omega
    unfold Memo.set
    simp only [h2, h3, if_false, List.cons_append]
    rw [ih (fun e he => h e (List.mem_cons_of_mem _ he))]

theorem memo_keys_set (m : Memo) (k : Nat) (v : JsNum)
    (h : m.map Prod.fst = List.range k) :
    (m.set k v).map Prod.fst = List.range (k + 1) := by
  rw [memo_set_append m k v, List.map_append, h, List.range_succ]
  · rfl
  · intro e he
    have : e.1 ∈ m.map Prod.fst := List.mem_map_of_mem _ he
    rw [h] at this
    exact List.mem_range.1 this

theorem memo_get_of_key (m : Memo) (k : Nat) (h : k ∈ m.map Prod.fst) :
    ∃ v, m.get k = some v := by
  induction m with
  | nil => simp at h
  | cons e m ih =>
    obtain ⟨k1, v1⟩ := e
    unfold Memo.get
    by_cases e1 : k = k1
    · subst e1
      exact ⟨v1, by simp [List.lookup]⟩
    · have h2 : k ∈ m.map Prod.fst := by
        simp only [List.map_cons, List.mem_cons] at h
        rcases h with h | h
        · exact absurd h e1
        · exact h
      obtain ⟨v, hv⟩ := ih h2
      refine ⟨v, ?_⟩
      have e2 : (k == k1) = false := by simpa using e1
      simp only [List.lookup, e2]
      exact hv

theorem fibonacci_hit (num depth : Nat) (v : JsNum) (st : RecState)
    (h : st.memo.get num = some v) :
    fibonacciSteps.fibonacci num depth st = fibonacciSteps.hit num v st := by
  match num with
  | 0 => unfold fibonacciSteps.fibonacci; simp only [h]
  | 1 => unfold fibonacciSteps.fibonacci; simp only [h]
  | n + 2 => unfold fibonacciSteps.fibonacci; simp only [h]

theorem callArguments_append (a b : List RecStep) :
    callArguments (a ++ b) = callArguments a ++ callArguments b := by
  simp [callArguments]

theorem countKind_append (kind : RecKind) (a b : List RecStep) :
    countKind kind (a ++ b) = countKind kind a + countKind kind b := by
  simp [countKind]

theorem memoHits_append (a b : List RecStep) : memoHits (a ++ b) = memoHits a ++ memoHits b := by
  simp [memoHits]

theorem fibonacci_counts : ∀ (m depth : Nat) (st : RecState), st.memo = [] →
    ∃ ext, (fibonacciSteps.fibonacci (m + 2) depth st).2.steps = st.steps ++ ext ∧
      (fibonacciSteps.fibonacci (m + 2) depth st).2.callStack = st.callStack ∧
      (fibonacciSteps.fibonacci (m + 2) depth st).2.memo.map Prod.fst = List.range (m + 3) ∧
      callArguments ext = (List.range (m + 3)).reverse.map some ∧
      countKind .baseCase ext = 2 ∧ countKind .ret ext = m + 1 ∧
      countKind .complete ext = 0 ∧
      memoHits ext = (List.range m).map (fun k => (some (k + 1), some (k + 3))) ∧
      ext.length = 3 * (m + 2) := by
  intro m
  induction m with
  | zero =>
    intro depth st hm
    obtain ⟨steps, stack, memo⟩ := st
    simp only at hm
    subst hm
    have hcomp : fibonacciSteps.fibonacci 2 depth
        { steps := steps, callStack := stack, memo := [] } =
        (.fin 1,
            { steps := steps ++
                [{ type := .call, callStack := stack ++ [{ value := 2, depth := depth }],
                   memoSnapshot := some [] },
                 { type := .call,
                   callStack := stack ++ [{ value := 2, depth := depth }] ++
                     [{ value := 1, depth := depth + 1 }],
                   memoSnapshot := some [] },
                 { type := .baseCase,
                   callStack := stack ++ [{ value := 2, depth := depth }] ++
                     [{ value := 1, depth := depth + 1 }],
                   result := some (.fin 1), memoSnapshot := some [] },
                 { type := .call,
                   callStack := stack ++ [{ value := 2, depth := depth }] ++
                     [{ value := 0, depth := depth + 1 }],
                   memoSnapshot := some [(1, .fin 1)] },
                 { type := .baseCase,
                   callStack := stack ++ [{ value := 2, depth := depth }] ++
                     [{ value := 0, depth := depth + 1 }],
                   result := some (.fin 0), memoSnapshot := some [(1, .fin 1)] },
                 { type := .ret, callStack := stack ++ [{ value := 2, depth := depth }],
                   result := some (.fin 1), memoSnapshot := some [(0, .fin 0), (1, .fin 1)] }]
              callStack := stack
              memo := [(0, .fin 0), (1, .fin 1), (2, .fin 1)] }) := by
      have hsum : JsNum.add (.fin 1) (.fin 0) = .fin 1 := by decide
      simp [fibonacciSteps.fibonacci, Memo.get, fibonacciSteps.enter,
        fibonacciSteps.baseCase, fibonacciSteps.leave, Memo.set, fibonacciSteps.hit,
        List.lookup, hsum]
    rw [hcomp]
    refine ⟨_, rfl, rfl, rfl, ?_, ?_, ?_, ?_, ?_, rfl⟩
    · simp [callArguments, RecStep.topValue, List.range_succ]
    · simp [countKind]
    · simp [countKind]
    · simp [countKind]
    · simp [memoHits]
  | succ m ih =>
    intro depth st hm
    have hnone : st.memo.get (m + 3) = none := by rw [hm]; rfl
    obtain ⟨ext1, e1, e2, e3, e4, e5, e6, e7, e8, e9⟩ := ih (depth + 1)
      (fibonacciSteps.enter (m + 3) depth st) hm
    have hkey : m + 1 ∈ (fibonacciSteps.fibonacci (m + 2) (depth + 1)
        (fibonacciSteps.enter (m + 3) depth st)).2.memo.map Prod.fst := by
      rw [e3]; exact List.mem_range.2 (by omega)
    obtain ⟨v, hv⟩ := memo_get_of_key _ _ hkey
    have hun : fibonacciSteps.fibonacci (m + 1 + 2) depth st =
        fibonacciSteps.leave (m + 3)
          (JsNum.add (fibonacciSteps.fibonacci (m + 2) (depth + 1)
              (fibonacciSteps.enter (m + 3) depth st)).1 v)
          (fibonacciSteps.hit (m + 1) v (fibonacciSteps.fibonacci (m + 2) (depth + 1)
              (fibonacciSteps.enter (m + 3) depth st)).2).2 := by
      conv_lhs => unfold fibonacciSteps.fibonacci
      simp only [hnone]
      rw [fibonacci_hit (m + 1) (depth + 1) v _ hv]
      rfl
    rw [hun]
    generalize fibonacciSteps.fibonacci (m + 2) (depth + 1)
      (fibonacciSteps.enter (m + 3) depth st) = r1 at e1 e2 e3 hv
    have e2' : r1.2.callStack = st.callStack ++ [{ value := m + 3, depth := depth }] := e2
    have e1' : r1.2.steps = st.steps ++
        ([{ type := .call, callStack := st.callStack ++ [{ value := m + 3, depth := depth }],
            memoSnapshot := some st.memo }] ++ ext1) := by
      rw [e1]; simp [fibonacciSteps.enter]
    refine ⟨[{ type := .call, callStack := st.callStack ++ [{ value := m + 3, depth := depth }],
               memoSnapshot := some st.memo }] ++ ext1 ++
            [{ type := .memoized, callStack := r1.2.callStack, value := some (m + 1),
               result := some v, memoSnapshot := some r1.2.memo },
             { type := .ret, callStack := r1.2.callStack, result := some (JsNum.add r1.1 v),
               memoSnapshot := some r1.2.memo }], ?_, ?_, ?_, ?_, ?_, ?_, ?_, ?_, ?_⟩
    · simp [fibonacciSteps.leave, fibonacciSteps.hit, e1']
    · simp [fibonacciSteps.leave, fibonacciSteps.hit, e2']
    · exact memo_keys_set _ _ _ e3
    · rw [callArguments_append, callArguments_append, e4]
      have h1 : List.range (m + 1 + 3) = List.range (m + 3) ++ [m + 3] := List.range_succ (m + 3)
      rw [h1]
      simp [callArguments, RecStep.topValue]
    · rw [countKind_append, countKind_append, e5]
      simp [countKind]
    · rw [countKind_append, countKind_append, e6]
      simp [countKind]
    · rw [countKind_append, countKind_append, e7]
      simp [countKind]
    · rw [memoHits_append, memoHits_append, e8, List.range_succ m, List.map_append]
      simp [memoHits, RecStep.topValue, e2']
    · simp only [List.length_append, List.length_cons, List.length_nil, e9]
      omega

/-- C40. For every `n ≥ 2` the trace of `fibonacciSteps(n)` holds one `call` step for each
argument, in the order `n, n - 1, ..., 0` (`n + 1` in total), two `base-case` steps, `n - 1`
`return` steps and `n - 2` `memoized` steps, `3 n + 1` steps in all; the `memoized` steps
are, for each argument `m` from `3` to `n`, the lookup of `m - 2` made in the frame of `m`,
so the second operand of every `m ≥ 3` is answered from the memo; and the `memoSnapshot` of
the final `complete` step has exactly the keys `0, ..., n`. -/
theorem fibonacci_trace_is_linear (n : Nat) (hn : 2 ≤ n) :
    callArguments (fibonacciSteps n) = (List.range (n + 1)).reverse.map some ∧
    countKind .call (fibonacciSteps n) = n + 1 ∧
    countKind .baseCase (fibonacciSteps n) = 2 ∧
    countKind .ret (fibonacciSteps n) = n - 1 ∧
    countKind .memoized (fibonacciSteps n) = n - 2 ∧
    (fibonacciSteps n).length = 3 * n + 1 ∧
    memoHits (fibonacciSteps n) =
      (List.range (n - 2)).map (fun k => (some (k + 1), some (k + 3))) ∧
    ∃ s memo, (fibonacciSteps n).getLast? = some s ∧ s.type = .complete ∧
      s.memoSnapshot = some memo ∧ memo.map Prod.fst = List.range (n + 1) := by
  obtain ⟨m, rfl⟩ : ∃ m, n = m + 2 := ⟨n - 2, by omega⟩
  obtain ⟨ext, e1, _, e3, e4, e5, e6, _, e8, e9⟩ := fibonacci_counts m 0
    { steps := [], callStack := [] } rfl
  simp only [List.nil_append] at e1
  have hargs : callArguments (fibonacciSteps (m + 2)) =
      (List.range (m + 2 + 1)).reverse.map some := by
    unfold fibonacciSteps
    simp only [e1]
    rw [callArguments_append, e4]
    simp [callArguments]
  have hhits : memoHits (fibonacciSteps (m + 2)) =
      (List.range (m + 2 - 2)).map (fun k => (some (k + 1), some (k + 3))) := by
    unfold fibonacciSteps
    simp only [e1]
    rw [memoHits_append, e8]
    simp [memoHits]
  refine ⟨hargs, ?_, ?_, ?_, ?_, ?_, hhits, ?_⟩
  · have := congrArg List.length hargs
    simpa [callArguments, countKind, List.countP_eq_length_filter] using this
  · unfold fibonacciSteps
    simp only [e1]
    rw [countKind_append, e5]
    simp [countKind]
  · unfold fibonacciSteps
    simp only [e1]
    rw [countKind_append, e6]
    simp [countKind]
  · have := congrArg List.length hhits
    simpa [memoHits, countKind, List.countP_eq_length_filter] using this
  · unfold fibonacciSteps
    simp only [e1, List.length_append, List.length_cons, List.length_nil, e9]
  · unfold fibonacciSteps
    exact ⟨_, _, List.getLast?_concat _, rfl, rfl, e3⟩

/-- C40, at `n = 3`. -/
theorem fibonacci_trace_is_linear_witness :
    2 ≤ 3 ∧
    callArguments (fibonacciSteps 3) = (List.range (3 + 1)).reverse.map some ∧
    countKind .call (fibonacciSteps 3) = 3 + 1 ∧
    countKind .baseCase (fibonacciSteps 3) = 2 ∧
    countKind .ret (fibonacciSteps 3) = 3 - 1 ∧
    countKind .memoized (fibonacciSteps 3) = 3 - 2 ∧
    (fibonacciSteps 3).length = 3 * 3 + 1 ∧
    memoHits (fibonacciSteps 3) =
      (List.range (3 - 2)).map (fun k => (some (k + 1), some (k + 3))) ∧
    ∃ s memo, (fibonacciSteps 3).getLast? = some s ∧ s.type = .complete ∧
      s.memoSnapshot = some memo ∧ memo.map Prod.fst = List.range (3 + 1) :=
  ⟨by decide, fibonacci_trace_is_linear 3 (by decide)⟩

/-! ## C35: every snapshot of the Hanoi trace is legal -/

theorem hanoiTrace_announce (disks : List Nat) (depth : Nat) (st : HanoiState)
    (h : HanoiTrace disks st) : HanoiTrace disks (towerOfHanoiSteps.announce depth st) := by
  obtain ⟨hc, hh, ⟨last, hl, hlt, hlm⟩, hleg⟩ := h
  have hne : st.steps ≠ [] := by intro e; rw [e] at hl; simp at hl
  refine ⟨?_, ?_, ?_, ?_⟩
  · simp only [towerOfHanoiSteps.announce]
    rw [List.chain'_append]
    refine ⟨hc, List.chain'_singleton _, ?_⟩
    intro x _ y hy
    simp only [List.head?_cons, Option.mem_def, Option.some.injEq] at hy
    subst hy
    intro hty
    simp at hty
  · intro s hs
    simp only [towerOfHanoiSteps.announce] at hs
    rw [List.head?_append_of_ne_nil _ hne] at hs
    exact hh s hs
  · exact ⟨_, List.getLast?_concat _, rfl, rfl⟩
  · intro s hs
    simp only [towerOfHanoiSteps.announce, List.mem_append, List.mem_singleton] at hs
    rcases hs with h1 | h1
    · exact hleg s h1
    · subst h1
      simp only []
      rw [← hlt]
      exact hleg last (List.mem_of_mem_getLast? hl)

theorem sorted_gt_concat (l : List Nat) (d : Nat) (hl : l.Sorted (· > ·))
    (hd : ∀ x ∈ l, d < x) : (l ++ [d]).Sorted (· > ·) := by
  unfold List.Sorted at hl ⊢
  rw [List.pairwise_append]
  exact ⟨hl, List.pairwise_singleton _ _, fun a ha b hb => by
    simp only [List.mem_singleton] at hb; subst hb; exact hd a ha⟩

theorem cloneTowers_flatten_perm (t t' : Towers) (src dest : Peg) (rest : List Nat) (d : Nat)
    (hsd : src ≠ dest) (h1 : t.get src = rest ++ [d]) (h2 : t'.get src = rest)
    (h3 : t'.get dest = t.get dest ++ [d])
    (h4 : ∀ q, q ≠ src → q ≠ dest → t'.get q = t.get q) :
    (towerOfHanoiSteps.cloneTowersArray t').flatten.Perm
      (towerOfHanoiSteps.cloneTowersArray t).flatten := by
  rw [List.perm_iff_count]
  intro a
  cases src <;> cases dest <;> first
    | exact absurd rfl hsd
    | (simp only [Towers.get] at h1 h2 h3
       first
         | (have h5 := h4 Peg.A (by decide) (by decide)
            simp only [Towers.get] at h5
            simp only [towerOfHanoiSteps.cloneTowersArray, List.flatten, List.count_append,
              h1, h2, h3, h5, List.count_nil]
            omega)
         | (have h5 := h4 Peg.B (by decide) (by decide)
            simp only [Towers.get] at h5
            simp only [towerOfHanoiSteps.cloneTowersArray, List.flatten, List.count_append,
              h1, h2, h3, h5, List.count_nil]
            omega)
         | (have h5 := h4 Peg.C (by decide) (by decide)
            simp only [Towers.get] at h5
            simp only [towerOfHanoiSteps.cloneTowersArray, List.flatten, List.count_append,
              h1, h2, h3, h5, List.count_nil]
            omega))

theorem clone_sorted_iff (t : Towers) :
    (∀ peg ∈ towerOfHanoiSteps.cloneTowersArray t, peg.Sorted (· > ·)) ↔
      ∀ p, (t.get p).Sorted (· > ·) := by
  constructor
  · intro h p
    cases p
    · exact h _ (by simp [towerOfHanoiSteps.cloneTowersArray, Towers.get])
    · exact h _ (by simp [towerOfHanoiSteps.cloneTowersArray, Towers.get])
    · exact h _ (by simp [towerOfHanoiSteps.cloneTowersArray, Towers.get])
  · intro h peg hp
    simp only [towerOfHanoiSteps.cloneTowersArray, List.mem_cons, List.mem_singleton,
      List.mem_nil_iff, or_false] at hp
    rcases hp with e | e | e
    · rw [e]; exact h Peg.A
    · rw [e]; exact h Peg.B
    · rw [e]; exact h Peg.C

theorem hanoiTrace_current (disks : List Nat) (st : HanoiState) (h : HanoiTrace disks st) :
    (∀ p, (st.towers.get p).Sorted (· > ·)) ∧
      (towerOfHanoiSteps.cloneTowersArray st.towers).flatten.Perm disks := by
  obtain ⟨_, _, ⟨last, hl, hlt, _⟩, hleg⟩ := h
  have := hleg last (List.mem_of_mem_getLast? hl)
  rw [hlt] at this
  exact ⟨(clone_sorted_iff _).1 this.1, this.2⟩

theorem hanoiTrace_moveDisk (disks : List Nat) (src dest : Peg) (depth : Nat)
    (st : HanoiState) (X : List Nat) (d : Nat) (hsd : src ≠ dest)
    (hsrc : st.towers.get src = X ++ [d]) (hd : ∀ x ∈ st.towers.get dest, d < x)
    (h : HanoiTrace disks st) :
    ∃ st', towerOfHanoiSteps.moveDisk src dest depth st = some st' ∧
      st'.towers.get src = X ∧ st'.towers.get dest = st.towers.get dest ++ [d] ∧
      (∀ q, q ≠ src → q ≠ dest → st'.towers.get q = st.towers.get q) ∧
      HanoiTrace disks st' := by
  obtain ⟨hsorted, hperm⟩ := hanoiTrace_current disks st h
  obtain ⟨hc, hh, ⟨last, hl, hlt, hlm⟩, hleg⟩ := h
  have hne : st.steps ≠ [] := by intro e; rw [e] at hl; simp at hl
  have e1 : ((st.towers.set src X).set dest (st.towers.get dest ++ [d])).get src = X := by
    rw [towers_get_set_ne _ _ _ _ hsd, towers_get_set_same]
  have e2 : ((st.towers.set src X).set dest (st.towers.get dest ++ [d])).get dest =
      st.towers.get dest ++ [d] := towers_get_set_same _ _ _
  have e3 : ∀ q, q ≠ src → q ≠ dest →
      ((st.towers.set src X).set dest (st.towers.get dest ++ [d])).get q =
        st.towers.get q := by
    intro q h1 h2
    rw [towers_get_set_ne _ _ _ _ h2, towers_get_set_ne _ _ _ _ h1]
  unfold towerOfHanoiSteps.moveDisk
  simp only [hsrc, List.getLast?_append, List.getLast?_singleton, Option.or_some,
    List.dropLast_concat]
  rw [towers_get_set_ne _ _ _ _ (Ne.symm hsd)]
  refine ⟨_, rfl, e1, e2, e3, ?_, ?_, ?_, ?_⟩
  · simp only []
    rw [List.chain'_append]
    refine ⟨hc, List.chain'_singleton _, ?_⟩
    intro x hx y hy
    simp only [List.head?_cons, Option.mem_def, Option.some.injEq] at hy hx
    subst hy
    intro _
    rw [hl] at hx
    simp only [Option.some.injEq] at hx
    subst hx
    exact ⟨d, src, dest, X, st.towers, _, rfl, hsd, hlt, rfl, hsrc, e1, e2, e3,
      by simp only [hlm]⟩
  · intro s hs
    simp only [] at hs
    rw [List.head?_append_of_ne_nil _ hne] at hs
    exact hh s hs
  · exact ⟨_, List.getLast?_concat _, rfl, rfl⟩
  · intro s hs
    simp only [List.mem_append, List.mem_singleton] at hs
    rcases hs with h1 | h1
    · exact hleg s h1
    · subst h1
      refine ⟨(clone_sorted_iff _).2 ?_, ?_⟩
      · intro q
        by_cases hq1 : q = src
        · subst hq1
          rw [e1]
          have := hsorted q
          rw [hsrc] at this
          unfold List.Sorted at this ⊢
          exact (List.pairwise_append.1 this).1
        · by_cases hq2 : q = dest
          · subst hq2
            rw [e2]
            exact sorted_gt_concat _ _ (hsorted q) hd
          · rw [e3 q hq1 hq2]
            exact hsorted q
      · exact (cloneTowers_flatten_perm st.towers _ src dest X d hsd hsrc e1 e2 e3).trans hperm

theorem hanoi_legal (disks : List Nat) : ∀ (k : Nat) (src dest aux : Peg) (depth : Nat)
    (st : HanoiState) (X D : List Nat), src ≠ dest → src ≠ aux → dest ≠ aux →
    D.length = k + 1 → st.towers.get src = X ++ D →
    (∀ d ∈ D, ∀ x ∈ st.towers.get dest, d < x) →
    (∀ d ∈ D, ∀ x ∈ st.towers.get aux, d < x) → HanoiTrace disks st →
    ∃ st', towerOfHanoiSteps.hanoi (k + 1) src dest aux depth st = some st' ∧
      st'.towers.get src = X ∧ st'.towers.get dest = st.towers.get dest ++ D ∧
      st'.towers.get aux = st.towers.get aux ∧ HanoiTrace disks st' := by
  intro k
  induction k with
  | zero =>
    intro src dest aux depth st X D hsd hsa hda hD hsrc hDd _ ht
    obtain ⟨d, rfl⟩ := List.length_eq_one.1 hD
    obtain ⟨st', e, h1, h2, h3, h4⟩ := hanoiTrace_moveDisk disks src dest depth st X d hsd
      hsrc (hDd d (List.mem_singleton_self d)) ht
    refine ⟨st', ?_, h1, h2, h3 aux (Ne.symm hsa) (Ne.symm hda), h4⟩
    unfold towerOfHanoiSteps.hanoi
    exact e
  | succ k ih =>
    intro src dest aux depth st X D hsd hsa hda hD hsrc hDd hDa ht
    cases D with
    | nil => simp at hD
    | cons d D =>
      have hD' : D.length = k + 1 := by simpa using hD
      have hsorted : (X ++ d :: D).Sorted (· > ·) := by
        have := (hanoiTrace_current disks st ht).1 src
        rw [hsrc] at this
        exact this
      have hdD : ∀ y ∈ D, y < d := by
        unfold List.Sorted at hsorted
        have := (List.pairwise_append.1 hsorted).2.1
        exact fun y hy => (List.pairwise_cons.1 this).1 y hy
      have hXD : ∀ y ∈ D, ∀ x ∈ X, y < x := by
        unfold List.Sorted at hsorted
        have := (List.pairwise_append.1 hsorted).2.2
        exact fun y hy x hx => this x hx y (List.mem_cons_of_mem _ hy)
      obtain ⟨st1, e1, a1, a2, a3, a4⟩ := ih src aux dest (depth + 1)
        (towerOfHanoiSteps.announce depth st) (X ++ [d]) D hsa hsd (Ne.symm hda) hD'
        (by simpa [towerOfHanoiSteps.announce] using hsrc)
        (fun y hy x hx => hDa y (List.mem_cons_of_mem _ hy) x hx)
        (fun y hy x hx => hDd y (List.mem_cons_of_mem _ hy) x hx)
        (hanoiTrace_announce disks depth st ht)
      have a3' : st1.towers.get dest = st.towers.get dest := a3
      have a2' : st1.towers.get aux = st.towers.get aux ++ D := a2
      obtain ⟨st2, e2, b1, b2, b3, b4⟩ := hanoiTrace_moveDisk disks src dest depth st1 X d
        hsd a1 (by rw [a3']; exact hDd d (List.mem_cons_self _ _)) a4
      have b3' : st2.towers.get aux = st.towers.get aux ++ D := by
        rw [b3 aux (Ne.symm hsa) (Ne.symm hda), a2']
      obtain ⟨st3, e3, c1, c2, c3, c4⟩ := ih aux dest src (depth + 1)
        (towerOfHanoiSteps.announce depth st2) (st.towers.get aux) D (Ne.symm hda)
        (Ne.symm hsa) (Ne.symm hsd) hD' b3'
        (by
          intro y hy x hx
          have hx2 : x ∈ st.towers.get dest ++ [d] := by
            rw [← a3', ← b2]; exact hx
          rcases List.mem_append.1 hx2 with h1 | h1
          · exact hDd y (List.mem_cons_of_mem _ hy) x h1
          · simp only [List.mem_singleton] at h1
            subst h1
            exact hdD y hy)
        (by
          intro y hy x hx
          have hx2 : x ∈ X := by rw [← b1]; exact hx
          exact hXD y hy x hx2)
        (hanoiTrace_announce disks depth st2 b4)
      refine ⟨st3, ?_, ?_, ?_, c1, c4⟩
      · unfold towerOfHanoiSteps.hanoi
        rw [e1, Option.some_bind, e2, Option.some_bind, e3]
      · rw [c3]; exact b1
      · rw [c2]
        have : (towerOfHanoiSteps.announce depth st2).towers.get dest =
            st.towers.get dest ++ [d] := by rw [← a3', ← b2]; rfl
        rw [this]; simp

theorem sorted_countdown (n : Nat) :
    (countdown n).Sorted (· > ·) ∧ ∀ x ∈ countdown n, x ≤ n := by
  induction n with
  | zero => exact ⟨List.sorted_nil, fun x hx => by simp [countdown] at hx⟩
  | succ n ih =>
    refine ⟨?_, ?_⟩
    · unfold countdown List.Sorted
      rw [List.pairwise_cons]
      exact ⟨fun x hx => by have := ih.2 x hx; omega, ih.1⟩
    · intro x hx
      simp only [countdown, List.mem_cons] at hx
      rcases hx with e | hx
      · omega
      · have := ih.2 x hx; omega

/-- C35. For every `n ≥ 1` and the default pegs, `towerOfHanoiSteps(n)` returns a trace in
which the towers snapshot of every step has strictly decreasing disk sizes from the bottom
to the top on each peg and holds, over the three pegs, exactly the disks `n, ..., 1`; and
every `move` step has a step before it, moves the disk that was on top of its peg `from` in
that step's snapshot to the top of its peg `to`, leaves the third peg as it was, and has a
`moveCount` one more than that step. -/
theorem hanoi_moves_are_legal (n : Nat) (hn : 1 ≤ n) :
    ∃ steps, towerOfHanoiSteps n Peg.A Peg.C Peg.B = some steps ∧
      (∀ s ∈ steps, (∀ peg ∈ s.towers, peg.Sorted (· > ·)) ∧
        s.towers.flatten.Perm (countdown n)) ∧
      ∀ k s', steps[k]? = some s' → s'.type = .move →
        ∃ (j : Nat) (s : HanoiStep) (disk : Nat) (src dest : Peg) (rest : List Nat)
          (t t' : Towers), k = j + 1 ∧ steps[j]? = some s ∧
          s'.move = some { disk := disk, fromPeg := src, toPeg := dest } ∧ src ≠ dest ∧
          s.towers = towerOfHanoiSteps.cloneTowersArray t ∧
          s'.towers = towerOfHanoiSteps.cloneTowersArray t' ∧
          t.get src = rest ++ [disk] ∧ t'.get src = rest ∧
          t'.get dest = t.get dest ++ [disk] ∧
          (∀ q, q ≠ src → q ≠ dest → t'.get q = t.get q) ∧
          s'.moveCount = s.moveCount + 1 := by
  obtain ⟨k, rfl⟩ : ∃ k, n = k + 1 := ⟨n - 1, by omega⟩
  have h0 : HanoiTrace (countdown (k + 1))
      { towers := { A := countdown (k + 1), B := [], C := [] }, moveCount := 0,
        steps := [{ type := .initial,
                    towers := towerOfHanoiSteps.cloneTowersArray
                      { A := countdown (k + 1), B := [], C := [] },
                    moveCount := 0 }] } := by
    refine ⟨List.chain'_singleton _, ?_, ⟨_, rfl, rfl, rfl⟩, ?_⟩
    · intro s hs
      simp only [List.head?_cons, Option.some.injEq] at hs
      subst hs
      simp
    · intro s hs
      simp only [List.mem_singleton] at hs
      subst hs
      refine ⟨?_, by simp [towerOfHanoiSteps.cloneTowersArray]⟩
      intro peg hp
      simp only [towerOfHanoiSteps.cloneTowersArray, List.mem_cons, List.mem_singleton,
        List.mem_nil_iff, or_false] at hp
      rcases hp with e | e | e
      · rw [e]; exact (sorted_countdown _).1
      · rw [e]; exact List.sorted_nil
      · rw [e]; exact List.sorted_nil
  obtain ⟨st', e, _, _, _, h4⟩ := hanoi_legal (countdown (k + 1)) k Peg.A Peg.C Peg.B 0
    { towers := { A := countdown (k + 1), B := [], C := [] }, moveCount := 0,
      steps := [{ type := .initial,
                  towers := towerOfHanoiSteps.cloneTowersArray
                    { A := countdown (k + 1), B := [], C := [] },
                  moveCount := 0 }] }
    [] (countdown (k + 1)) (by decide) (by decide) (by decide) (length_countdown _) rfl
    (fun d _ x hx => by simp [Towers.get] at hx)
    (fun d _ x hx => by simp [Towers.get] at hx) h0
  obtain ⟨hc, hh, ⟨last, hl, hlt, hlm⟩, hleg⟩ := h4
  have hne : st'.steps ≠ [] := by intro e; rw [e] at hl; simp at hl
  have hchain : (st'.steps ++
      [({ type := .complete, towers := towerOfHanoiSteps.cloneTowersArray st'.towers,
          moveCount := st'.moveCount } : HanoiStep)]).Chain' MoveValid := by
    rw [List.chain'_append]
    refine ⟨hc, List.chain'_singleton _, ?_⟩
    intro x _ y hy
    simp only [List.head?_cons, Option.mem_def, Option.some.injEq] at hy
    subst hy
    intro hty
    simp at hty
  refine ⟨st'.steps ++
      [({ type := .complete, towers := towerOfHanoiSteps.cloneTowersArray st'.towers,
          moveCount := st'.moveCount } : HanoiStep)], ?_, ?_, ?_⟩
  · unfold towerOfHanoiSteps
    simp only [Towers.set, Towers.get, List.nil_append]
    rw [e]; rfl
  · intro s hs
    simp only [List.mem_append, List.mem_singleton] at hs
    rcases hs with h1 | h1
    · exact hleg s h1
    · subst h1
      simp only []
      rw [← hlt]
      exact hleg last (List.mem_of_mem_getLast? hl)
  · intro i s' hi hty
    cases i with
    | zero =>
      have : st'.steps.head? = some s' := by
        rw [← hi, List.getElem?_append_left (List.length_pos.2 hne)]
        cases st'.steps <;> simp
      exact absurd hty (hh s' this)
    | succ j =>
      obtain ⟨h2, e2⟩ := List.getElem?_eq_some.1 hi
      have h1 : j < (st'.steps ++
          [({ type := .complete, towers := towerOfHanoiSteps.cloneTowersArray st'.towers,
              moveCount := st'.moveCount } : HanoiStep)]).length := by omega
      have hv := List.chain'_iff_get.1 hchain j (by omega)
      have e3 : (st'.steps ++
          [({ type := .complete, towers := towerOfHanoiSteps.cloneTowersArray st'.towers,
              moveCount := st'.moveCount } : HanoiStep)]).get ⟨j + 1, h2⟩ = s' := e2
      rw [e3] at hv
      obtain ⟨disk, src, dest, rest, t, t', g1, g2, g3, g4, g5, g6, g7, g8, g9⟩ := hv hty
      exact ⟨j, _, disk, src, dest, rest, t, t', rfl, List.getElem?_eq_getElem h1, g1, g2,
        g3, g4, g5, g6, g7, g8, g9⟩

/-- C35, at `n = 2`. -/
theorem hanoi_moves_are_legal_witness :
    1 ≤ 2 ∧
    ∃ steps, towerOfHanoiSteps 2 Peg.A Peg.C Peg.B = some steps ∧
      (∀ s ∈ steps, (∀ peg ∈ s.towers, peg.Sorted (· > ·)) ∧
        s.towers.flatten.Perm (countdown 2)) ∧
      ∀ k s', steps[k]? = some s' → s'.type = .move →
        ∃ (j : Nat) (s : HanoiStep) (disk : Nat) (src dest : Peg) (rest : List Nat)
          (t t' : Towers), k = j + 1 ∧ steps[j]? = some s ∧
          s'.move = some { disk := disk, fromPeg := src, toPeg := dest } ∧ src ≠ dest ∧
          s.towers = towerOfHanoiSteps.cloneTowersArray t ∧
          s'.towers = towerOfHanoiSteps.cloneTowersArray t' ∧
          t.get src = rest ++ [disk] ∧ t'.get src = rest ∧
          t'.get dest = t.get dest ++ [disk] ∧
          (∀ q, q ≠ src → q ≠ dest → t'.get q = t.get q) ∧
          s'.moveCount = s.moveCount + 1 :=
  ⟨by decide, hanoi_moves_are_legal 2 (by decide)⟩

/-! ## Linear probing: the outcome of the probe loop -/

theorem probe_outcome (tableSize : Int) (keyStr value : String) (initialIndex : Option Int)
    (hm : 1 ≤ tableSize) :
    ∀ (left : Nat) (ci : Int) (pc : Nat) (st : ProbeState), 1 ≤ left → 0 ≤ ci →
      ci < tableSize → (st.hashTable.length : Int) = tableSize →
      ∃ st' probes final, hashWithLinearProbingSteps.probe tableSize keyStr value
          initialIndex left (some ci) pc st = some st' ∧
        st'.steps = st.steps ++ (probes ++ [final]) ∧
        ProbeOutcome tableSize keyStr value initialIndex left ci pc st.hashTable
          st'.hashTable probes final := by
  intro left
  induction left with
  | zero => intro ci pc st h; omega
  | succ n ih =>
    intro ci pc st _ h0 h1 hlen
    have hr : 0 ≤ ci ∧ ci < (st.hashTable.length : Int) := ⟨h0, by omega⟩
    have hci : ci % tableSize = ci := Int.emod_eq_of_lt h0 h1
    cases hheld : heldByOther (st.hashTable.getD ci.toNat none) keyStr with
    | true =>
      cases n with
      | zero =>
        rw [probe_held_last tableSize keyStr value initialIndex 1 (Nat.le_refl 1) ci pc st hr
          hheld]
        refine ⟨_, [_], _, rfl, List.append_assoc _ _ _, ?_, ?_, rfl, Or.inr ⟨rfl, rfl, rfl, rfl⟩⟩
        · intro s hs
          simp only [List.mem_singleton] at hs
          subst hs
          exact ⟨rfl, rfl, _, rfl, rfl⟩
        · intro q hq
          simp only [List.length_singleton] at hq
          have : q = 0 := by omega
          subst this
          simp only [Nat.cast_zero, add_zero, hci]
          exact hheld
      | succ k =>
        rw [probe_held_step tableSize keyStr value initialIndex k ci pc st hr hheld]
        obtain ⟨c, hc, hc0, hc1⟩ := jsRem_range (ci + 1) tableSize (by omega) hm
        have hcv : c = (ci + 1) % tableSize := by
          unfold jsRem at hc
          have hne : ¬ tableSize = 0 := by omega
          simp only [hne, if_false, Option.some.injEq] at hc
          rw [← hc, Int.tmod_eq_emod (by omega) (by omega)]
        rw [hc]
        obtain ⟨st', probes, final, e, hsteps, hp1, hp2, hp3, hp4⟩ :=
          ih c (pc + 1) (st.emit
            { type := .collisionProbe, hashTable := st.hashTable,
              currentHashStep := some
                { key := keyStr, hash := 0, initialIndex := initialIndex,
                  currentProbe := some ci, probeCount := some (pc + 1),
                  occupied := st.hashTable.getD ci.toNat none } })
            (by omega) hc0 hc1 (by simpa [probeState_emit_hashTable] using hlen)
        have hidx : ∀ q : Nat, (c + (q : Int)) % tableSize =
            (ci + ((q + 1 : Nat) : Int)) % tableSize := by
          intro q
          rw [hcv, Int.emod_add_emod]
          congr 1
          push_cast
          ring
        simp only [probeState_emit_hashTable] at hp1 hp2 hp4
        refine ⟨st',
          ({ type := .collisionProbe, hashTable := st.hashTable,
             currentHashStep := some
               { key := keyStr, hash := 0, initialIndex := initialIndex,
                 currentProbe := some ci, probeCount := some (pc + 1),
                 occupied := st.hashTable.getD ci.toNat none },
             stepNumber := some st.stepCounter } : ProbeStep) :: probes,
          final, e, ?_, ?_, ?_, hp3, ?_⟩
        · rw [hsteps, probeState_emit_steps]
          simp
        · intro s hs
          rcases List.mem_cons.1 hs with rfl | hs
          · exact ⟨rfl, rfl, _, rfl, rfl⟩
          · exact hp1 s hs
        · intro q hq
          cases q with
          | zero =>
            simp only [Nat.cast_zero, add_zero, hci]
            exact hheld
          | succ q =>
            rw [← hidx q]
            exact hp2 q (by simpa using hq)
        · rcases hp4 with ⟨a1, a2, a3, a4, a5⟩ | ⟨a1, a2, a3, a4⟩
          · refine Or.inl ⟨a1, by simp only [List.length_cons]; omega, ?_, ?_, ?_⟩
            · simp only [List.length_cons]
              rw [← hidx probes.length]
              exact a3
            · simp only [List.length_cons]
              rw [← hidx probes.length]
              exact a4
            · simp only [List.length_cons]
              rw [← hidx probes.length, a5]
              have : pc + 1 + probes.length = pc + (probes.length + 1) := by omega
              rw [this]
          · exact Or.inr ⟨a1, by simp only [List.length_cons]; omega, a3, a4⟩
    | false =>
      rw [probe_free tableSize keyStr value initialIndex (n + 1) ci pc st hr hheld]
      refine ⟨_, [], _, rfl, rfl, ?_, ?_, rfl, Or.inl ⟨rfl, by simp, ?_, ?_, ?_⟩⟩
      · intro s hs; cases hs
      · intro q hq; simp at hq
      · simp only [List.length_nil, Nat.cast_zero, add_zero, hci]
        exact hheld
      · simp only [List.length_nil, Nat.cast_zero, add_zero, hci]
        rfl
      · simp only [List.length_nil, Nat.cast_zero, add_zero, hci]

theorem probing_insertKey_outcome (hashFunc : HashFn) (tableSize : Int)
    (hashFunction : String) (hm : 1 ≤ tableSize) (key : Key) (idx : Int)
    (hres : (hashFunc key tableSize).result = some idx) (h0 : 0 ≤ idx) (h1 : idx < tableSize)
    (st : ProbeState) (hlen : (st.hashTable.length : Int) = tableSize) :
    ∃ st' hc hr probes final,
      hashWithLinearProbingSteps.insertKey hashFunc tableSize hashFunction st key = some st' ∧
      st'.steps = st.steps ++ (hc :: hr :: (probes ++ [final])) ∧
      hc.type = .hashComputation ∧ hc.hashTable = st.hashTable ∧
      (∃ info, hc.currentHashStep = some info ∧ info.key = key.toString) ∧
      hr.type = .hashResult ∧ hr.hashTable = st.hashTable ∧
      (∃ info, hr.currentHashStep = some info ∧ info.key = key.toString ∧
        info.index = some idx) ∧
      ProbeOutcome tableSize key.toString ("value_" ++ key.toString) (some idx)
        tableSize.toNat idx 0 st.hashTable st'.hashTable probes final := by
  unfold hashWithLinearProbingSteps.insertKey
  simp only [hres]
  obtain ⟨st', probes, final, e, hsteps, hout⟩ :=
    probe_outcome tableSize key.toString ("value_" ++ key.toString) (some idx) hm
      tableSize.toNat idx 0
      ((st.emit
        { type := .hashComputation, hashTable := st.hashTable,
          currentHashStep := some
            { key := key.toString, hash := 0, function := some hashFunction,
              computationSteps := some ["Hash result: " ++ showNum (some idx)] } }).emit
        { type := .hashResult, hashTable := st.hashTable,
          currentHashStep := some
            { key := key.toString, hash := 0, index := some idx,
              function := some hashFunction } })
      (by omega) h0 h1 (by simpa [probeState_emit_hashTable] using hlen)
  simp only [probeState_emit_hashTable] at hout
  refine ⟨st', _, _, probes, final, e,
    hsteps.trans ((List.append_assoc _ _ _).trans (List.append_assoc _ _ _)),
    rfl, rfl, ⟨_, rfl, rfl⟩, rfl, rfl, ⟨_, rfl, rfl, rfl⟩, hout⟩

theorem noGap_reaches (t : List (Option Entry)) (m : Int) (keyStr : String) (hm : 1 ≤ m) :
    ∀ (n N : Nat) (ci : Int), 0 ≤ ci → ci < m → n ≤ N → NoGapFrom t m keyStr N ci →
      (∀ q : Nat, q < n → heldByOther (t.getD ((ci + (q : Int)) % m).toNat none) keyStr = true) →
      ∃ occ, t[((ci + (n : Int)) % m).toNat]? = some (some occ) := by
  intro n
  induction n with
  | zero =>
    intro N ci h0 h1 _ hg _
    have hci : ci % m = ci := Int.emod_eq_of_lt h0 h1
    simp only [Nat.cast_zero, add_zero, hci]
    cases N with
    | zero => exact hg
    | succ N => obtain ⟨occ, ho, _⟩ := hg; exact ⟨occ, ho⟩
  | succ n ih =>
    intro N ci h0 h1 hle hg hheld
    cases N with
    | zero => omega
    | succ N =>
      obtain ⟨occ, ho, hnext⟩ := hg
      have hci : ci % m = ci := Int.emod_eq_of_lt h0 h1
      have hh0 := hheld 0 (by omega)
      simp only [Nat.cast_zero, add_zero, hci] at hh0
      obtain ⟨occ2, e2, hne⟩ := heldByOther_true _ _ hh0
      have e3 := getElem?_of_getD _ _ _ e2
      rw [ho] at e3
      simp only [Option.some.injEq] at e3
      subst e3
      have hr := tmod_succ_range ci m h0 hm
      have hcv : Int.tmod (ci + 1) m = (ci + 1) % m := Int.tmod_eq_emod (by omega) (by omega)
      have hidx : ∀ q : Nat, (Int.tmod (ci + 1) m + (q : Int)) % m =
          (ci + ((q + 1 : Nat) : Int)) % m := by
        intro q
        rw [hcv, Int.emod_add_emod]
        congr 1
        push_cast
        ring
      obtain ⟨occ3, h3⟩ := ih N (Int.tmod (ci + 1) m) hr.1 hr.2 (by omega) (hnext hne)
        (fun q hq => by rw [hidx q]; exact hheld (q + 1) (by omega))
      rw [hidx n] at h3
      exact ⟨occ3, h3⟩

theorem uniqueKeys_set (t : List (Option Entry)) (c : Nat) (e : Entry) (h : UniqueKeys t)
    (hnew : ∀ (slot : Nat) (e' : Entry), t[slot]? = some (some e') → e'.key ≠ e.key) :
    UniqueKeys (t.set c (some e)) := by
  intro i j a b hi hj hab
  by_cases hic : c = i
  · by_cases hjc : c = j
    · omega
    · subst hic
      rw [List.getElem?_set_ne hjc] at hj
      have hl : c < t.length := by
        by_contra hcon
        rw [List.getElem?_eq_none (by simpa using hcon)] at hi
        cases hi
      rw [List.getElem?_set_self hl] at hi
      simp only [Option.some.injEq] at hi
      subst hi
      exact absurd hab.symm (hnew j b hj)
  · rw [List.getElem?_set_ne hic] at hi
    by_cases hjc : c = j
    · subst hjc
      have hl : c < t.length := by
        by_contra hcon
        rw [List.getElem?_eq_none (by simpa using hcon)] at hj
        cases hj
      rw [List.getElem?_set_self hl] at hj
      simp only [Option.some.injEq] at hj
      subst hj
      exact absurd hab (hnew i a hi)
    · rw [List.getElem?_set_ne hjc] at hj
      exact h i j a b hi hj hab

theorem probing_insertKey_runInv (hashFunc : HashFn) (tableSize : Int) (hashFunction : String)
    (hm : 1 ≤ tableSize) (hrange : IndexInRange hashFunc tableSize)
    (hstr : ByStringForm hashFunc tableSize) (done : List Key) (key : Key) (st : ProbeState)
    (h : ProbeRunInv hashFunc tableSize done st) :
    ∃ st' seg,
      hashWithLinearProbingSteps.insertKey hashFunc tableSize hashFunction st key = some st' ∧
      st'.steps = st.steps ++ seg ∧
      (ProbeSeg hashFunc tableSize key seg ∧ ∀ s ∈ seg, UniqueKeys s.hashTable) ∧
      ProbeRunInv hashFunc tableSize (done ++ [key]) st' := by
  obtain ⟨hl, hinv, hgap, huniq, hdone⟩ := h
  obtain ⟨idx, hres, h0, h1⟩ := hrange key
  obtain ⟨st', hc, hr, probes, final, e, hsteps, c1, c2, c3, r1, r2, r3, hout⟩ :=
    probing_insertKey_outcome hashFunc tableSize hashFunction hm key idx hres h0 h1 st hl
  obtain ⟨hnew, hkept⟩ := probing_insertKey_noGap hashFunc tableSize hashFunction hm key
    idx hres h0 h1 st st' hl hinv.2.2 e
  have hgap' : ∀ k ∈ done ++ [key], ∀ idx2, (hashFunc k tableSize).result = some idx2 →
      NoGapFrom st'.hashTable tableSize k.toString (tableSize.toNat - 1) idx2 := by
    intro k hk idx2 hres2
    rcases List.mem_append.1 hk with hold | hnow
    · exact noGapFrom_mono _ _ _ _ hkept _ _ (hgap k hold idx2 hres2)
    · simp only [List.mem_singleton] at hnow
      subst hnow
      rw [hres] at hres2
      cases hres2
      exact hnew
  have hinv' := probing_insertKey_inv hashFunc tableSize hashFunction st st' key e hinv
  have htab : (st'.hashTable.length : Int) = tableSize ∧ UniqueKeys st'.hashTable ∧
      ∀ (slot : Nat) (e : Entry), st'.hashTable[slot]? = some (some e) →
        ∃ k0 ∈ done ++ [key], e.key = k0.toString := by
    have hold : ∀ (slot : Nat) (e : Entry), st.hashTable[slot]? = some (some e) →
        ∃ k0 ∈ done ++ [key], e.key = k0.toString := by
      intro slot e he
      obtain ⟨k0, hk0, hk⟩ := hdone slot e he
      exact ⟨k0, List.mem_append_left _ hk0, hk⟩
    obtain ⟨_, hheld, _, hcase⟩ := hout
    rcases hcase with ⟨_, hn, hfree, ht', _⟩ | ⟨_, _, ht', _⟩
    · rcases not_heldByOther _ _ hfree with hnone | ⟨occ, hocc, hkey⟩
      · have hfresh : ∀ (slot : Nat) (e' : Entry), st.hashTable[slot]? = some (some e') →
            e'.key ≠ key.toString := by
          intro slot e' he' heq
          obtain ⟨k0, hk0, hk⟩ := hdone slot e' he'
          have hsame : k0.toString = key.toString := by rw [← hk, heq]
          have hres0 : (hashFunc k0 tableSize).result = some idx := by
            rw [hstr k0 key hsame]; exact hres
          have hg := hgap k0 hk0 idx hres0
          rw [hsame] at hg
          obtain ⟨occ, hocc⟩ := noGap_reaches st.hashTable tableSize key.toString hm
            probes.length (tableSize.toNat - 1) idx h0 h1 (by omega) hg hheld
          rw [List.getD_eq_getElem?_getD, hocc] at hnone
          simp at hnone
        rw [ht']
        refine ⟨by rw [List.length_set]; exact hl, uniqueKeys_set _ _ _ huniq hfresh, ?_⟩
        intro slot e he
        by_cases hs : ((idx + (probes.length : Int)) % tableSize).toNat = slot
        · subst hs
          have hlt : ((idx + (probes.length : Int)) % tableSize).toNat < st.hashTable.length := by
            by_contra hcon
            rw [List.getElem?_eq_none (by simpa using hcon)] at he
            cases he
          rw [List.getElem?_set_self hlt] at he
          simp only [Option.some.injEq] at he
          subst he
          exact ⟨key, List.mem_append_right _ (List.mem_singleton_self _), rfl⟩
        · rw [List.getElem?_set_ne hs] at he
          exact hold slot e he
      · have hocc2 := getElem?_of_getD _ _ _ hocc
        have hcan : occ.value = "value_" ++ occ.key :=
          hinv.2.2 occ (List.mem_iff_getElem?.2 ⟨_, hocc2⟩)
        have hoe : occ = { key := key.toString, value := "value_" ++ key.toString } := by
          cases occ
          simp only [Entry.mk.injEq] at hkey hcan ⊢
          exact ⟨hkey, by rw [hcan, hkey]⟩
        rw [← hoe] at ht'
        rw [set_same _ _ _ hocc2] at ht'
        rw [ht']
        exact ⟨hl, huniq, hold⟩
    · rw [ht']
      exact ⟨hl, huniq, hold⟩
  refine ⟨st', hc :: hr :: (probes ++ [final]), e, hsteps, ?_, htab.1, hinv', hgap',
    htab.2.1, htab.2.2⟩
  refine ⟨⟨st.hashTable, st'.hashTable, idx, hc, hr, probes, final, rfl, hres, h0, h1, hl,
    c1, c2, c3, r1, r2, r3, hout⟩, ?_⟩
  intro x hx
  rcases List.mem_cons.1 hx with rfl | hx
  · rw [c2]; exact huniq
  rcases List.mem_cons.1 hx with rfl | hx
  · rw [r2]; exact huniq
  rcases List.mem_append.1 hx with hx | hx
  · rw [(hout.1 x hx).2.1]; exact huniq
  · simp only [List.mem_singleton] at hx
    subst hx
    rw [hout.2.2.1]; exact htab.2.1

theorem probing_run_outcome (multiplication : HashFn) (keys : List Key) (tableSize : Int)
    (hashFunction : String) (hsize : 1 ≤ tableSize)
    (hrange : IndexInRange (hashFunctions.resolve multiplication hashFunction) tableSize)
    (hstr : ByStringForm (hashFunctions.resolve multiplication hashFunction) tableSize) :
    ∃ (st : ProbeState) (segments : List (List ProbeStep)),
      hashWithLinearProbingRun multiplication keys tableSize hashFunction =
        some (st.emit { type := .complete, hashTable := st.hashTable }) ∧
      st.steps =
        { type := .init, hashTable := List.replicate tableSize.toNat none,
          stepNumber := some 1 } :: segments.flatten ∧
      List.Forall₂ (fun key seg =>
          ProbeSeg (hashFunctions.resolve multiplication hashFunction) tableSize key seg ∧
            ∀ s ∈ seg, UniqueKeys s.hashTable)
        keys segments ∧
      ProbeRunInv (hashFunctions.resolve multiplication hashFunction) tableSize keys st := by
  obtain ⟨st2, e, hinv, segments, hsteps, hseg⟩ := forEachM_inv
    (hashWithLinearProbingSteps.insertKey (hashFunctions.resolve multiplication hashFunction)
      tableSize hashFunction)
    (fun (done : List Key) (st : ProbeState) =>
      ProbeRunInv (hashFunctions.resolve multiplication hashFunction) tableSize done st ∧
      ∃ segments : List (List ProbeStep), st.steps =
        { type := .init, hashTable := List.replicate tableSize.toNat none,
          stepNumber := some 1 } :: segments.flatten ∧
        List.Forall₂ (fun key seg =>
            ProbeSeg (hashFunctions.resolve multiplication hashFunction) tableSize key seg ∧
              ∀ s ∈ seg, UniqueKeys s.hashTable)
          done segments)
    (fun done a s h => by
      obtain ⟨hi, segs, hs, hf⟩ := h
      obtain ⟨s', seg, e, hs', hk, hi'⟩ := probing_insertKey_runInv
        (hashFunctions.resolve multiplication hashFunction) tableSize hashFunction hsize hrange
        hstr done a s hi
      refine ⟨s', e, hi', segs ++ [seg], ?_, ?_⟩
      · rw [hs', hs]
        simp
      · exact List.rel_append hf (List.Forall₂.cons hk List.Forall₂.nil))
    keys []
    (({ hashTable := List.replicate tableSize.toNat none, steps := [], stepCounter := 1 } :
      ProbeState).emit { type := .init, hashTable := List.replicate tableSize.toNat none })
    ⟨⟨by simp [probeState_emit_hashTable]; omega,
      probeInv_emit _ _ ⟨List.chain'_nil, fun s hs => (by cases hs), fun e he => (by
        simp only [List.mem_replicate] at he
        cases he.2)⟩ rfl,
      fun k hk => (by cases hk),
      fun i j a b hi _ _ => (by
        have := List.mem_iff_getElem?.2 ⟨i, hi⟩
        simp only [probeState_emit_hashTable, List.mem_replicate] at this
        cases this.2),
      fun slot a ha => (by
        have := List.mem_iff_getElem?.2 ⟨slot, ha⟩
        simp only [probeState_emit_hashTable, List.mem_replicate] at this
        cases this.2)⟩, [], rfl, List.Forall₂.nil⟩
  refine ⟨st2, segments, ?_, hsteps, by simpa using hseg, by simpa using hinv⟩
  unfold hashWithLinearProbingRun
  have hneg : ¬ tableSize < 0 := by omega
  simp only [hneg, if_false]
  rw [e]
  rfl

theorem probing_run_probeSegs (multiplication : HashFn) (keys : List Key) (tableSize : Int)
    (hashFunction : String) (hsize : 1 ≤ tableSize)
    (hrange : IndexInRange (hashFunctions.resolve multiplication hashFunction) tableSize) :
    ∃ (st : ProbeState) (segments : List (List ProbeStep)),
      hashWithLinearProbingRun multiplication keys tableSize hashFunction =
        some (st.emit { type := .complete, hashTable := st.hashTable }) ∧
      st.steps =
        { type := .init, hashTable := List.replicate tableSize.toNat none,
          stepNumber := some 1 } :: segments.flatten ∧
      List.Forall₂ (ProbeSeg (hashFunctions.resolve multiplication hashFunction) tableSize)
        keys segments := by
  obtain ⟨st2, e, _, segments, hsteps, hseg⟩ := forEachM_inv
    (hashWithLinearProbingSteps.insertKey (hashFunctions.resolve multiplication hashFunction)
      tableSize hashFunction)
    (fun (done : List Key) (st : ProbeState) => (st.hashTable.length : Int) = tableSize ∧
      ∃ segments : List (List ProbeStep), st.steps =
        { type := .init, hashTable := List.replicate tableSize.toNat none,
          stepNumber := some 1 } :: segments.flatten ∧
        List.Forall₂ (ProbeSeg (hashFunctions.resolve multiplication hashFunction) tableSize)
          done segments)
    (fun done a s h => by
      obtain ⟨hl, segs, hs, hf⟩ := h
      obtain ⟨idx, hres, h0, h1⟩ := hrange a
      obtain ⟨s', hc, hr, probes, final, e, hs', c1, c2, c3, r1, r2, r3, hout⟩ :=
        probing_insertKey_outcome (hashFunctions.resolve multiplication hashFunction)
          tableSize hashFunction hsize a idx hres h0 h1 s hl
      refine ⟨s', e, ?_, segs ++ [hc :: hr :: (probes ++ [final])], ?_, ?_⟩
      · rcases hout.2.2.2 with ⟨_, _, _, ht', _⟩ | ⟨_, _, ht', _⟩
        · rw [ht', List.length_set]; exact hl
        · rw [ht']; exact hl
      · rw [hs', hs]
        simp
      · exact List.rel_append hf (List.Forall₂.cons
          ⟨s.hashTable, s'.hashTable, idx, hc, hr, probes, final, rfl, hres, h0, h1, hl,
            c1, c2, c3, r1, r2, r3, hout⟩ List.Forall₂.nil))
    keys []
    (({ hashTable := List.replicate tableSize.toNat none, steps := [], stepCounter := 1 } :
      ProbeState).emit { type := .init, hashTable := List.replicate tableSize.toNat none })
    ⟨by simp [probeState_emit_hashTable]; omega, [], rfl, List.Forall₂.nil⟩
  refine ⟨st2, segments, ?_, hsteps, by simpa using hseg⟩
  unfold hashWithLinearProbingRun
  have hneg : ¬ tableSize < 0 := by omega
  simp only [hneg, if_false]
  rw [e]
  rfl

/-! ## C34: when a key meets a full table -/

theorem path_covers (t : List (Option Entry)) (m : Int) (keyStr : String) (hm : 1 ≤ m)
    (ci : Int)
    (hall : ∀ q : Nat, q < m.toNat →
      heldByOther (t.getD ((ci + (q : Int)) % m).toNat none) keyStr = true)
    (j : Nat) (hj : (j : Int) < m) : heldByOther (t.getD j none) keyStr = true := by
  have hm0 : m ≠ 0 := by omega
  have hq0 : 0 ≤ ((j : Int) - ci) % m := Int.emod_nonneg _ hm0
  have hq1 : ((j : Int) - ci) % m < m := Int.emod_lt_of_pos _ (by omega)
  have := hall ((((j : Int) - ci) % m).toNat) (by omega)
  rw [Int.toNat_of_nonneg hq0, Int.add_emod_emod] at this
  have e : ci + ((j : Int) - ci) = (j : Int) := by ring
  rw [e, Int.emod_eq_of_lt (by omega) hj] at this
  simpa using this

theorem probeSeg_tableFull (hashFunc : HashFn) (tableSize : Int) (hm : 1 ≤ tableSize)
    (key : Key) (seg : List ProbeStep) (h : ProbeSeg hashFunc tableSize key seg) :
    TableFullSeg tableSize key seg := by
  obtain ⟨t, t', idx, hc, hr, probes, final, rfl, _, h0, h1, hl, c1, c2, c3, r1, r2,
    ⟨ri, r3, r4, _⟩, hp, hheld, hfin, hcase⟩ := h
  have hm0 : tableSize ≠ 0 := by omega
  have hfull : (∃ s ∈ hc :: hr :: (probes ++ [final]), s.type = HashKind.tableFull) ↔
      final.type = HashKind.tableFull := by
    constructor
    · rintro ⟨s, hs, hty⟩
      rcases List.mem_cons.1 hs with rfl | hs
      · rw [c1] at hty; cases hty
      rcases List.mem_cons.1 hs with rfl | hs
      · rw [r1] at hty; cases hty
      rcases List.mem_append.1 hs with hs | hs
      · rw [(hp s hs).1] at hty; cases hty
      · simp only [List.mem_singleton] at hs
        subst hs
        exact hty
    · intro hty
      exact ⟨final, by simp, hty⟩
  refine ⟨hc, hr, probes ++ [final], rfl, c1, r1, c3, ⟨ri, r3, r4⟩, by rw [c2]; exact hl,
    ?_, ?_, ?_⟩
  · rw [hfull, c2]
    constructor
    · intro hty
      rcases hcase with ⟨a1, _⟩ | ⟨_, a2, _, _⟩
      · rw [a1] at hty; cases hty
      · exact path_covers t tableSize key.toString hm idx (fun q hq => hheld q (by omega))
    · intro hall
      rcases hcase with ⟨_, _, a3, _⟩ | ⟨a1, _⟩
      · have hq0 : 0 ≤ (idx + (probes.length : Int)) % tableSize := Int.emod_nonneg _ hm0
        have hq1 : (idx + (probes.length : Int)) % tableSize < tableSize :=
          Int.emod_lt_of_pos _ (by omega)
        have := hall ((idx + (probes.length : Int)) % tableSize).toNat (by omega)
        rw [a3] at this
        cases this
      · exact a1
  · rw [hfull]
    intro hty s hs
    have ht' : t' = t := by
      rcases hcase with ⟨a1, _⟩ | ⟨_, _, a3, _⟩
      · rw [a1] at hty; cases hty
      · exact a3
    rcases List.mem_cons.1 hs with rfl | hs
    · rfl
    rcases List.mem_cons.1 hs with rfl | hs
    · rw [r2, c2]
    rcases List.mem_append.1 hs with hs | hs
    · rw [(hp s hs).2.1, c2]
    · simp only [List.mem_singleton] at hs
      subst hs
      rw [hfin, ht', c2]
  · rw [hfull]
    intro hty
    rcases hcase with ⟨a1, _, _, a4, _⟩ | ⟨a1, _⟩
    · refine ⟨final, by simp, a1, ((idx + (probes.length : Int)) % tableSize).toNat, ?_⟩
      have hq0 : 0 ≤ (idx + (probes.length : Int)) % tableSize := Int.emod_nonneg _ hm0
      have hq1 : (idx + (probes.length : Int)) % tableSize < tableSize :=
        Int.emod_lt_of_pos _ (by omega)
      rw [hfin, a4, List.getElem?_set_self (by omega)]
      rfl
    · exact absurd a1 hty

/-- C34. For every key sequence, every table size `≥ 1` and every hash function that sends
the keys to indices of the table (as `'modulo'` and `'djb2'` do), the trace of
`hashWithLinearProbingSteps` is the `initialize` step, one segment for each input key in
order, and the `complete` step.  The segment of a key starts with its `hash-computation` and
`hash-result` steps, whatever happened to the keys before it; it holds a `table-full` step
if and only if every slot of the table, as the key finds it, is held by another key, and
then every step of the segment shows that same table; otherwise it holds an
`insert-probing` step whose snapshot has the record of the key. -/
theorem probing_table_full_iff (multiplication : HashFn) (keys : List Key)
    (tableSize : Int) (hashFunction : String) (hsize : 1 ≤ tableSize)
    (hrange : IndexInRange (hashFunctions.resolve multiplication hashFunction) tableSize) :
    ∃ steps first segments last,
      hashWithLinearProbingSteps multiplication keys tableSize hashFunction = some steps ∧
      steps = first :: segments.flatten ++ [last] ∧
      first.type = HashKind.init ∧ last.type = HashKind.complete ∧
      List.Forall₂ (TableFullSeg tableSize) keys segments := by
  obtain ⟨st, segments, e, hsteps, hseg⟩ :=
    probing_run_probeSegs multiplication keys tableSize hashFunction hsize hrange
  refine ⟨(st.emit { type := .complete, hashTable := st.hashTable }).steps,
    ({ type := .init, hashTable := List.replicate tableSize.toNat none, stepNumber := some 1 } :
      ProbeStep), segments,
    ({ type := .complete, hashTable := st.hashTable, stepNumber := some st.stepCounter } :
      ProbeStep), ?_, ?_, rfl, rfl, ?_⟩
  · unfold hashWithLinearProbingSteps
    rw [e]; rfl
  · rw [probeState_emit_steps, hsteps]
  · exact List.Forall₂.imp (fun key seg h => probeSeg_tableFull _ tableSize hsize key seg h)
      hseg

/-- C34, at the keys `"a"`, `"b"`, `"c"`, table size `2` and the hash function `'modulo'`:
the third key meets a full table. -/
theorem probing_table_full_iff_witness :
    (1 : Int) ≤ 2 ∧
    IndexInRange (hashFunctions.resolve hashFunctions.inherited "modulo") 2 ∧
    ∃ steps first segments last,
      hashWithLinearProbingSteps hashFunctions.inherited
        [Key.str "a", Key.str "b", Key.str "c"] 2 "modulo" = some steps ∧
      steps = first :: segments.flatten ++ [last] ∧
      first.type = HashKind.init ∧ last.type = HashKind.complete ∧
      List.Forall₂ (TableFullSeg 2) [Key.str "a", Key.str "b", Key.str "c"] segments :=
  ⟨by decide, resolve_inRange _ _ _ (by decide) (Or.inl rfl),
    probing_table_full_iff hashFunctions.inherited [Key.str "a", Key.str "b", Key.str "c"] 2
      "modulo" (by decide) (resolve_inRange _ _ _ (by decide) (Or.inl rfl))⟩

/-! ## C36: no key occupies two slots, and what an `insert-probing` step records -/

theorem probe_path_injective (idx m : Int) (q n : Nat) (hm : 1 ≤ m) (hq : q < n)
    (hn : (n : Int) < m) :
    ((idx + (n : Int)) % m).toNat ≠ ((idx + (q : Int)) % m).toNat := by
  have hm0 : m ≠ 0 := by omega
  intro heq
  have h1 : (idx + (n : Int)) % m = (idx + (q : Int)) % m := by
    have a0 := Int.emod_nonneg (idx + (n : Int)) hm0
    have b0 := Int.emod_nonneg (idx + (q : Int)) hm0
    omega
  have h2 := (Int.emod_eq_emod_iff_emod_sub_eq_zero).1 h1
  have e : idx + (n : Int) - (idx + (q : Int)) = (n : Int) - (q : Int) := by ring
  rw [e, Int.emod_eq_of_lt (by omega) (by omega)] at h2
  omega

theorem probeSeg_insertPath (hashFunc : HashFn) (tableSize : Int) (hm : 1 ≤ tableSize)
    (key : Key) (seg : List ProbeStep) (h : ProbeSeg hashFunc tableSize key seg) :
    ∀ s ∈ seg, s.type = HashKind.insertProbing → InsertPathOK tableSize s := by
  obtain ⟨t, t', idx, hc, hr, probes, final, rfl, _, h0, h1, hl, c1, c2, c3, r1, r2,
    _, hp, hheld, hfin, hcase⟩ := h
  intro s hs hty
  rcases List.mem_cons.1 hs with rfl | hs
  · rw [c1] at hty; cases hty
  rcases List.mem_cons.1 hs with rfl | hs
  · rw [r1] at hty; cases hty
  rcases List.mem_append.1 hs with hs | hs
  · rw [(hp s hs).1] at hty; cases hty
  simp only [List.mem_singleton] at hs
  subst hs
  rcases hcase with ⟨_, a2, _, a4, a5⟩ | ⟨a1, _⟩
  · refine ⟨_, idx, (idx + (probes.length : Int)) % tableSize, 0 + probes.length, a5, rfl,
      rfl, rfl, by simp, by omega, ?_⟩
    intro q hq
    rw [hfin, a4, List.getD_eq_getElem?_getD,
      List.getElem?_set_ne (probe_path_injective idx tableSize q probes.length hm (by omega)
        (by omega)), ← List.getD_eq_getElem?_getD]
    exact hheld q (by omega)
  · rw [a1] at hty; cases hty

/-- C36. For every key sequence, every table size `≥ 1` and every hash function that sends
the keys to indices of the table and looks at a key only through its string form (as
`'modulo'` and `'djb2'` do), `hashWithLinearProbingSteps` returns a trace in which no
`hashTable` snapshot has the same key in two slots, and every `insert-probing` step records
`finalIndex = (initialIndex + probeCount) mod tableSize` with `probeCount < tableSize`, the
`probeCount` slots of the probe path from `initialIndex` on being held by other keys. -/
theorem probing_keys_unique (multiplication : HashFn) (keys : List Key)
    (tableSize : Int) (hashFunction : String) (hsize : 1 ≤ tableSize)
    (hrange : IndexInRange (hashFunctions.resolve multiplication hashFunction) tableSize)
    (hstr : ByStringForm (hashFunctions.resolve multiplication hashFunction) tableSize) :
    ∃ steps, hashWithLinearProbingSteps multiplication keys tableSize hashFunction =
        some steps ∧
      (∀ s ∈ steps, ∀ (i j : Nat) (e e' : Entry), s.hashTable[i]? = some (some e) →
        s.hashTable[j]? = some (some e') → e.key = e'.key → i = j) ∧
      ∀ s ∈ steps, s.type = HashKind.insertProbing →
        ∃ (info : HashInfo) (i0 f : Int) (pc : Nat), s.currentHashStep = some info ∧
          info.initialIndex = some i0 ∧ info.finalIndex = some f ∧
          info.probeCount = some pc ∧
          f = (i0 + (pc : Int)) % tableSize ∧ (pc : Int) < tableSize ∧
          ∀ q : Nat, q < pc →
            heldByOther (s.hashTable.getD ((i0 + (q : Int)) % tableSize).toNat none)
              info.key = true := by
  obtain ⟨st, segments, e, hsteps, hseg, hinv⟩ :=
    probing_run_outcome multiplication keys tableSize hashFunction hsize hrange hstr
  have hsegs : ∀ seg ∈ segments, ∃ key,
      ProbeSeg (hashFunctions.resolve multiplication hashFunction) tableSize key seg ∧
        ∀ s ∈ seg, UniqueKeys s.hashTable := by
    clear hsteps e hinv
    induction hseg with
    | nil => intro seg hs; cases hs
    | cons hab _ ih =>
      intro seg hs
      rcases List.mem_cons.1 hs with rfl | hs
      · exact ⟨_, hab⟩
      · exact ih seg hs
  refine ⟨(st.emit { type := .complete, hashTable := st.hashTable }).steps, ?_, ?_, ?_⟩
  · unfold hashWithLinearProbingSteps
    rw [e]; rfl
  · intro s hs
    rw [probeState_emit_steps, hsteps] at hs
    simp only [List.cons_append, List.mem_cons, List.mem_append, List.mem_flatten,
      List.mem_singleton, List.not_mem_nil, or_false] at hs
    rcases hs with rfl | ⟨seg, hseg2, hs⟩ | rfl
    · intro i j a b hi
      have := List.mem_iff_getElem?.2 ⟨i, hi⟩
      simp only [List.mem_replicate] at this
      cases this.2
    · obtain ⟨key, _, hu⟩ := hsegs seg hseg2
      exact hu s hs
    · exact hinv.2.2.2.1
  · intro s hs hty
    rw [probeState_emit_steps, hsteps] at hs
    simp only [List.cons_append, List.mem_cons, List.mem_append, List.mem_flatten,
      List.mem_singleton, List.not_mem_nil, or_false] at hs
    rcases hs with rfl | ⟨seg, hseg2, hs⟩ | rfl
    · cases hty
    · obtain ⟨key, hps, _⟩ := hsegs seg hseg2
      exact probeSeg_insertPath _ tableSize hsize key seg hps s hs hty
    · cases hty

/-- C36, at the keys `"ab"`, `"ba"`, table size `2` and the hash function `'modulo'`. -/
theorem probing_keys_unique_witness :
    (1 : Int) ≤ 2 ∧
    IndexInRange (hashFunctions.resolve hashFunctions.inherited "modulo") 2 ∧
    ByStringForm (hashFunctions.resolve hashFunctions.inherited "modulo") 2 ∧
    ∃ steps, hashWithLinearProbingSteps hashFunctions.inherited
        [Key.str "ab", Key.str "ba"] 2 "modulo" = some steps ∧
      (∀ s ∈ steps, ∀ (i j : Nat) (e e' : Entry), s.hashTable[i]? = some (some e) →
        s.hashTable[j]? = some (some e') → e.key = e'.key → i = j) ∧
      ∀ s ∈ steps, s.type = HashKind.insertProbing →
        ∃ (info : HashInfo) (i0 f : Int) (pc : Nat), s.currentHashStep = some info ∧
          info.initialIndex = some i0 ∧ info.finalIndex = some f ∧
          info.probeCount = some pc ∧
          f = (i0 + (pc : Int)) % 2 ∧ (pc : Int) < 2 ∧
          ∀ q : Nat, q < pc →
            heldByOther (s.hashTable.getD ((i0 + (q : Int)) % 2).toNat none)
              info.key = true :=
  ⟨by decide, resolve_inRange _ _ _ (by decide) (Or.inl rfl),
    resolve_byStringForm _ _ _ (Or.inl rfl),
    probing_keys_unique hashFunctions.inherited [Key.str "ab", Key.str "ba"] 2 "modulo"
      (by decide) (resolve_inRange _ _ _ (by decide) (Or.inl rfl))
      (resolve_byStringForm _ _ _ (Or.inl rfl))⟩

/-! ## C27: building a probing table and searching it -/

theorem cellAt_slots (t : List (Option Entry)) (c : Int) (h0 : 0 ≤ c) :
    cellAt (t.map Cell.slot) (some c) = (t[c.toNat]?).map Cell.slot := by
  simp [cellAt, h0]

theorem search_probe_outcome (t : List (Option Entry)) (k : Key) (m : Int) (hm : 1 ≤ m)
    (hl : (t.length : Int) = m) :
    ∀ (left : Nat) (ci : Int) (pr : Nat) (steps : List LookupStep), 0 ≤ ci → ci < m →
      ∃ ps final,
        hashSearchSteps.probe (t.map Cell.slot) k left (some ci) pr steps =
          steps ++ (ps ++ [final]) ∧
        ps.length ≤ left ∧
        (∀ (q : Nat) (s : LookupStep), ps[q]? = some s →
          s.type = .probe ∧ s.index = some ((ci + (q : Int)) % m) ∧
          ∃ e, t[((ci + (q : Int)) % m).toNat]? = some (some e) ∧
            s.key = some (Key.str e.key)) ∧
        ((final.type = .found ∧ ∃ (q : Nat) (e : Entry), ps.length = q + 1 ∧
            t[((ci + (q : Int)) % m).toNat]? = some (some e) ∧ Key.str e.key = k ∧
            final.found = some (.atSlot (some ((ci + (q : Int)) % m))) ∧
            final.result = some e.value ∧ final.probes = some (pr + q)) ∨
          (final.type = .notFound ∧ final.probes = some (pr + ps.length) ∧
            (∀ (q : Nat), q < ps.length → ∃ e, t[((ci + (q : Int)) % m).toNat]? =
              some (some e) ∧ Key.str e.key ≠ k) ∧
            (ps.length = left ∨ t[((ci + (ps.length : Int)) % m).toNat]? = some none))) := by
  intro left
  induction left with
  | zero =>
    intro ci pr steps _ _
    refine ⟨[], _, rfl, le_refl _, ?_, Or.inr ⟨rfl, rfl, ?_, Or.inl rfl⟩⟩
    · intro q s hq; simp at hq
    · intro q hq; simp at hq
  | succ n ih =>
    intro ci pr steps h0 h1
    have hci : ci % m = ci := Int.emod_eq_of_lt h0 h1
    have hlt : ci.toNat < t.length := by omega
    have hcell : cellAt (t.map Cell.slot) (some ci) = some (Cell.slot t[ci.toNat]) := by
      rw [cellAt_slots t ci h0, List.getElem?_eq_getElem hlt]; rfl
    unfold hashSearchSteps.probe
    rw [hcell]
    cases hx : t[ci.toNat] with
    | none =>
      simp only [if_true]
      refine ⟨[], _, rfl, Nat.zero_le _, ?_, Or.inr ⟨rfl, rfl, ?_, Or.inr ?_⟩⟩
      · intro q s hq; simp at hq
      · intro q hq; simp at hq
      · simp only [List.length_nil, Nat.cast_zero, add_zero, hci]
        rw [List.getElem?_eq_getElem hlt, hx]
    | some e =>
      have hne : ¬ (some (Cell.slot (some e)) = some (Cell.slot none)) := by simp
      have hte : t[((ci + ((0 : Nat) : Int)) % m).toNat]? = some (some e) := by
        simp only [Nat.cast_zero, add_zero, hci]
        rw [List.getElem?_eq_getElem hlt, hx]
      simp only [hne, if_false, cellKey, cellValue, Option.map_some', Option.some.injEq]
      by_cases hk : Key.str e.key = k
      · simp only [hk, if_true]
        refine ⟨[_], _, List.append_assoc _ _ _, by simp, ?_,
          Or.inl ⟨rfl, 0, e, rfl, hte, hk, by simp [hci], rfl, rfl⟩⟩
        intro q s hq
        cases q with
        | zero =>
          simp only [List.getElem?_cons_zero, Option.some.injEq] at hq
          subst hq
          exact ⟨rfl, by simp [hci], e, hte, by rw [hk]⟩
        | succ q => simp at hq
      · simp only [hk, if_false]
        have hlen : ((t.map Cell.slot).length : Int) = m := by simpa using hl
        obtain ⟨c, hc, hc0, hc1⟩ := jsRem_range (ci + 1) m (by omega) hm
        have hcv : c = (ci + 1) % m := by
          unfold jsRem at hc
          have hne0 : ¬ m = 0 := by omega
          simp only [hne0, if_false, Option.some.injEq] at hc
          rw [← hc, Int.tmod_eq_emod (by omega) (by omega)]
        have hidx : ∀ q : Nat, (c + (q : Int)) % m = (ci + ((q + 1 : Nat) : Int)) % m := by
          intro q
          rw [hcv, Int.emod_add_emod]
          congr 1
          push_cast
          ring
        have hb : ((some ci : Option Int).bind fun a => jsRem (a + 1) m) = some c := hc
        simp only [hlen, hb]
        obtain ⟨ps, final, e1, hle, hps, hcase⟩ := ih c (pr + 1)
          (steps ++
            [{ type := .probe, hashTable := t.map Cell.slot, index := some ci,
               key := some (Key.str e.key) }]) hc0 hc1
        refine ⟨({ type := .probe, hashTable := t.map Cell.slot, index := some ci,
                   key := some (Key.str e.key) } : LookupStep) :: ps, final, ?_, ?_, ?_, ?_⟩
        · rw [e1]; simp
        · simp only [List.length_cons]; omega
        · intro q s hq
          cases q with
          | zero =>
            simp only [List.getElem?_cons_zero, Option.some.injEq] at hq
            subst hq
            exact ⟨rfl, by simp [hci], e, hte, rfl⟩
          | succ q =>
            simp only [List.getElem?_cons_succ] at hq
            rw [← hidx q]
            exact hps q s hq
        · rcases hcase with ⟨a1, q, e2, a2, a3, a4, a5, a6, a7⟩ | ⟨a1, a2, a3, a4⟩
          · refine Or.inl ⟨a1, q + 1, e2, by simp only [List.length_cons]; omega, ?_, a4, ?_,
              a6, ?_⟩
            · rw [← hidx q]; exact a3
            · rw [← hidx q]; exact a5
            · rw [a7]; congr 1; omega
          · refine Or.inr ⟨a1, ?_, ?_, ?_⟩
            · rw [a2]; simp only [List.length_cons]; congr 1; omega
            · intro q hq
              cases q with
              | zero => exact ⟨e, hte, hk⟩
              | succ q =>
                rw [← hidx q]
                exact a3 q (by simpa using hq)
            · rcases a4 with a4 | a4
              · exact Or.inl (by simp only [List.length_cons]; omega)
              · refine Or.inr ?_
                simp only [List.length_cons]
                rw [← hidx ps.length]
                exact a4

/-- C27. For every key sequence, every table size `≥ 1`, the hash function `'modulo'` or
`'djb2'` and every search key: `hashWithLinearProbingSteps` returns a trace, and
`hashSearchSteps` on the table of its last step, with the index function
`key => f(key, tableSize).result`, returns the `search-start` step, then `probe` steps for
the consecutive slots from the hash index of the search key on, at most `tableSize` of them,
then a last step.  The last step is `found` exactly when a slot of the table holds the
search key, and `not-found` otherwise; when a slot holds the search key, `found` is the
index of that slot and `result` is `'value_'` followed by the key. -/
theorem probing_build_then_search (multiplication : HashFn) (ks : List Key)
    (tableSize : Int) (hashFunction : String) (k : Key) (hsize : 1 ≤ tableSize)
    (hfn : hashFunction = "modulo" ∨ hashFunction = "djb2") :
    ∃ steps last idx,
      hashWithLinearProbingSteps multiplication ks tableSize hashFunction = some steps ∧
      steps.getLast? = some last ∧
      (hashFunctions.resolve multiplication hashFunction k tableSize).result = some idx ∧
      ∃ first probes final,
        hashSearchSteps (last.hashTable.map Cell.slot) k
            (fun key => (hashFunctions.resolve multiplication hashFunction key
              tableSize).result) =
          first :: probes ++ [final] ∧
        first.type = .searchStart ∧ (probes.length : Int) ≤ tableSize ∧
        (∀ (q : Nat) (s : LookupStep), probes[q]? = some s →
          s.type = .probe ∧ s.index = some ((idx + (q : Int)) % tableSize)) ∧
        (final.type = .found ∨ final.type = .notFound) ∧
        (final.type = .found ↔
          ∃ (slot : Nat) (e : Entry), last.hashTable[slot]? = some (some e) ∧
            Key.str e.key = k) ∧
        ∀ (slot : Nat) (e : Entry), last.hashTable[slot]? = some (some e) →
          Key.str e.key = k →
          final.found = some (.atSlot (some (slot : Int))) ∧
            final.result = some ("value_" ++ e.key) := by
  have hrange := resolve_inRange multiplication hashFunction tableSize hsize hfn
  have hstr := resolve_byStringForm multiplication hashFunction tableSize hfn
  obtain ⟨st, segments, e, _, _, hl, hinv, hgap, huniq, hdone⟩ :=
    probing_run_outcome multiplication ks tableSize hashFunction hsize hrange hstr
  obtain ⟨idx, hres, h0, h1⟩ := hrange k
  have hm0 : tableSize ≠ 0 := by omega
  refine ⟨(st.emit { type := .complete, hashTable := st.hashTable }).steps,
    { type := .complete, hashTable := st.hashTable, stepNumber := some st.stepCounter }, idx,
    ?_, probeState_getLast?_emit _ _, hres, ?_⟩
  · unfold hashWithLinearProbingSteps
    rw [e]; rfl
  simp only []
  obtain ⟨ps, final, e1, hle, hps, hcase⟩ := search_probe_outcome st.hashTable k tableSize
    hsize hl tableSize.toNat idx 0
    [{ type := .searchStart, hashTable := st.hashTable.map Cell.slot, key := some k,
       index := some idx }] h0 h1
  have hple : (ps.length : Int) ≤ tableSize := by
    clear hcase hps e1
    omega
  have hlt : idx.toNat < st.hashTable.length := by
    clear hcase hps e1
    omega
  have hcell : cellAt (st.hashTable.map Cell.slot) (some idx) =
      some (Cell.slot st.hashTable[idx.toNat]) := by
    rw [cellAt_slots _ idx h0, List.getElem?_eq_getElem hlt]; rfl
  have hrun : hashSearchSteps (st.hashTable.map Cell.slot) k
      (fun key => (hashFunctions.resolve multiplication hashFunction key tableSize).result) =
      ({ type := .searchStart, hashTable := st.hashTable.map Cell.slot, key := some k,
         index := some idx } : LookupStep) :: ps ++ [final] := by
    unfold hashSearchSteps
    simp only [hres, hcell, List.length_map]
    have hlen : st.hashTable.length = tableSize.toNat := by
      clear hcase hps e1
      omega
    rw [hlen, e1]
    rfl
  have hoccupied : ∀ (slot : Nat) (en : Entry), st.hashTable[slot]? = some (some en) →
      Key.str en.key = k → ∃ (q : Nat) (e2 : Entry), ps.length = q + 1 ∧
        st.hashTable[((idx + (q : Int)) % tableSize).toNat]? = some (some e2) ∧
        Key.str e2.key = k ∧
        final.type = .found ∧
        final.found = some (.atSlot (some ((idx + (q : Int)) % tableSize))) ∧
        final.result = some e2.value := by
    intro slot en hen hk
    rcases hcase with ⟨a1, q, e2, a2, a3, a4, a5, a6, _⟩ | ⟨_, _, a3, a4⟩
    · exact ⟨q, e2, a2, a3, a4, a1, a5, a6⟩
    · exfalso
      have hheld : ∀ q : Nat, q < ps.length →
          heldByOther (st.hashTable.getD ((idx + (q : Int)) % tableSize).toNat none) en.key =
            true := by
        intro q hq
        obtain ⟨e', he', hne⟩ := a3 q hq
        rw [List.getD_eq_getElem?_getD, he']
        simp only [Option.getD_some, heldByOther, decide_eq_true_eq]
        intro hcon
        apply hne
        rw [hcon, hk]
      have hslot : (slot : Int) < tableSize := by
        have := (List.getElem?_eq_some.1 hen).1
        omega
      by_cases hfull : ps.length = tableSize.toNat
      · have := path_covers st.hashTable tableSize en.key hsize idx
          (fun q hq => hheld q (by omega)) slot hslot
        rw [List.getD_eq_getElem?_getD, hen] at this
        simp [heldByOther] at this
      · rcases a4 with a4 | a4
        · exact hfull a4
        · obtain ⟨k0, hk0, hkk⟩ := hdone slot en hen
          have hsame : k0.toString = k.toString := by rw [← hk, ← hkk]; rfl
          have hres0 : (hashFunctions.resolve multiplication hashFunction k0
              tableSize).result = some idx := by
            rw [hstr k0 k hsame]; exact hres
          have hg := hgap k0 hk0 idx hres0
          rw [← hkk] at hg
          obtain ⟨occ, hocc⟩ := noGap_reaches st.hashTable tableSize en.key hsize
            ps.length (tableSize.toNat - 1) idx h0 h1 (by omega) hg hheld
          rw [hocc] at a4
          cases a4
  refine ⟨_, ps, final, hrun, rfl, hple, fun q s hq => ⟨(hps q s hq).1, (hps q s hq).2.1⟩,
    ?_, ?_, ?_⟩
  · rcases hcase with ⟨a1, _⟩ | ⟨a1, _⟩
    · exact Or.inl a1
    · exact Or.inr a1
  · constructor
    · intro hty
      rcases hcase with ⟨_, q, e2, _, a3, a4, _⟩ | ⟨a1, _⟩
      · exact ⟨_, e2, a3, a4⟩
      · rw [a1] at hty; cases hty
    · rintro ⟨slot, en, hen, hk⟩
      obtain ⟨_, _, _, _, _, hty, _⟩ := hoccupied slot en hen hk
      exact hty
  · intro slot en hen hk
    obtain ⟨q, e2, _, a3, a4, _, a5, a6⟩ := hoccupied slot en hen hk
    have hq0 : 0 ≤ (idx + (q : Int)) % tableSize := Int.emod_nonneg _ hm0
    have hsl : ((idx + (q : Int)) % tableSize).toNat = slot :=
      huniq _ _ e2 en a3 hen (by
        have : Key.str e2.key = Key.str en.key := a4.trans hk.symm
        simpa using this)
    have hee : e2 = en := by
      rw [hsl, hen] at a3
      simpa using a3.symm
    have hcan : en.value = "value_" ++ en.key :=
      hinv.2.2 en (List.mem_iff_getElem?.2 ⟨_, hen⟩)
    refine ⟨?_, by rw [a6, hee, hcan]⟩
    rw [a5]
    congr 3
    omega

/-- C27, at the keys `"ab"`, `"ba"`, table size `2`, the hash function `'modulo'` and the
search key `"ba"`. -/
theorem probing_build_then_search_witness :
    (1 : Int) ≤ 2 ∧ ("modulo" = "modulo" ∨ "modulo" = "djb2") ∧
    ∃ steps last idx,
      hashWithLinearProbingSteps hashFunctions.inherited [Key.str "ab", Key.str "ba"] 2
        "modulo" = some steps ∧
      steps.getLast? = some last ∧
      (hashFunctions.resolve hashFunctions.inherited "modulo" (Key.str "ba") 2).result =
        some idx ∧
      ∃ first probes final,
        hashSearchSteps (last.hashTable.map Cell.slot) (Key.str "ba")
            (fun key => (hashFunctions.resolve hashFunctions.inherited "modulo" key
              2).result) =
          first :: probes ++ [final] ∧
        first.type = .searchStart ∧ (probes.length : Int) ≤ 2 ∧
        (∀ (q : Nat) (s : LookupStep), probes[q]? = some s →
          s.type = .probe ∧ s.index = some ((idx + (q : Int)) % 2)) ∧
        (final.type = .found ∨ final.type = .notFound) ∧
        (final.type = .found ↔
          ∃ (slot : Nat) (e : Entry), last.hashTable[slot]? = some (some e) ∧
            Key.str e.key = Key.str "ba") ∧
        ∀ (slot : Nat) (e : Entry), last.hashTable[slot]? = some (some e) →
          Key.str e.key = Key.str "ba" →
          final.found = some (.atSlot (some (slot : Int))) ∧
            final.result = some ("value_" ++ e.key) :=
  ⟨by decide, Or.inl rfl,
    probing_build_then_search hashFunctions.inherited [Key.str "ab", Key.str "ba"] 2
      "modulo" (Key.str "ba") (by decide) (Or.inl rfl)⟩

/-! ## C28: building a chaining table and searching it -/

theorem cellAt_buckets (t : List (List Entry)) (c : Int) (h0 : 0 ≤ c) :
    cellAt (t.map Cell.bucket) (some c) = (t[c.toNat]?).map Cell.bucket := by
  simp [cellAt, h0]

theorem search_scan_outcome (cells : List Cell) (k : Key) (index : Option Int) :
    ∀ (bucket : List Entry) (i : Nat) (steps : List LookupStep),
      ∃ cs final,
        hashSearchSteps.scan cells k index bucket i steps = steps ++ (cs ++ [final]) ∧
        (∀ (q : Nat) (s : LookupStep), cs[q]? = some s →
          s.type = .compare ∧ s.itemIndex = some (i + q) ∧
          ∃ e, bucket[q]? = some e ∧ s.comparing = some e.key) ∧
        ((final.type = .found ∧ ∃ (p : Nat) (e : Entry), cs.length = p + 1 ∧
            bucket[p]? = some e ∧ Key.str e.key = k ∧
            (∀ (q : Nat) (e' : Entry), q < p → bucket[q]? = some e' → Key.str e'.key ≠ k) ∧
            final.found = some (.inBucket index (i + p)) ∧ final.result = some e.value) ∨
          (final.type = .notFound ∧ cs.length = bucket.length ∧
            ∀ e ∈ bucket, Key.str e.key ≠ k)) := by
  intro bucket
  induction bucket with
  | nil =>
    intro i steps
    refine ⟨[], _, rfl, ?_, Or.inr ⟨rfl, rfl, fun e he => by cases he⟩⟩
    intro q s hq; simp at hq
  | cons entry rest ih =>
    intro i steps
    unfold hashSearchSteps.scan
    simp only []
    by_cases hk : Key.str entry.key = k
    · simp only [hk, if_true]
      refine ⟨[_], _, List.append_assoc _ _ _, ?_,
        Or.inl ⟨rfl, 0, entry, rfl, List.getElem?_cons_zero, hk, fun q e' hq => by omega, rfl,
          rfl⟩⟩
      intro q s hq
      cases q with
      | zero =>
        simp only [List.getElem?_cons_zero, Option.some.injEq] at hq
        subst hq
        exact ⟨rfl, rfl, entry, List.getElem?_cons_zero, rfl⟩
      | succ q => simp at hq
    · simp only [hk, if_false]
      obtain ⟨cs, final, e1, hcs, hcase⟩ := ih (i + 1)
        (steps ++
          [{ type := .compare, hashTable := cells, bucketIndex := index, itemIndex := some i,
             comparing := some entry.key }])
      refine ⟨({ type := .compare, hashTable := cells, bucketIndex := index,
                 itemIndex := some i, comparing := some entry.key } : LookupStep) :: cs,
        final, ?_, ?_, ?_⟩
      · rw [e1]; simp
      · intro q s hq
        cases q with
        | zero =>
          simp only [List.getElem?_cons_zero, Option.some.injEq] at hq
          subst hq
          exact ⟨rfl, rfl, entry, List.getElem?_cons_zero, rfl⟩
        | succ q =>
          simp only [List.getElem?_cons_succ] at hq
          obtain ⟨a1, a2, a3⟩ := hcs q s hq
          refine ⟨a1, ?_, by simpa using a3⟩
          rw [a2]; congr 1; omega
      · rcases hcase with ⟨a1, p, e, a2, a3, a4, a5, a6, a7⟩ | ⟨a1, a2, a3⟩
        · refine Or.inl ⟨a1, p + 1, e, by simp only [List.length_cons]; omega,
            by simpa using a3, a4, ?_, ?_, a7⟩
          · intro q e' hq he'
            cases q with
            | zero =>
              simp only [List.getElem?_cons_zero, Option.some.injEq] at he'
              subst he'
              exact hk
            | succ q =>
              simp only [List.getElem?_cons_succ] at he'
              exact a5 q e' (by omega) he'
          · rw [a6]; congr 2; omega
        · refine Or.inr ⟨a1, by simp only [List.length_cons]; omega, ?_⟩
          intro e he
          rcases List.mem_cons.1 he with rfl | he
          · exact hk
          · exact a3 e he

theorem chaining_insertKey_done (hashFunc : HashFn) (tableSize : Int) (hashFunction : String)
    (hrange : IndexInRange hashFunc tableSize) (done : List Key) (key : Key)
    (st : ChainState)
    (h : ChainInv hashFunc tableSize done st ∧ BucketsDone done st.hashTable) :
    ∃ st', hashWithChainingSteps.insertKey hashFunc tableSize hashFunction st key = some st' ∧
      ChainInv hashFunc tableSize (done ++ [key]) st' ∧
      BucketsDone (done ++ [key]) st'.hashTable := by
  obtain ⟨hinv, hdone⟩ := h
  obtain ⟨st', e, hinv'⟩ := insertKey_inv hashFunc tableSize hashFunction hrange done key st hinv
  obtain ⟨idx, hres, h0, h1⟩ := hrange key
  obtain ⟨st2, e2, ht⟩ := insertKey_hashTable hashFunc tableSize hashFunction st key idx hres h0
    (by rw [hinv.1]; exact h1)
  rw [e] at e2
  cases e2
  refine ⟨st', e, hinv', ?_⟩
  intro b bucket en hb hen
  rw [ht] at hb
  by_cases hc : idx.toNat = b
  · subst hc
    have hi : idx.toNat < st.hashTable.length := by
      by_contra hcon
      rw [List.getElem?_eq_none (by simpa using hcon)] at hb
      cases hb
    rw [List.getElem?_set_self hi] at hb
    simp only [Option.some.injEq] at hb
    subst hb
    rcases List.mem_append.1 hen with h1 | h1
    · obtain ⟨k0, hk0, hk⟩ := hdone idx.toNat (st.hashTable.getD idx.toNat []) en
        (by rw [List.getD_eq_getElem _ _ hi, List.getElem?_eq_getElem hi]) h1
      exact ⟨k0, List.mem_append_left _ hk0, hk⟩
    · simp only [List.mem_singleton] at h1
      exact ⟨key, List.mem_append_right _ (List.mem_singleton_self _), h1⟩
  · rw [List.getElem?_set_ne hc] at hb
    obtain ⟨k0, hk0, hk⟩ := hdone b bucket en hb hen
    exact ⟨k0, List.mem_append_left _ hk0, hk⟩

/-- C28. For every key sequence, every table size `≥ 1`, the hash function `'modulo'` or
`'djb2'` and every search key: `hashWithChainingSteps` returns a trace, and
`hashSearchSteps` on the table of its last step, with the index function
`key => f(key, tableSize).result`, returns the `search-start` step, the `bucket-scan` step,
one `compare` step for each entry of the bucket at the hash index of the search key, in
order, up to and including the first entry whose key is the search key, and a last step.
The last step is `found` exactly when the search key is the string form of a key of the
sequence; then `found.item` is the position of the first matching entry; otherwise it is
`not-found`, after a `compare` step for every entry of the bucket. -/
theorem chaining_build_then_search (multiplication : HashFn) (ks : List Key)
    (tableSize : Int) (hashFunction : String) (k : Key) (hsize : 1 ≤ tableSize)
    (hfn : hashFunction = "modulo" ∨ hashFunction = "djb2") :
    ∃ steps last idx bucket,
      hashWithChainingSteps multiplication ks tableSize hashFunction = some steps ∧
      steps.getLast? = some last ∧
      (hashFunctions.resolve multiplication hashFunction k tableSize).result = some idx ∧
      last.hashTable[idx.toNat]? = some bucket ∧
      ∃ first scanStep compares final,
        hashSearchSteps (last.hashTable.map Cell.bucket) k
            (fun key => (hashFunctions.resolve multiplication hashFunction key
              tableSize).result) =
          first :: scanStep :: compares ++ [final] ∧
        first.type = .searchStart ∧ scanStep.type = .bucketScan ∧
        (∀ (q : Nat) (s : LookupStep), compares[q]? = some s →
          s.type = .compare ∧ s.itemIndex = some q ∧
          ∃ e, bucket[q]? = some e ∧ s.comparing = some e.key) ∧
        (final.type = .found ∨ final.type = .notFound) ∧
        (final.type = .found ↔ ∃ k0 ∈ ks, k = Key.str k0.toString) ∧
        (final.type = .found → ∃ (p : Nat) (e : Entry), compares.length = p + 1 ∧
          bucket[p]? = some e ∧ Key.str e.key = k ∧
          (∀ (q : Nat) (e' : Entry), q < p → bucket[q]? = some e' → Key.str e'.key ≠ k) ∧
          final.found = some (.inBucket (some idx) p) ∧ final.result = some e.value) ∧
        (final.type = .notFound → compares.length = bucket.length) := by
  have hrange := resolve_inRange multiplication hashFunction tableSize hsize hfn
  have hstr := resolve_byStringForm multiplication hashFunction tableSize hfn
  obtain ⟨st, e, ⟨hlen, _, hmem⟩, hdone⟩ := forEachM_inv
    (hashWithChainingSteps.insertKey (hashFunctions.resolve multiplication hashFunction)
      tableSize hashFunction)
    (fun done st => ChainInv (hashFunctions.resolve multiplication hashFunction) tableSize
      done st ∧ BucketsDone done st.hashTable)
    (fun done a s h => chaining_insertKey_done _ tableSize hashFunction hrange done a s h)
    ks []
    (({ hashTable := List.replicate tableSize.toNat [], steps := [], stepCounter := 1 } :
      ChainState).emit { type := .init, hashTable := List.replicate tableSize.toNat [] })
    ⟨⟨by simp [chainState_emit_hashTable]; omega, by simp [chainState_emit_hashTable],
      fun k hk => by cases hk⟩,
      fun b bucket en hb hen => (by
        have := List.mem_iff_getElem?.2 ⟨b, hb⟩
        simp only [chainState_emit_hashTable, List.mem_replicate] at this
        rw [this.2] at hen
        cases hen)⟩
  simp only [List.nil_append] at hmem hdone
  obtain ⟨idx, hres, h0, h1⟩ := hrange k
  have hlt : idx.toNat < st.hashTable.length := by omega
  have hcell : cellAt (st.hashTable.map Cell.bucket) (some idx) =
      some (Cell.bucket st.hashTable[idx.toNat]) := by
    rw [cellAt_buckets _ idx h0, List.getElem?_eq_getElem hlt]; rfl
  obtain ⟨cs, final, e1, hcs, hcase⟩ := search_scan_outcome (st.hashTable.map Cell.bucket) k
    (some idx) st.hashTable[idx.toNat] 0
    ([{ type := .searchStart, hashTable := st.hashTable.map Cell.bucket, key := some k,
        index := some idx }] ++
      [{ type := .bucketScan, hashTable := st.hashTable.map Cell.bucket,
         bucketIndex := some idx }])
  refine ⟨(st.emit { type := .complete, hashTable := st.hashTable }).steps,
    { type := .complete, hashTable := st.hashTable, stepNumber := some st.stepCounter }, idx,
    st.hashTable[idx.toNat], ?_, chainState_getLast?_emit _ _, hres,
    List.getElem?_eq_getElem hlt,
    { type := .searchStart, hashTable := st.hashTable.map Cell.bucket, key := some k,
      index := some idx },
    { type := .bucketScan, hashTable := st.hashTable.map Cell.bucket,
      bucketIndex := some idx }, cs, final, ?_, rfl, rfl, ?_, ?_, ?_, ?_, ?_⟩
  · unfold hashWithChainingSteps
    have hneg : ¬ tableSize < 0 := by omega
    simp only [hneg, if_false]
    rw [e]; rfl
  · unfold hashSearchSteps
    simp only [hres, hcell]
    rw [e1]
    rfl
  · intro q s hq
    obtain ⟨a1, a2, a3⟩ := hcs q s hq
    exact ⟨a1, by rw [a2, Nat.zero_add], a3⟩
  · rcases hcase with ⟨a1, _⟩ | ⟨a1, _⟩
    · exact Or.inl a1
    · exact Or.inr a1
  · constructor
    · intro hty
      rcases hcase with ⟨_, p, en, _, a3, a4, _⟩ | ⟨a1, _⟩
      · obtain ⟨k0, hk0, hk⟩ := hdone idx.toNat st.hashTable[idx.toNat] en
          (List.getElem?_eq_getElem hlt) (List.mem_iff_getElem?.2 ⟨p, a3⟩)
        refine ⟨k0, hk0, ?_⟩
        rw [← a4, hk]; rfl
      · rw [a1] at hty; cases hty
    · rintro ⟨k0, hk0, hk⟩
      rcases hcase with ⟨a1, _⟩ | ⟨_, _, a3⟩
      · exact a1
      · exfalso
        obtain ⟨i2, b2, r2, g2, m2⟩ := hmem k0 hk0
        have hsame : k0.toString = k.toString := by rw [hk]; rfl
        rw [hstr k0 k hsame, hres] at r2
        cases r2
        rw [List.getElem?_eq_getElem hlt, Option.some.injEq] at g2
        rw [← g2] at m2
        exact a3 _ m2 (by rw [hk]; rfl)
  · intro hty
    rcases hcase with ⟨_, p, en, a2, a3, a4, a5, a6, a7⟩ | ⟨a1, _⟩
    · exact ⟨p, en, a2, a3, a4, a5, by rw [a6, Nat.zero_add], a7⟩
    · rw [a1] at hty; cases hty
  · intro hty
    rcases hcase with ⟨a1, _⟩ | ⟨_, a2, _⟩
    · rw [a1] at hty; cases hty
    · exact a2

/-- C28, at the keys `"ab"`, `"ba"`, table size `5`, the hash function `'modulo'` and the
search key `"ba"`. -/
theorem chaining_build_then_search_witness :
    (1 : Int) ≤ 5 ∧ ("modulo" = "modulo" ∨ "modulo" = "djb2") ∧
    ∃ steps last idx bucket,
      hashWithChainingSteps hashFunctions.inherited [Key.str "ab", Key.str "ba"] 5
        "modulo" = some steps ∧
      steps.getLast? = some last ∧
      (hashFunctions.resolve hashFunctions.inherited "modulo" (Key.str "ba") 5).result =
        some idx ∧
      last.hashTable[idx.toNat]? = some bucket ∧
      ∃ first scanStep compares final,
        hashSearchSteps (last.hashTable.map Cell.bucket) (Key.str "ba")
            (fun key => (hashFunctions.resolve hashFunctions.inherited "modulo" key
              5).result) =
          first :: scanStep :: compares ++ [final] ∧
        first.type = .searchStart ∧ scanStep.type = .bucketScan ∧
        (∀ (q : Nat) (s : LookupStep), compares[q]? = some s →
          s.type = .compare ∧ s.itemIndex = some q ∧
          ∃ e, bucket[q]? = some e ∧ s.comparing = some e.key) ∧
        (final.type = .found ∨ final.type = .notFound) ∧
        (final.type = .found ↔
          ∃ k0 ∈ [Key.str "ab", Key.str "ba"], Key.str "ba" = Key.str k0.toString) ∧
        (final.type = .found → ∃ (p : Nat) (e : Entry), compares.length = p + 1 ∧
          bucket[p]? = some e ∧ Key.str e.key = Key.str "ba" ∧
          (∀ (q : Nat) (e' : Entry), q < p → bucket[q]? = some e' →
            Key.str e'.key ≠ Key.str "ba") ∧
          final.found = some (.inBucket (some idx) p) ∧ final.result = some e.value) ∧
        (final.type = .notFound → compares.length = bucket.length) :=
  ⟨by decide, Or.inl rfl,
    chaining_build_then_search hashFunctions.inherited [Key.str "ab", Key.str "ba"] 5
      "modulo" (Key.str "ba") (by decide) (Or.inl rfl)⟩

/-! ## C22: the call stacks of the factorial and Fibonacci traces -/

theorem wellStacked_concat (S : List Frame) (fr : Frame) (h : WellStacked S)
    (hd : fr.depth = S.length) : WellStacked (S ++ [fr]) := by
  intro i x hx
  by_cases hi : i < S.length
  · rw [List.getElem?_append_left hi] at hx
    exact h i x hx
  · rw [List.getElem?_append_right (by omega)] at hx
    have h0 : i - S.length = 0 := by
      by_contra hne
      obtain ⟨j, hj⟩ : ∃ j, i - S.length = j + 1 := ⟨i - S.length - 1, by omega⟩
      rw [hj] at hx
      simp at hx
    rw [h0] at hx
    simp only [List.getElem?_cons_zero, Option.some.injEq] at hx
    subst hx
    omega

theorem wellStacked_not_mem (S : List Frame) (fr : Frame) (h : WellStacked S)
    (hd : S.length ≤ fr.depth) : fr ∉ S := by
  intro hmem
  obtain ⟨i, hi⟩ := List.mem_iff_getElem?.1 hmem
  have := h i fr hi
  have hlt := (List.getElem?_eq_some.1 hi).1
  omega

theorem nested_extends : ∀ (S : List Frame) (seg : List RecStep), Nested S seg →
    ∀ s ∈ seg, ∃ ext, s.callStack = S ++ ext ∧
      (s.type = .baseCase ∨ s.type = .ret → ext ≠ []) := by
  intro S seg h
  induction h with
  | nil S => intro s hs; cases hs
  | hit S s0 rest hty hst _ ih =>
    intro s hs
    rcases List.mem_cons.1 hs with rfl | hs
    · refine ⟨[], by rw [hst, List.append_nil], ?_⟩
      intro h
      rw [hty] at h
      rcases h with h | h <;> cases h
    · exact ih s hs
  | frame S fr c e mid rest hc hcs _ _ hes _ _ _ ihm ihr =>
    intro s hs
    rcases List.mem_cons.1 hs with rfl | hs
    · exact ⟨[fr], hcs, fun _ => by simp⟩
    rcases List.mem_append.1 hs with hs | hs
    · obtain ⟨ext, h1, _⟩ := ihm s hs
      exact ⟨fr :: ext, by rw [h1]; simp, fun _ => by simp⟩
    rcases List.mem_cons.1 hs with rfl | hs
    · exact ⟨[fr], hes, fun _ => by simp⟩
    · exact ihr s hs

theorem append_eq_split {α : Type} (A B pre rest : List α) (c : α)
    (h : A ++ B = pre ++ c :: rest) :
    (∃ r1, A = pre ++ c :: r1 ∧ rest = r1 ++ B) ∨ (∃ p2, pre = A ++ p2 ∧ B = p2 ++ c :: rest) := by
  rcases List.append_eq_append_iff.1 h with ⟨a', h1, h2⟩ | ⟨c', h1, h2⟩
  · exact Or.inr ⟨a', h1, h2⟩
  · cases c' with
    | nil =>
      simp only [List.append_nil] at h1
      simp only [List.nil_append] at h2
      exact Or.inr ⟨[], by simp [h1], h2.symm⟩
    | cons x c' =>
      simp only [List.cons_append, List.cons.injEq] at h2
      obtain ⟨rfl, rfl⟩ := h2
      exact Or.inl ⟨c', h1, rfl⟩

theorem nested_closes : ∀ (S : List Frame) (seg : List RecStep), Nested S seg →
    WellStacked S → ∀ (t : RecStep), t.callStack = S → t.type ≠ .call →
    ∀ (pre : List RecStep) (c : RecStep) (rest : List RecStep),
      seg ++ [t] = pre ++ c :: rest → c.type = .call → ClosesFrame c rest := by
  intro S seg h
  induction h with
  | nil S =>
    intro _ t _ hty pre c rest heq hc
    cases pre with
    | nil =>
      simp only [List.nil_append, List.cons.injEq] at heq
      rw [← heq.1] at hc
      exact absurd hc hty
    | cons x pre =>
      simp only [List.nil_append, List.cons_append, List.cons.injEq] at heq
      have := congrArg List.length heq.2
      simp at this
      omega
  | hit S s0 rest0 hty0 _ _ ih =>
    intro hw t ht hty pre c rest heq hc
    cases pre with
    | nil =>
      simp only [List.nil_append, List.cons_append, List.cons.injEq] at heq
      rw [← heq.1, hty0] at hc
      cases hc
    | cons x pre =>
      simp only [List.cons_append, List.cons.injEq] at heq
      exact ih hw t ht hty pre c rest heq.2 hc
  | frame S fr c0 e0 mid rest0 hc0 hcs hfd he0 hes hmid _ hnext ihm ihr =>
    intro hw t ht hty pre c rest heq hc
    have hw2 : WellStacked (S ++ [fr]) := wellStacked_concat S fr hw hfd
    have hshape : (c0 :: (mid ++ e0 :: rest0)) ++ [t] =
        [c0] ++ (mid ++ ([e0] ++ (rest0 ++ [t]))) := by simp
    rw [hshape] at heq
    rcases append_eq_split _ _ _ _ _ heq with ⟨r1, h1, h2⟩ | ⟨p2, _, h2⟩
    · -- the step is the `call` step of this frame
      cases pre with
      | cons x pre =>
        have := congrArg List.length h1
        simp at this
      | nil =>
        simp only [List.nil_append, List.cons.injEq] at h1
        obtain ⟨rfl, rfl⟩ := h1
        simp only [List.nil_append] at h2
        have hnx : ∃ nxt post, rest0 ++ [t] = nxt :: post ∧ fr ∉ nxt.callStack := by
          cases hr : rest0 with
          | nil =>
            refine ⟨t, [], rfl, ?_⟩
            rw [ht]
            exact wellStacked_not_mem S fr hw (by omega)
          | cons x rest1 =>
            exact ⟨x, rest1 ++ [t], rfl, hnext x (by rw [hr]; rfl)⟩
        obtain ⟨nxt, post, hnp, hfr⟩ := hnx
        refine ⟨fr, mid, e0, nxt, post, by rw [hcs]; simp, by rw [hcs]; simp [hfd],
          by rw [hcs]; exact hw2, ?_, ?_, he0, by rw [hes, hcs], hfr⟩
        · rw [h2, ← hnp]
          simp
        · rw [hcs]
          exact nested_extends _ _ hmid
    · rcases append_eq_split _ _ _ _ _ h2 with ⟨r1, h3, h4⟩ | ⟨p3, _, h4⟩
      · -- the step is inside the frame
        have hin : mid ++ [e0] = p2 ++ c :: (r1 ++ [e0]) := by rw [h3]; simp
        obtain ⟨fr2, mid2, e2, nxt2, post2, g1, g2, g3, g4, g5, g6, g7, g8⟩ :=
          ihm hw2 e0 hes (by rcases he0 with h | h <;> rw [h] <;> simp) p2 c (r1 ++ [e0]) hin hc
        refine ⟨fr2, mid2, e2, nxt2, post2 ++ (rest0 ++ [t]), g1, g2, g3, ?_, g5, g6, g7, g8⟩
        rw [h4]
        have : r1 ++ ([e0] ++ (rest0 ++ [t])) = (r1 ++ [e0]) ++ (rest0 ++ [t]) := by simp
        rw [this, g4]
        simp
      · rcases append_eq_split _ _ _ _ _ h4 with ⟨r1, h5, _⟩ | ⟨p4, _, h6⟩
        · -- the step would be the closing step of this frame
          cases p3 with
          | cons x p3 =>
            have := congrArg List.length h5
            simp at this
          | nil =>
            simp only [List.nil_append, List.cons.injEq] at h5
            rw [← h5.1] at hc
            rcases he0 with h | h <;> rw [h] at hc <;> cases hc
        · -- the step comes after the frame
          exact ihr hw t ht hty p4 c rest h6 hc

theorem callUnit_nested (S : List Frame) (value : Nat) (seg : List RecStep)
    (h : CallUnit S value seg) : Nested S seg := by
  rcases h with ⟨s, rfl, h1, h2⟩ | ⟨c, mid, e, rfl, h1, h2, h3, h4, h5⟩
  · exact Nested.hit S s [] h1 h2 (Nested.nil S)
  · exact Nested.frame S _ c e mid [] h1 h2 rfl h3 h4 h5 (Nested.nil S)
      (fun nxt hn => by cases hn)

theorem callUnit_then (S : List Frame) (v1 v2 : Nat) (seg1 seg2 : List RecStep)
    (hw : WellStacked S) (hv : v1 ≠ v2) (h1 : CallUnit S v1 seg1) (h2 : CallUnit S v2 seg2) :
    Nested S (seg1 ++ seg2) := by
  have hn2 := callUnit_nested S v2 seg2 h2
  rcases h1 with ⟨s, rfl, a1, a2⟩ | ⟨c, mid, e, rfl, a1, a2, a3, a4, a5⟩
  · exact Nested.hit S s seg2 a1 a2 hn2
  · have hshape : c :: (mid ++ [e]) ++ seg2 = c :: (mid ++ e :: seg2) := by simp
    rw [hshape]
    refine Nested.frame S _ c e mid seg2 a1 a2 rfl a3 a4 a5 hn2 ?_
    intro nxt hnxt
    have hnot : ({ value := v1, depth := S.length } : Frame) ∉ S :=
      wellStacked_not_mem S _ hw (le_refl _)
    rcases h2 with ⟨s, rfl, _, b2⟩ | ⟨c2, mid2, e2, rfl, _, b2, _⟩
    · simp only [List.head?_cons, Option.some.injEq] at hnxt
      subst hnxt
      rw [b2]; exact hnot
    · simp only [List.head?_cons, Option.some.injEq] at hnxt
      subst hnxt
      rw [b2]
      intro hmem
      rcases List.mem_append.1 hmem with h | h
      · exact hnot h
      · simp only [List.mem_singleton, Frame.mk.injEq] at h
        exact hv h.1

theorem factorial_unit : ∀ (num depth : Nat) (st : RecState), depth = st.callStack.length →
    ∃ seg, (factorialSteps.factorial num depth st).2.steps = st.steps ++ seg ∧
      (factorialSteps.factorial num depth st).2.callStack = st.callStack ∧
      CallUnit st.callStack num seg := by
  have hbase : ∀ (num depth : Nat) (st : RecState), depth = st.callStack.length →
      ∃ seg, (factorialSteps.baseCase (factorialSteps.enter num depth st)).2.steps =
          st.steps ++ seg ∧
        (factorialSteps.baseCase (factorialSteps.enter num depth st)).2.callStack =
          st.callStack ∧
        CallUnit st.callStack num seg := by
    intro num depth st hd
    subst hd
    refine ⟨[{ type := .call,
               callStack := st.callStack ++ [{ value := num, depth := st.callStack.length }] },
             { type := .baseCase,
               callStack := st.callStack ++ [{ value := num, depth := st.callStack.length }],
               result := some (.fin 1) }], ?_, ?_, Or.inr ⟨_, [], _, rfl, rfl, rfl, Or.inl rfl, rfl,
                 Nested.nil _⟩⟩
    · simp [factorialSteps.baseCase, factorialSteps.enter]
    · simp [factorialSteps.baseCase, factorialSteps.enter]
  intro num
  induction num with
  | zero =>
    intro depth st hd
    exact hbase 0 depth st hd
  | succ num ih =>
    intro depth st hd
    unfold factorialSteps.factorial
    by_cases h : num + 1 ≤ 1
    · simp only [h, if_true]
      exact hbase (num + 1) depth st hd
    · simp only [h, if_false]
      obtain ⟨seg, e1, e2, hu⟩ := ih (depth + 1) (factorialSteps.enter (num + 1) depth st)
        (by simp [factorialSteps.enter, hd])
      subst hd
      have e2' : (factorialSteps.factorial num (st.callStack.length + 1)
          (factorialSteps.enter (num + 1) st.callStack.length st)).2.callStack =
          st.callStack ++ [{ value := num + 1, depth := st.callStack.length }] := e2
      refine ⟨({ type := .call,
                 callStack := st.callStack ++
                   [{ value := num + 1, depth := st.callStack.length }] } : RecStep) ::
          (seg ++
            [({ type := .ret,
                callStack := (factorialSteps.factorial num (st.callStack.length + 1)
                  (factorialSteps.enter (num + 1) st.callStack.length st)).2.callStack,
                result := some (JsNum.mul (.fin (num + 1)) (factorialSteps.factorial num
                  (st.callStack.length + 1)
                  (factorialSteps.enter (num + 1) st.callStack.length st)).1) } :
              RecStep)]), ?_, ?_,
        Or.inr ⟨_, seg, _, rfl, rfl, rfl, Or.inr rfl, e2', callUnit_nested _ _ _ hu⟩⟩
      · simp only [factorialSteps.leave, e1]
        simp [factorialSteps.enter]
      · simp only [factorialSteps.leave, e2', List.dropLast_concat]

theorem fibonacci_unit : ∀ (num depth : Nat) (st : RecState),
    depth = st.callStack.length → WellStacked st.callStack →
    ∃ seg, (fibonacciSteps.fibonacci num depth st).2.steps = st.steps ++ seg ∧
      (fibonacciSteps.fibonacci num depth st).2.callStack = st.callStack ∧
      CallUnit st.callStack num seg := by
  have hhit : ∀ (num : Nat) (v : JsNum) (st : RecState),
      ∃ seg, (fibonacciSteps.hit num v st).2.steps = st.steps ++ seg ∧
        (fibonacciSteps.hit num v st).2.callStack = st.callStack ∧
        CallUnit st.callStack num seg := by
    intro num v st
    exact ⟨_, rfl, rfl, Or.inl ⟨_, rfl, rfl, rfl⟩⟩
  have hbase : ∀ (num depth : Nat) (st : RecState), depth = st.callStack.length →
      ∃ seg, (fibonacciSteps.baseCase num (fibonacciSteps.enter num depth st)).2.steps =
          st.steps ++ seg ∧
        (fibonacciSteps.baseCase num (fibonacciSteps.enter num depth st)).2.callStack =
          st.callStack ∧
        CallUnit st.callStack num seg := by
    intro num depth st hd
    subst hd
    refine ⟨[{ type := .call,
               callStack := st.callStack ++ [{ value := num, depth := st.callStack.length }],
               memoSnapshot := some st.memo },
             { type := .baseCase,
               callStack := st.callStack ++ [{ value := num, depth := st.callStack.length }],
               result := some (.fin num), memoSnapshot := some st.memo }], ?_, ?_,
      Or.inr ⟨_, [], _, rfl, rfl, rfl, Or.inl rfl, rfl, Nested.nil _⟩⟩
    · simp [fibonacciSteps.baseCase, fibonacciSteps.enter]
    · simp [fibonacciSteps.baseCase, fibonacciSteps.enter]
  intro num
  induction num using Nat.twoStepInduction with
  | zero =>
    intro depth st hd _
    unfold fibonacciSteps.fibonacci
    cases hget : st.memo.get 0 with
    | some v => exact hhit 0 v st
    | none => exact hbase 0 depth st hd
  | one =>
    intro depth st hd _
    unfold fibonacciSteps.fibonacci
    cases hget : st.memo.get 1 with
    | some v => exact hhit 1 v st
    | none => exact hbase 1 depth st hd
  | more n ih0 ih1 =>
    intro depth st hd hw
    unfold fibonacciSteps.fibonacci
    cases hget : st.memo.get (n + 2) with
    | some v => exact hhit (n + 2) v st
    | none =>
      simp only []
      subst hd
      have hw1 : WellStacked (fibonacciSteps.enter (n + 2) st.callStack.length st).callStack :=
        wellStacked_concat _ _ hw rfl
      obtain ⟨seg1, a1, a2, a3⟩ := ih1 (st.callStack.length + 1)
        (fibonacciSteps.enter (n + 2) st.callStack.length st)
        (by simp [fibonacciSteps.enter]) hw1
      generalize fibonacciSteps.fibonacci (n + 1) (st.callStack.length + 1)
        (fibonacciSteps.enter (n + 2) st.callStack.length st) = r1 at a1 a2 a3
      obtain ⟨seg2, b1, b2, b3⟩ := ih0 (st.callStack.length + 1) r1.2
        (by rw [a2]; simp [fibonacciSteps.enter]) (by rw [a2]; exact hw1)
      generalize fibonacciSteps.fibonacci n (st.callStack.length + 1) r1.2 = r2 at b1 b2 b3
      have a2' : r1.2.callStack =
          st.callStack ++ [{ value := n + 2, depth := st.callStack.length }] := a2
      rw [a2'] at b2 b3
      have hw1' : WellStacked
          (st.callStack ++ [{ value := n + 2, depth := st.callStack.length }]) := hw1
      have a3' : CallUnit (st.callStack ++ [{ value := n + 2, depth := st.callStack.length }])
          (n + 1) seg1 := a3
      have hmid := callUnit_then _ (n + 1) n seg1 seg2 hw1' (by omega) a3' b3
      refine ⟨({ type := .call,
                 callStack := st.callStack ++
                   [{ value := n + 2, depth := st.callStack.length }],
                 memoSnapshot := some st.memo } : RecStep) ::
          ((seg1 ++ seg2) ++
            [({ type := .ret, callStack := r2.2.callStack,
                result := some (JsNum.add r1.1 r2.1),
                memoSnapshot := some r2.2.memo } : RecStep)]), ?_, ?_,
        Or.inr ⟨_, seg1 ++ seg2, _, rfl, rfl, rfl, Or.inr rfl, b2, hmid⟩⟩
      · simp only [fibonacciSteps.leave, b1, a1]
        simp [fibonacciSteps.enter]
      · simp only [fibonacciSteps.leave, b2, List.dropLast_concat]

/-- C22. In the traces of `factorialSteps(n)` and `fibonacciSteps(n)`, for every `n ≥ 0` and
every `call` step `c`: the call stack of `c` has length `d + 1`, where `d` is the depth of
its last frame, and its `i`-th frame has depth `i`; the steps after `c` all show that stack
or an extension of it until a `base-case` or `return` step with exactly the call stack of
`c` closes the frame; and there is a step right after that one, whose call stack does not
hold the frame. -/
theorem call_stacks_nest (n : Nat) :
    (∀ (pre : List RecStep) (c : RecStep) (rest : List RecStep),
      factorialSteps n = pre ++ c :: rest → c.type = .call → ClosesFrame c rest) ∧
    (∀ (pre : List RecStep) (c : RecStep) (rest : List RecStep),
      fibonacciSteps n = pre ++ c :: rest → c.type = .call → ClosesFrame c rest) := by
  have hw0 : WellStacked ([] : List Frame) := fun i fr h => by simp at h
  constructor
  · intro pre c rest heq hc
    obtain ⟨seg, e1, _, hu⟩ := factorial_unit n 0 { steps := [], callStack := [] } rfl
    unfold factorialSteps at heq
    simp only [e1, List.nil_append] at heq
    exact nested_closes [] seg (callUnit_nested _ _ _ hu) hw0 _ rfl (by simp) pre c rest heq hc
  · intro pre c rest heq hc
    obtain ⟨seg, e1, _, hu⟩ := fibonacci_unit n 0 { steps := [], callStack := [] } rfl hw0
    unfold fibonacciSteps at heq
    simp only [e1, List.nil_append] at heq
    exact nested_closes [] seg (callUnit_nested _ _ _ hu) hw0 _ rfl (by simp) pre c rest heq hc

/-- C22, at the `call` step of `factorialSteps(1)`. -/
theorem call_stacks_nest_witness :
    factorialSteps 1 =
      [] ++ ({ type := .call, callStack := [{ value := 1, depth := 0 }] } : RecStep) ::
        [{ type := .baseCase, callStack := [{ value := 1, depth := 0 }],
           result := some (.fin 1) },
         { type := .complete, callStack := [], finalResult := some (.fin 1) }] ∧
    ({ type := .call, callStack := [{ value := 1, depth := 0 }] } : RecStep).type = .call ∧
    ClosesFrame ({ type := .call, callStack := [{ value := 1, depth := 0 }] } : RecStep)
      [{ type := .baseCase, callStack := [{ value := 1, depth := 0 }],
         result := some (.fin 1) },
       { type := .complete, callStack := [], finalResult := some (.fin 1) }] :=
  ⟨by decide, rfl, (call_stacks_nest 1).1 [] _ _ (by decide) rfl⟩

end AlgoViz
